import Mathlib

/-!
# Header trees, field codecs and row scanning of the `excel` package

A shallow embedding of `field.go`, `importer.go`, `error.go` and the parts of
`exporter.go` that the verified properties talk about.

Conventions of the embedding
* a Go `string` is a Lean `String`, a Go `int`/`int64` is an `Int`, and every place
  where the Go code can wrap around carries an explicit `%`;
* a Go `(value, error)` result whose value is discarded on error is an `Except`;
* a panic that `ScanRow`/`IsHeaderConsistent` recover into an error is a value of
  `Panic`, carried by the error that the deferred `recover` builds;
* the library routines that are not modelled (`strconv.ParseFloat`,
  `time.ParseInLocation`) and the width of `int` are fields of `GoEnv`;
* the spreadsheet engine `e.ex` is a parameter of the writers, an `Engine`: the calls
  that a writer makes on it are its output, the error of each call is what the engine
  returns for it, and a writer stops at the first error as the Go code does.
-/

namespace Excel

/-! ## Library values -/

deriving instance DecidableEq for Except

/-- The two sentinel errors of `strconv`: `ErrSyntax` and `ErrRange`. -/
inductive ErrKind
| ErrSyntax
| ErrRange
deriving DecidableEq, Repr

/-- Go's `*strconv.NumError`: the failing function, its input and the sentinel. -/
structure NumError where
  Func : String
  Num : String
  Err : ErrKind
deriving DecidableEq, Repr

/-- Go's `*time.ParseError`, reduced to the layout and the rejected text. -/
structure ParseError where
  Layout : String
  Value : String
deriving DecidableEq, Repr

/-- A Go `error` as returned by a codec's `Translate`. -/
inductive GoError
| numError (e : NumError)
| parseError (e : ParseError)
deriving DecidableEq, Repr

/-- A `float64`, kept as its IEEE-754 bit pattern; `0.0` is the pattern `0`. -/
structure Float64 where
  bits : Nat
deriving DecidableEq, Repr

/-- A `time.Time`: its `wall` and `ext` words and the name of its location, if any.
The zero `Time` has all three unset. -/
structure Time where
  wall : Nat
  ext : Int
  loc : Option String
deriving DecidableEq, Repr

/-- The zero value of `float64`. -/
def Float64.zero : Float64 := ⟨0⟩

/-- The zero value of `time.Time` (`var t time.Time`). -/
def Time.zero : Time := ⟨0, 0, none⟩

/-- What the embedding takes from the platform and the standard library without
modelling it: the width of `int` (`strconv.IntSize`), `strconv.ParseFloat(·, 64)` and
`time.ParseInLocation(layout, ·, time.Local)`. -/
structure GoEnv where
  intSize : Nat
  ParseFloat : String → Except NumError Float64
  ParseInLocation : String → String → Except ParseError Time

/-- Two's-complement reading of `x` in `w` bits (the conversion `intN(x)`). -/
def wrapInt (w : Nat) (x : Int) : Int :=
  (x + 2 ^ (w - 1)) % 2 ^ w - 2 ^ (w - 1)

/-! ## `strconv`: parsing and printing base-10 integers -/

/-- The constant `maxUint64` of `strconv`. -/
def maxUint64 : Nat := 2 ^ 64 - 1

/-- Whether a character is one of `'0'..'9'`. For base 10 every other byte makes
`ParseUint` fail: a letter yields a digit value `>= 10`, `'_'` is only accepted for base 0,
and each byte of a multi-byte character is above `'z'`. -/
def isDigit (c : Char) : Bool := decide ('0'.toNat ≤ c.toNat) && decide (c.toNat ≤ '9'.toNat)

/-- The value `c - '0'` of a digit character. -/
def digitVal (c : Char) : Nat := c.toNat - '0'.toNat

/-- The loop of `strconv.ParseUint(s, 10, bitSize)` over the bytes of `s`, `n` being the
number read so far; `maxVal = 1<<bitSize - 1`. It returns `(n, nil)`, `(0, ErrSyntax)` or
`(maxVal, ErrRange)`. -/
def parseUintLoop (maxVal : Nat) : List Char → Nat → Nat × Option ErrKind
| [], n => (n, none)
| c :: cs, n =>
  if isDigit c then
    if n ≥ maxUint64 / 10 + 1 then
      -- n*base overflows
      (maxVal, some ErrKind.ErrRange)
    else
      let n10 := (n * 10) % 2 ^ 64
      let n1 := (n10 + digitVal c) % 2 ^ 64
      if n1 < n10 ∨ n1 > maxVal then
        -- n+d overflows
        (maxVal, some ErrKind.ErrRange)
      else parseUintLoop maxVal cs n1
  else (0, some ErrKind.ErrSyntax)

/-- Model of `strconv.ParseUint(s, 10, bitSize)`; `bitSize = 0` stands for `IntSize`. -/
def ParseUint (intSize : Nat) (s : List Char) (bitSize : Nat) : Nat × Option ErrKind :=
  if s = [] then (0, some ErrKind.ErrSyntax)
  else
    let bitSize := if bitSize = 0 then intSize else bitSize
    parseUintLoop (2 ^ bitSize - 1) s 0

/-- The step `Pick off leading sign` of `strconv.ParseInt`: whether the number is negative,
and the text after the sign. -/
def pickSign (s : List Char) : Bool × List Char :=
  match s with
  | '+' :: r => (false, r)
  | '-' :: r => (true, r)
  | r => (false, r)

/-- Model of `strconv.ParseInt(s, 10, bitSize)`: the value, and the error if any. -/
def ParseInt (intSize : Nat) (s : String) (bitSize : Nat) : Int × Option NumError :=
  if s = "" then (0, some ⟨"ParseInt", s, ErrKind.ErrSyntax⟩)
  else
    -- Pick off leading sign.
    let s0 := s
    let neg := (pickSign s.data).1
    -- Convert unsigned and check range.
    let un := (ParseUint intSize (pickSign s.data).2 bitSize).1
    let err := (ParseUint intSize (pickSign s.data).2 bitSize).2
    if err = some ErrKind.ErrSyntax then (0, some ⟨"ParseInt", s0, ErrKind.ErrSyntax⟩)
    else
      let bitSize := if bitSize = 0 then intSize else bitSize
      let cutoff : Nat := 2 ^ (bitSize - 1)
      if neg = false ∧ un ≥ cutoff then
        ((cutoff : Int) - 1, some ⟨"ParseInt", s0, ErrKind.ErrRange⟩)
      else if neg = true ∧ un > cutoff then
        (-(cutoff : Int), some ⟨"ParseInt", s0, ErrKind.ErrRange⟩)
      else
        let n := wrapInt 64 (un : Int)
        (if neg = true then wrapInt 64 (-n) else n, none)

/-- The digit loop of the fast path of `strconv.Atoi`: `none` when a byte is not a digit. -/
def atoiLoop : List Char → Nat → Option Nat
| [], n => some n
| ch :: cs, n => if isDigit ch then atoiLoop cs (n * 10 + digitVal ch) else none

/-- The fast path of `strconv.Atoi`, taken for short non-empty strings: an optional sign is
dropped, the digits are accumulated without any overflow check, and the sign is applied. -/
def atoiFast (s : String) : Int × Option NumError :=
  let s0 := s
  let body :=
    if s.data.head? = some '-' ∨ s.data.head? = some '+' then s.data.tail else s.data
  if (s.data.head? = some '-' ∨ s.data.head? = some '+') ∧ body.length < 1 then
    (0, some ⟨"Atoi", s0, ErrKind.ErrSyntax⟩)
  else
    match atoiLoop body 0 with
    | none => (0, some ⟨"Atoi", s0, ErrKind.ErrSyntax⟩)
    | some n => (if s0.data.head? = some '-' then -(n : Int) else (n : Int), none)

/-- Model of `strconv.Atoi`. Strings shorter than 10 bytes (19 on a 64-bit platform) take
the fast path, whose accumulator cannot overflow; the others go through `ParseInt(s, 10, 0)`
and have the error's `Func` renamed. -/
def Atoi (intSize : Nat) (s : String) : Int × Option NumError :=
  let sLen := s.utf8ByteSize
  if (intSize = 32 ∧ 0 < sLen ∧ sLen < 10) ∨ (intSize = 64 ∧ 0 < sLen ∧ sLen < 19) then
    -- Fast path for small integers that fit int type.
    atoiFast s
  else
    -- Slow path for invalid, big, or underscored integers.
    match (ParseInt intSize s 0).2 with
    | some nerr => (wrapInt intSize (ParseInt intSize s 0).1, some { nerr with Func := "Atoi" })
    | none => (wrapInt intSize (ParseInt intSize s 0).1, none)

/-- The character of a decimal digit (`"0123456789"[d]`). -/
def digitChar (d : Nat) : Char :=
  match d with
  | 0 => '0' | 1 => '1' | 2 => '2' | 3 => '3' | 4 => '4'
  | 5 => '5' | 6 => '6' | 7 => '7' | 8 => '8' | _ => '9'

/-- The digit loop of `strconv.FormatUint(u, 10)`: digits are produced from the least
significant one and prepended; `fuel` bounds the number of iterations. -/
def formatBits : Nat → Nat → List Char → List Char
| 0, _, acc => acc
| fuel + 1, u, acc =>
  if u < 10 then digitChar u :: acc
  else formatBits fuel (u / 10) (digitChar (u % 10) :: acc)

/-- Decimal digits of a natural number, most significant first. -/
def formatUint (u : Nat) : List Char := formatBits (u + 1) u []

/-- Model of `strconv.FormatInt(i, 10)` (and of `strconv.Itoa`): the decimal rendering. -/
def FormatInt (i : Int) : String :=
  if i < 0 then String.mk ('-' :: formatUint i.natAbs) else String.mk (formatUint i.toNat)

/-- The number a digit string denotes when `n` has been read before it: the accumulator
`n = n*10 + d` of the parsing loops, without any bound. -/
def decimalValue (ds : List Char) (n : Nat) : Nat :=
  ds.foldl (fun n c => n * 10 + digitVal c) n

/-- The text `s` is a base-10 signed integer denoting `v`: an optional sign `+` or `-`
followed by one or more decimal digits. -/
def IsDecimal (s : String) (v : Int) : Prop :=
  ∃ sign ds : List Char, (sign = [] ∨ sign = ['+'] ∨ sign = ['-']) ∧ s.data = sign ++ ds ∧
    ds ≠ [] ∧ (∀ c ∈ ds, isDigit c = true) ∧
    v = if sign = ['-'] then -(decimalValue ds 0 : Int) else (decimalValue ds 0 : Int)

/-- The value `v` fits a signed integer of `w` bits. -/
def inRange (w : Nat) (v : Int) : Prop :=
  -((2 ^ (w - 1) : Nat) : Int) ≤ v ∧ v < ((2 ^ (w - 1) : Nat) : Int)

/-! ## `field.go`: the six field codecs -/

/-- The layout constant `_dateLayout` of `field.go`. -/
def _dateLayout : String := "2006-01-02"

/-- `IntField` of `field.go`. -/
structure IntField where
  value : Int
  colIndex : Int
deriving DecidableEq, Repr

/-- `Int64Field` of `field.go`. -/
structure Int64Field where
  value : Int
  colIndex : Int
deriving DecidableEq, Repr

/-- `StringField` of `field.go`. -/
structure StringField where
  value : String
  colIndex : Int
deriving DecidableEq, Repr

/-- `TimeField` of `field.go`. -/
structure TimeField where
  value : Time
  colIndex : Int
deriving DecidableEq, Repr

/-- `FloatField` of `field.go`. -/
structure FloatField where
  value : Float64
  colIndex : Int
deriving DecidableEq, Repr

/-- `BoolField` of `field.go`. -/
structure BoolField where
  value : Bool
  colIndex : Int
deriving DecidableEq, Repr

/-- `IntField.Translate`. -/
def IntField.Translate (env : GoEnv) (_iField : IntField) (value : String) (colIndex : Int) :
    Except GoError IntField :=
  if value = "" then .ok { value := 0, colIndex := colIndex }
  else
    match (Atoi env.intSize value).2 with
    | some err => .error (GoError.numError err)
    | none => .ok { value := (Atoi env.intSize value).1, colIndex := colIndex }

/-- `Int64Field.Translate`. -/
def Int64Field.Translate (env : GoEnv) (_iField : Int64Field) (value : String) (colIndex : Int) :
    Except GoError Int64Field :=
  if value = "" then .ok { value := 0, colIndex := colIndex }
  else
    match (ParseInt env.intSize value 64).2 with
    | some err => .error (GoError.numError err)
    | none => .ok { value := (ParseInt env.intSize value 64).1, colIndex := colIndex }

/-- `StringField.Translate`. -/
def StringField.Translate (_sField : StringField) (value : String) (colIndex : Int) :
    Except GoError StringField :=
  .ok { value := value, colIndex := colIndex }

/-- `TimeField.Translate`. -/
def TimeField.Translate (env : GoEnv) (_tField : TimeField) (value : String) (colIndex : Int) :
    Except GoError TimeField :=
  let t : Time := Time.zero
  if value = "" then .ok { value := t, colIndex := colIndex }
  else
    match env.ParseInLocation _dateLayout value with
    | .error err => .error (GoError.parseError err)
    | .ok t => .ok { value := t, colIndex := colIndex }

/-- `FloatField.Translate`. -/
def FloatField.Translate (env : GoEnv) (_fField : FloatField) (value : String) (colIndex : Int) :
    Except GoError FloatField :=
  if value = "" then .ok { value := Float64.zero, colIndex := colIndex }
  else
    match env.ParseFloat value with
    | .error err => .error (GoError.numError err)
    | .ok res => .ok { value := res, colIndex := colIndex }

/-- `BoolField.Translate`. -/
def BoolField.Translate (_bField : BoolField) (value : String) (colIndex : Int) :
    Except GoError BoolField :=
  if value = "" then .ok { value := false, colIndex := colIndex }
  else
    let res : Bool := if value = "是" then true else false
    .ok { value := res, colIndex := colIndex }

/-- The implementations of the interface `Field` that `field.go` declares. -/
inductive Field
| int (f : IntField)
| int64 (f : Int64Field)
| str (f : StringField)
| time (f : TimeField)
| float (f : FloatField)
| bool (f : BoolField)
deriving DecidableEq, Repr

/-- The method `Translate` of the interface `Field`, dispatched on the dynamic type; the
result is the `interface{}` the implementation returns, always of the receiver's type. -/
def Field.Translate (env : GoEnv) (fld : Field) (value : String) (colIndex : Int) :
    Except GoError Field :=
  match fld with
  | .int f => (f.Translate env value colIndex).map Field.int
  | .int64 f => (f.Translate env value colIndex).map Field.int64
  | .str f => (f.Translate value colIndex).map Field.str
  | .time f => (f.Translate env value colIndex).map Field.time
  | .float f => (f.Translate env value colIndex).map Field.float
  | .bool f => (f.Translate value colIndex).map Field.bool

/-- The method `ColIndex` of the interface `Field`. -/
def Field.ColIndex : Field → Int
| .int f => f.colIndex
| .int64 f => f.colIndex
| .str f => f.colIndex
| .time f => f.colIndex
| .float f => f.colIndex
| .bool f => f.colIndex

/-- The dynamic values `GetValue` returns in an `interface{}`. -/
inductive CellValue
| int (v : Int)
| int64 (v : Int)
| str (v : String)
| time (v : Time)
| float (v : Float64)
| bool (v : Bool)
deriving DecidableEq, Repr

/-- The method `GetValue` of the interface `Field`: the field's original value. -/
def Field.GetValue : Field → CellValue
| .int f => CellValue.int f.value
| .int64 f => CellValue.int64 f.value
| .str f => CellValue.str f.value
| .time f => CellValue.time f.value
| .float f => CellValue.float f.value
| .bool f => CellValue.bool f.value

/-! ## `strings.Split` and the tag constants -/

/-- Modelled from the spec: the constant `_tagPathSplitter` is declared in a file that is
not among the sources. The separator of the segments of a declared path is `|`, as in the
tag `excel:"a|b|c"` of `ScanRow`'s doc comment. -/
def _tagPathSplitter : Char := '|'

/-- The scan of `strings.Split` for a one-character separator: `cur` holds the characters
of the current segment, last one first. -/
def splitAux (sep : Char) : List Char → List Char → List String
| [], cur => [String.mk cur.reverse]
| c :: cs, cur =>
  if c = sep then String.mk cur.reverse :: splitAux sep cs []
  else splitAux sep cs (c :: cur)

/-- Model of `strings.Split(s, sep)` for a one-character separator. -/
def stringsSplit (s : String) (sep : Char) : List String := splitAux sep s.data []

/-! ## `error.go` -/

/-- `CellError` of `error.go`. -/
structure CellError where
  rowIndex : Int
  colIndex : Int
  paths : List String
  err : GoError
deriving DecidableEq, Repr

/-- The run-time panics the embedded code can raise. -/
inductive Panic
| sliceBoundsOutOfRange
| indexOutOfRange
| notAField
| notAPointer
deriving DecidableEq, Repr

/-- The errors `ScanRow` and `IsHeaderConsistent` return: a `*CellError`, the error
`internal error: ...` that the deferred `recover` builds from a panic, and
`response is not ptr type`. -/
inductive Error
| cellError (e : CellError)
| internal (p : Panic)
| notPtrType
deriving DecidableEq, Repr

/-! ## `importer.go`: the header tree -/

/-- `Importer` of `importer.go`, a node of the header tree. A `nil` path is the empty list. -/
inductive Importer
| mk (value : String) (colIndexStart colIndexEnd rowIndexStart rowIndexEnd : Int)
    (path : List String) (childImporters : List Importer)
deriving Repr

/-- Field `value`. -/
def Importer.value : Importer → String
| .mk v _ _ _ _ _ _ => v

/-- Field `colIndexStart`. -/
def Importer.colIndexStart : Importer → Int
| .mk _ cs _ _ _ _ _ => cs

/-- Field `colIndexEnd`. -/
def Importer.colIndexEnd : Importer → Int
| .mk _ _ ce _ _ _ _ => ce

/-- Field `rowIndexStart`. -/
def Importer.rowIndexStart : Importer → Int
| .mk _ _ _ rs _ _ _ => rs

/-- Field `rowIndexEnd`. -/
def Importer.rowIndexEnd : Importer → Int
| .mk _ _ _ _ re _ _ => re

/-- Field `path`. -/
def Importer.path : Importer → List String
| .mk _ _ _ _ _ p _ => p

/-- Field `childImporters`. -/
def Importer.childImporters : Importer → List Importer
| .mk _ _ _ _ _ _ cs => cs

mutual
/-- The body of `getLeafNodes` for a non-nil node: the node itself when it has no
children, else the leaves of its children, left to right. -/
def leafNodesOf : Importer → List Importer
| .mk v cs ce rs re p [] => [.mk v cs ce rs re p []]
| .mk _ _ _ _ _ _ (c :: rest) => leafNodesOfChildren (c :: rest)
/-- The loop `for _, im := range root.childImporters` of `getLeafNodes`. -/
def leafNodesOfChildren : List Importer → List Importer
| [] => []
| im :: rest => leafNodesOf im ++ leafNodesOfChildren rest
end

/-- `Importer.getLeafNodes`; `none` is the `nil` receiver. -/
def getLeafNodes (root : Option Importer) : List Importer :=
  match root with
  | none => []
  | some r => leafNodesOf r

/-! ## `importer.go`: records, `ScanRow` and `IsHeaderConsistent` -/

/-- One field of a record as reflection shows it: the value of its `excel` tag
(`field.Tag.Get(_tagFlag)`) and its current value, `none` when the field's type does not
implement `Field`. -/
structure StructField where
  tag : String
  value : Option Field
deriving DecidableEq, Repr

/-- A response passed to `ScanRow` or `IsHeaderConsistent`: a pointer to a record, or a
value that is not a pointer. -/
inductive Response
| structPtr (fields : List StructField)
| notPtr
deriving DecidableEq, Repr

/-- The declared path of a record field: `strings.Split(tag, _tagPathSplitter)`. -/
def StructField.path (field : StructField) : List String :=
  stringsSplit field.tag _tagPathSplitter

/-- The loop `for i := 0; i < leafNodesLength-rowLength; i++ { row = append(row, "") }`,
counted down. -/
def appendEmpty : Nat → List String → List String
| 0, row => row
| k + 1, row => appendEmpty k (row ++ [""])

/-- The row-length reconciliation at the head of `ScanRow`. -/
def reconcileRow (leafNodesLength : Nat) (row : List String) : List String :=
  let rowLength := row.length
  let row := if leafNodesLength < rowLength then row.drop (rowLength - leafNodesLength) else row
  if rowLength < leafNodesLength then appendEmpty (leafNodesLength - rowLength) row else row

/-- The loop `for j, leafNode := range leafNodes` of `ScanRow` for the field at index `i`
with declared path `path`, from leaf index `j` on. `.ok none` when no leaf matched (the
field is not touched), `.ok (some v)` when the field is to be set to `v`. -/
def scanLeafNodes (env : GoEnv) (row : List String) (path : List String) (i : Nat)
    (fieldValue : Option Field) : List Importer → Nat → Except Error (Option Field)
| [], _ => .ok none
| leafNode :: rest, j =>
  if leafNode.path.length < path.length then
    -- leafNode.path[len(leafNode.path)-len(path):] with a negative bound
    .error (Error.internal Panic.sliceBoundsOutOfRange)
  else
    let nodePath := leafNode.path.drop (leafNode.path.length - path.length)
    if nodePath = path then
      match fieldValue with
      | none => .error (Error.internal Panic.notAField)
      | some fld =>
        match row.get? j with
        | none => .error (Error.internal Panic.indexOutOfRange)
        | some cell =>
          match fld.Translate env cell leafNode.colIndexStart with
          | .error err =>
            .error (Error.cellError { rowIndex := j, colIndex := i, paths := [], err := err })
          | .ok setValue => .ok (some setValue)
    else scanLeafNodes env row path i fieldValue rest (j + 1)

/-- The loop over the fields of one record in `ScanRow`, from field index `i` on: the
fields after the loop and the error that stopped it, if any. -/
def scanFields (env : GoEnv) (leafNodes : List Importer) (row : List String) :
    List StructField → Nat → List StructField × Option Error
| [], _ => ([], none)
| field :: rest, i =>
  match scanLeafNodes env row field.path i field.value leafNodes 0 with
  | .error e => (field :: rest, some e)
  | .ok none =>
    let r := scanFields env leafNodes row rest (i + 1)
    (field :: r.1, r.2)
  | .ok (some setValue) =>
    let r := scanFields env leafNodes row rest (i + 1)
    ({ field with value := some setValue } :: r.1, r.2)

/-- The loop `for _, resp := range responses` of `ScanRow`. -/
def scanResponses (env : GoEnv) (leafNodes : List Importer) (row : List String) :
    List Response → List Response × Option Error
| [] => ([], none)
| Response.notPtr :: rest => (Response.notPtr :: rest, some (Error.internal Panic.notAPointer))
| Response.structPtr fields :: rest =>
  match scanFields env leafNodes row fields 0 with
  | (fields', some e) => (Response.structPtr fields' :: rest, some e)
  | (fields', none) =>
    let r := scanResponses env leafNodes row rest
    (Response.structPtr fields' :: r.1, r.2)

/-- `Importer.ScanRow`: the responses as the call leaves them, and the returned error. -/
def ScanRow (env : GoEnv) (root : Option Importer) (row : List String)
    (responses : List Response) : List Response × Option Error :=
  let leafNodes := getLeafNodes root
  let row := reconcileRow leafNodes.length row
  scanResponses env leafNodes row responses

/-- The loop over the fields of one response in `IsHeaderConsistent`: `some r` when the
function returns `r` from inside the loop, `none` when the loop runs to its end. -/
def headerFieldsLoop (leafNodes : List Importer) (lastRespLength : Nat) :
    List StructField → Nat → Option (Bool × Option Error)
| [], _ => none
| field :: rest, i =>
  match leafNodes.get? (lastRespLength + i) with
  | none => some (false, some (Error.internal Panic.indexOutOfRange))
  | some leafNode =>
    if leafNode.path ≠ field.path then some (false, none)
    else headerFieldsLoop leafNodes lastRespLength rest (i + 1)

/-- The loop over the responses in `IsHeaderConsistent` and the final length check. -/
def headerResponsesLoop (leafNodes : List Importer) :
    List Response → Nat → Bool × Option Error
| [], lastRespLength =>
  if lastRespLength ≠ leafNodes.length then (false, none) else (true, none)
| Response.notPtr :: _, _ => (false, some Error.notPtrType)
| Response.structPtr fields :: rest, lastRespLength =>
  match headerFieldsLoop leafNodes lastRespLength fields 0 with
  | some r => r
  | none => headerResponsesLoop leafNodes rest (lastRespLength + fields.length)

/-- `Importer.IsHeaderConsistent`: `(isConsistent, err)`. -/
def IsHeaderConsistent (root : Option Importer) (responses : List Response) :
    Bool × Option Error :=
  headerResponsesLoop (getLeafNodes root) responses 0

/-! ## Sample inputs

Concrete trees and an environment at which the theorems below are instantiated. -/

/-- A 64-bit environment whose float and date parsers reject every text; the samples
decode no float and no date. -/
def sampleEnv : GoEnv :=
  ⟨64, fun s => .error ⟨"ParseFloat", s, ErrKind.ErrSyntax⟩, fun l s => .error ⟨l, s⟩⟩

/-- A leaf on header row 2 that occupies the single column `col`. -/
def sampleLeaf (value : String) (col : Int) (path : List String) : Importer :=
  .mk value col col 2 2 path []

/-- A sheet whose header is the group `h` over the columns 5 to 7, with the leaves `a`, `b`
and `a` again below it. -/
def sampleTree : Importer :=
  .mk "Sheet1" 1 7 0 0 []
    [.mk "h" 5 7 1 1 ["h"]
      [sampleLeaf "a" 5 ["h", "a"], sampleLeaf "b" 6 ["h", "b"], sampleLeaf "a" 7 ["h", "a"]]]

/-- A sheet with a one-row header: the leaves `a` and `b` directly below the root. -/
def shallowTree : Importer :=
  .mk "Sheet1" 1 2 0 0 [] [sampleLeaf "a" 1 ["a"], sampleLeaf "b" 2 ["b"]]


/-! ## The spreadsheet engine: cell names and merged-cell spans

The engine's cell names are kept as what its conversion makes of them: a well-formed name
is the pair of its coordinates, any other text is a malformed name. Joining two names into
a reference `A1:B2` and splitting the reference again is the identity and is not modelled. -/

/-- A cell name (an axis): the name of the cell at column `col` and row `row`, or a text
that is no cell name. -/
inductive Axis
| cell (col row : Int)
| malformed (name : String)
deriving DecidableEq, Repr

/-- The errors of the coordinate conversions. -/
inductive ConvError
| invalidCellName (name : String)
| invalidCoordinates (col row : Int)
| columnLimit (col : Int)
deriving DecidableEq, Repr

/-- The engine's constant `TotalColumns`, the largest column number of a sheet. -/
def TotalColumns : Int := 16384

/-- The engine's `CellNameToCoordinates`: `(col, row)` of a cell name, an error for a text
that is no cell name. -/
def CellNameToCoordinates (axis : Axis) : Except ConvError (Int × Int) :=
  match axis with
  | Axis.cell col row => .ok (col, row)
  | Axis.malformed name => .error (ConvError.invalidCellName name)

/-- The engine's `CoordinatesToCellName`: it rejects coordinates below 1 and columns above
`TotalColumns`. -/
def CoordinatesToCellName (col row : Int) : Except ConvError Axis :=
  if col < 1 ∨ row < 1 then .error (ConvError.invalidCoordinates col row)
  else if col > TotalColumns then .error (ConvError.columnLimit col)
  else .ok (Axis.cell col row)

/-- The engine's `MergeCell`: what `GetStartAxis()`, `GetEndAxis()` and `GetCellValue()`
return for a merged-cell span. -/
structure MergeCell where
  startAxis : Axis
  endAxis : Axis
  value : String
deriving DecidableEq, Repr

/-! ## `importer.go`: building the header tree -/

/-- The test of `getChildrenColBoundary`: a span on row `rowIndex` over the columns
`colIndexStart..colIndexEnd` lies strictly below `root` and inside its columns. -/
def qualifies (root : Importer) (colIndexStart rowIndex colIndexEnd : Int) : Bool :=
  decide (rowIndex > root.rowIndexEnd) && decide (colIndexStart ≥ root.colIndexStart) &&
    decide (colIndexEnd ≤ root.colIndexEnd)

/-- The loop of `getChildrenColBoundary` from index `i` on, `start` being the value of the
result `start` so far: `(start, end, err)`, with `end = -1` when the loop runs to its end. -/
def boundaryLoop (root : Importer) : List MergeCell → Nat → Int → Int × Int × Option ConvError
| [], _, start => (start, -1, none)
| cell :: rest, i, start =>
  match CellNameToCoordinates cell.startAxis with
  | .error err => (start, -1, some err)
  | .ok (colIndexStart, rowIndex) =>
    match CellNameToCoordinates cell.endAxis with
    | .error err => (start, -1, some err)
    | .ok (colIndexEnd, _) =>
      if qualifies root colIndexStart rowIndex colIndexEnd then
        let start := if colIndexStart = root.colIndexStart then (i : Int) else start
        if colIndexEnd = root.colIndexEnd then (start, (i : Int), none)
        else boundaryLoop root rest (i + 1) start
      else boundaryLoop root rest (i + 1) start

/-- `Importer.getChildrenColBoundary`: `(start, end, err)`. -/
def getChildrenColBoundary (root : Importer) (mergeCells : List MergeCell) :
    Int × Int × Option ConvError :=
  boundaryLoop root mergeCells 0 0

/-- `buildNode`: a node with the span's value and coordinates, no path and no children. -/
def buildNode (mergeCell : MergeCell) : Except ConvError Importer :=
  match CellNameToCoordinates mergeCell.startAxis with
  | .error err => .error err
  | .ok (colIndexStart, rowIndexStart) =>
    match CellNameToCoordinates mergeCell.endAxis with
    | .error err => .error err
    | .ok (colIndexEnd, rowIndexEnd) =>
      .ok (Importer.mk mergeCell.value colIndexStart colIndexEnd rowIndexStart rowIndexEnd [] [])

/-- The outcome of a run of `buildChildNodes`. -/
inductive BuildResult
| ok (children : List Importer)
| error (err : ConvError)
| indexOutOfRange
| outOfFuel
deriving Repr

/-- The loop `for i := start; i <= end; i++` of `buildChildNodes` over the indices `is`,
`children` being the nodes appended so far and `recurse` the recursive call. -/
def buildLoop (recurse : Importer → BuildResult) (root : Importer)
    (mergeCells : List MergeCell) : List Nat → List Importer → BuildResult
| [], children => BuildResult.ok children
| i :: rest, children =>
  match mergeCells.get? i with
  | none => BuildResult.indexOutOfRange
  | some cell =>
    match buildNode cell with
    | .error e => BuildResult.error e
    | .ok node =>
      -- children's path
      let path := (node.path ++ root.path) ++ [cell.value]
      let node := Importer.mk node.value node.colIndexStart node.colIndexEnd
        node.rowIndexStart node.rowIndexEnd path []
      match recurse node with
      | BuildResult.ok childImporters =>
        buildLoop recurse root mergeCells rest
          (children ++ [Importer.mk node.value node.colIndexStart node.colIndexEnd
            node.rowIndexStart node.rowIndexEnd node.path childImporters])
      | r => r

/-- `buildChildNodes` for a non-nil `root` (all callers pass one). The recursion of the
source has no bound of its own; `fuel` bounds its depth and `outOfFuel` is returned when
the bound is reached. -/
def buildChildNodes : Nat → Importer → List MergeCell → BuildResult
| 0, _, _ => BuildResult.outOfFuel
| fuel + 1, root, mergeCells =>
  -- get the root's first and last child in mergeCells
  match getChildrenColBoundary root mergeCells with
  | (_, _, some err) => BuildResult.error err
  | (start, endIndex, none) =>
    if endIndex < 0 then BuildResult.ok []
    else
      buildLoop (fun node => buildChildNodes fuel node mergeCells) root mergeCells
        (List.range' start.toNat (endIndex.toNat + 1 - start.toNat)) []

/-! ## `excel.go`: spans from raw header rows -/

/-- The local type `headerIndex` of `getHeadersFromRow`. -/
structure headerIndex where
  header : String
  start : Int
  end' : Int
deriving DecidableEq, Repr

/-- The assignment `headerIndices[l-1].end = e` for a non-empty slice. -/
def setLastEnd : List headerIndex → Int → List headerIndex
| [], _ => []
| [h], e => [{ h with end' := e }]
| h :: rest, e => h :: setLastEnd rest e

/-- The loop `for j, col := range row` of `getHeadersFromRow`. -/
def headerIndicesLoop : List String → Int → List headerIndex → List headerIndex
| [], _, headerIndices => headerIndices
| col :: rest, j, headerIndices =>
  if col = "" then headerIndicesLoop rest (j + 1) headerIndices
  else
    let headerIndices := if headerIndices.length > 0 then setLastEnd headerIndices (j - 1)
      else headerIndices
    headerIndicesLoop rest (j + 1) (headerIndices ++ [{ header := col, start := j, end' := 0 }])

/-- `Excel.getMergeCell`. -/
def getMergeCell (startCol endCol row : Int) (value : String) : Except ConvError MergeCell :=
  match CoordinatesToCellName startCol row with
  | .error err => .error err
  | .ok startAxis =>
    match CoordinatesToCellName endCol row with
    | .error err => .error err
    | .ok endAxis => .ok { startAxis := startAxis, endAxis := endAxis, value := value }

/-- The loop `for _, headerIndex := range headerIndices` of `getHeadersFromRow` for the
header row at position `i`. -/
def mergeCellsOfIndices (i : Int) : List headerIndex → Except ConvError (List MergeCell)
| [] => .ok []
| headerIndex :: rest =>
  match getMergeCell (headerIndex.start + 1) (headerIndex.end' + 1) (i + 1) headerIndex.header with
  | .error err => .error err
  | .ok header =>
    match mergeCellsOfIndices i rest with
    | .error err => .error err
    | .ok headers => .ok (header :: headers)

/-- The body of the loop over the header rows of `getHeadersFromRow` for a row that is not
skipped: the spans of the row at position `i`. The slice `headerIndices` is not empty
where its last element is closed, because the first cell of the row is not empty. -/
def rowMergeCells (i : Int) (row : List String) : Except ConvError (List MergeCell) :=
  let headerIndices := headerIndicesLoop row 0 []
  let headerIndices := setLastEnd headerIndices ((row.length : Int) - 1)
  mergeCellsOfIndices i headerIndices

/-- The loop `for i, row := range headerRows` of `getHeadersFromRow`. -/
def headerRowsLoop : List (List String) → Int → Except ConvError (List MergeCell)
| [], _ => .ok []
| row :: rest, i =>
  if row.length = 0 ∨ row.head? = some "" then headerRowsLoop rest (i + 1)
  else
    match rowMergeCells i row with
    | .error err => .error err
    | .ok headers =>
      match headerRowsLoop rest (i + 1) with
      | .error err => .error err
      | .ok more => .ok (headers ++ more)

/-- `Excel.getHeadersFromRow` on the header rows that `getHeaderRows` has read. -/
def getHeadersFromRow (headerRows : List (List String)) : Except ConvError (List MergeCell) :=
  headerRowsLoop headerRows 0

/-! ## `exporter.go`: the header tree of a record -/

/-- `header` of `exporter.go`, a node of the header tree that is written. -/
inductive header
| mk (isDummy : Bool) (parent : String) (title : String) (children : List header)
deriving Repr

/-- Field `isDummy`. -/
def header.isDummy : header → Bool
| .mk d _ _ _ => d

/-- Field `parent`. -/
def header.parent : header → String
| .mk _ p _ _ => p

/-- Field `title`. -/
def header.title : header → String
| .mk _ _ t _ => t

/-- Field `children`. -/
def header.children : header → List header
| .mk _ _ _ cs => cs

/-- `header.getHeight`. -/
def header.getHeight : header → Int
| .mk _ _ _ [] => 1
| .mk _ _ _ (c :: _) => c.getHeight + 1

/-- The lookup `hMap[title]` of `getHeadersFromPaths`: the map holds exactly the headers of
`hs`, under their titles. -/
def hMapLookup (hs : List header) (title : String) : Option header :=
  hs.find? (fun h => h.title = title)

/-- The first loop of `getHeadersFromPaths`: the headers of the column `colIdx`, one for
each title in the order in which the titles are first seen. `none` when an index is out of
range (a path shorter than `colIdx + 1`). -/
def collectHeaders (colIdx : Nat) : List (List String) → List header → Option (List header)
| [], hs => some hs
| path :: rest, hs =>
  match path.get? colIdx with
  | none => none
  | some title =>
    match (if colIdx > 0 then path.get? (colIdx - 1) else some "") with
    | none => none
    | some parent =>
      match hMapLookup hs title with
      | some _ => collectHeaders colIdx rest hs
      | none =>
        -- keep the title order
        collectHeaders colIdx rest (hs ++ [header.mk false parent title []])

/-- The statement `parentH.children = append(parentH.children, childH)` for
`parentH := hMap[childH.parent]`: the header of `hs` with that title gets `childH` as its
last child. `none` when the map has no such header (a nil dereference). -/
def attachChild (childH : header) : List header → Option (List header)
| [] => none
| h :: rest =>
  if h.title = childH.parent then
    some (header.mk h.isDummy h.parent h.title (h.children ++ [childH]) :: rest)
  else
    match attachChild childH rest with
    | none => none
    | some rest' => some (h :: rest')

/-- The second loop of `getHeadersFromPaths`, `for _, childH := range childHs`. -/
def attachChildren : List header → List header → Option (List header)
| [], hs => some hs
| childH :: rest, hs =>
  match attachChild childH hs with
  | none => none
  | some hs' => attachChildren rest hs'

/-- The recursion of `getHeadersFromPaths(paths, colIdx, colMax)` with
`remaining = colMax - colIdx` columns to go. -/
def headersFromColumn (paths : List (List String)) : Nat → Nat → Option (List header)
| 0, _ => some []
| remaining + 1, colIdx =>
  match collectHeaders colIdx paths [] with
  | none => none
  | some hs =>
    match headersFromColumn paths remaining (colIdx + 1) with
    | none => none
    | some childHs => attachChildren childHs hs

/-- `getHeadersFromPaths`. `none` stands for a run that does not return a value: an index
out of range, a nil dereference, or `colIdx` beyond `colMax`, where the recursion of the
source never reaches its base case. -/
def getHeadersFromPaths (paths : List (List String)) (colIdx colMax : Nat) :
    Option (List header) :=
  if colIdx ≤ colMax then headersFromColumn paths (colMax - colIdx) colIdx else none

/-- The error of `parseHeader`, `path depth is not same`. -/
inductive ParseHeaderError
| pathDepthNotSame
deriving DecidableEq, Repr

/-- `parseHeader` for a pointer to a record with the given fields: `(h, err)`, or `none`
when `getHeadersFromPaths` does not return. -/
def parseHeader (fields : List StructField) : Option (header × Option ParseHeaderError) :=
  let h := header.mk true "" "" []
  let paths := fields.map StructField.path
  match paths with
  | [] => some (h, none)
  | path0 :: _ =>
    let pathDepth := path0.length
    if paths.any (fun path => path.length ≠ pathDepth) then
      some (h, some ParseHeaderError.pathDepthNotSame)
    else
      match getHeadersFromPaths paths 0 pathDepth with
      | none => none
      | some children => some (header.mk true "" "" children, none)

/-! ## `exporter.go`: writing the header -/

set_option linter.dupNamespace false in
/-- The fields of `Excel` that the writer reads. -/
structure Excel where
  sheetCount : Int
  activeSheetNames : List String
  fieldStyleId : Int
deriving Repr

/-- The calls that the writer makes on the spreadsheet engine `e.ex`. -/
inductive SheetOp
| MergeCell (sheet : String) (hCell vCell : Axis)
| SetCellStyle (sheet : String) (hCell vCell : Axis) (styleId : Int)
| SetCellValue (sheet : String) (axis : Axis) (value : CellValue)
deriving DecidableEq, Repr

/-- An error that a call on the spreadsheet engine returns. The engine is a library
outside the repository, and the writer passes its errors on without looking at them. -/
structure EngineError where
  message : String
deriving DecidableEq, Repr

/-- The spreadsheet engine `e.ex` as the writer depends on it: the error, if any, that a
call returns after the calls `log` that were made on the engine before it. Nothing is
assumed about it. -/
abbrev Engine : Type := List SheetOp → SheetOp → Option EngineError

/-- The errors that `writeHeader` returns: the error of `CoordinatesToCellName`, or the
error that the engine returned for a call. -/
inductive WriteError
| coordinates (err : ConvError)
| engine (op : SheetOp) (err : EngineError)
deriving DecidableEq, Repr

/-- Calls made on the engine one after the other, each followed by `if err != nil
{ return }`, after the calls `log`: the calls that were made, the failing one included,
and the error of the failing one. -/
def callAll (ex : Engine) : List SheetOp → List SheetOp → List SheetOp × Option WriteError
| _, [] => ([], none)
| log, op :: rest =>
  match ex log op with
  | some err => ([op], some (WriteError.engine op err))
  | none => (op :: (callAll ex (log ++ [op]) rest).1, (callAll ex (log ++ [op]) rest).2)

/-- The calls of the loop `for _, sheet := range e.activeSheetNames` that merges and styles
a range. -/
def mergeOps (e : Excel) (hCell vCell : Axis) : List SheetOp :=
  e.activeSheetNames.flatMap (fun sheet =>
    [SheetOp.MergeCell sheet hCell vCell, SheetOp.SetCellStyle sheet hCell vCell e.fieldStyleId])

/-- The calls of the loop `for _, sheet := range e.activeSheetNames` that writes a title. -/
def titleOps (e : Excel) (axis : Axis) (title : String) : List SheetOp :=
  e.activeSheetNames.map (fun sheet => SheetOp.SetCellValue sheet axis (CellValue.str title))

mutual
/-- `Excel.writeHeader` for a non-nil header (all callers pass one), after the calls `log`
on the engine: the returned span, the calls that it makes on the engine in their order,
and the returned error. -/
def writeHeader (e : Excel) (ex : Engine) :
    header → Int → Int → List SheetOp → Int × List SheetOp × Option WriteError
| .mk isDummy _ title children, col, row, log =>
  match writeHeaderChildren e ex children col row 0 log with
  | (_, ops, some err) => (0, ops, some err)
  | (childrenSpan, ops, none) =>
    if children.length = 0 then
      -- span = 1
      if isDummy then (1, ops, none)
      else
        match CoordinatesToCellName col row with
        | .error err => (1, ops, some (WriteError.coordinates err))
        | .ok axis =>
          match callAll ex (log ++ ops) (titleOps e axis title) with
          | (titled, err) => (1, ops ++ titled, err)
    else if isDummy then (childrenSpan, ops, none)
    else
      -- merge cells
      match CoordinatesToCellName col row with
      | .error err => (childrenSpan, ops, some (WriteError.coordinates err))
      | .ok hCell =>
        match CoordinatesToCellName (col + childrenSpan - 1) row with
        | .error err => (childrenSpan, ops, some (WriteError.coordinates err))
        | .ok vCell =>
          match callAll ex (log ++ ops) (mergeOps e hCell vCell) with
          | (merged, some err) => (childrenSpan, ops ++ merged, some err)
          | (merged, none) =>
            match CoordinatesToCellName col row with
            | .error err => (childrenSpan, ops ++ merged, some (WriteError.coordinates err))
            | .ok axis =>
              match callAll ex (log ++ ops ++ merged) (titleOps e axis title) with
              | (titled, err) => (childrenSpan, ops ++ merged ++ titled, err)
/-- The loop `for _, child := range header.children` of `writeHeader`, the children being
written on row `row + 1`; `childrenSpan` is the sum of the spans so far. -/
def writeHeaderChildren (e : Excel) (ex : Engine) :
    List header → Int → Int → Int → List SheetOp → Int × List SheetOp × Option WriteError
| [], _, _, childrenSpan, _ => (childrenSpan, [], none)
| child :: rest, col, row, childrenSpan, log =>
  match writeHeader e ex child (col + childrenSpan) (row + 1) log with
  | (_, ops, some err) => (childrenSpan, ops, some err)
  | (childSpan, ops, none) =>
    match writeHeaderChildren e ex rest col row (childrenSpan + childSpan) (log ++ ops) with
    | (span, ops', err) => (span, ops ++ ops', err)
end

/-- The number of leaves under a header; a header without children is a leaf itself. -/
def header.leafCount : header → Int
| .mk _ _ _ [] => 1
| .mk _ _ _ (c :: cs) => c.leafCount + leafCountList cs
where
  /-- The number of leaves under the headers of a list. -/
  leafCountList : List header → Int
  | [] => 0
  | c :: cs => c.leafCount + leafCountList cs

/-! ## Notions used to state the properties of the tree builder -/

/-- The coordinates `(colStart, row, colEnd, rowEnd)` of a span whose two cell names
convert, `none` for a span with a malformed name. -/
def MergeCell.coords (cell : MergeCell) : Option (Int × Int × Int × Int) :=
  match cell.startAxis, cell.endAxis with
  | Axis.cell colStart row, Axis.cell colEnd rowEnd => some (colStart, row, colEnd, rowEnd)
  | _, _ => none

/-- A qualifying span of `root`: its row lies strictly below `root.rowIndexEnd` and its
columns lie inside `[root.colIndexStart, root.colIndexEnd]`. -/
def isChildSpan (root : Importer) (cell : MergeCell) : Bool :=
  match cell.coords with
  | some (colStart, row, colEnd, _) => qualifies root colStart row colEnd
  | none => false

/-- A qualifying span of `root` whose `colStart` equals `root.colIndexStart`. -/
def isStartSpan (root : Importer) (cell : MergeCell) : Bool :=
  match cell.coords with
  | some (colStart, row, colEnd, _) =>
    qualifies root colStart row colEnd && decide (colStart = root.colIndexStart)
  | none => false

/-- A qualifying span of `root` whose `colEnd` equals `root.colIndexEnd`. -/
def isEndSpan (root : Importer) (cell : MergeCell) : Bool :=
  match cell.coords with
  | some (colStart, row, colEnd, _) =>
    qualifies root colStart row colEnd && decide (colEnd = root.colIndexEnd)
  | none => false

/-- The node `child` is the one that `buildChildNodes` makes of the span `cell` below
`root`: the span's value and coordinates, and the path of `root` followed by the value. -/
def builtFrom (root : Importer) (cell : MergeCell) (child : Importer) : Prop :=
  ∃ colStart row colEnd rowEnd, cell.coords = some (colStart, row, colEnd, rowEnd) ∧
    child.value = cell.value ∧ child.colIndexStart = colStart ∧ child.colIndexEnd = colEnd ∧
    child.rowIndexStart = row ∧ child.rowIndexEnd = rowEnd ∧
    child.path = root.path ++ [cell.value]

mutual
/-- The path invariant below a node with path `parentPath`: the path of the node is
`parentPath` followed by the node's own value, and so on for its children. -/
def pathsFollow (parentPath : List String) : Importer → Prop
| .mk value _ _ _ _ path childImporters =>
  path = parentPath ++ [value] ∧ pathsFollowList path childImporters
/-- The path invariant for each node of a list of siblings. -/
def pathsFollowList (parentPath : List String) : List Importer → Prop
| [] => True
| c :: cs => pathsFollow parentPath c ∧ pathsFollowList parentPath cs
end

mutual
/-- The nodes of a tree, each with the values on the chain that leads to it from the
node below the one whose chain is `chain`. -/
def chainsOf (chain : List String) : Importer → List (List String × Importer)
| .mk value a b c d path childImporters =>
  (chain ++ [value], .mk value a b c d path childImporters) ::
    chainsOfList (chain ++ [value]) childImporters
/-- The nodes of the trees of a list of siblings, with their chains. -/
def chainsOfList (chain : List String) : List Importer → List (List String × Importer)
| [] => []
| c :: cs => chainsOf chain c ++ chainsOfList chain cs
end

/-! ## Header rows and span lists on which the builder is run -/

/-- The node that the loop of `buildChildNodes` has made of the span at index `i`, its
children being what the recursive call returned for it. -/
def loopChild (recurse : Importer → BuildResult) (root : Importer) (cells : List MergeCell)
    (i : Nat) (child : Importer) : Prop :=
  ∃ cell, cells.get? i = some cell ∧ builtFrom root cell child ∧
    recurse (Importer.mk child.value child.colIndexStart child.colIndexEnd child.rowIndexStart
      child.rowIndexEnd child.path []) = BuildResult.ok child.childImporters

/-- The root that `initImporters` makes for a sheet with `cols` columns: it starts at
column 1, lies on row 0 and has no path. -/
def sheetRoot (sheetName : String) (cols : Int) : Importer :=
  .mk sheetName 1 cols 0 0 [] []

/-- A single-cell span. -/
def cellSpan (col row : Int) (value : String) : MergeCell :=
  ⟨Axis.cell col row, Axis.cell col row, value⟩

/-- Two header rows of different lengths. -/
def raggedRows : List (List String) := [["a", "b"], ["c", "d", "e"]]

/-- The spans of `raggedRows`. -/
def raggedSpans : List MergeCell :=
  [cellSpan 1 1 "a", cellSpan 2 1 "b", cellSpan 1 2 "c", cellSpan 2 2 "d", cellSpan 3 2 "e"]

/-- Three header rows whose span boundaries do not line up: `P` covers the columns 2 and 3,
`z` the columns 3 and 4, `p` the columns 1 and 2. -/
def crossingRows : List (List String) :=
  [["o", "P", "", "Q", "R"], ["x", "y", "z", "", "w"], ["p", "", "q", "r", "s"]]

/-- The spans of `crossingRows`. -/
def crossingSpans : List MergeCell :=
  [cellSpan 1 1 "o", ⟨Axis.cell 2 1, Axis.cell 3 1, "P"⟩, cellSpan 4 1 "Q", cellSpan 5 1 "R",
   cellSpan 1 2 "x", cellSpan 2 2 "y", ⟨Axis.cell 3 2, Axis.cell 4 2, "z"⟩, cellSpan 5 2 "w",
   ⟨Axis.cell 1 3, Axis.cell 2 3, "p"⟩, cellSpan 3 3 "q", cellSpan 4 3 "r", cellSpan 5 3 "s"]

/-- The node of the span `P` of `crossingRows` as `buildChildNodes` makes it below the
sheet root. -/
def crossingP : Importer := .mk "P" 2 3 1 1 ["P"] []

/-- The children that `buildChildNodes` gives to `crossingP`. -/
def crossingChildren : List Importer :=
  [.mk "y" 2 2 2 2 ["P", "y"] [],
   .mk "z" 3 4 2 2 ["P", "z"]
     [.mk "q" 3 3 3 3 ["P", "z", "q"] [], .mk "r" 4 4 3 3 ["P", "z", "r"] []],
   .mk "w" 5 5 2 2 ["P", "w"] [.mk "s" 5 5 3 3 ["P", "w", "s"] []],
   .mk "p" 1 2 3 3 ["P", "p"] [],
   .mk "q" 3 3 3 3 ["P", "q"] []]

/-- A span list with a span whose end column lies before its start column. -/
def reversedSpans : List MergeCell :=
  [⟨Axis.cell 1 1, Axis.cell 3 1, "x"⟩, cellSpan 1 2 "a",
   ⟨Axis.cell 3 2, Axis.cell 2 2, "bad"⟩, cellSpan 3 2 "c"]

/-- The two header rows of the sheet of `excel_test.go`: the group `字段` over the five
columns `字段1` to `字段5`. -/
def fieldRows : List (List String) :=
  [["字段", "", "", "", ""], ["字段1", "字段2", "字段3", "字段4", "字段5"]]

/-- The spans of `fieldRows`. -/
def fieldSpans : List MergeCell :=
  [⟨Axis.cell 1 1, Axis.cell 5 1, "字段"⟩, cellSpan 1 2 "字段1", cellSpan 2 2 "字段2",
   cellSpan 3 2 "字段3", cellSpan 4 2 "字段4", cellSpan 5 2 "字段5"]

/-- The tree of `fieldRows` below the sheet root. -/
def fieldTree : List Importer :=
  [.mk "字段" 1 5 1 1 ["字段"]
    [.mk "字段1" 1 1 2 2 ["字段", "字段1"] [], .mk "字段2" 2 2 2 2 ["字段", "字段2"] [],
     .mk "字段3" 3 3 2 2 ["字段", "字段3"] [], .mk "字段4" 4 4 2 2 ["字段", "字段4"] [],
     .mk "字段5" 5 5 2 2 ["字段", "字段5"] []]]

/-! ## Notions used to state the properties of the header writer -/

mutual
/-- The number of levels of a header tree: 1 for a header without children. -/
def header.depth : header → Nat
| .mk _ _ _ children => 1 + depthList children
/-- The largest number of levels among the trees of a list, 0 for the empty list. -/
def depthList : List header → Nat
| [] => 0
| c :: cs => max c.depth (depthList cs)
end

/-- The title that `getHeadersFromPaths` reads as the parent of the column `colIdx` of a
path: the segment before it, the empty title for the first column. -/
def parentAt (colIdx : Nat) (path : List String) : Option String :=
  if colIdx > 0 then path.get? (colIdx - 1) else some ""

/-- The header `h'` is the header `h` with some of the headers of `added` appended to its
children. -/
def grownFrom (added : List header) (h h' : header) : Prop :=
  h'.isDummy = h.isDummy ∧ h'.parent = h.parent ∧ h'.title = h.title ∧
    ∃ more, h'.children = h.children ++ more ∧ ∀ c ∈ more, c ∈ added

mutual
/-- The title sequences that lead from a header to the leaves below it, each after the
titles `pre` of the headers above. -/
def header.leafPaths (pre : List String) : header → List (List String)
| .mk _ _ title [] => [pre ++ [title]]
| .mk _ _ title (c :: cs) => leafPathsList (pre ++ [title]) (c :: cs)
/-- The title sequences of the leaves below the headers of a list. -/
def leafPathsList (pre : List String) : List header → List (List String)
| [] => []
| c :: cs => c.leafPaths pre ++ leafPathsList pre cs
end

/-- A record with a revenue and a cost column for each of two quarters. -/
def quarterFields : List StructField :=
  [⟨"Q1|R", some (Field.int ⟨0, 0⟩)⟩, ⟨"Q1|C", some (Field.int ⟨0, 0⟩)⟩,
   ⟨"Q2|R", some (Field.int ⟨0, 0⟩)⟩, ⟨"Q2|C", some (Field.int ⟨0, 0⟩)⟩]

/-- A record with two columns below one group and a third column below another. -/
def groupFields : List StructField :=
  [⟨"g|a", some (Field.int ⟨0, 0⟩)⟩, ⟨"g|b", some (Field.str ⟨"", 0⟩)⟩,
   ⟨"h|c", some (Field.int ⟨0, 0⟩)⟩]

mutual
/-- The calls that the specification of `writeHeader` describes for a header at
`(col, row)`: first the children, on the next row, each starting at `col` plus the leaf
counts of the children before it; then, for a header that is not the dummy, the merge and
the style of the range `(col, row)..(col + leaves - 1, row)` on every sheet when it has
children, and its title at `(col, row)` on every sheet. -/
def expectedHeaderOps (e : Excel) : header → Int → Int → List SheetOp
| .mk isDummy parent title children, col, row =>
  expectedChildrenOps e children col (row + 1) ++
    (if isDummy then []
     else
      (if children.length = 0 then []
       else mergeOps e (Axis.cell col row)
        (Axis.cell (col + (header.mk isDummy parent title children).leafCount - 1) row)) ++
      titleOps e (Axis.cell col row) title)
/-- The calls described for a list of sibling headers on row `row`, from column `col` on. -/
def expectedChildrenOps (e : Excel) : List header → Int → Int → List SheetOp
| [], _, _ => []
| c :: cs, col, row =>
  expectedHeaderOps e c col row ++ expectedChildrenOps e cs (col + c.leafCount) row
end

/-- A cell name of a cell on one of the rows `lo..hi`. -/
def Axis.onRows (lo hi : Int) : Axis → Prop
| Axis.cell _ row => lo ≤ row ∧ row ≤ hi
| Axis.malformed _ => False

/-- A call on the engine that touches cells of the rows `lo..hi` only. -/
def SheetOp.onRows (lo hi : Int) : SheetOp → Prop
| SheetOp.MergeCell _ hCell vCell => hCell.onRows lo hi ∧ vCell.onRows lo hi
| SheetOp.SetCellStyle _ hCell vCell _ => hCell.onRows lo hi ∧ vCell.onRows lo hi
| SheetOp.SetCellValue _ axis _ => axis.onRows lo hi

/-- A writer with one active sheet. -/
def sampleExcel : Excel := ⟨1, ["Sheet1"], 7⟩

/-- The header tree of the record `groupFields`. -/
def groupHeader : header :=
  header.mk true "" ""
    [header.mk false "" "g" [header.mk false "g" "a" [], header.mk false "g" "b" []],
     header.mk false "" "h" [header.mk false "h" "c" []]]

/-! ## Notions used to state the properties of the spans of a header row -/

/-- The non-empty cells of a row from the column `j` on: `(column, text)`, left to
right. -/
def cellsFrom : Int → List String → List (Int × String)
| _, [] => []
| j, col :: rest => if col = "" then cellsFrom (j + 1) rest else (j, col) :: cellsFrom (j + 1) rest

/-- The non-empty cells of a row with their 1-based columns. -/
def nonEmptyCells (row : List String) : List (Int × String) :=
  cellsFrom 1 row

/-- The spans that the specification describes for the non-empty cells of a row of
`rowLength` columns, as `(start, end, text)`: a span starts at the column of its cell and
ends at the column just before the next non-empty cell, the last span ends at the last
column of the row. -/
def expectedRowRanges (rowLength : Int) : List (Int × String) → List (Int × Int × String)
| [] => []
| [(c, text)] => [(c, rowLength, text)]
| (c, text) :: (c2, text2) :: rest =>
  (c, c2 - 1, text) :: expectedRowRanges rowLength ((c2, text2) :: rest)

/-- The span of the columns `start..end` on the sheet row `i + 1`. -/
def rangeSpan (i : Int) (r : Int × Int × String) : MergeCell :=
  ⟨Axis.cell r.1 (i + 1), Axis.cell r.2.1 (i + 1), r.2.2⟩

/-- The 1-based columns and the text of a `headerIndex`. -/
def headerIndex.toRange (x : headerIndex) : Int × Int × String :=
  (x.start + 1, x.end' + 1, x.header)

/-- The spans that the specification describes for a list of header rows of which the
first is at the 0-based position `i`: for each row whose first cell is not empty the
spans of `expectedRowRanges` on the sheet row of the row, and no span for a row that is
empty or begins with an empty cell. -/
def expectedSpans : Int → List (List String) → List MergeCell
| _, [] => []
| i, row :: rest =>
  (if row.length = 0 ∨ row.head? = some "" then []
   else (expectedRowRanges (row.length : Int) (nonEmptyCells row)).map (rangeSpan i)) ++
    expectedSpans (i + 1) rest


/-! ## Notions used to state the tree of a two-row header -/

/-- The ranges `rs` lie one after the other, without a gap, from the column `a` to the
column `b`. -/
def Consecutive : Int → List (Int × Int × String) → Int → Prop
| a, [], b => a = b + 1
| a, r :: rs, b => r.1 = a ∧ r.1 ≤ r.2.1 ∧ Consecutive (r.2.1 + 1) rs b

/-- The blocks of a two-row header from the column `a` to the column `b`: each span of the
first row with the spans of the second row below it, which fill its columns. -/
def AlignedBlocks :
    Int → List ((Int × Int × String) × List (Int × Int × String)) → Int → Prop
| a, [], b => a = b + 1
| a, (g, inside) :: bs, b =>
  g.1 = a ∧ inside ≠ [] ∧ Consecutive a inside g.2.1 ∧ AlignedBlocks (g.2.1 + 1) bs b

/-- The leaf that the span `r` of the second header row makes below the span `g` of the
first row. -/
def leafOf (g r : Int × Int × String) : Importer :=
  .mk r.2.2 r.1 r.2.1 2 2 [g.2.2, r.2.2] []

/-- The node of the span `g` of the first header row with the spans `inside` of the second
row below it. -/
def groupOf (b : (Int × Int × String) × List (Int × Int × String)) : Importer :=
  .mk b.1.2.2 b.1.1 b.1.2.1 1 1 [b.1.2.2] (b.2.map (leafOf b.1))

/-- The node `child` is the one that the loop of `buildChildNodes` makes of the span `cell`
below `root` when the recursive call is `recurse`. -/
def builtChild (recurse : Importer → BuildResult) (root : Importer) (cell : MergeCell)
    (child : Importer) : Prop :=
  ∃ colStart row colEnd rowEnd kids, cell.coords = some (colStart, row, colEnd, rowEnd) ∧
    recurse (Importer.mk cell.value colStart colEnd row rowEnd (root.path ++ [cell.value]) []) =
      BuildResult.ok kids ∧
    child = Importer.mk cell.value colStart colEnd row rowEnd (root.path ++ [cell.value]) kids
/-- Two header rows whose span boundaries do not line up: `a` covers the columns 1 to 3
of the second row, across the boundary between `g` (columns 1 to 2) and `h` (columns 3 to
4) of the first. -/
def misalignedRows : List (List String) := [["g", "", "h", ""], ["a", "", "", "d"]]

/-- The spans of `misalignedRows`. -/
def misalignedSpans : List MergeCell :=
  [⟨Axis.cell 1 1, Axis.cell 2 1, "g"⟩, ⟨Axis.cell 3 1, Axis.cell 4 1, "h"⟩,
   ⟨Axis.cell 1 2, Axis.cell 3 2, "a"⟩, cellSpan 4 2 "d"]

mutual
/-- `Importer.subImporter` for a non-nil receiver; a nil `path` of the node is `[]`. -/
def subImporter : Importer → List String → Option Importer
| .mk value colIndexStart colIndexEnd rowIndexStart rowIndexEnd nodePath childImporters, path =>
  match path with
  | [] => none
  | [segment] =>
    if segment = value then
      some (.mk value colIndexStart colIndexEnd rowIndexStart rowIndexEnd nodePath
        childImporters)
    else none
  | segment :: next :: more =>
    -- if root is the root of the excel tree, it's a fake node, it's path is nil
    if nodePath = [] ∨ value = segment then
      subImporterChildren childImporters
        (if nodePath ≠ [] then next :: more else segment :: next :: more)
    else none
/-- The loop `for _, node := range root.childImporters` of `subImporter`. -/
def subImporterChildren : List Importer → List String → Option Importer
| [], _ => none
| node :: rest, path =>
  match subImporter node path with
  | some importer => some importer
  | none => subImporterChildren rest path
end

/-- `Importer.SubImporter` for a non-nil receiver. -/
def SubImporter (root : Importer) (path : String) : Option Importer :=
  if path = "" then none
  else
    let paths := stringsSplit path _tagPathSplitter
    if root.path.length > 0 then subImporter root (root.value :: paths)
    else subImporter root paths

/-- The segments of a path joined by the path splitter, as `strings.Join` joins them. -/
def joinPath : List String → String
| [] => ""
| [segment] => segment
| segment :: rest => segment ++ String.singleton _tagPathSplitter ++ joinPath rest

/-- A header whose second row has a cell with the splitter in its text. -/
def splitterSpans : List MergeCell :=
  [⟨Axis.cell 1 1, Axis.cell 2 1, "g"⟩, cellSpan 1 2 "a|b", cellSpan 2 2 "c"]

/-- The tree of `splitterSpans` below the sheet root. -/
def splitterTree : List Importer :=
  [.mk "g" 1 2 1 1 ["g"]
    [.mk "a|b" 1 1 2 2 ["g", "a|b"] [], .mk "c" 2 2 2 2 ["g", "c"] []]]

/-! ## `importer.go`: `AsyncScanRows`

The goroutines of `AsyncScanRows` share the channel `ch` and the wait group `wg` only: a
task reads `root`, `rows` and the types of `responses`, and writes to the copies it has
made. A task is therefore taken as one step, at the moment at which it sends its result.
The pool of workers is the library's: it runs each submitted task once, and a panic of a
task ends the task (its deferred `wg.Done()` still runs) without ending the program. -/

/-- `AsyncScanExRes`. -/
structure AsyncScanExRes where
  Responses : List Response
  Err : Option Error
deriving DecidableEq, Repr

/-- The zero value of the type of a field value. -/
def Field.zero : Field → Field
| .int _ => .int ⟨0, 0⟩
| .int64 _ => .int64 ⟨0, 0⟩
| .str _ => .str ⟨"", 0⟩
| .time _ => .time ⟨Time.zero, 0⟩
| .float _ => .float ⟨Float64.zero, 0⟩
| .bool _ => .bool ⟨false, 0⟩

/-- The field of a new record of the same type: the same tag, the zero value. -/
def StructField.zero (field : StructField) : StructField :=
  { tag := field.tag, value := field.value.map Field.zero }

/-- The loop that makes `respParams`: for each response
`reflect.New(reflect.Indirect(reflect.ValueOf(resp).Elem()).Type()).Interface()`, a
pointer to a new record of the type of the response. `none` when `Elem` panics on a
response that is not a pointer. -/
def newResponses : List Response → Option (List Response)
| [] => some []
| Response.notPtr :: _ => none
| Response.structPtr fields :: rest =>
  match newResponses rest with
  | none => none
  | some respParams => some (Response.structPtr (fields.map StructField.zero) :: respParams)

/-- A pointer to a new record of the type of a response. -/
def zeroResponse : Response → Response
| Response.structPtr fields => Response.structPtr (fields.map StructField.zero)
| Response.notPtr => Response.notPtr

/-- The result that a task sends for a row, given the copies of the responses. -/
def scanResult (env : GoEnv) (root : Option Importer) (respParams : List Response)
    (row : List String) : AsyncScanExRes :=
  { Responses := (ScanRow env root row respParams).1, Err := (ScanRow env root row respParams).2 }

/-- The shared state of a run of `AsyncScanRows`. -/
structure AsyncState where
  /-- the number of turns of the loop `for i := range rows` that the caller has made -/
  submitted : Nat
  /-- the indices of the tasks that are submitted and have not run -/
  pending : List Nat
  /-- the counter of `wg` -/
  wg : Nat
  /-- the buffer of `ch`, the oldest result first -/
  ch : List AsyncScanExRes
  /-- whether the caller has started the goroutine that closes `ch` -/
  closerSpawned : Bool
  /-- whether `ch` is closed -/
  closed : Bool
deriving DecidableEq, Repr

/-- The steps of a run of `AsyncScanRows`. -/
inductive AsyncEvent
| submit
| run (index : Nat)
| spawnCloser
| close
deriving DecidableEq, Repr

/-- The state in which `AsyncScanRows` enters its loop. -/
def asyncInit : AsyncState :=
  { submitted := 0, pending := [], wg := 0, ch := [], closerSpawned := false, closed := false }

/-- The task of the row at `index`, run to its end: it makes the copies, scans the row
into them and sends the result; `wg.Done()` is deferred and runs in any case. -/
def runTask (env : GoEnv) (root : Option Importer) (rows : List (List String))
    (responses : List Response) (index : Nat) (s : AsyncState) : AsyncState :=
  match newResponses responses, rows.get? index with
  | some respParams, some row =>
    { s with wg := s.wg - 1, ch := s.ch ++ [scanResult env root respParams row] }
  | _, _ => { s with wg := s.wg - 1 }

/-- One step of a run: `none` when the step cannot be taken in the state `s`.
`submit` is a turn of the caller's loop (`wg.Add(1)` and `pool.Submit`), `run index` the
task of a row in a worker of the pool, `spawnCloser` the `go` statement after the loop,
`close` the return of `wg.Wait()` followed by `close(ch)`. -/
def asyncStep (env : GoEnv) (root : Option Importer) (rows : List (List String))
    (responses : List Response) (s : AsyncState) : AsyncEvent → Option AsyncState
| AsyncEvent.submit =>
  if s.submitted < rows.length ∧ s.closerSpawned = false then
    some { s with submitted := s.submitted + 1, pending := s.pending ++ [s.submitted],
                  wg := s.wg + 1 }
  else none
| AsyncEvent.run index =>
  if index ∈ s.pending then
    some (runTask env root rows responses index { s with pending := s.pending.erase index })
  else none
| AsyncEvent.spawnCloser =>
  if s.submitted = rows.length ∧ s.closerSpawned = false then
    some { s with closerSpawned := true }
  else none
| AsyncEvent.close =>
  if s.closerSpawned = true ∧ s.wg = 0 ∧ s.closed = false then some { s with closed := true }
  else none

/-- A run of `AsyncScanRows`: the steps of `events` taken one after the other from the
state `s`; `none` when one of them cannot be taken. -/
def asyncRun (env : GoEnv) (root : Option Importer) (rows : List (List String))
    (responses : List Response) : List AsyncEvent → AsyncState → Option AsyncState
| [], s => some s
| event :: rest, s =>
  match asyncStep env root rows responses s event with
  | none => none
  | some s' => asyncRun env root rows responses rest s'

/-- What is left to do in a state of a run over `n` rows: two steps for each row that is
not submitted, one for each pending task, one for the start of the closing goroutine and
one for the closing. -/
def asyncMeasure (n : Nat) (s : AsyncState) : Nat :=
  2 * (n - s.submitted) + s.pending.length + (if s.closerSpawned then 0 else 1) +
    (if s.closed then 0 else 1)

/-- What holds in every state of a run over the rows `rows` in which the tasks send the
results `res`: the counter of `wg` counts the pending tasks, the pending tasks are
submitted ones, the closing goroutine starts after the last turn of the loop, the channel
is closed when no task is pending, and the channel holds the results of the tasks that
have run. -/
def AsyncInv (n : Nat) (res : Nat → AsyncScanExRes) (s : AsyncState) : Prop :=
  s.wg = s.pending.length ∧ s.pending.Nodup ∧ (∀ i ∈ s.pending, i < s.submitted) ∧
    s.submitted ≤ n ∧ (s.closerSpawned = true → s.submitted = n) ∧
    (s.closed = true → s.closerSpawned = true ∧ s.pending = []) ∧
    (s.ch ++ s.pending.map res).Perm ((List.range s.submitted).map res)

/-- Three data rows for `shallowTree`; the first cell of the second is no number. -/
def sampleRows : List (List String) := [["1", "x"], ["oops", "y"], ["3", "z"]]

/-- A response with an integer column `a` and a text column `b`, with values of an
earlier use. -/
def sampleResponse : Response :=
  Response.structPtr [⟨"a", some (Field.int ⟨7, 9⟩)⟩, ⟨"b", some (Field.str ⟨"old", 9⟩)⟩]

/-! ## `exporter.go`: writing the data -/

/-- The errors that `writeData` returns. -/
inductive WriteDataError
| rowsSmallerThanSheetCount
| coordinates (err : ConvError)
| engine (op : SheetOp) (err : EngineError)
deriving DecidableEq, Repr

/-- The run-time panics of `writeData`. -/
inductive WritePanic
| divideByZero
| sliceBoundsOutOfRange
| indexOutOfRange
| notAPointer
deriving DecidableEq, Repr

/-- How a run of `writeData` ends. -/
inductive WriteOutcome
| done
| error (err : WriteDataError)
| panic (p : WritePanic)
deriving DecidableEq, Repr

/-- The slice expression `rows[lo:hi]`; `none` when the bounds are out of range. The
capacity of `rows` is taken to be its length. -/
def sliceRows (rows : List Response) (lo hi : Int) : Option (List Response) :=
  if 0 ≤ lo ∧ lo ≤ hi ∧ hi ≤ (rows.length : Int) then
    some ((rows.drop lo.toNat).take (hi.toNat - lo.toNat))
  else none

/-- The value that `writeData` passes to `SetCellValue` for a field: `GetValue()` of a
field that implements `Field`; any other field is passed as its `reflect.Value`, which the
engine writes as the text `fmt.Sprint` makes of it, here `sprint field`. -/
def fieldCellValue (sprint : StructField → String) (field : StructField) : CellValue :=
  match field.value with
  | some importField => importField.GetValue
  | none => CellValue.str (sprint field)

/-- The loop `for i := 0; i < NumField(); i++` of `writeData` for one row, from the field
index `i` on and after the calls `log` on the engine: the calls made, the failing one
included, and the error. -/
def writeRowFields (sprint : StructField → String) (ex : Engine) (sheet : String)
    (sheetRowStart : Int) :
    List StructField → Int → List SheetOp → List SheetOp × Option WriteDataError
| [], _, _ => ([], none)
| field :: rest, i, log =>
  match CoordinatesToCellName (i + 1) sheetRowStart with
  | .error err => ([], some (WriteDataError.coordinates err))
  | .ok axis =>
    match ex log (SheetOp.SetCellValue sheet axis (fieldCellValue sprint field)) with
    | some err =>
      ([SheetOp.SetCellValue sheet axis (fieldCellValue sprint field)],
        some (WriteDataError.engine
          (SheetOp.SetCellValue sheet axis (fieldCellValue sprint field)) err))
    | none =>
      let r := writeRowFields sprint ex sheet sheetRowStart rest (i + 1)
        (log ++ [SheetOp.SetCellValue sheet axis (fieldCellValue sprint field)])
      (SheetOp.SetCellValue sheet axis (fieldCellValue sprint field) :: r.1, r.2)

/-- The loop `for _, row := range sheetRows` of `writeData`. -/
def writeSheetRows (sprint : StructField → String) (ex : Engine) (sheet : String) :
    List Response → Int → List SheetOp → List SheetOp × WriteOutcome
| [], _, _ => ([], WriteOutcome.done)
| Response.notPtr :: _, _, _ => ([], WriteOutcome.panic WritePanic.notAPointer)
| Response.structPtr fields :: rest, sheetRowStart, log =>
  match writeRowFields sprint ex sheet sheetRowStart fields 0 log with
  | (ops, some err) => (ops, WriteOutcome.error err)
  | (ops, none) =>
    let r := writeSheetRows sprint ex sheet rest (sheetRowStart + 1) (log ++ ops)
    (ops ++ r.1, r.2)

/-- The loop `for idx := 0; idx < e.sheetCount; idx++` of `writeData` over the indices
that are left. -/
def writeDataLoop (sprint : StructField → String) (e : Excel) (ex : Engine)
    (rows : List Response) (rowStart sheetRowSize : Int) :
    List Nat → List SheetOp → List SheetOp × WriteOutcome
| [], _ => ([], WriteOutcome.done)
| idx :: rest, log =>
  match (if (idx : Int) = e.sheetCount - 1 then
      sliceRows rows (idx * sheetRowSize) rows.length
    else sliceRows rows (idx * sheetRowSize) ((idx + 1) * sheetRowSize)) with
  | none => ([], WriteOutcome.panic WritePanic.sliceBoundsOutOfRange)
  | some sheetRows =>
    match e.activeSheetNames.get? idx with
    | none => ([], WriteOutcome.panic WritePanic.indexOutOfRange)
    | some sheet =>
      match writeSheetRows sprint ex sheet sheetRows rowStart log with
      | (ops, WriteOutcome.done) =>
        let r := writeDataLoop sprint e ex rows rowStart sheetRowSize rest (log ++ ops)
        (ops ++ r.1, r.2)
      | (ops, outcome) => (ops, outcome)

/-- `Excel.writeData` after the calls `log` on the engine: the calls that it makes on the
engine and how the run ends. -/
def writeData (sprint : StructField → String) (e : Excel) (ex : Engine)
    (rows : List Response) (rowStart : Int) (log : List SheetOp) :
    List SheetOp × WriteOutcome :=
  let l : Int := rows.length
  if l = 0 then ([], WriteOutcome.done)
  else if l < e.sheetCount then
    ([], WriteOutcome.error WriteDataError.rowsSmallerThanSheetCount)
  else if e.sheetCount = 0 then ([], WriteOutcome.panic WritePanic.divideByZero)
  else
    let sheetRowSize := l.tdiv e.sheetCount
    writeDataLoop sprint e ex rows rowStart sheetRowSize (List.range e.sheetCount.toNat) log

/-! ## Notions used to state the properties of `writeData` -/

/-- The cells of the fields of a row on the sheet row `row`, from the column `col` on: the
value of each field in the next column. -/
def expectedFieldOps (sprint : StructField → String) (sheet : String) (row : Int) :
    List StructField → Int → List SheetOp
| [], _ => []
| field :: rest, col =>
  SheetOp.SetCellValue sheet (Axis.cell col row) (fieldCellValue sprint field) ::
    expectedFieldOps sprint sheet row rest (col + 1)

/-- The fields of a record. -/
def Response.fields : Response → List StructField
| Response.structPtr fields => fields
| Response.notPtr => []

/-- The cells of a list of rows written on consecutive sheet rows from `row` on. -/
def expectedRowsOps (sprint : StructField → String) (sheet : String) :
    List Response → Int → List SheetOp
| [], _ => []
| r :: rest, row =>
  expectedFieldOps sprint sheet row r.fields 1 ++ expectedRowsOps sprint sheet rest (row + 1)

/-- The rows that the sheet `idx` of `sheetCount` receives: `q` rows from the row
`idx * q` on, and all the rows from there on for the last sheet. -/
def sheetRowsOf (rows : List Response) (sheetCount q idx : Nat) : List Response :=
  if idx + 1 = sheetCount then rows.drop (idx * q) else (rows.drop (idx * q)).take q

/-- The engine returns no error for the calls `ops`, made one after the other after the
calls `log`. -/
def Accepts (ex : Engine) : List SheetOp → List SheetOp → Prop
| _, [] => True
| log, op :: rest => ex log op = none ∧ Accepts ex (log ++ [op]) rest

/-- The row of a cell name; 0 for a name that is none. -/
def Axis.rowNumber : Axis → Int
| Axis.cell _ row => row
| Axis.malformed _ => 0

/-- The last row that a call touches. -/
def SheetOp.lastRow : SheetOp → Int
| SheetOp.MergeCell _ hCell vCell => max hCell.rowNumber vCell.rowNumber
| SheetOp.SetCellStyle _ hCell vCell _ => max hCell.rowNumber vCell.rowNumber
| SheetOp.SetCellValue _ axis _ => axis.rowNumber

/-- A sample engine: it refuses a call that touches a row after the row 1048576, the last
row of a sheet, and returns no error for any other call. -/
def rowLimitEngine : Engine := fun _ op =>
  if op.lastRow > 1048576 then some ⟨"row number exceeds maximum limit"⟩ else none

/-- A writer with two sheets. -/
def twoSheets : Excel := ⟨2, ["Sheet1", "Sheet2"], 7⟩

/-- Five rows of a record with one integer column. -/
def fiveRows : List Response :=
  [Response.structPtr [⟨"n", some (Field.int ⟨1, 0⟩)⟩],
   Response.structPtr [⟨"n", some (Field.int ⟨2, 0⟩)⟩],
   Response.structPtr [⟨"n", some (Field.int ⟨3, 0⟩)⟩],
   Response.structPtr [⟨"n", some (Field.int ⟨4, 0⟩)⟩],
   Response.structPtr [⟨"n", some (Field.int ⟨5, 0⟩)⟩]]

/-! ## Notions used to state the alignment of the header with the data -/

/-- The header that the first loop of `getHeadersFromPaths` makes for a title: neither
dummy nor with children yet. -/
def header.bare (h : header) : header := header.mk false h.parent h.title []

/-- The headers on level `k` below a list of headers, from left to right; level 0 is the
list itself. -/
def levelHeaders : Nat → List header → List header
| 0, hs => hs
| k + 1, hs => levelHeaders k (hs.flatMap header.children)

/-- Headers that each stand over `n` levels: none is the dummy, a child names its parent
by the title, and the leaves are all on the level `n`. -/
def Levels : Nat → List header → Prop
| 0, hs => hs = []
| n + 1, hs => ∀ h ∈ hs, h.isDummy = false ∧ (∀ c ∈ h.children, c.parent = h.title) ∧
    (0 < n → h.children ≠ []) ∧ Levels n h.children

/-- Top-level headers of a tree of `n` levels whose titles are pairwise distinct on each
level. -/
def DistinctLevels (n : Nat) (hs : List header) : Prop :=
  Levels n hs ∧ (∀ h ∈ hs, h.parent = "") ∧
    ∀ k, k < n → ((levelHeaders k hs).map header.title).Nodup

/-- A record whose first and third column are below one group and whose second column is
below another. -/
def scatteredFields : List StructField :=
  [⟨"g|a", some (Field.int ⟨1, 0⟩)⟩, ⟨"h|b", some (Field.int ⟨2, 0⟩)⟩,
   ⟨"g|c", some (Field.int ⟨3, 0⟩)⟩]

/-! ## Notions used to state the round trip -/

/-- The text `t` of a cell is one that the codec of the field `f` decodes to the value of
`f`: for the integers the empty text for 0 or a base-10 signed integer that denotes the
value and fits the type, for a string the string itself, for a date the empty text for the
zero time or a text that `time.ParseInLocation` reads as the date, for a float the empty
text for 0 or a text that `strconv.ParseFloat` reads as the value, for a boolean the text
是 for true and any other text for false. -/
def DecodesTo (env : GoEnv) (t : String) : Field → Prop
| .int f => (t = "" ∧ f.value = 0) ∨
    (t ≠ "" ∧ IsDecimal t f.value ∧ inRange env.intSize f.value)
| .int64 f => (t = "" ∧ f.value = 0) ∨ (t ≠ "" ∧ IsDecimal t f.value ∧ inRange 64 f.value)
| .str f => t = f.value
| .time f => (t = "" ∧ f.value = Time.zero) ∨
    (t ≠ "" ∧ env.ParseInLocation _dateLayout t = .ok f.value)
| .float f => (t = "" ∧ f.value = Float64.zero) ∨ (t ≠ "" ∧ env.ParseFloat t = .ok f.value)
| .bool f => (f.value = true ↔ t = "是")

/-- A record with one field of each of the six codecs. -/
def codecFields : List StructField :=
  [⟨"i", some (Field.int ⟨42, 0⟩)⟩, ⟨"l", some (Field.int64 ⟨-7, 0⟩)⟩,
   ⟨"s", some (Field.str ⟨"text", 0⟩)⟩, ⟨"t", some (Field.time ⟨Time.zero, 0⟩)⟩,
   ⟨"f", some (Field.float ⟨Float64.zero, 0⟩)⟩, ⟨"b", some (Field.bool ⟨true, 0⟩)⟩]

/-- A sheet with the six leaves `i`, `l`, `s`, `t`, `f`, `b` on the header row 1. -/
def codecTree : Importer :=
  .mk "Sheet1" 1 6 0 0 []
    [.mk "i" 1 1 1 1 ["i"] [], .mk "l" 2 2 1 1 ["l"] [], .mk "s" 3 3 1 1 ["s"] [],
     .mk "t" 4 4 1 1 ["t"] [], .mk "f" 5 5 1 1 ["f"] [], .mk "b" 6 6 1 1 ["b"] []]

/-! # Theorems -/

/-! ## Unfolding lemmas -/

theorem scanLeafNodes_cons (env : GoEnv) (row : List String) (path : List String) (i : Nat)
    (fv : Option Field) (leafNode : Importer) (rest : List Importer) (j : Nat) :
    scanLeafNodes env row path i fv (leafNode :: rest) j =
      if leafNode.path.length < path.length then
        .error (Error.internal Panic.sliceBoundsOutOfRange)
      else if leafNode.path.drop (leafNode.path.length - path.length) = path then
        match fv with
        | none => .error (Error.internal Panic.notAField)
        | some fld =>
          match row.get? j with
          | none => .error (Error.internal Panic.indexOutOfRange)
          | some cell =>
            match fld.Translate env cell leafNode.colIndexStart with
            | .error err =>
              .error (Error.cellError { rowIndex := j, colIndex := i, paths := [], err := err })
            | .ok setValue => .ok (some setValue)
      else scanLeafNodes env row path i fv rest (j + 1) := rfl

theorem scanFields_cons (env : GoEnv) (leafNodes : List Importer) (row : List String)
    (field : StructField) (rest : List StructField) (i : Nat) :
    scanFields env leafNodes row (field :: rest) i =
      match scanLeafNodes env row field.path i field.value leafNodes 0 with
      | .error e => (field :: rest, some e)
      | .ok none =>
        (field :: (scanFields env leafNodes row rest (i + 1)).1,
          (scanFields env leafNodes row rest (i + 1)).2)
      | .ok (some setValue) =>
        ({ field with value := some setValue } :: (scanFields env leafNodes row rest (i + 1)).1,
          (scanFields env leafNodes row rest (i + 1)).2) := rfl

theorem scanResponses_cons (env : GoEnv) (leafNodes : List Importer) (row : List String)
    (fields : List StructField) (rest : List Response) :
    scanResponses env leafNodes row (Response.structPtr fields :: rest) =
      match scanFields env leafNodes row fields 0 with
      | (fields', some e) => (Response.structPtr fields' :: rest, some e)
      | (fields', none) =>
        (Response.structPtr fields' :: (scanResponses env leafNodes row rest).1,
          (scanResponses env leafNodes row rest).2) := rfl

theorem appendEmpty_eq (k : Nat) (row : List String) :
    appendEmpty k row = row ++ List.replicate k "" := by
  induction k generalizing row with
  | zero => simp [appendEmpty]
  | succ k ih =>
    rw [appendEmpty, ih, List.replicate_succ, List.append_assoc]
    rfl

theorem reconcileRow_length (n : Nat) (row : List String) :
    (reconcileRow n row).length = n := by
  unfold reconcileRow
  simp only [appendEmpty_eq]
  split_ifs <;>
    (try simp only [List.length_append, List.length_drop, List.length_replicate]) <;> omega

theorem scanLeafNodes_inRange (env : GoEnv) (row : List String) (path : List String) (i : Nat)
    (fv : Option Field) (rest : List Importer) (j : Nat) (h : j + rest.length ≤ row.length) :
    scanLeafNodes env row path i fv rest j ≠ .error (Error.internal Panic.indexOutOfRange) := by
  induction rest generalizing j with
  | nil => intro hc; cases hc
  | cons leaf rest ih =>
    have hj : j < row.length := by simp at h; omega
    rw [scanLeafNodes_cons]
    split_ifs with h1 h2
    · simp
    · cases fv with
      | none => simp
      | some fld =>
        simp only [List.get?_eq_getElem?, List.getElem?_eq_getElem hj]
        cases fld.Translate env row[j] leaf.colIndexStart <;> simp
    · exact ih (j + 1) (by simp at h; omega)

theorem scanFields_inRange (env : GoEnv) (leaves : List Importer) (row : List String)
    (h : leaves.length ≤ row.length) (fields : List StructField) (i : Nat) :
    (scanFields env leaves row fields i).2 ≠ some (Error.internal Panic.indexOutOfRange) := by
  induction fields generalizing i with
  | nil => intro hc; cases hc
  | cons f rest ih =>
    rw [scanFields_cons]
    have := scanLeafNodes_inRange env row f.path i f.value leaves 0 (by simpa using h)
    split
    · rename_i e he
      intro hc
      simp at hc
      rw [hc] at he
      exact this he
    · exact ih (i + 1)
    · exact ih (i + 1)

theorem scanResponses_inRange (env : GoEnv) (leaves : List Importer) (row : List String)
    (h : leaves.length ≤ row.length) (responses : List Response) :
    (scanResponses env leaves row responses).2 ≠ some (Error.internal Panic.indexOutOfRange) := by
  induction responses with
  | nil => intro hc; cases hc
  | cons r rest ih =>
    cases r with
    | notPtr => intro hc; cases hc
    | structPtr fields =>
      rw [scanResponses_cons]
      have := scanFields_inRange env leaves row h fields 0
      split
      · rename_i f' e he
        rw [he] at this
        simpa using this
      · exact ih

/-- C2: row-length reconciliation in `ScanRow`. With `n` the number of leaves, the cells
decoded are the last `n` cells of the row when the row is longer, the row followed by
`n - len(row)` empty strings when it is shorter, and the row itself when the lengths agree;
the reconciled row has length exactly `n`, so every leaf index is in range, and `ScanRow`
(which scans the reconciled row) never fails with an index out of range. -/
theorem reconcileRow_spec (env : GoEnv) (root : Option Importer) (row : List String)
    (responses : List Response) :
    let n := (getLeafNodes root).length
    (n < row.length → reconcileRow n row = row.drop (row.length - n)) ∧
    (row.length < n → reconcileRow n row = row ++ List.replicate (n - row.length) "") ∧
    (row.length = n → reconcileRow n row = row) ∧
    (reconcileRow n row).length = n ∧
    (∀ j, j < n → ∃ cell, (reconcileRow n row).get? j = some cell) ∧
    ScanRow env root row responses =
      scanResponses env (getLeafNodes root) (reconcileRow n row) responses ∧
    (ScanRow env root row responses).2 ≠ some (Error.internal Panic.indexOutOfRange) := by
  intro n
  refine ⟨?_, ?_, ?_, reconcileRow_length n row, ?_, rfl, ?_⟩
  · intro h
    have h2 : ¬ row.length < n := by omega
    simp [reconcileRow, h, h2]
  · intro h
    have h2 : ¬ n < row.length := by omega
    simp [reconcileRow, h, h2, appendEmpty_eq]
  · intro h
    simp [reconcileRow, h]
  · intro j hj
    have hl := reconcileRow_length n row
    exact ⟨(reconcileRow n row)[j], by simp [List.getElem?_eq_getElem (hl ▸ hj)]⟩
  · exact scanResponses_inRange env _ _ (by rw [reconcileRow_length]) responses

/-- C8: `BoolField.Translate` is total and never fails. For every string `s` and column
`c` it returns a `BoolField` with column `c` whose value is true exactly when `s` is the
literal 是; the empty string, `no`, `false` and `true` all give false. -/
theorem boolTranslate_total (bField : BoolField) (s : String) (c : Int) :
    BoolField.Translate bField s c = .ok { value := decide (s = "是"), colIndex := c } ∧
    (∃ r, BoolField.Translate bField s c = .ok r ∧ r.colIndex = c ∧ (r.value = true ↔ s = "是")) ∧
    BoolField.Translate bField "" c = .ok ⟨false, c⟩ ∧
    BoolField.Translate bField "no" c = .ok ⟨false, c⟩ ∧
    BoolField.Translate bField "false" c = .ok ⟨false, c⟩ ∧
    BoolField.Translate bField "true" c = .ok ⟨false, c⟩ ∧
    BoolField.Translate bField "是" c = .ok ⟨true, c⟩ := by
  have key : BoolField.Translate bField s c = .ok { value := decide (s = "是"), colIndex := c } := by
    unfold BoolField.Translate
    by_cases h : s = ""
    · subst h; simp
    · by_cases h2 : s = "是" <;> simp [h, h2]
  refine ⟨key, ⟨_, key, rfl, by simp⟩, ?_, ?_, ?_, ?_, ?_⟩ <;> rfl

/-- C9: empty cells decode to zero values. For each of the six codecs and every column
`c`, `Translate("", c)` returns no error and the zero value of the type (0, 0, the empty
string, the zero time, 0.0, false) carrying column `c`. -/
theorem translate_empty (env : GoEnv) (c : Int) (i : IntField) (i64 : Int64Field) (s : StringField)
    (t : TimeField) (f : FloatField) (b : BoolField) :
    IntField.Translate env i "" c = .ok ⟨0, c⟩ ∧
    Int64Field.Translate env i64 "" c = .ok ⟨0, c⟩ ∧
    StringField.Translate s "" c = .ok ⟨"", c⟩ ∧
    TimeField.Translate env t "" c = .ok ⟨Time.zero, c⟩ ∧
    FloatField.Translate env f "" c = .ok ⟨Float64.zero, c⟩ ∧
    BoolField.Translate b "" c = .ok ⟨false, c⟩ ∧
    (∀ fld : Field, ∃ r, fld.Translate env "" c = .ok r ∧ r.ColIndex = c) := by
  refine ⟨rfl, rfl, rfl, rfl, rfl, rfl, ?_⟩
  intro fld
  cases fld <;> exact ⟨_, rfl, rfl⟩

/-- A declared path is never empty: `strings.Split` returns at least one segment, so it is
never equal to the nil path of a childless root. -/
theorem stringsSplit_ne_nil (s : String) (sep : Char) : stringsSplit s sep ≠ [] := by
  have aux : ∀ (cs cur : List Char), splitAux sep cs cur ≠ [] := by
    intro cs
    induction cs with
    | nil => intro cur; simp [splitAux]
    | cons c cs ih =>
      intro cur
      unfold splitAux
      split_ifs
      · simp
      · exact ih _
  exact aux _ _

/-! ## `ScanRow` -/


/-- The outcome of decoding cell `j` for the field at index `i`: what the body of the
matching branch of `ScanRow`'s leaf loop computes. -/
theorem scanLeafNodes_first_match (env : GoEnv) (row : List String) (d : List String) (i : Nat)
    (fld : Field) (leaves : List Importer) (j0 j : Nat) (leaf : Importer)
    (hlen : ∀ l ∈ leaves, d.length ≤ l.path.length)
    (hj : leaves.get? j = some leaf)
    (hmatch : leaf.path.drop (leaf.path.length - d.length) = d)
    (hfirst : ∀ j' l', j' < j → leaves.get? j' = some l' →
      l'.path.drop (l'.path.length - d.length) ≠ d) :
    scanLeafNodes env row d i (some fld) leaves j0 =
      match row.get? (j0 + j) with
      | none => .error (Error.internal Panic.indexOutOfRange)
      | some cell =>
        match fld.Translate env cell leaf.colIndexStart with
        | .error err =>
          .error (Error.cellError
            { rowIndex := ((j0 + j : Nat) : Int), colIndex := i, paths := [], err := err })
        | .ok setValue => .ok (some setValue) := by
  induction leaves generalizing j0 j with
  | nil => simp at hj
  | cons l rest ih =>
    rw [scanLeafNodes_cons]
    have hl : ¬ l.path.length < d.length := by
      have := hlen l (by simp); omega
    rw [if_neg hl]
    cases j with
    | zero =>
      simp at hj
      subst hj
      rw [if_pos hmatch]
      rfl
    | succ j =>
      have h0 := hfirst 0 l (by omega) (by simp)
      rw [if_neg h0]
      have := ih (j0 + 1) j (fun l hl => hlen l (by simp [hl])) (by simpa using hj)
        (fun j' l' hj' hl' => hfirst (j' + 1) l' (by omega) (by simpa using hl'))
      rw [this]
      have e : j0 + 1 + j = j0 + (j + 1) := by omega
      rw [e]

theorem scanLeafNodes_no_match (env : GoEnv) (row : List String) (d : List String) (i : Nat)
    (fv : Option Field) (leaves : List Importer) (j0 : Nat)
    (hlen : ∀ l ∈ leaves, d.length ≤ l.path.length)
    (hno : ∀ l ∈ leaves, l.path.drop (l.path.length - d.length) ≠ d) :
    scanLeafNodes env row d i fv leaves j0 = .ok none := by
  induction leaves generalizing j0 with
  | nil => rfl
  | cons l rest ih =>
    rw [scanLeafNodes_cons]
    have hl : ¬ l.path.length < d.length := by
      have := hlen l (by simp); omega
    rw [if_neg hl, if_neg (hno l (by simp))]
    exact ih (j0 + 1) (fun l hl => hlen l (by simp [hl])) (fun l hl => hno l (by simp [hl]))

/-- When no leaf matches and some leaf is shorter than the declared path, the loop panics. -/
theorem scanLeafNodes_short (env : GoEnv) (row : List String) (d : List String) (i : Nat)
    (fv : Option Field) (leaves : List Importer) (j0 : Nat)
    (hshort : ∃ l ∈ leaves, l.path.length < d.length)
    (hno : ∀ l ∈ leaves, d.length ≤ l.path.length →
      l.path.drop (l.path.length - d.length) ≠ d) :
    scanLeafNodes env row d i fv leaves j0 =
      .error (Error.internal Panic.sliceBoundsOutOfRange) := by
  induction leaves generalizing j0 with
  | nil => simp at hshort
  | cons l rest ih =>
    rw [scanLeafNodes_cons]
    by_cases hl : l.path.length < d.length
    · rw [if_pos hl]
    · rw [if_neg hl, if_neg (hno l (by simp) (by omega))]
      apply ih
      · obtain ⟨l', hl', hs⟩ := hshort
        simp at hl'
        rcases hl' with rfl | hl'
        · exact absurd hs hl
        · exact ⟨l', hl', hs⟩
      · exact fun l hl => hno l (by simp [hl])

/-- The update `ScanRow` makes to a field from the outcome of its leaf loop. -/
theorem scanFields_ok (env : GoEnv) (leaves : List Importer) (row : List String)
    (fields : List StructField) (i0 : Nat)
    (h : (scanFields env leaves row fields i0).2 = none) (i : Nat) (field : StructField)
    (hi : fields.get? i = some field) :
    ∃ r, scanLeafNodes env row field.path (i0 + i) field.value leaves 0 = .ok r ∧
      (scanFields env leaves row fields i0).1.get? i =
        some (match r with
          | none => field
          | some v => { field with value := some v }) := by
  induction fields generalizing i0 i with
  | nil => simp at hi
  | cons f rest ih =>
    rw [scanFields_cons] at h ⊢
    split at h
    · simp at h
    · rename_i heq
      cases i with
      | zero =>
        simp at hi; subst hi
        refine ⟨none, by simpa using heq, ?_⟩
        rfl
      | succ i =>
        obtain ⟨r, hr1, hr2⟩ := ih (i0 + 1) h i (by simpa using hi)
        refine ⟨r, ?_, ?_⟩
        · rw [← hr1]; congr 1; omega
        · simpa using hr2
    · rename_i v heq
      cases i with
      | zero =>
        simp at hi; subst hi
        refine ⟨some v, by simpa using heq, ?_⟩
        rfl
      | succ i =>
        obtain ⟨r, hr1, hr2⟩ := ih (i0 + 1) h i (by simpa using hi)
        refine ⟨r, ?_, ?_⟩
        · rw [← hr1]; congr 1; omega
        · simpa using hr2

theorem scanResponses_ok (env : GoEnv) (leaves : List Importer) (row : List String)
    (responses : List Response)
    (h : (scanResponses env leaves row responses).2 = none) (k : Nat)
    (fields : List StructField)
    (hk : responses.get? k = some (Response.structPtr fields)) :
    (scanFields env leaves row fields 0).2 = none ∧
    (scanResponses env leaves row responses).1.get? k =
      some (Response.structPtr (scanFields env leaves row fields 0).1) := by
  induction responses generalizing k with
  | nil => simp at hk
  | cons r rest ih =>
    cases r with
    | notPtr => simp [scanResponses] at h
    | structPtr fs =>
      rw [scanResponses_cons] at h ⊢
      split at h
      · simp at h
      · rename_i fs' heq
        cases k with
        | zero =>
          simp at hk; subst hk
          rw [heq]
          exact ⟨rfl, rfl⟩
        | succ k =>
          obtain ⟨h1, h2⟩ := ih h k (by simpa using hk)
          refine ⟨h1, ?_⟩
          simpa using h2

theorem scanLeafNodes_cellError (env : GoEnv) (row : List String) (d : List String) (i : Nat)
    (fv : Option Field) (leaves : List Importer) (j0 : Nat) (e : CellError)
    (h : scanLeafNodes env row d i fv leaves j0 = .error (Error.cellError e)) :
    e.paths = [] ∧ e.colIndex = (i : Int) ∧
    ∃ j leaf fld cell, leaves.get? j = some leaf ∧ e.rowIndex = ((j0 + j : Nat) : Int) ∧
      fv = some fld ∧ row.get? (j0 + j) = some cell ∧
      leaf.path.drop (leaf.path.length - d.length) = d ∧
      fld.Translate env cell leaf.colIndexStart = .error e.err := by
  induction leaves generalizing j0 with
  | nil => cases h
  | cons l rest ih =>
    rw [scanLeafNodes_cons] at h
    by_cases h1 : l.path.length < d.length
    · rw [if_pos h1] at h; cases h
    rw [if_neg h1] at h
    by_cases h2 : l.path.drop (l.path.length - d.length) = d
    · rw [if_pos h2] at h
      cases fv with
      | none => cases h
      | some fld =>
        cases hc : row.get? j0 with
        | none => rw [hc] at h; cases h
        | some cell =>
          rw [hc] at h
          dsimp only at h
          cases ht : fld.Translate env cell l.colIndexStart with
          | ok v => rw [ht] at h; cases h
          | error err =>
            rw [ht] at h
            simp only [Except.error.injEq, Error.cellError.injEq] at h
            subst h
            exact ⟨rfl, rfl, 0, l, fld, cell, rfl, rfl, rfl, hc, h2, ht⟩
    · rw [if_neg h2] at h
      obtain ⟨hp, hc, j, leaf, fld, cell, hj, hr, hf, hcell, hm, ht⟩ := ih (j0 + 1) h
      have e1 : j0 + 1 + j = j0 + (j + 1) := by omega
      rw [e1] at hr hcell
      exact ⟨hp, hc, j + 1, leaf, fld, cell, by simpa using hj, hr, hf, hcell, hm, ht⟩

theorem scanFields_cellError (env : GoEnv) (leaves : List Importer) (row : List String)
    (fields : List StructField) (i0 : Nat) (e : Error)
    (h : (scanFields env leaves row fields i0).2 = some e) :
    ∃ i field, fields.get? i = some field ∧
      scanLeafNodes env row field.path (i0 + i) field.value leaves 0 = .error e := by
  induction fields generalizing i0 with
  | nil => cases h
  | cons f rest ih =>
    rw [scanFields_cons] at h
    split at h
    · rename_i e' heq
      simp only [Option.some.injEq] at h
      subst h
      exact ⟨0, f, rfl, heq⟩
    · obtain ⟨i, field, hi, hs⟩ := ih (i0 + 1) h
      exact ⟨i + 1, field, by simpa using hi, by rw [← hs]; congr 1; omega⟩
    · obtain ⟨i, field, hi, hs⟩ := ih (i0 + 1) h
      exact ⟨i + 1, field, by simpa using hi, by rw [← hs]; congr 1; omega⟩

theorem scanResponses_cellError (env : GoEnv) (leaves : List Importer) (row : List String)
    (responses : List Response) (e : CellError)
    (h : (scanResponses env leaves row responses).2 = some (Error.cellError e)) :
    ∃ k fields, responses.get? k = some (Response.structPtr fields) ∧
      (scanFields env leaves row fields 0).2 = some (Error.cellError e) := by
  induction responses with
  | nil => cases h
  | cons r rest ih =>
    cases r with
    | notPtr => simp [scanResponses] at h
    | structPtr fs =>
      rw [scanResponses_cons] at h
      split at h
      · rename_i fs' e' heq
        simp only [Option.some.injEq] at h
        subst h
        exact ⟨0, fs, rfl, by rw [heq]⟩
      · obtain ⟨k, fields, hk, hs⟩ := ih h
        exact ⟨k + 1, fields, by simpa using hk, hs⟩

/-- C1: `ScanRow` matches by suffix and the first match wins. For a record field with
declared path `d` (the split tag), when every leaf path is at least as long as `d` and `j` is
the smallest leaf index whose trailing `len(d)` segments equal `d`, the leaf loop decodes
exactly the cell `row'[j]` of the reconciled row with the field's codec at column
`leaf_j.colIndexStart`; when `ScanRow` returns no error the field holds that `Translate`
result. Cells of later matching leaves play no part. -/
theorem scanRow_first_match (env : GoEnv) (root : Option Importer) (row : List String)
    (responses : List Response) (k : Nat) (fields : List StructField) (i : Nat)
    (tag : String) (fld : Field) (j : Nat) (leaf : Importer)
    (hk : responses.get? k = some (Response.structPtr fields))
    (hi : fields.get? i = some ⟨tag, some fld⟩)
    (hlen : ∀ l ∈ getLeafNodes root,
      (stringsSplit tag _tagPathSplitter).length ≤ l.path.length)
    (hj : (getLeafNodes root).get? j = some leaf)
    (hmatch : leaf.path.drop
      (leaf.path.length - (stringsSplit tag _tagPathSplitter).length) =
        stringsSplit tag _tagPathSplitter)
    (hfirst : ∀ j' l', j' < j → (getLeafNodes root).get? j' = some l' →
      l'.path.drop (l'.path.length - (stringsSplit tag _tagPathSplitter).length) ≠
        stringsSplit tag _tagPathSplitter) :
    ∃ cell, (reconcileRow (getLeafNodes root).length row).get? j = some cell ∧
      scanLeafNodes env (reconcileRow (getLeafNodes root).length row)
          (stringsSplit tag _tagPathSplitter) i (some fld) (getLeafNodes root) 0 =
        (match fld.Translate env cell leaf.colIndexStart with
          | .error err =>
            .error (Error.cellError
              { rowIndex := (j : Int), colIndex := (i : Int), paths := [], err := err })
          | .ok setValue => .ok (some setValue)) ∧
      ((ScanRow env root row responses).2 = none →
        ∃ v fields', fld.Translate env cell leaf.colIndexStart = .ok v ∧
          (ScanRow env root row responses).1.get? k = some (Response.structPtr fields') ∧
          fields'.get? i = some ⟨tag, some v⟩) := by
  have hjlt : j < (getLeafNodes root).length := by
    by_contra hc
    have : (getLeafNodes root).get? j = none := by
      simp only [List.get?_eq_getElem?]
      exact List.getElem?_eq_none (by omega)
    rw [this] at hj; cases hj
  have hrl := reconcileRow_length (getLeafNodes root).length row
  have hjr : j < (reconcileRow (getLeafNodes root).length row).length := by rw [hrl]; exact hjlt
  have hcell : (reconcileRow (getLeafNodes root).length row).get? j =
      some ((reconcileRow (getLeafNodes root).length row)[j]) := by
    simp [List.getElem?_eq_getElem hjr]
  have hloop := scanLeafNodes_first_match env (reconcileRow (getLeafNodes root).length row)
    (stringsSplit tag _tagPathSplitter) i fld (getLeafNodes root) 0 j leaf hlen hj hmatch hfirst
  simp only [Nat.zero_add] at hloop
  rw [hcell] at hloop
  simp only at hloop
  refine ⟨_, hcell, hloop, ?_⟩
  intro hok
  obtain ⟨hf, hr⟩ := scanResponses_ok env _ _ responses hok k fields hk
  obtain ⟨r, hr1, hr2⟩ := scanFields_ok env _ _ fields 0 hf i ⟨tag, some fld⟩ hi
  simp only [Nat.zero_add, StructField.path] at hr1
  rw [hloop] at hr1
  cases ht : fld.Translate env ((reconcileRow (getLeafNodes root).length row)[j])
      leaf.colIndexStart with
  | error err => rw [ht] at hr1; cases hr1
  | ok v =>
    rw [ht] at hr1
    simp only [Except.ok.injEq] at hr1
    subst hr1
    exact ⟨v, _, rfl, hr, hr2⟩

/-- Instance of C1 on the sample tree, whose leaves 0 and 2 both end in `a`: the field
tagged `a` is decoded from cell 0 of the reconciled row. -/
theorem scanRow_first_match_witness :
    ∃ cell, (reconcileRow (getLeafNodes (some sampleTree)).length ["x", "12", "y", "34"]).get? 0
        = some cell ∧
      scanLeafNodes sampleEnv
          (reconcileRow (getLeafNodes (some sampleTree)).length ["x", "12", "y", "34"])
          (stringsSplit "a" _tagPathSplitter) 1 (some (Field.int ⟨0, 0⟩))
          (getLeafNodes (some sampleTree)) 0 =
        (match (Field.int ⟨0, 0⟩).Translate sampleEnv cell (sampleLeaf "a" 5 ["h", "a"]).colIndexStart with
          | .error err =>
            .error (Error.cellError
              { rowIndex := ((0 : Nat) : Int), colIndex := ((1 : Nat) : Int), paths := [], err := err })
          | .ok setValue => .ok (some setValue)) ∧
      ((ScanRow sampleEnv (some sampleTree) ["x", "12", "y", "34"]
          [Response.structPtr [⟨"h|b", some (Field.str ⟨"", 0⟩)⟩, ⟨"a", some (Field.int ⟨0, 0⟩)⟩]]).2
          = none →
        ∃ v fields', (Field.int ⟨0, 0⟩).Translate sampleEnv cell
            (sampleLeaf "a" 5 ["h", "a"]).colIndexStart = .ok v ∧
          (ScanRow sampleEnv (some sampleTree) ["x", "12", "y", "34"]
            [Response.structPtr [⟨"h|b", some (Field.str ⟨"", 0⟩)⟩, ⟨"a", some (Field.int ⟨0, 0⟩)⟩]]).1.get? 0
            = some (Response.structPtr fields') ∧
          fields'.get? 1 = some ⟨"a", some v⟩) :=
  scanRow_first_match sampleEnv (some sampleTree) ["x", "12", "y", "34"]
    [Response.structPtr [⟨"h|b", some (Field.str ⟨"", 0⟩)⟩, ⟨"a", some (Field.int ⟨0, 0⟩)⟩]]
    0 _ 1 "a" (Field.int ⟨0, 0⟩) 0 (sampleLeaf "a" 5 ["h", "a"])
    rfl rfl (by decide) rfl (by decide) (by intro j' l' h; omega)


/-- C3: what `ScanRow` does when a leaf path is shorter than a declared path. For a record
with one field, if some leaf path is shorter than the declared path and no leaf matches it,
`ScanRow` does not return nil: the slice `leafNode.path[len(leafNode.path)-len(path):]`
panics and the recovered panic is returned as an internal error, the field being left at
its prior value. -/
theorem scanRow_short_leaf_panics (env : GoEnv) (root : Option Importer) (row : List String)
    (field : StructField)
    (hshort : ∃ l ∈ getLeafNodes root, l.path.length < field.path.length)
    (hno : ∀ l ∈ getLeafNodes root, field.path.length ≤ l.path.length →
      l.path.drop (l.path.length - field.path.length) ≠ field.path) :
    ScanRow env root row [Response.structPtr [field]] =
      ([Response.structPtr [field]], some (Error.internal Panic.sliceBoundsOutOfRange)) := by
  have h := scanLeafNodes_short env (reconcileRow (getLeafNodes root).length row) field.path 0
    field.value (getLeafNodes root) 0 hshort hno
  simp only [ScanRow, scanResponses_cons, scanFields_cons, h]

/-- Instance of C3: leaves `a` and `b` of depth 1 and a field declared as `x|a`. -/
theorem scanRow_short_leaf_panics_witness :
    (∃ l ∈ getLeafNodes (some shallowTree),
      l.path.length < (⟨"x|a", some (Field.str ⟨"old", 0⟩)⟩ : StructField).path.length) ∧
    (∀ l ∈ getLeafNodes (some shallowTree),
      (⟨"x|a", some (Field.str ⟨"old", 0⟩)⟩ : StructField).path.length ≤ l.path.length →
      l.path.drop (l.path.length -
          (⟨"x|a", some (Field.str ⟨"old", 0⟩)⟩ : StructField).path.length) ≠
        (⟨"x|a", some (Field.str ⟨"old", 0⟩)⟩ : StructField).path) ∧
    ScanRow sampleEnv (some shallowTree) ["1", "2"]
        [Response.structPtr [⟨"x|a", some (Field.str ⟨"old", 0⟩)⟩]] =
      ([Response.structPtr [⟨"x|a", some (Field.str ⟨"old", 0⟩)⟩]],
        some (Error.internal Panic.sliceBoundsOutOfRange)) :=
  ⟨by decide, by decide,
    scanRow_short_leaf_panics sampleEnv (some shallowTree) ["1", "2"]
      ⟨"x|a", some (Field.str ⟨"old", 0⟩)⟩ (by decide) (by decide)⟩

/-- C4: the `CellError` that `ScanRow` returns on a decode failure. Its cause is the error
of the codec applied to the matched cell, but its `paths` field is always empty, its
`rowIndex` is the index of the matched leaf among the leaves and its `colIndex` is the index
of the field in its record, not the leaf's physical column. -/
theorem scanRow_cellError_shape (env : GoEnv) (root : Option Importer) (row : List String)
    (responses : List Response) (e : CellError)
    (h : (ScanRow env root row responses).2 = some (Error.cellError e)) :
    e.paths = [] ∧
    ∃ k fields i field fld j leaf cell,
      responses.get? k = some (Response.structPtr fields) ∧
      fields.get? i = some field ∧ field.value = some fld ∧
      (getLeafNodes root).get? j = some leaf ∧
      leaf.path.drop (leaf.path.length - field.path.length) = field.path ∧
      (reconcileRow (getLeafNodes root).length row).get? j = some cell ∧
      fld.Translate env cell leaf.colIndexStart = .error e.err ∧
      e.rowIndex = (j : Int) ∧ e.colIndex = (i : Int) := by
  obtain ⟨k, fields, hk, hf⟩ := scanResponses_cellError env _ _ responses e h
  obtain ⟨i, field, hi, hs⟩ := scanFields_cellError env _ _ fields 0 _ hf
  obtain ⟨hp, hc, j, leaf, fld, cell, hj, hr, hv, hcell, hm, ht⟩ :=
    scanLeafNodes_cellError env _ _ _ _ _ 0 e hs
  simp only [Nat.zero_add] at hr hc hcell
  exact ⟨hp, k, fields, i, field, fld, j, leaf, cell, hk, hi, hv, hj, hm, hcell, ht, hr, hc⟩

/-- Instance of C4: the field declared as `b` matches the leaf in physical column 6, the
cell `x` is no integer, and the error carries row 1, column 0 and no path. -/
theorem scanRow_cellError_shape_witness :
    ScanRow sampleEnv (some sampleTree) ["1", "x", "3"]
        [Response.structPtr [⟨"b", some (Field.int ⟨0, 0⟩)⟩]] =
      ([Response.structPtr [⟨"b", some (Field.int ⟨0, 0⟩)⟩]],
        some (Error.cellError ⟨1, 0, [], GoError.numError ⟨"Atoi", "x", ErrKind.ErrSyntax⟩⟩)) ∧
    (⟨"b", some (Field.int ⟨0, 0⟩)⟩ : StructField).path = ["b"] ∧
    (getLeafNodes (some sampleTree)).map Importer.colIndexStart = [5, 6, 7] ∧
    ((⟨1, 0, [], GoError.numError ⟨"Atoi", "x", ErrKind.ErrSyntax⟩⟩ : CellError).paths = [] ∧
    ∃ k fields i field fld j leaf cell,
      [Response.structPtr [⟨"b", some (Field.int ⟨0, 0⟩)⟩]].get? k
        = some (Response.structPtr fields) ∧
      fields.get? i = some field ∧ field.value = some fld ∧
      (getLeafNodes (some sampleTree)).get? j = some leaf ∧
      leaf.path.drop (leaf.path.length - field.path.length) = field.path ∧
      (reconcileRow (getLeafNodes (some sampleTree)).length ["1", "x", "3"]).get? j
        = some cell ∧
      fld.Translate sampleEnv cell leaf.colIndexStart =
        .error (⟨1, 0, [], GoError.numError ⟨"Atoi", "x", ErrKind.ErrSyntax⟩⟩ : CellError).err ∧
      (⟨1, 0, [], GoError.numError ⟨"Atoi", "x", ErrKind.ErrSyntax⟩⟩ : CellError).rowIndex
        = (j : Int) ∧
      (⟨1, 0, [], GoError.numError ⟨"Atoi", "x", ErrKind.ErrSyntax⟩⟩ : CellError).colIndex
        = (i : Int)) :=
  ⟨by decide, by decide, by decide,
    scanRow_cellError_shape sampleEnv (some sampleTree) ["1", "x", "3"]
      [Response.structPtr [⟨"b", some (Field.int ⟨0, 0⟩)⟩]]
      ⟨1, 0, [], GoError.numError ⟨"Atoi", "x", ErrKind.ErrSyntax⟩⟩ (by decide)⟩

/-! ## `IsHeaderConsistent` -/


theorem headerFieldsLoop_cons (leafNodes : List Importer) (lastRespLength : Nat)
    (field : StructField) (rest : List StructField) (i : Nat) :
    headerFieldsLoop leafNodes lastRespLength (field :: rest) i =
      match leafNodes.get? (lastRespLength + i) with
      | none => some (false, some (Error.internal Panic.indexOutOfRange))
      | some leafNode =>
        if leafNode.path ≠ field.path then some (false, none)
        else headerFieldsLoop leafNodes lastRespLength rest (i + 1) := rfl

theorem headerResponsesLoop_cons (leafNodes : List Importer) (fields : List StructField)
    (rest : List Response) (lastRespLength : Nat) :
    headerResponsesLoop leafNodes (Response.structPtr fields :: rest) lastRespLength =
      match headerFieldsLoop leafNodes lastRespLength fields 0 with
      | some r => r
      | none => headerResponsesLoop leafNodes rest (lastRespLength + fields.length) := rfl

/-- A return from inside the field loop of `IsHeaderConsistent` reports `false`. -/
theorem headerFieldsLoop_some (leaves : List Importer) (base : Nat) (fields : List StructField)
    (i : Nat) (r : Bool × Option Error) (h : headerFieldsLoop leaves base fields i = some r) :
    r.1 = false := by
  induction fields generalizing i with
  | nil => cases h
  | cons f rest ih =>
    rw [headerFieldsLoop_cons] at h
    cases hg : leaves.get? (base + i) with
    | none => rw [hg] at h; cases h; rfl
    | some leaf =>
      rw [hg] at h
      dsimp only at h
      by_cases hp : leaf.path ≠ f.path
      · rw [if_pos hp] at h; cases h; rfl
      · rw [if_neg hp] at h; exact ih (i + 1) h

/-- The field loop runs to its end exactly when the declared paths are, in order, the
paths of the leaves from index `base + i` on. -/
theorem headerFieldsLoop_none (leaves : List Importer) (base : Nat) (fields : List StructField)
    (i : Nat) :
    headerFieldsLoop leaves base fields i = none ↔
      fields.map StructField.path <+: (leaves.drop (base + i)).map Importer.path := by
  induction fields generalizing i with
  | nil => simp [headerFieldsLoop]
  | cons f rest ih =>
    rw [headerFieldsLoop_cons]
    cases hd : leaves.drop (base + i) with
    | nil =>
      have hg : leaves.get? (base + i) = none := by
        simp only [List.get?_eq_getElem?]
        apply List.getElem?_eq_none
        have := congrArg List.length hd
        simp at this
        omega
      rw [hg]
      simp
    | cons leaf tl =>
      have hg : leaves.get? (base + i) = some leaf := by
        have := congrArg List.head? hd
        simpa [List.head?_drop] using this
      have htl : leaves.drop (base + (i + 1)) = tl := by
        have := congrArg List.tail hd
        simpa [List.tail_drop, Nat.add_assoc] using this
      rw [hg]
      dsimp only
      by_cases hp : leaf.path ≠ f.path
      · rw [if_pos hp]
        simp only [List.map_cons, reduceCtorEq, false_iff]
        intro hpre
        have := List.cons_prefix_cons.mp hpre
        exact hp this.1.symm
      · rw [if_neg hp, ih (i + 1), htl]
        simp only [ne_eq, not_not] at hp
        simp only [List.map_cons, List.cons_prefix_cons, hp, true_and]

/-- The loops of `IsHeaderConsistent` return `(true, nil)` exactly when the declared paths
of all records, in declaration order, are the paths of the leaves from index `base` on. -/
theorem headerResponsesLoop_true (leaves : List Importer) (recs : List (List StructField))
    (base : Nat) (hb : base ≤ leaves.length) :
    headerResponsesLoop leaves (recs.map Response.structPtr) base = (true, none) ↔
      recs.flatten.map StructField.path = (leaves.drop base).map Importer.path := by
  induction recs generalizing base with
  | nil =>
    simp only [List.map_nil, headerResponsesLoop, List.flatten_nil]
    by_cases h : base = leaves.length
    · simp [h]
    · simp only [ne_eq, h, not_false_eq_true, ↓reduceIte, Prod.mk.injEq, Bool.false_eq_true,
        and_true, false_iff]
      intro hc
      have := congrArg List.length hc
      simp at this
      omega
  | cons fs rest ih =>
    rw [List.map_cons, headerResponsesLoop_cons, List.flatten_cons, List.map_append]
    cases hf : headerFieldsLoop leaves base fs 0 with
    | some r =>
      dsimp only
      have hr := headerFieldsLoop_some leaves base fs 0 r hf
      constructor
      · intro h; rw [h] at hr; cases hr
      · intro h
        have hpre : fs.map StructField.path <+: (leaves.drop (base + 0)).map Importer.path := by
          rw [Nat.add_zero, ← h]; exact List.prefix_append _ _
        rw [← headerFieldsLoop_none] at hpre
        rw [hpre] at hf; cases hf
    | none =>
      dsimp only
      have hpre := (headerFieldsLoop_none leaves base fs 0).mp hf
      rw [Nat.add_zero] at hpre
      have hlen : base + fs.length ≤ leaves.length := by
        have := hpre.length_le
        simp at this
        omega
      rw [ih (base + fs.length) hlen]
      obtain ⟨t, ht⟩ := hpre
      have hdrop : (leaves.drop (base + fs.length)).map Importer.path = t := by
        have h1 : leaves.drop (base + fs.length) = (leaves.drop base).drop fs.length := by
          rw [List.drop_drop, Nat.add_comm]
        rw [h1, List.map_drop, ← ht]
        have : fs.length = (fs.map StructField.path).length := by simp
        rw [this, List.drop_left]
      rw [hdrop, ← ht]
      constructor
      · intro h; rw [h]
      · intro h; exact List.append_cancel_left h

/-- Any `true` answer of `IsHeaderConsistent` comes with a nil error. -/
theorem headerResponsesLoop_true_nil (leaves : List Importer) (responses : List Response)
    (base : Nat) (h : (headerResponsesLoop leaves responses base).1 = true) :
    (headerResponsesLoop leaves responses base).2 = none := by
  induction responses generalizing base with
  | nil =>
    simp only [headerResponsesLoop] at h ⊢
    split_ifs at h ⊢
    simp_all
  | cons r rest ih =>
    cases r with
    | notPtr => simp [headerResponsesLoop] at h
    | structPtr fs =>
      rw [headerResponsesLoop_cons] at h ⊢
      cases hf : headerFieldsLoop leaves base fs 0 with
      | some r =>
        rw [hf] at h
        dsimp only at h
        have := headerFieldsLoop_some leaves base fs 0 r hf
        rw [this] at h; cases h
      | none =>
        rw [hf] at h
        exact ih _ h

/-- Two lists of paths agree exactly when they have the same length and agree at every
index. -/
theorem paths_eq_iff (fields : List StructField) (leaves : List Importer) :
    fields.map StructField.path = leaves.map Importer.path ↔
      fields.length = leaves.length ∧
      ∀ i f l, fields.get? i = some f → leaves.get? i = some l → f.path = l.path := by
  constructor
  · intro h
    have hl : fields.length = leaves.length := by
      have := congrArg List.length h; simpa using this
    refine ⟨hl, ?_⟩
    intro i f l hf hl'
    have h1 := congrArg (fun x => x.get? i) h
    simp only [List.get?_eq_getElem?, List.getElem?_map] at h1 hf hl'
    rw [hf, hl'] at h1
    simpa using h1
  · rintro ⟨hl, h⟩
    apply List.ext_getElem?
    intro i
    simp only [List.getElem?_map]
    by_cases hi : i < fields.length
    · have hi' : i < leaves.length := hl ▸ hi
      rw [List.getElem?_eq_getElem hi, List.getElem?_eq_getElem hi']
      simp only [Option.map_some', Option.some.injEq]
      exact h i _ _ (by simp [List.getElem?_eq_getElem hi])
        (by simp [List.getElem?_eq_getElem hi'])
    · have hi' : ¬ i < leaves.length := hl ▸ hi
      rw [List.getElem?_eq_none (by omega), List.getElem?_eq_none (by omega)]
      rfl

/-- C5: `IsHeaderConsistent` is an exact positional check. For pointer-to-record
responses it returns `(true, nil)` if and only if the number of declared fields over all
responses equals the number of leaves and the `i`-th declared path equals the `i`-th leaf
path for every `i`; a `true` answer always comes with a nil error, and a differing field
count or a misaligned position yields `false`. -/
theorem isHeaderConsistent_exact (root : Option Importer) (recs : List (List StructField)) :
    (IsHeaderConsistent root (recs.map Response.structPtr) = (true, none) ↔
      recs.flatten.length = (getLeafNodes root).length ∧
      ∀ i f l, recs.flatten.get? i = some f → (getLeafNodes root).get? i = some l →
        f.path = l.path) ∧
    ((IsHeaderConsistent root (recs.map Response.structPtr)).1 = true →
      (IsHeaderConsistent root (recs.map Response.structPtr)).2 = none) ∧
    (recs.flatten.length ≠ (getLeafNodes root).length →
      (IsHeaderConsistent root (recs.map Response.structPtr)).1 = false) ∧
    ((∃ i f l, recs.flatten.get? i = some f ∧ (getLeafNodes root).get? i = some l ∧
        f.path ≠ l.path) →
      (IsHeaderConsistent root (recs.map Response.structPtr)).1 = false) := by
  have key := headerResponsesLoop_true (getLeafNodes root) recs 0 (Nat.zero_le _)
  rw [List.drop_zero, paths_eq_iff] at key
  have hnil := headerResponsesLoop_true_nil (getLeafNodes root) (recs.map Response.structPtr) 0
  have hfalse : ¬ (recs.flatten.length = (getLeafNodes root).length ∧
      ∀ i f l, recs.flatten.get? i = some f → (getLeafNodes root).get? i = some l →
        f.path = l.path) →
      (IsHeaderConsistent root (recs.map Response.structPtr)).1 = false := by
    intro hn
    cases hb : (IsHeaderConsistent root (recs.map Response.structPtr)).1 with
    | false => rfl
    | true =>
      exfalso
      apply hn
      apply key.mp
      exact Prod.ext hb (hnil hb)
  refine ⟨key, hnil, ?_, ?_⟩
  · intro hne
    exact hfalse (fun h => hne h.1)
  · rintro ⟨i, f, l, hf, hl, hne⟩
    exact hfalse (fun h => hne (h.2 i f l hf hl))

/-- C6 fails as stated: on the sample tree the declared paths `a`, `b`, `a` are as many as
the leaves and each equals the trailing segment of the leaf path at its index, yet
`IsHeaderConsistent` answers `false`. -/
theorem isHeaderConsistent_suffix_counterexample :
    (getLeafNodes (some sampleTree)).map Importer.path = [["h", "a"], ["h", "b"], ["h", "a"]] ∧
    ([⟨"a", none⟩, ⟨"b", none⟩, ⟨"a", none⟩] : List StructField).map StructField.path =
      [["a"], ["b"], ["a"]] ∧
    (∀ p ∈ List.zip [["a"], ["b"], ["a"]] [["h", "a"], ["h", "b"], ["h", "a"]],
      p.2.drop (p.2.length - p.1.length) = p.1) ∧
    IsHeaderConsistent (some sampleTree)
      [Response.structPtr [⟨"a", none⟩, ⟨"b", none⟩, ⟨"a", none⟩]] = (false, none) := by
  decide

/-- C6 as amended: `IsHeaderConsistent` compares whole paths. If the declared field count
equals the leaf count and every declared path equals the entire leaf path at the same
index it returns `(true, nil)`; if some declared path is shorter than the leaf path at its
index it returns `false`. -/
theorem isHeaderConsistent_whole_path (root : Option Importer)
    (recs : List (List StructField)) :
    ((recs.flatten.length = (getLeafNodes root).length ∧
      ∀ i f l, recs.flatten.get? i = some f → (getLeafNodes root).get? i = some l →
        f.path = l.path) →
      IsHeaderConsistent root (recs.map Response.structPtr) = (true, none)) ∧
    ((∃ i f l, recs.flatten.get? i = some f ∧ (getLeafNodes root).get? i = some l ∧
        f.path.length < l.path.length) →
      (IsHeaderConsistent root (recs.map Response.structPtr)).1 = false) := by
  have key := headerResponsesLoop_true (getLeafNodes root) recs 0 (Nat.zero_le _)
  rw [List.drop_zero, paths_eq_iff] at key
  have hnil := headerResponsesLoop_true_nil (getLeafNodes root) (recs.map Response.structPtr) 0
  refine ⟨key.mpr, ?_⟩
  rintro ⟨i, f, l, hf, hl, hlt⟩
  cases hb : (IsHeaderConsistent root (recs.map Response.structPtr)).1 with
  | false => rfl
  | true =>
    exfalso
    have := (key.mp (Prod.ext hb (hnil hb))).2 i f l hf hl
    rw [this] at hlt
    exact Nat.lt_irrefl _ hlt

/-! ## `strconv`: parsing inverts printing -/


theorem zero_toNat : '0'.toNat = 48 := by decide

theorem nine_toNat : '9'.toNat = 57 := by decide

theorem isDigit_iff (c : Char) : isDigit c = true ↔ 48 ≤ c.toNat ∧ c.toNat ≤ 57 := by
  simp [isDigit, zero_toNat, nine_toNat]

theorem digitVal_le (c : Char) (h : isDigit c = true) : digitVal c ≤ 9 := by
  rw [isDigit_iff] at h
  simp only [digitVal, zero_toNat]
  omega

theorem digitChar_spec (d : Nat) (h : d < 10) :
    isDigit (digitChar d) = true ∧ digitVal (digitChar d) = d := by
  interval_cases d <;> exact ⟨by decide, by decide⟩

theorem decimalValue_nil (n : Nat) : decimalValue [] n = n := rfl

theorem decimalValue_cons (c : Char) (cs : List Char) (n : Nat) :
    decimalValue (c :: cs) n = decimalValue cs (n * 10 + digitVal c) := rfl

theorem decimalValue_append (xs ys : List Char) (n : Nat) :
    decimalValue (xs ++ ys) n = decimalValue ys (decimalValue xs n) := by
  simp [decimalValue, List.foldl_append]

theorem decimalValue_ge (ds : List Char) (n : Nat) : n ≤ decimalValue ds n := by
  induction ds generalizing n with
  | nil => exact Nat.le_refl _
  | cons c cs ih =>
    rw [decimalValue_cons]
    have := ih (n * 10 + digitVal c)
    omega

theorem decimalValue_lt (ds : List Char) (n : Nat) (hd : ∀ c ∈ ds, isDigit c = true) :
    decimalValue ds n < (n + 1) * 10 ^ ds.length := by
  induction ds generalizing n with
  | nil => simp [decimalValue]
  | cons c cs ih =>
    rw [decimalValue_cons]
    have h1 := ih (n * 10 + digitVal c) (fun c hc => hd c (by simp [hc]))
    have h2 := digitVal_le c (hd c (by simp))
    have h3 : (n * 10 + digitVal c + 1) * 10 ^ cs.length ≤ (n + 1) * 10 ^ (c :: cs).length := by
      rw [List.length_cons, pow_succ]
      have : n * 10 + digitVal c + 1 ≤ (n + 1) * 10 := by omega
      calc (n * 10 + digitVal c + 1) * 10 ^ cs.length
          ≤ ((n + 1) * 10) * 10 ^ cs.length := Nat.mul_le_mul_right _ this
        _ = (n + 1) * (10 ^ cs.length * 10) := by ring
    omega

theorem parseUintLoop_cons (maxVal : Nat) (c : Char) (cs : List Char) (n : Nat) :
    parseUintLoop maxVal (c :: cs) n =
      if isDigit c then
        if n ≥ maxUint64 / 10 + 1 then (maxVal, some ErrKind.ErrRange)
        else if (n * 10 % 2 ^ 64 + digitVal c) % 2 ^ 64 < n * 10 % 2 ^ 64 ∨
            (n * 10 % 2 ^ 64 + digitVal c) % 2 ^ 64 > maxVal then
          (maxVal, some ErrKind.ErrRange)
        else parseUintLoop maxVal cs ((n * 10 % 2 ^ 64 + digitVal c) % 2 ^ 64)
      else (0, some ErrKind.ErrSyntax) := rfl

/-- On a string of digits `ParseUint`'s loop returns the number the string denotes, or
`maxVal` with `ErrRange` when that number exceeds `maxVal`. -/
theorem parseUintLoop_digits (maxVal : Nat) (hmax : maxVal ≤ maxUint64) (ds : List Char)
    (n : Nat) (hd : ∀ c ∈ ds, isDigit c = true) (hn : n ≤ maxVal) :
    parseUintLoop maxVal ds n =
      if decimalValue ds n ≤ maxVal then (decimalValue ds n, none)
      else (maxVal, some ErrKind.ErrRange) := by
  induction ds generalizing n with
  | nil => simp [parseUintLoop, decimalValue, hn]
  | cons c cs ih =>
    have hc := hd c (by simp)
    have hle := digitVal_le c hc
    have hge := decimalValue_ge cs (n * 10 + digitVal c)
    have hm : maxUint64 = 18446744073709551615 := by decide
    rw [hm] at hmax
    rw [parseUintLoop_cons, if_pos hc, decimalValue_cons, hm]
    by_cases h1 : n ≥ 18446744073709551615 / 10 + 1
    · rw [if_pos h1, if_neg (by omega)]
    · rw [if_neg h1]
      have e10 : n * 10 % 2 ^ 64 = n * 10 := Nat.mod_eq_of_lt (by omega)
      rw [e10]
      by_cases h2 : n * 10 + digitVal c < 2 ^ 64
      · have e1 : (n * 10 + digitVal c) % 2 ^ 64 = n * 10 + digitVal c := Nat.mod_eq_of_lt h2
        rw [e1]
        by_cases h3 : n * 10 + digitVal c > maxVal
        · rw [if_pos (Or.inr h3), if_neg (by omega)]
        · rw [if_neg (by omega)]
          exact ih _ (fun c hc => hd c (by simp [hc])) (by omega)
      · have e1 : (n * 10 + digitVal c) % 2 ^ 64 = n * 10 + digitVal c - 2 ^ 64 := by
          rw [Nat.mod_eq_sub_mod (by omega)]
          exact Nat.mod_eq_of_lt (by omega)
        rw [e1, if_pos (Or.inl (by omega)), if_neg (by omega)]

/-- What the loop of `ParseUint` can return: on `ErrRange` the value is `maxVal`, and without
an error every byte was a digit. -/
theorem parseUintLoop_result (maxVal : Nat) (ds : List Char) (n : Nat) :
    ((parseUintLoop maxVal ds n).2 = some ErrKind.ErrRange →
      (parseUintLoop maxVal ds n).1 = maxVal) ∧
    ((parseUintLoop maxVal ds n).2 = none → ∀ c ∈ ds, isDigit c = true) := by
  induction ds generalizing n with
  | nil => simp [parseUintLoop]
  | cons c cs ih =>
    rw [parseUintLoop_cons]
    by_cases hc : isDigit c = true
    · rw [if_pos hc]
      split_ifs
      · simp
      · simp
      · refine ⟨(ih _).1, fun h => ?_⟩
        intro c' hc'
        simp at hc'
        rcases hc' with rfl | hc'
        · exact hc
        · exact (ih _).2 h c' hc'
    · rw [if_neg hc]
      simp


theorem pickSign_digit (c : Char) (cs : List Char) (h : isDigit c = true) :
    pickSign (c :: cs) = (false, c :: cs) := by
  unfold pickSign
  split
  · rename_i r heq
    simp only [List.cons.injEq] at heq
    rw [heq.1] at h
    exact absurd h (by decide)
  · rename_i r heq
    simp only [List.cons.injEq] at heq
    rw [heq.1] at h
    exact absurd h (by decide)
  · rfl

/-- The three ways `pickSign` can split a text. -/
theorem pickSign_cases (l : List Char) :
    (pickSign l = (false, l) ∧ ∀ r, l ≠ '+' :: r ∧ l ≠ '-' :: r) ∨
    (l = '+' :: (pickSign l).2 ∧ (pickSign l).1 = false) ∨
    (l = '-' :: (pickSign l).2 ∧ (pickSign l).1 = true) := by
  unfold pickSign
  split
  · right; left; exact ⟨rfl, rfl⟩
  · right; right; exact ⟨rfl, rfl⟩
  · rename_i h1 h2
    left
    exact ⟨rfl, fun r => ⟨fun h => h1 r h, fun h => h2 r h⟩⟩

theorem string_eq_empty_iff (s : String) : s = "" ↔ s.data = [] := by
  constructor
  · intro h; rw [h]
  · intro h
    cases s with
    | mk d => simp only at h; subst h; rfl

theorem two_pow_facts (w : Nat) (h1 : 1 ≤ w) (h2 : w ≤ 64) :
    1 ≤ 2 ^ (w - 1) ∧ 2 ^ (w - 1) ≤ 2 ^ 63 ∧ 2 ^ w = 2 * 2 ^ (w - 1) := by
  refine ⟨Nat.one_le_two_pow, Nat.pow_le_pow_right (by omega) (by omega), ?_⟩
  have : w = (w - 1) + 1 := by omega
  conv_lhs => rw [this, pow_succ]
  omega

theorem wrapInt64_small (x : Int) (h1 : -9223372036854775808 ≤ x)
    (h2 : x < 9223372036854775808) : wrapInt 64 x = x := by
  simp only [wrapInt]
  norm_num
  omega

theorem wrapInt64_min : wrapInt 64 9223372036854775808 = -9223372036854775808 := by
  simp only [wrapInt]
  norm_num

/-- In-range values are not changed by the conversion to the `w`-bit integer type. -/
theorem wrapInt_inRange (w : Nat) (hw : 1 ≤ w) (v : Int) (h : inRange w v) :
    wrapInt w v = v := by
  have hp : (2 : Int) ^ w = 2 * (2 : Int) ^ (w - 1) := by
    have : w = (w - 1) + 1 := by omega
    conv_lhs => rw [this, pow_succ]
    ring
  unfold inRange at h
  push_cast at h
  simp only [wrapInt, hp]
  have h0 : (0 : Int) < 2 ^ (w - 1) := by positivity
  rw [Int.emod_eq_of_lt (by omega) (by omega)]
  omega

/-- `ParseInt` on a base-10 signed integer in range returns its value. -/
theorem ParseInt_of_decimal (intSize : Nat) (s : String) (bitSize w : Nat) (v : Int)
    (hw : w = if bitSize = 0 then intSize else bitSize) (hw1 : 1 ≤ w) (hw2 : w ≤ 64)
    (hd : IsDecimal s v) (hr : inRange w v) :
    ParseInt intSize s bitSize = (v, none) := by
  obtain ⟨sign, ds, hsign, hdata, hne, hdig, hv⟩ := hd
  obtain ⟨c, cs, rfl⟩ := List.exists_cons_of_ne_nil hne
  have hs : ¬ s = "" := by
    rw [string_eq_empty_iff, hdata]
    simp
  have hpick : pickSign s.data = (decide (sign = ['-']), c :: cs) := by
    rw [hdata]
    rcases hsign with rfl | rfl | rfl
    · rw [List.nil_append, pickSign_digit c cs (hdig c (by simp))]; rfl
    · rfl
    · rfl
  obtain ⟨hP1, hP2, hP3⟩ := two_pow_facts w hw1 hw2
  have hmax : 2 ^ w - 1 ≤ maxUint64 := by
    have : 2 ^ w ≤ 2 ^ 64 := Nat.pow_le_pow_right (by omega) hw2
    have hm : maxUint64 = 2 ^ 64 - 1 := rfl
    omega
  have hval : decimalValue (c :: cs) 0 ≤ 2 ^ (w - 1) ∧
      (sign ≠ ['-'] → decimalValue (c :: cs) 0 < 2 ^ (w - 1)) := by
    unfold inRange at hr
    by_cases hm : sign = ['-']
    · rw [if_pos hm] at hv
      refine ⟨by omega, fun h => absurd hm h⟩
    · rw [if_neg hm] at hv
      refine ⟨by omega, fun _ => by omega⟩
  have hloop := parseUintLoop_digits (2 ^ w - 1) hmax (c :: cs) 0 hdig (Nat.zero_le _)
  rw [if_pos (by omega)] at hloop
  have hpu : ParseUint intSize (c :: cs) bitSize = (decimalValue (c :: cs) 0, none) := by
    unfold ParseUint
    rw [if_neg (by simp)]
    simp only [← hw]
    exact hloop
  unfold ParseInt
  rw [if_neg hs]
  simp only [hpick, hpu, ← hw]
  rw [if_neg (by simp)]
  by_cases hm : sign = ['-']
  · simp only [hm, decide_True, Bool.true_eq_false, false_and, ↓reduceIte, true_and]
    rw [if_neg (by omega)]
    rw [if_pos hm] at hv
    have h63 : (2 : Nat) ^ 63 = 9223372036854775808 := by norm_num
    by_cases he : decimalValue (c :: cs) 0 = 9223372036854775808
    · rw [he] at hv ⊢
      simp only [Nat.cast_ofNat, wrapInt64_min]
      rw [show (- -9223372036854775808 : Int) = 9223372036854775808 by norm_num, wrapInt64_min]
      rw [hv]
      norm_num
    · rw [wrapInt64_small (decimalValue (c :: cs) 0 : Int) (by omega) (by omega),
        wrapInt64_small _ (by omega) (by omega), hv]
  · simp only [hm, decide_False, true_and, Bool.false_eq_true, false_and, ↓reduceIte]
    rw [if_neg hm] at hv
    have hlt := hval.2 hm
    rw [if_neg (by omega)]
    have h63 : (2 : Nat) ^ 63 = 9223372036854775808 := by norm_num
    rw [wrapInt64_small _ (by omega) (by omega), hv]


/-- When `ParseInt` returns no error its input is a base-10 signed integer in range and the
returned value is the one the text denotes. -/
theorem ParseInt_ok_decimal (intSize : Nat) (s : String) (bitSize w : Nat)
    (hw : w = if bitSize = 0 then intSize else bitSize) (hw1 : 2 ≤ w) (hw2 : w ≤ 64)
    (h : (ParseInt intSize s bitSize).2 = none) :
    IsDecimal s (ParseInt intSize s bitSize).1 ∧ inRange w (ParseInt intSize s bitSize).1 := by
  obtain ⟨hP1, hP2, hP3⟩ := two_pow_facts w (by omega) hw2
  have hP4 : 2 ≤ 2 ^ (w - 1) := by
    have : w - 1 = (w - 2) + 1 := by omega
    rw [this, pow_succ]
    have := @Nat.one_le_two_pow (w - 2)
    omega
  have hmax : 2 ^ w - 1 ≤ maxUint64 := by
    have : 2 ^ w ≤ 2 ^ 64 := Nat.pow_le_pow_right (by omega) hw2
    have hm : maxUint64 = 2 ^ 64 - 1 := rfl
    omega
  have h63 : (2 : Nat) ^ 63 = 9223372036854775808 := by norm_num
  unfold ParseInt at h ⊢
  by_cases hs : s = ""
  · rw [if_pos hs] at h; cases h
  rw [if_neg hs] at h ⊢
  simp only [← hw] at h ⊢
  by_cases hsyn : (ParseUint intSize (pickSign s.data).2 bitSize).2 = some ErrKind.ErrSyntax
  · rw [if_pos hsyn] at h; cases h
  rw [if_neg hsyn] at h ⊢
  -- the unsigned part
  have hbody : (pickSign s.data).2 ≠ [] := by
    intro hb
    apply hsyn
    simp [ParseUint, hb]
  have hpu : ParseUint intSize (pickSign s.data).2 bitSize =
      parseUintLoop (2 ^ w - 1) (pickSign s.data).2 0 := by
    unfold ParseUint
    rw [if_neg hbody]
    simp only [← hw]
  rw [hpu] at h hsyn ⊢
  have hres := parseUintLoop_result (2 ^ w - 1) (pickSign s.data).2 0
  cases herr : (parseUintLoop (2 ^ w - 1) (pickSign s.data).2 0).2 with
  | some e =>
    exfalso
    cases e with
    | ErrSyntax => exact hsyn herr
    | ErrRange =>
      have hun := hres.1 herr
      rw [hun] at h
      cases hneg : (pickSign s.data).1 with
      | false =>
        rw [hneg] at h
        rw [if_pos ⟨rfl, by omega⟩] at h
        cases h
      | true =>
        rw [hneg] at h
        rw [if_neg (by simp), if_pos ⟨rfl, by omega⟩] at h
        cases h
  | none =>
    have hdig := hres.2 herr
    have hloop := parseUintLoop_digits (2 ^ w - 1) hmax (pickSign s.data).2 0 hdig
      (Nat.zero_le _)
    have hle : decimalValue (pickSign s.data).2 0 ≤ 2 ^ w - 1 := by
      by_contra hc
      rw [if_neg hc] at hloop
      rw [hloop] at herr
      cases herr
    rw [if_pos hle] at hloop
    rw [hloop] at h ⊢
    simp only at h ⊢
    rcases pickSign_cases s.data with ⟨hp, _⟩ | ⟨hp, hn⟩ | ⟨hp, hn⟩
    · -- no sign
      have hn : (pickSign s.data).1 = false := by rw [hp]
      have hb : (pickSign s.data).2 = s.data := by rw [hp]
      rw [hn] at h ⊢
      by_cases hc : decimalValue (pickSign s.data).2 0 ≥ 2 ^ (w - 1)
      · rw [if_pos ⟨rfl, hc⟩] at h; cases h
      rw [if_neg (by simp [hc]), if_neg (by simp)]
      simp only [Bool.false_eq_true, ↓reduceIte]
      rw [wrapInt64_small _ (by omega) (by omega)]
      refine ⟨⟨[], (pickSign s.data).2, Or.inl rfl, by rw [hb]; rfl, hbody, hdig, ?_⟩, ?_⟩
      · simp
      · unfold inRange; omega
    · -- a plus sign
      rw [hn] at h ⊢
      by_cases hc : decimalValue (pickSign s.data).2 0 ≥ 2 ^ (w - 1)
      · rw [if_pos ⟨rfl, hc⟩] at h; cases h
      rw [if_neg (by simp [hc]), if_neg (by simp)]
      simp only [Bool.false_eq_true, ↓reduceIte]
      rw [wrapInt64_small _ (by omega) (by omega)]
      refine ⟨⟨['+'], (pickSign s.data).2, Or.inr (Or.inl rfl), hp, hbody, hdig, ?_⟩, ?_⟩
      · simp
      · unfold inRange; omega
    · -- a minus sign
      rw [hn] at h ⊢
      by_cases hc : decimalValue (pickSign s.data).2 0 > 2 ^ (w - 1)
      · rw [if_neg (by simp), if_pos ⟨rfl, hc⟩] at h; cases h
      rw [if_neg (by simp), if_neg (by simp [hc])]
      simp only [↓reduceIte]
      have hval : wrapInt 64 (-wrapInt 64 (decimalValue (pickSign s.data).2 0 : Int)) =
          -(decimalValue (pickSign s.data).2 0 : Int) := by
        by_cases he : decimalValue (pickSign s.data).2 0 = 9223372036854775808
        · rw [he]
          simp only [Nat.cast_ofNat, wrapInt64_min]
          rw [show (- -9223372036854775808 : Int) = 9223372036854775808 by norm_num,
            wrapInt64_min]
        · rw [wrapInt64_small (decimalValue (pickSign s.data).2 0 : Int) (by omega) (by omega),
            wrapInt64_small _ (by omega) (by omega)]
      rw [hval]
      refine ⟨⟨['-'], (pickSign s.data).2, Or.inr (Or.inr rfl), hp, hbody, hdig, ?_⟩, ?_⟩
      · simp
      · unfold inRange; omega

theorem atoiLoop_cons (ch : Char) (cs : List Char) (n : Nat) :
    atoiLoop (ch :: cs) n = if isDigit ch then atoiLoop cs (n * 10 + digitVal ch) else none :=
  rfl

theorem atoiLoop_digits (ds : List Char) (n : Nat) (hd : ∀ c ∈ ds, isDigit c = true) :
    atoiLoop ds n = some (decimalValue ds n) := by
  induction ds generalizing n with
  | nil => rfl
  | cons c cs ih =>
    rw [atoiLoop_cons, if_pos (hd c (by simp)), decimalValue_cons]
    exact ih _ (fun c hc => hd c (by simp [hc]))

theorem atoiLoop_some (ds : List Char) (n m : Nat) (h : atoiLoop ds n = some m) :
    (∀ c ∈ ds, isDigit c = true) ∧ m = decimalValue ds n := by
  induction ds generalizing n with
  | nil =>
    simp only [atoiLoop, Option.some.injEq] at h
    exact ⟨by simp, h.symm⟩
  | cons c cs ih =>
    rw [atoiLoop_cons] at h
    by_cases hc : isDigit c = true
    · rw [if_pos hc] at h
      obtain ⟨h1, h2⟩ := ih _ h
      refine ⟨?_, by rw [decimalValue_cons]; exact h2⟩
      intro c' hc'
      simp at hc'
      rcases hc' with rfl | hc'
      · exact hc
      · exact h1 c' hc'
    · rw [if_neg hc] at h; cases h

theorem utf8ByteSize_go_ge (cs : List Char) : cs.length ≤ String.utf8ByteSize.go cs := by
  induction cs with
  | nil => simp [String.utf8ByteSize.go]
  | cons c cs ih =>
    simp only [String.utf8ByteSize.go, List.length_cons]
    have := Char.utf8Size_pos c
    omega

theorem length_le_utf8ByteSize (s : String) : s.data.length ≤ s.utf8ByteSize := by
  cases s with
  | mk d => exact utf8ByteSize_go_ge d


theorem not_digit_minus : isDigit '-' = false := by decide

theorem not_digit_plus : isDigit '+' = false := by decide

/-- The fast path of `Atoi` on a base-10 signed integer returns its value. -/
theorem atoiFast_of_decimal (s : String) (v : Int) (hd : IsDecimal s v) :
    atoiFast s = (v, none) := by
  obtain ⟨sign, ds, hsign, hdata, hne, hdig, hv⟩ := hd
  obtain ⟨c, cs, rfl⟩ := List.exists_cons_of_ne_nil hne
  have hc := hdig c (by simp)
  have hloop := atoiLoop_digits (c :: cs) 0 hdig
  unfold atoiFast
  rcases hsign with rfl | rfl | rfl
  · have h1 : c ≠ '-' := fun h => by rw [h, not_digit_minus] at hc; cases hc
    have h2 : c ≠ '+' := fun h => by rw [h, not_digit_plus] at hc; cases hc
    simp only [hdata, List.nil_append, List.head?_cons, Option.some.injEq, h1, h2, or_self,
      ↓reduceIte, false_and, hloop]
    rw [hv]; simp
  · simp only [hdata, List.singleton_append, List.head?_cons, Option.some.injEq,
      List.tail_cons, List.length_cons]
    rw [hv]
    simp [hloop]
  · simp only [hdata, List.singleton_append, List.head?_cons, Option.some.injEq,
      List.tail_cons, List.length_cons]
    rw [hv]
    simp [hloop]

/-- When the fast path of `Atoi` returns no error on a non-empty text, the text is a base-10
signed integer, the value is the one it denotes, and it has fewer digits than the text has
characters. -/
theorem atoiFast_ok (s : String) (hs : s.data ≠ []) (h : (atoiFast s).2 = none) :
    IsDecimal s (atoiFast s).1 ∧
    -((10 ^ s.data.length : Nat) : Int) < (atoiFast s).1 ∧
    (atoiFast s).1 < ((10 ^ s.data.length : Nat) : Int) := by
  obtain ⟨c, cs, hdata⟩ := List.exists_cons_of_ne_nil hs
  unfold atoiFast at h ⊢
  simp only [hdata, List.head?_cons, Option.some.injEq, List.tail_cons] at h ⊢
  have hpow : ∀ ds : List Char, ds.length ≤ (c :: cs).length →
      (∀ c ∈ ds, isDigit c = true) → decimalValue ds 0 < 10 ^ (c :: cs).length := by
    intro ds hl hd
    have h1 := decimalValue_lt ds 0 hd
    have h2 : 10 ^ ds.length ≤ 10 ^ (c :: cs).length := Nat.pow_le_pow_right (by omega) hl
    omega
  by_cases hm : c = '-'
  · subst hm
    simp only [true_or, ↓reduceIte, true_and] at h ⊢
    by_cases hl : cs.length < 1
    · rw [if_pos hl] at h; cases h
    rw [if_neg hl] at h ⊢
    cases hloop : atoiLoop cs 0 with
    | none => rw [hloop] at h; cases h
    | some n =>
      obtain ⟨hdig, hn⟩ := atoiLoop_some cs 0 n hloop
      have hne : cs ≠ [] := by
        intro hc; rw [hc] at hl; simp at hl
      have hb := hpow cs (by simp) hdig
      simp only
      refine ⟨⟨['-'], cs, Or.inr (Or.inr rfl), by rw [hdata]; rfl, hne, hdig, ?_⟩, ?_, ?_⟩
      · simp [hn]
      · rw [hn]; omega
      · rw [hn]; omega
  by_cases hp : c = '+'
  · subst hp
    simp only [or_true, ↓reduceIte, true_and] at h ⊢
    by_cases hl : cs.length < 1
    · rw [if_pos hl] at h; cases h
    rw [if_neg hl] at h ⊢
    cases hloop : atoiLoop cs 0 with
    | none => rw [hloop] at h; cases h
    | some n =>
      obtain ⟨hdig, hn⟩ := atoiLoop_some cs 0 n hloop
      have hne : cs ≠ [] := by
        intro hc; rw [hc] at hl; simp at hl
      have hb := hpow cs (by simp) hdig
      have hpm : ¬ ('+' = '-') := by decide
      simp only [hpm, ↓reduceIte]
      refine ⟨⟨['+'], cs, Or.inr (Or.inl rfl), by rw [hdata]; rfl, hne, hdig, ?_⟩, ?_, ?_⟩
      · simp [hn]
      · rw [hn]; omega
      · rw [hn]; omega
  · simp only [hm, hp, or_self, ↓reduceIte, false_and] at h ⊢
    cases hloop : atoiLoop (c :: cs) 0 with
    | none => rw [hloop] at h; cases h
    | some n =>
      obtain ⟨hdig, hn⟩ := atoiLoop_some (c :: cs) 0 n hloop
      have hb := hpow (c :: cs) (Nat.le_refl _) hdig
      simp only
      refine ⟨⟨[], c :: cs, Or.inl rfl, by rw [hdata]; rfl, by simp, hdig, ?_⟩, ?_, ?_⟩
      · simp [hn]
      · rw [hn]; omega
      · rw [hn]; omega

/-- `Atoi` on a base-10 signed integer that fits `int` returns its value. -/
theorem Atoi_of_decimal (intSize : Nat) (hsize : intSize = 32 ∨ intSize = 64) (s : String)
    (v : Int) (hd : IsDecimal s v) (hr : inRange intSize v) :
    Atoi intSize s = (v, none) := by
  unfold Atoi
  simp only
  split_ifs with hfast
  · exact atoiFast_of_decimal s v hd
  · have hp := ParseInt_of_decimal intSize s 0 intSize v (by simp)
      (by rcases hsize with h | h <;> omega) (by rcases hsize with h | h <;> omega) hd hr
    rw [hp]
    simp only
    rw [wrapInt_inRange intSize (by rcases hsize with h | h <;> omega) v hr]

/-- When `Atoi` returns no error its input is a base-10 signed integer that fits `int`, and
the value is the one the text denotes. -/
theorem Atoi_ok_decimal (intSize : Nat) (hsize : intSize = 32 ∨ intSize = 64) (s : String)
    (h : (Atoi intSize s).2 = none) :
    IsDecimal s (Atoi intSize s).1 ∧ inRange intSize (Atoi intSize s).1 := by
  unfold Atoi at h ⊢
  simp only at h ⊢
  split_ifs at h ⊢ with hfast
  · have hlen := length_le_utf8ByteSize s
    have hs : s.data ≠ [] := by
      intro hc
      have : s = "" := (string_eq_empty_iff s).mpr hc
      rw [this] at hfast
      simp [String.utf8ByteSize, String.utf8ByteSize.go] at hfast
    obtain ⟨hd, hlo, hhi⟩ := atoiFast_ok s hs h
    refine ⟨hd, ?_⟩
    unfold inRange
    rcases hfast with ⟨h32, _, hl⟩ | ⟨h64, _, hl⟩
    · have hpow : 10 ^ s.data.length ≤ 10 ^ 9 := Nat.pow_le_pow_right (by omega) (by omega)
      have h9 : (10 : Nat) ^ 9 = 1000000000 := by norm_num
      have h31 : (2 : Nat) ^ (32 - 1) = 2147483648 := by norm_num
      rw [h9] at hpow
      rw [h32, h31]
      omega
    · have hpow : 10 ^ s.data.length ≤ 10 ^ 18 := Nat.pow_le_pow_right (by omega) (by omega)
      have h18 : (10 : Nat) ^ 18 = 1000000000000000000 := by norm_num
      have h63 : (2 : Nat) ^ (64 - 1) = 9223372036854775808 := by norm_num
      rw [h18] at hpow
      rw [h64, h63]
      omega
  · cases hp : (ParseInt intSize s 0).2 with
    | some e => rw [hp] at h; cases h
    | none =>
      have hw1 : 2 ≤ intSize := by rcases hsize with h | h <;> omega
      have hw2 : intSize ≤ 64 := by rcases hsize with h | h <;> omega
      obtain ⟨hd, hr⟩ := ParseInt_ok_decimal intSize s 0 intSize (by simp) hw1 hw2 hp
      simp only
      rw [wrapInt_inRange intSize (by omega) _ hr]
      exact ⟨hd, hr⟩

theorem formatBits_succ (fuel u : Nat) (acc : List Char) :
    formatBits (fuel + 1) u acc =
      if u < 10 then digitChar u :: acc
      else formatBits fuel (u / 10) (digitChar (u % 10) :: acc) := rfl

/-- With enough fuel the digit loop of `FormatUint` prepends a non-empty string of digits
that denotes `u`. -/
theorem formatBits_spec (fuel u : Nat) (acc : List Char) (h : u < fuel) :
    ∃ ds : List Char, formatBits fuel u acc = ds ++ acc ∧ ds ≠ [] ∧
      (∀ c ∈ ds, isDigit c = true) ∧ ∀ n, decimalValue ds n = n * 10 ^ ds.length + u := by
  induction fuel generalizing u acc with
  | zero => omega
  | succ fuel ih =>
    rw [formatBits_succ]
    by_cases hu : u < 10
    · rw [if_pos hu]
      obtain ⟨h1, h2⟩ := digitChar_spec u hu
      refine ⟨[digitChar u], rfl, by simp, ?_, ?_⟩
      · intro c hc
        simp at hc
        rw [hc]; exact h1
      · intro n
        simp [decimalValue, h2]
    · rw [if_neg hu]
      obtain ⟨ds, hds, hne, hdig, hval⟩ := ih (u / 10) (digitChar (u % 10) :: acc) (by omega)
      obtain ⟨h1, h2⟩ := digitChar_spec (u % 10) (Nat.mod_lt _ (by omega))
      refine ⟨ds ++ [digitChar (u % 10)], ?_, by simp, ?_, ?_⟩
      · rw [hds]; simp
      · intro c hc
        simp at hc
        rcases hc with hc | hc
        · exact hdig c hc
        · rw [hc]; exact h1
      · intro n
        rw [decimalValue_append, hval, decimalValue_cons, decimalValue_nil, h2]
        simp only [List.length_append, List.length_singleton, pow_succ]
        have := Nat.div_add_mod u 10
        linarith

/-- The decimal rendering of `n` is a base-10 signed integer denoting `n`. -/
theorem FormatInt_decimal (n : Int) : IsDecimal (FormatInt n) n := by
  unfold FormatInt formatUint
  by_cases hn : n < 0
  · rw [if_pos hn]
    obtain ⟨ds, hds, hne, hdig, hval⟩ := formatBits_spec (n.natAbs + 1) n.natAbs [] (by omega)
    rw [List.append_nil] at hds
    refine ⟨['-'], ds, Or.inr (Or.inr rfl), by rw [hds]; rfl, hne, hdig, ?_⟩
    rw [hval 0]
    simp only [↓reduceIte, Nat.zero_mul, Nat.zero_add]
    omega
  · rw [if_neg hn]
    obtain ⟨ds, hds, hne, hdig, hval⟩ := formatBits_spec (n.toNat + 1) n.toNat [] (by omega)
    rw [List.append_nil] at hds
    refine ⟨[], ds, Or.inl rfl, by rw [hds]; rfl, hne, hdig, ?_⟩
    rw [hval 0]
    simp only [Nat.zero_mul, Nat.zero_add]
    rw [if_neg (by simp)]
    omega

theorem FormatInt_ne_empty (n : Int) : FormatInt n ≠ "" := by
  obtain ⟨sign, ds, _, hdata, hne, _, _⟩ := FormatInt_decimal n
  intro h
  rw [string_eq_empty_iff, hdata] at h
  simp at h
  exact hne h.2

/-- `Int64Field.Translate` on a non-empty text: it succeeds exactly on the base-10 signed
integers that fit 64 bits, with the value the text denotes. -/
theorem int64Translate_iff (env : GoEnv) (f : Int64Field) (s : String) (c : Int) (v : Int)
    (hs : s ≠ "") :
    Int64Field.Translate env f s c = .ok ⟨v, c⟩ ↔ IsDecimal s v ∧ inRange 64 v := by
  unfold Int64Field.Translate
  rw [if_neg hs]
  constructor
  · intro h
    cases hp : (ParseInt env.intSize s 64).2 with
    | some e => rw [hp] at h; cases h
    | none =>
      rw [hp] at h
      simp only [Except.ok.injEq, Int64Field.mk.injEq, and_true] at h
      have := ParseInt_ok_decimal env.intSize s 64 64 (by simp) (by omega) (by omega) hp
      rw [h] at this
      exact this
  · rintro ⟨hd, hr⟩
    rw [ParseInt_of_decimal env.intSize s 64 64 v (by simp) (by omega) (by omega) hd hr]

/-- `IntField.Translate` on a non-empty text: it succeeds exactly on the base-10 signed
integers that fit `int`, with the value the text denotes. -/
theorem intTranslate_iff (env : GoEnv) (hsize : env.intSize = 32 ∨ env.intSize = 64)
    (f : IntField) (s : String) (c : Int) (v : Int) (hs : s ≠ "") :
    IntField.Translate env f s c = .ok ⟨v, c⟩ ↔ IsDecimal s v ∧ inRange env.intSize v := by
  unfold IntField.Translate
  rw [if_neg hs]
  constructor
  · intro h
    cases hp : (Atoi env.intSize s).2 with
    | some e => rw [hp] at h; cases h
    | none =>
      rw [hp] at h
      simp only [Except.ok.injEq, IntField.mk.injEq, and_true] at h
      have := Atoi_ok_decimal env.intSize hsize s hp
      rw [h] at this
      exact this
  · rintro ⟨hd, hr⟩
    rw [Atoi_of_decimal env.intSize hsize s v hd hr]

/-- A failed `Translate` of an integer codec returns an error and no value. -/
theorem int64Translate_error (env : GoEnv) (f : Int64Field) (s : String) (c : Int)
    (hs : s ≠ "") (h : ¬ ∃ v, IsDecimal s v ∧ inRange 64 v) :
    ∃ e, Int64Field.Translate env f s c = .error e := by
  cases hr : Int64Field.Translate env f s c with
  | error e => exact ⟨e, rfl⟩
  | ok r =>
    exfalso
    apply h
    have hc : r.colIndex = c := by
      unfold Int64Field.Translate at hr
      rw [if_neg hs] at hr
      split at hr
      · cases hr
      · cases hr; rfl
    refine ⟨r.value, (int64Translate_iff env f s c r.value hs).mp ?_⟩
    rw [hr, ← hc]

theorem intTranslate_error (env : GoEnv) (hsize : env.intSize = 32 ∨ env.intSize = 64)
    (f : IntField) (s : String) (c : Int)
    (hs : s ≠ "") (h : ¬ ∃ v, IsDecimal s v ∧ inRange env.intSize v) :
    ∃ e, IntField.Translate env f s c = .error e := by
  cases hr : IntField.Translate env f s c with
  | error e => exact ⟨e, rfl⟩
  | ok r =>
    exfalso
    apply h
    have hc : r.colIndex = c := by
      unfold IntField.Translate at hr
      rw [if_neg hs] at hr
      split at hr
      · cases hr
      · cases hr; rfl
    refine ⟨r.value, (intTranslate_iff env hsize f s c r.value hs).mp ?_⟩
    rw [hr, ← hc]

/-! ## Codecs: integers and strings -/


theorem boolTranslate_eq (b : BoolField) (t : String) (c : Int) :
    BoolField.Translate b t c = .ok ⟨decide (t = "是"), c⟩ := by
  unfold BoolField.Translate
  by_cases h : t = ""
  · subst h; simp
  · by_cases h2 : t = "是" <;> simp [h, h2]

/-- C10: the integer codecs parse base-10 signed integers. For every 64-bit integer `n`
and column `c`, `Int64Field.Translate` applied to the decimal rendering of `n` returns
`Int64Field{n, c}` with no error, and likewise `IntField.Translate` for every `int`; on a
non-empty text that is not a base-10 signed integer in range both return an error and no
value, while every text that is one (also with a `+` sign or leading zeros) is decoded to
the number it denotes; `StringField.Translate` is the identity and never fails. -/
theorem intCodecs_parse (env : GoEnv) (hsize : env.intSize = 32 ∨ env.intSize = 64) :
    (∀ (f : Int64Field) (n c : Int), inRange 64 n →
      Int64Field.Translate env f (FormatInt n) c = .ok ⟨n, c⟩) ∧
    (∀ (f : IntField) (n c : Int), inRange env.intSize n →
      IntField.Translate env f (FormatInt n) c = .ok ⟨n, c⟩) ∧
    (∀ (f : Int64Field) (s : String) (c : Int), s ≠ "" →
      (¬ ∃ v, IsDecimal s v ∧ inRange 64 v) →
      ∃ e, Int64Field.Translate env f s c = .error e) ∧
    (∀ (f : IntField) (s : String) (c : Int), s ≠ "" →
      (¬ ∃ v, IsDecimal s v ∧ inRange env.intSize v) →
      ∃ e, IntField.Translate env f s c = .error e) ∧
    (∀ (f : Int64Field) (s : String) (v c : Int), s ≠ "" → IsDecimal s v → inRange 64 v →
      Int64Field.Translate env f s c = .ok ⟨v, c⟩) ∧
    (∀ (f : IntField) (s : String) (v c : Int), s ≠ "" → IsDecimal s v →
      inRange env.intSize v → IntField.Translate env f s c = .ok ⟨v, c⟩) ∧
    (∀ (f : StringField) (s : String) (c : Int), StringField.Translate f s c = .ok ⟨s, c⟩) := by
  refine ⟨?_, ?_, ?_, ?_, ?_, ?_, ?_⟩
  · intro f n c hr
    exact (int64Translate_iff env f _ c n (FormatInt_ne_empty n)).mpr ⟨FormatInt_decimal n, hr⟩
  · intro f n c hr
    exact (intTranslate_iff env hsize f _ c n (FormatInt_ne_empty n)).mpr
      ⟨FormatInt_decimal n, hr⟩
  · intro f s c hs h
    exact int64Translate_error env f s c hs h
  · intro f s c hs h
    exact intTranslate_error env hsize f s c hs h
  · intro f s v c hs hd hr
    exact (int64Translate_iff env f s c v hs).mpr ⟨hd, hr⟩
  · intro f s v c hs hd hr
    exact (intTranslate_iff env hsize f s c v hs).mpr ⟨hd, hr⟩
  · intro f s c
    rfl

/-- Instance of C10 on a 64-bit platform: the smallest `int64` and the `int` 42 are read
back from their decimal renderings. -/
theorem intCodecs_parse_witness :
    (sampleEnv.intSize = 32 ∨ sampleEnv.intSize = 64) ∧
    inRange 64 (-9223372036854775808) ∧
    Int64Field.Translate sampleEnv ⟨0, 0⟩ (FormatInt (-9223372036854775808)) 3 =
      .ok ⟨-9223372036854775808, 3⟩ ∧
    IntField.Translate sampleEnv ⟨0, 0⟩ (FormatInt 42) 3 = .ok ⟨42, 3⟩ :=
  ⟨Or.inr rfl, by unfold inRange; norm_num,
    (intCodecs_parse sampleEnv (Or.inr rfl)).1 ⟨0, 0⟩ (-9223372036854775808) 3
      (by unfold inRange; norm_num),
    (intCodecs_parse sampleEnv (Or.inr rfl)).2.1 ⟨0, 0⟩ 42 3
      (by unfold inRange; norm_num [sampleEnv])⟩


/-! ## The boundary scan and the tree builder -/

theorem boundaryLoop_nil (root : Importer) (i : Nat) (start : Int) :
    boundaryLoop root [] i start = (start, -1, none) := rfl

theorem coords_cell (colStart row colEnd rowEnd : Int) (value : String) :
    MergeCell.coords ⟨Axis.cell colStart row, Axis.cell colEnd rowEnd, value⟩ =
      some (colStart, row, colEnd, rowEnd) := rfl

theorem coords_some (cell : MergeCell) (colStart row colEnd rowEnd : Int)
    (h : cell.coords = some (colStart, row, colEnd, rowEnd)) :
    cell = ⟨Axis.cell colStart row, Axis.cell colEnd rowEnd, cell.value⟩ := by
  obtain ⟨s, e, v⟩ := cell
  cases s <;> cases e <;> simp [MergeCell.coords] at h
  obtain ⟨h1, h2, h3, h4⟩ := h
  subst h1 h2 h3 h4
  rfl

theorem boundaryLoop_cons_none (root : Importer) (cell : MergeCell) (rest : List MergeCell)
    (i : Nat) (start : Int) (h : cell.coords = none) :
    ∃ e, boundaryLoop root (cell :: rest) i start = (start, -1, some e) := by
  obtain ⟨s, e, v⟩ := cell
  cases s with
  | malformed name => exact ⟨_, rfl⟩
  | cell c r =>
    cases e with
    | malformed name => exact ⟨_, rfl⟩
    | cell c2 r2 => simp [MergeCell.coords] at h

theorem boundaryLoop_cons_some (root : Importer) (cell : MergeCell) (rest : List MergeCell)
    (i : Nat) (start : Int) (h : cell.coords.isSome = true) :
    boundaryLoop root (cell :: rest) i start =
      if isEndSpan root cell = true then
        ((if isStartSpan root cell = true then (i : Int) else start), (i : Int), none)
      else boundaryLoop root rest (i + 1)
        (if isStartSpan root cell = true then (i : Int) else start) := by
  obtain ⟨s, e, v⟩ := cell
  cases s with
  | malformed name => simp [MergeCell.coords] at h
  | cell c r =>
    cases e with
    | malformed name => simp [MergeCell.coords] at h
    | cell c2 r2 =>
      simp only [boundaryLoop, CellNameToCoordinates, isEndSpan, isStartSpan, MergeCell.coords]
      by_cases hq : qualifies root c r c2 = true
      · simp only [hq, if_true, Bool.true_and, decide_eq_true_eq]
      · simp [hq]

theorem isEndSpan_coords (root : Importer) (cell : MergeCell) (h : isEndSpan root cell = true) :
    cell.coords.isSome = true := by
  unfold isEndSpan at h
  cases hc : cell.coords with
  | none => rw [hc] at h; simp at h
  | some x => rfl

theorem isStartSpan_coords (root : Importer) (cell : MergeCell)
    (h : isStartSpan root cell = true) : cell.coords.isSome = true := by
  unfold isStartSpan at h
  cases hc : cell.coords with
  | none => rw [hc] at h; simp at h
  | some x => rfl

theorem boundaryLoop_cons_isNone (root : Importer) (cell : MergeCell) (rest : List MergeCell)
    (i : Nat) (start : Int) (h : (boundaryLoop root (cell :: rest) i start).2.2 = none) :
    cell.coords.isSome = true := by
  cases hc : cell.coords with
  | some x => rfl
  | none =>
    obtain ⟨e, he⟩ := boundaryLoop_cons_none root cell rest i start hc
    rw [he] at h
    simp at h

/-- The shape of a run of the boundary scan that finds an end. -/
theorem boundaryLoop_found (root : Importer) :
    ∀ (cells : List MergeCell) (i : Nat) (s0 : Int),
      (boundaryLoop root cells i s0).2.2 = none → 0 ≤ (boundaryLoop root cells i s0).2.1 →
      ∃ k cellEnd, cells.get? k = some cellEnd ∧ isEndSpan root cellEnd = true ∧
        (boundaryLoop root cells i s0).2.1 = ((i + k : Nat) : Int) ∧
        (∀ j c, j < k → cells.get? j = some c →
          c.coords.isSome = true ∧ isEndSpan root c = false) ∧
        (((boundaryLoop root cells i s0).1 = s0 ∧
            ∀ j c, j ≤ k → cells.get? j = some c → isStartSpan root c = false) ∨
          (∃ m cellStart, m ≤ k ∧ cells.get? m = some cellStart ∧
            isStartSpan root cellStart = true ∧
            (boundaryLoop root cells i s0).1 = ((i + m : Nat) : Int) ∧
            ∀ j c, m < j → j ≤ k → cells.get? j = some c → isStartSpan root c = false)) := by
  intro cells
  induction cells with
  | nil =>
    intro i s0 _ h
    rw [boundaryLoop_nil] at h
    simp at h
  | cons cell rest ih =>
    intro i s0 herr hend
    have hsome := boundaryLoop_cons_isNone root cell rest i s0 herr
    rw [boundaryLoop_cons_some root cell rest i s0 hsome] at herr hend ⊢
    by_cases he : isEndSpan root cell = true
    · rw [if_pos he]
      refine ⟨0, cell, rfl, he, by simp, ?_, ?_⟩
      · intro j c hj
        omega
      · by_cases hs : isStartSpan root cell = true
        · right
          refine ⟨0, cell, le_refl _, rfl, hs, by simp [hs], ?_⟩
          intro j c h1 h2
          omega
        · left
          refine ⟨by simp [hs], ?_⟩
          intro j c hj hc
          have : j = 0 := by omega
          subst this
          simp at hc
          subst hc
          simpa using hs
    · rw [if_neg he] at herr hend ⊢
      obtain ⟨k, cellEnd, hk, hke, hkv, hbefore, hstart⟩ := ih (i + 1) _ herr hend
      refine ⟨k + 1, cellEnd, by simpa using hk, hke, ?_, ?_, ?_⟩
      · rw [hkv]
        push_cast
        ring
      · intro j c hj hc
        cases j with
        | zero =>
          simp at hc
          subst hc
          exact ⟨hsome, by simpa using he⟩
        | succ j =>
          exact hbefore j c (by omega) (by simpa using hc)
      · rcases hstart with ⟨hv, hno⟩ | ⟨m, cellStart, hm, hmc, hms, hmv, hno⟩
        · by_cases hs : isStartSpan root cell = true
          · right
            refine ⟨0, cell, by omega, rfl, hs, ?_, ?_⟩
            · rw [hv]
              simp [hs]
            · intro j c h1 h2 hc
              cases j with
              | zero => omega
              | succ j => exact hno j c (by omega) (by simpa using hc)
          · left
            refine ⟨?_, ?_⟩
            · rw [hv]
              simp [hs]
            · intro j c h1 hc
              cases j with
              | zero =>
                simp at hc
                subst hc
                simpa using hs
              | succ j => exact hno j c (by omega) (by simpa using hc)
        · right
          refine ⟨m + 1, cellStart, by omega, by simpa using hmc, hms, ?_, ?_⟩
          · rw [hmv]
            push_cast
            ring
          · intro j c h1 h2 hc
            cases j with
            | zero => omega
            | succ j => exact hno j c (by omega) (by omega) (by simpa using hc)

/-- The shape of a run of the boundary scan that finds no end. -/
theorem boundaryLoop_not_found (root : Importer) :
    ∀ (cells : List MergeCell) (i : Nat) (s0 : Int),
      (boundaryLoop root cells i s0).2.2 = none → (boundaryLoop root cells i s0).2.1 < 0 →
      (boundaryLoop root cells i s0).2.1 = -1 ∧
        ∀ c ∈ cells, c.coords.isSome = true ∧ isEndSpan root c = false := by
  intro cells
  induction cells with
  | nil =>
    intro i s0 _ _
    exact ⟨rfl, by simp⟩
  | cons cell rest ih =>
    intro i s0 herr hend
    have hsome := boundaryLoop_cons_isNone root cell rest i s0 herr
    rw [boundaryLoop_cons_some root cell rest i s0 hsome] at herr hend ⊢
    by_cases he : isEndSpan root cell = true
    · rw [if_pos he] at hend
      simp at hend
      omega
    · rw [if_neg he] at herr hend ⊢
      obtain ⟨h1, h2⟩ := ih (i + 1) _ herr hend
      refine ⟨h1, ?_⟩
      intro c hc
      rcases List.mem_cons.mp hc with rfl | hc
      · exact ⟨hsome, by simpa using he⟩
      · exact h2 c hc

/-- The boundary scan over spans that all convert and hold no end span finds no end. -/
theorem boundaryLoop_no_end (root : Importer) :
    ∀ (cells : List MergeCell) (i : Nat) (s0 : Int),
      (∀ c ∈ cells, c.coords.isSome = true ∧ isEndSpan root c = false) →
      (boundaryLoop root cells i s0).2 = (-1, none) := by
  intro cells
  induction cells with
  | nil =>
    intro i s0 _
    rfl
  | cons cell rest ih =>
    intro i s0 h
    have hc := h cell (List.mem_cons_self _ _)
    rw [boundaryLoop_cons_some root cell rest i s0 hc.1]
    simp only [hc.2, Bool.false_eq_true, if_false]
    exact ih (i + 1) _ (fun c hc => h c (List.mem_cons_of_mem _ hc))

/-- The boundary scan over spans that all convert reports no error. -/
theorem boundaryLoop_no_error (root : Importer) :
    ∀ (cells : List MergeCell) (i : Nat) (s0 : Int),
      (∀ c ∈ cells, c.coords.isSome = true) →
      (boundaryLoop root cells i s0).2.2 = none := by
  intro cells
  induction cells with
  | nil =>
    intro i s0 _
    rfl
  | cons cell rest ih =>
    intro i s0 h
    rw [boundaryLoop_cons_some root cell rest i s0 (h cell (List.mem_cons_self _ _))]
    by_cases he : isEndSpan root cell = true
    · rw [if_pos he]
    · rw [if_neg he]
      exact ih (i + 1) _ (fun c hc => h c (List.mem_cons_of_mem _ hc))

theorem buildNode_some (cell : MergeCell) (colStart row colEnd rowEnd : Int)
    (h : cell.coords = some (colStart, row, colEnd, rowEnd)) :
    buildNode cell = .ok (Importer.mk cell.value colStart colEnd row rowEnd [] []) := by
  rw [coords_some cell _ _ _ _ h]
  rfl

theorem buildNode_none (cell : MergeCell) (h : cell.coords = none) :
    ∃ e, buildNode cell = .error e := by
  obtain ⟨s, e, v⟩ := cell
  cases s with
  | malformed name => exact ⟨_, rfl⟩
  | cell c r =>
    cases e with
    | malformed name => exact ⟨_, rfl⟩
    | cell c2 r2 => simp [MergeCell.coords] at h

theorem buildLoop_nil (recurse : Importer → BuildResult) (root : Importer)
    (cells : List MergeCell) (acc : List Importer) :
    buildLoop recurse root cells [] acc = BuildResult.ok acc := rfl

/-- One turn of the loop of `buildChildNodes` on a span that converts. -/
theorem buildLoop_cons (recurse : Importer → BuildResult) (root : Importer)
    (cells : List MergeCell) (i : Nat) (rest : List Nat) (acc : List Importer)
    (cell : MergeCell) (colStart row colEnd rowEnd : Int)
    (hi : cells.get? i = some cell) (hc : cell.coords = some (colStart, row, colEnd, rowEnd)) :
    buildLoop recurse root cells (i :: rest) acc =
      match recurse (Importer.mk cell.value colStart colEnd row rowEnd
          (root.path ++ [cell.value]) []) with
      | BuildResult.ok childImporters =>
        buildLoop recurse root cells rest
          (acc ++ [Importer.mk cell.value colStart colEnd row rowEnd
            (root.path ++ [cell.value]) childImporters])
      | r => r := by
  simp only [buildLoop, hi, buildNode_some cell _ _ _ _ hc]
  rfl

/-- A turn of the loop on an index outside the span list or on a span that does not
convert does not return children. -/
theorem buildLoop_cons_bad (recurse : Importer → BuildResult) (root : Importer)
    (cells : List MergeCell) (i : Nat) (rest : List Nat) (acc : List Importer)
    (h : ∀ cell, cells.get? i = some cell → cell.coords = none) (children : List Importer) :
    buildLoop recurse root cells (i :: rest) acc ≠ BuildResult.ok children := by
  cases hi : cells.get? i with
  | none =>
    simp only [buildLoop, hi]
    intro h2
    cases h2
  | some cell =>
    obtain ⟨e, he⟩ := buildNode_none cell (h cell hi)
    simp only [buildLoop, hi, he]
    intro h2
    cases h2

theorem buildLoop_ok (recurse : Importer → BuildResult) (root : Importer)
    (cells : List MergeCell) :
    ∀ (idxs : List Nat) (acc children : List Importer),
      buildLoop recurse root cells idxs acc = BuildResult.ok children →
      ∃ new, children = acc ++ new ∧
        List.Forall₂ (loopChild recurse root cells) idxs new := by
  intro idxs
  induction idxs with
  | nil =>
    intro acc children h
    rw [buildLoop_nil] at h
    injection h with h
    exact ⟨[], by simp [h], List.Forall₂.nil⟩
  | cons i rest ih =>
    intro acc children h
    cases hi : cells.get? i with
    | none =>
      exact absurd h (buildLoop_cons_bad recurse root cells i rest acc (by intro c hc2; rw [hi] at hc2; cases hc2) children)
    | some cell =>
      cases hc : cell.coords with
      | none =>
        exact absurd h (buildLoop_cons_bad recurse root cells i rest acc
          (by intro c hc2; rw [hi] at hc2; injection hc2 with hc2; rw [← hc2]; exact hc) children)
      | some x =>
        obtain ⟨colStart, row, colEnd, rowEnd⟩ := x
        rw [buildLoop_cons recurse root cells i rest acc cell _ _ _ _ hi hc] at h
        cases hr : recurse (Importer.mk cell.value colStart colEnd row rowEnd
            (root.path ++ [cell.value]) []) with
        | ok grand =>
          rw [hr] at h
          obtain ⟨new, hnew, hall⟩ := ih _ _ h
          refine ⟨_ :: new, by rw [hnew, List.append_assoc]; rfl, List.Forall₂.cons ?_ hall⟩
          exact ⟨cell, hi, ⟨colStart, row, colEnd, rowEnd, hc, rfl, rfl, rfl, rfl, rfl, rfl⟩, hr⟩
        | error e => rw [hr] at h; simp at h
        | indexOutOfRange => rw [hr] at h; simp at h
        | outOfFuel => rw [hr] at h; simp at h

theorem buildChildNodes_zero (root : Importer) (cells : List MergeCell) :
    buildChildNodes 0 root cells = BuildResult.outOfFuel := rfl

theorem buildChildNodes_boundary_error (fuel : Nat) (root : Importer) (cells : List MergeCell)
    (e : ConvError) (h : (getChildrenColBoundary root cells).2.2 = some e) :
    buildChildNodes (fuel + 1) root cells = BuildResult.error e := by
  rw [buildChildNodes]
  rcases hb : getChildrenColBoundary root cells with ⟨s, t, err⟩
  rw [hb] at h
  simp only at h
  subst h
  rfl

theorem buildChildNodes_leaf (fuel : Nat) (root : Importer) (cells : List MergeCell)
    (h : (getChildrenColBoundary root cells).2.2 = none)
    (hend : (getChildrenColBoundary root cells).2.1 < 0) :
    buildChildNodes (fuel + 1) root cells = BuildResult.ok [] := by
  rw [buildChildNodes]
  rcases hb : getChildrenColBoundary root cells with ⟨s, t, err⟩
  rw [hb] at h hend
  simp only at h hend
  subst h
  simp only [hend, if_true]

theorem buildChildNodes_loop (fuel : Nat) (root : Importer) (cells : List MergeCell)
    (h : (getChildrenColBoundary root cells).2.2 = none)
    (hend : 0 ≤ (getChildrenColBoundary root cells).2.1) :
    buildChildNodes (fuel + 1) root cells =
      buildLoop (fun node => buildChildNodes fuel node cells) root cells
        (List.range' (getChildrenColBoundary root cells).1.toNat
          ((getChildrenColBoundary root cells).2.1.toNat + 1 -
            (getChildrenColBoundary root cells).1.toNat)) [] := by
  rw [buildChildNodes]
  rcases hb : getChildrenColBoundary root cells with ⟨s, t, err⟩
  rw [hb] at h hend
  simp only at h hend
  subst h
  have : ¬ t < 0 := by omega
  simp only [this, if_false]

theorem forall2_range {α : Type} (R : Nat → α → Prop) :
    ∀ (n s : Nat) (l : List α), List.Forall₂ R (List.range' s n) l →
      l.length = n ∧ ∀ k a, l.get? k = some a → R (s + k) a := by
  intro n
  induction n with
  | zero =>
    intro s l h
    simp only [List.range'_zero, List.forall₂_nil_left_iff] at h
    subst h
    exact ⟨rfl, by intro k a hk; simp at hk⟩
  | succ n ih =>
    intro s l h
    rw [List.range'_succ] at h
    cases h with
    | cons h1 h2 =>
      obtain ⟨hl, hk⟩ := ih (s + 1) _ h2
      refine ⟨by simp [hl], ?_⟩
      intro k a hka
      cases k with
      | zero =>
        simp at hka
        subst hka
        exact h1
      | succ k =>
        have := hk k a (by simpa using hka)
        have e : s + (k + 1) = s + 1 + k := by omega
        rw [e]
        exact this

/-- The result of the boundary scan of a parent that has an end span. -/
theorem boundary_found (root : Importer) (cells : List MergeCell)
    (herr : (getChildrenColBoundary root cells).2.2 = none)
    (hend : 0 ≤ (getChildrenColBoundary root cells).2.1) :
    ∃ s e : Nat, (getChildrenColBoundary root cells).1 = (s : Int) ∧
      (getChildrenColBoundary root cells).2.1 = (e : Int) ∧ s ≤ e ∧
      (∃ cellEnd, cells.get? e = some cellEnd ∧ isEndSpan root cellEnd = true) ∧
      (∀ j c, j < e → cells.get? j = some c →
        c.coords.isSome = true ∧ isEndSpan root c = false) ∧
      ((s = 0 ∧ ∀ j c, j ≤ e → cells.get? j = some c → isStartSpan root c = false) ∨
        (∃ cellStart, cells.get? s = some cellStart ∧ isStartSpan root cellStart = true ∧
          ∀ j c, s < j → j ≤ e → cells.get? j = some c → isStartSpan root c = false)) := by
  obtain ⟨k, cellEnd, hk, hke, hkv, hbefore, hstart⟩ :=
    boundaryLoop_found root cells 0 0 herr hend
  rw [Nat.zero_add] at hkv
  rcases hstart with ⟨hv, hno⟩ | ⟨m, cellStart, hm, hmc, hms, hmv, hno⟩
  · exact ⟨0, k, hv, hkv, Nat.zero_le _, ⟨cellEnd, hk, hke⟩, hbefore, Or.inl ⟨rfl, hno⟩⟩
  · rw [Nat.zero_add] at hmv
    exact ⟨m, k, hmv, hkv, hm, ⟨cellEnd, hk, hke⟩, hbefore, Or.inr ⟨cellStart, hmc, hms, hno⟩⟩

/-- A scan without error finds no end exactly when no span is an end span. -/
theorem boundary_not_found_iff (root : Importer) (cells : List MergeCell)
    (herr : (getChildrenColBoundary root cells).2.2 = none) :
    (getChildrenColBoundary root cells).2.1 < 0 ↔ ∀ c ∈ cells, isEndSpan root c = false := by
  constructor
  · intro h c hc
    exact ((boundaryLoop_not_found root cells 0 0 herr h).2 c hc).2
  · intro h
    by_contra hneg
    obtain ⟨s, e, _, _, _, ⟨cellEnd, hce, hcee⟩, _⟩ :=
      boundary_found root cells herr (by omega)
    have := h cellEnd (List.get?_mem hce)
    rw [this] at hcee
    cases hcee

/-- The children of a parent are the nodes of the spans at the indices `start..end`. -/
theorem buildChildNodes_ok_range (fuel : Nat) (root : Importer) (cells : List MergeCell)
    (children : List Importer)
    (h : buildChildNodes (fuel + 1) root cells = BuildResult.ok children)
    (herr : (getChildrenColBoundary root cells).2.2 = none)
    (hend : 0 ≤ (getChildrenColBoundary root cells).2.1) (s e : Nat)
    (hs : (getChildrenColBoundary root cells).1 = (s : Int))
    (he : (getChildrenColBoundary root cells).2.1 = (e : Int)) :
    children.length = e + 1 - s ∧
      ∀ k child, children.get? k = some child →
        loopChild (fun node => buildChildNodes fuel node cells) root cells (s + k) child := by
  rw [buildChildNodes_loop fuel root cells herr hend, hs, he] at h
  obtain ⟨new, hnew, hall⟩ := buildLoop_ok _ root cells _ _ _ h
  rw [List.nil_append] at hnew
  subst hnew
  simp only [Int.toNat_ofNat] at hall
  exact forall2_range _ _ _ _ hall

theorem buildChildNodes_boundary_ok (fuel : Nat) (root : Importer) (cells : List MergeCell)
    (children : List Importer) (h : buildChildNodes fuel root cells = BuildResult.ok children) :
    (getChildrenColBoundary root cells).2.2 = none ∧ ∃ fuel', fuel = fuel' + 1 := by
  cases fuel with
  | zero => rw [buildChildNodes_zero] at h; cases h
  | succ fuel =>
    refine ⟨?_, fuel, rfl⟩
    cases herr : (getChildrenColBoundary root cells).2.2 with
    | none => rfl
    | some e =>
      rw [buildChildNodes_boundary_error fuel root cells e herr] at h
      cases h

theorem pathsFollow_mk (pp : List String) (v : String) (a b c d : Int) (p : List String)
    (cs : List Importer) :
    pathsFollow pp (.mk v a b c d p cs) ↔ p = pp ++ [v] ∧ pathsFollowList p cs := by
  simp only [pathsFollow]

theorem pathsFollowList_nil (pp : List String) : pathsFollowList pp [] ↔ True := by
  simp only [pathsFollowList]

theorem pathsFollowList_cons (pp : List String) (c : Importer) (cs : List Importer) :
    pathsFollowList pp (c :: cs) ↔ pathsFollow pp c ∧ pathsFollowList pp cs := by
  simp only [pathsFollowList]

theorem pathsFollowList_iff (pp : List String) (cs : List Importer) :
    pathsFollowList pp cs ↔ ∀ c ∈ cs, pathsFollow pp c := by
  induction cs with
  | nil => simp [pathsFollowList_nil]
  | cons c cs ih => simp [pathsFollowList_cons, ih]

theorem pathsFollow_iff (pp : List String) (n : Importer) :
    pathsFollow pp n ↔ n.path = pp ++ [n.value] ∧ pathsFollowList n.path n.childImporters := by
  cases n with
  | mk v a b c d p cs => exact pathsFollow_mk pp v a b c d p cs

/-- The path invariant holds between a parent and the children that `buildChildNodes`
gives it, and below them. -/
theorem buildChildNodes_pathsFollow :
    ∀ (fuel : Nat) (root : Importer) (cells : List MergeCell) (children : List Importer),
      buildChildNodes fuel root cells = BuildResult.ok children →
      pathsFollowList root.path children := by
  intro fuel
  induction fuel with
  | zero =>
    intro root cells children h
    rw [buildChildNodes_zero] at h
    cases h
  | succ fuel ih =>
    intro root cells children h
    obtain ⟨herr, _⟩ := buildChildNodes_boundary_ok _ root cells children h
    by_cases hend : (getChildrenColBoundary root cells).2.1 < 0
    · rw [buildChildNodes_leaf fuel root cells herr hend] at h
      injection h with h
      subst h
      exact (pathsFollowList_nil _).mpr trivial
    · have hend' : 0 ≤ (getChildrenColBoundary root cells).2.1 := by omega
      obtain ⟨s, e, hs, he, _⟩ := boundary_found root cells herr hend'
      obtain ⟨_, hch⟩ :=
        buildChildNodes_ok_range fuel root cells children h herr hend' s e hs he
      rw [pathsFollowList_iff]
      intro c hc
      obtain ⟨k, hk⟩ := List.get?_of_mem hc
      obtain ⟨cell, _, ⟨_, _, _, _, _, hv, _, _, _, _, hp⟩, hrec⟩ := hch k c hk
      rw [pathsFollow_iff]
      refine ⟨by rw [hp, hv], ?_⟩
      exact ih (Importer.mk c.value c.colIndexStart c.colIndexEnd c.rowIndexStart
        c.rowIndexEnd c.path []) cells _ hrec

theorem chainsOf_mk (chain : List String) (v : String) (a b c d : Int) (p : List String)
    (cs : List Importer) :
    chainsOf chain (.mk v a b c d p cs) =
      (chain ++ [v], .mk v a b c d p cs) :: chainsOfList (chain ++ [v]) cs := by
  simp only [chainsOf]

theorem chainsOfList_nil (chain : List String) : chainsOfList chain [] = [] := by
  simp only [chainsOfList]

theorem chainsOfList_cons (chain : List String) (c : Importer) (cs : List Importer) :
    chainsOfList chain (c :: cs) = chainsOf chain c ++ chainsOfList chain cs := by
  simp only [chainsOfList]

mutual
/-- Under the path invariant the path of a node is the chain of values that leads to it. -/
theorem chainsOf_path : ∀ (pp : List String) (n : Importer), pathsFollow pp n →
    ∀ x ∈ chainsOf pp n, x.2.path = x.1
  | pp, .mk v a b c d p cs, h, x, hx => by
    rw [pathsFollow_mk] at h
    rw [chainsOf_mk, List.mem_cons] at hx
    rcases hx with rfl | hx
    · exact h.1
    · exact chainsOfList_path (pp ++ [v]) cs (h.1 ▸ h.2) x hx
/-- Under the path invariant the path of each node of a list of trees is its chain. -/
theorem chainsOfList_path : ∀ (pp : List String) (cs : List Importer),
    pathsFollowList pp cs → ∀ x ∈ chainsOfList pp cs, x.2.path = x.1
  | pp, [], _, x, hx => by
    rw [chainsOfList_nil] at hx
    cases hx
  | pp, c :: cs, h, x, hx => by
    rw [pathsFollowList_cons] at h
    rw [chainsOfList_cons, List.mem_append] at hx
    rcases hx with hx | hx
    · exact chainsOf_path pp c h.1 x hx
    · exact chainsOfList_path pp cs h.2 x hx
end

theorem buildLoop_cons_bad_eq (rec1 rec2 : Importer → BuildResult) (root : Importer)
    (cells : List MergeCell) (i : Nat) (rest : List Nat) (acc : List Importer)
    (h : ∀ cell, cells.get? i = some cell → cell.coords = none) :
    buildLoop rec1 root cells (i :: rest) acc = buildLoop rec2 root cells (i :: rest) acc := by
  cases hi : cells.get? i with
  | none => simp only [buildLoop, hi]
  | some cell =>
    obtain ⟨e, he⟩ := buildNode_none cell (h cell hi)
    simp only [buildLoop, hi, he]

/-- The loop of `buildChildNodes` returns the same with a recursive call that returns the
same wherever the first one has not run out of fuel. -/
theorem buildLoop_mono (rec1 rec2 : Importer → BuildResult) (root : Importer)
    (cells : List MergeCell)
    (hrec : ∀ node, rec1 node ≠ BuildResult.outOfFuel → rec2 node = rec1 node) :
    ∀ (idxs : List Nat) (acc : List Importer),
      buildLoop rec1 root cells idxs acc ≠ BuildResult.outOfFuel →
      buildLoop rec2 root cells idxs acc = buildLoop rec1 root cells idxs acc := by
  intro idxs
  induction idxs with
  | nil =>
    intro acc _
    rfl
  | cons i rest ih =>
    intro acc h
    by_cases hbad : ∀ cell, cells.get? i = some cell → cell.coords = none
    · exact buildLoop_cons_bad_eq rec2 rec1 root cells i rest acc hbad
    · push_neg at hbad
      obtain ⟨cell, hi, hc⟩ := hbad
      cases hx : cell.coords with
      | none => exact absurd hx hc
      | some x =>
        obtain ⟨colStart, row, colEnd, rowEnd⟩ := x
        rw [buildLoop_cons rec1 root cells i rest acc cell _ _ _ _ hi hx] at h ⊢
        rw [buildLoop_cons rec2 root cells i rest acc cell _ _ _ _ hi hx]
        have hr := hrec (Importer.mk cell.value colStart colEnd row rowEnd
          (root.path ++ [cell.value]) [])
        cases h1 : rec1 (Importer.mk cell.value colStart colEnd row rowEnd
          (root.path ++ [cell.value]) []) with
        | ok grand =>
          rw [h1] at h hr
          rw [hr (by intro hh; cases hh)]
          exact ih _ h
        | error e =>
          rw [h1] at hr
          rw [hr (by intro hh; cases hh)]
        | indexOutOfRange =>
          rw [h1] at hr
          rw [hr (by intro hh; cases hh)]
        | outOfFuel =>
          rw [h1] at h
          exact absurd rfl h

/-- More fuel does not change what `buildChildNodes` returns once it returns. -/
theorem buildChildNodes_fuel_succ :
    ∀ (fuel : Nat) (root : Importer) (cells : List MergeCell),
      buildChildNodes fuel root cells ≠ BuildResult.outOfFuel →
      buildChildNodes (fuel + 1) root cells = buildChildNodes fuel root cells := by
  intro fuel
  induction fuel with
  | zero =>
    intro root cells h
    exact absurd (buildChildNodes_zero root cells) h
  | succ fuel ih =>
    intro root cells h
    cases herr : (getChildrenColBoundary root cells).2.2 with
    | some e =>
      rw [buildChildNodes_boundary_error _ root cells e herr,
        buildChildNodes_boundary_error _ root cells e herr]
    | none =>
      by_cases hend : (getChildrenColBoundary root cells).2.1 < 0
      · rw [buildChildNodes_leaf _ root cells herr hend,
          buildChildNodes_leaf _ root cells herr hend]
      · have hend' : 0 ≤ (getChildrenColBoundary root cells).2.1 := by omega
        rw [buildChildNodes_loop _ root cells herr hend'] at h ⊢
        rw [buildChildNodes_loop _ root cells herr hend']
        exact buildLoop_mono _ _ root cells (fun node hn => ih node cells hn) _ _ h

theorem buildChildNodes_fuel_le (root : Importer) (cells : List MergeCell) (fuel : Nat)
    (h : buildChildNodes fuel root cells ≠ BuildResult.outOfFuel) :
    ∀ more, buildChildNodes (fuel + more) root cells = buildChildNodes fuel root cells := by
  intro more
  induction more with
  | zero => rfl
  | succ more ih =>
    rw [← Nat.add_assoc, buildChildNodes_fuel_succ _ root cells (by rw [ih]; exact h), ih]

/-- C11: in a tree that `buildChildNodes` has built below `root`, the path of each node is
the path of its parent followed by the node's own value; below a root with an empty
path, the path of a node is the list of the values on the chain from the root's child
down to the node, so its length is the depth of the node. -/
theorem buildChildNodes_path_invariant (fuel : Nat) (root : Importer)
    (cells : List MergeCell) (children : List Importer)
    (h : buildChildNodes fuel root cells = BuildResult.ok children) :
    pathsFollowList root.path children ∧
    (root.path = [] → ∀ x ∈ chainsOfList [] children,
      x.2.path = x.1 ∧ x.2.path.length = x.1.length) ∧
    (∀ more, buildChildNodes (fuel + more) root cells = BuildResult.ok children) := by
  have hp := buildChildNodes_pathsFollow fuel root cells children h
  refine ⟨hp, ?_, fun more => by
    rw [buildChildNodes_fuel_le root cells fuel (by rw [h]; intro hh; cases hh) more, h]⟩
  intro hroot x hx
  rw [hroot] at hp
  have := chainsOfList_path [] children hp x hx
  exact ⟨this, by rw [this]⟩

/-- C11 on the header of `excel_test.go`: the leaves below the group `字段` have the
paths `字段|字段1` to `字段|字段5`, of length 2. -/
theorem buildChildNodes_path_invariant_witness :
    getHeadersFromRow fieldRows = .ok fieldSpans ∧
    buildChildNodes 3 (sheetRoot "Sheet1" 5) fieldSpans = BuildResult.ok fieldTree ∧
    pathsFollowList (sheetRoot "Sheet1" 5).path fieldTree ∧
    (∀ x ∈ chainsOfList [] fieldTree, x.2.path = x.1 ∧ x.2.path.length = x.1.length) ∧
    (leafNodesOfChildren fieldTree).map (fun n => n.path.length) = [2, 2, 2, 2, 2] :=
  ⟨by decide, rfl,
    (buildChildNodes_path_invariant 3 (sheetRoot "Sheet1" 5) fieldSpans fieldTree rfl).1,
    (buildChildNodes_path_invariant 3 (sheetRoot "Sheet1" 5) fieldSpans fieldTree rfl).2.1 rfl,
    rfl⟩


/-- C13 (the code departs from the claim): on the spans of the header rows `["a", "b"]`
and `["c", "d", "e"]` and the root of a sheet with three columns, the first qualifying
span whose `colStart` is the root's is the span `a` at index 0, but
`getChildrenColBoundary` returns `start = 2`, the index of the span `c` on the second
row: `start` is assigned again at every qualifying span that starts at the column of the
root. `buildChildNodes` then builds the spans 2 to 4 only, and the first header row is
not in the tree. -/
theorem getChildrenColBoundary_first_start_counterexample :
    getHeadersFromRow raggedRows = .ok raggedSpans ∧
    raggedSpans.get? 0 = some (cellSpan 1 1 "a") ∧
    isStartSpan (sheetRoot "Sheet1" 3) (cellSpan 1 1 "a") = true ∧
    getChildrenColBoundary (sheetRoot "Sheet1" 3) raggedSpans = (2, 4, none) ∧
    buildChildNodes 2 (sheetRoot "Sheet1" 3) raggedSpans =
      BuildResult.ok [.mk "c" 1 1 2 2 ["c"] [], .mk "d" 2 2 2 2 ["d"] [],
        .mk "e" 3 3 2 2 ["e"] []] :=
  ⟨by decide, by decide, by decide, by decide, rfl⟩

/-- What the scan of `getChildrenColBoundary` returns when it meets no conversion error:
`end` is the index of the first qualifying span whose `colEnd` equals the parent's
`colEnd`, and `start` is the index of the last qualifying span at or before `end` whose
`colStart` equals the parent's `colStart` (0 when there is none); `end` is negative
exactly when no qualifying span ends at the parent's `colEnd`, and then `end = -1` and
`buildChildNodes` gives the parent no children. -/
theorem getChildrenColBoundary_last_start (root : Importer) (cells : List MergeCell)
    (herr : (getChildrenColBoundary root cells).2.2 = none) :
    (0 ≤ (getChildrenColBoundary root cells).2.1 →
      ∃ s e : Nat, (getChildrenColBoundary root cells).1 = (s : Int) ∧
        (getChildrenColBoundary root cells).2.1 = (e : Int) ∧ s ≤ e ∧
        (∃ cellEnd, cells.get? e = some cellEnd ∧ isEndSpan root cellEnd = true) ∧
        (∀ j c, j < e → cells.get? j = some c →
          c.coords.isSome = true ∧ isEndSpan root c = false) ∧
        ((s = 0 ∧ ∀ j c, j ≤ e → cells.get? j = some c → isStartSpan root c = false) ∨
          (∃ cellStart, cells.get? s = some cellStart ∧ isStartSpan root cellStart = true ∧
            ∀ j c, s < j → j ≤ e → cells.get? j = some c → isStartSpan root c = false))) ∧
    ((getChildrenColBoundary root cells).2.1 < 0 ↔
      ∀ c ∈ cells, isEndSpan root c = false) ∧
    ((getChildrenColBoundary root cells).2.1 < 0 →
      (getChildrenColBoundary root cells).2.1 = -1 ∧
      ∀ fuel, buildChildNodes (fuel + 1) root cells = BuildResult.ok []) := by
  refine ⟨boundary_found root cells herr, boundary_not_found_iff root cells herr, ?_⟩
  intro h
  exact ⟨(boundaryLoop_not_found root cells 0 0 herr h).1,
    fun fuel => buildChildNodes_leaf fuel root cells herr h⟩

/-- On the spans of `raggedRows`: the scan of the sheet root meets no
error, and the scan of the leaf `e` finds no end. -/
theorem getChildrenColBoundary_last_start_witness :
    (getChildrenColBoundary (sheetRoot "Sheet1" 3) raggedSpans).2.2 = none ∧
    ((getChildrenColBoundary (sheetRoot "Sheet1" 3) raggedSpans).2.1 < 0 ↔
      ∀ c ∈ raggedSpans, isEndSpan (sheetRoot "Sheet1" 3) c = false) :=
  ⟨by decide, (getChildrenColBoundary_last_start (sheetRoot "Sheet1" 3) raggedSpans
    (by decide)).2.1⟩

/-- C12 (the code departs from the claim): on the spans of the three header rows of
`crossingRows` the node `P` (columns 2 to 3 of row 1) gets the children `y`, `z`, `w`,
`p`, `q`, and the spans of `z` (columns 3 to 4), `w` (column 5) and `p` (columns 1 to 2)
do not lie inside the columns of `P`: the loop of `buildChildNodes` builds a node from
every span between `start` and `end` and does not apply the test of
`getChildrenColBoundary` to them. -/
theorem buildChildNodes_outside_span_counterexample :
    getHeadersFromRow crossingRows = .ok crossingSpans ∧
    buildChildNodes 3 crossingP crossingSpans = BuildResult.ok crossingChildren ∧
    crossingSpans.get? 6 = some ⟨Axis.cell 3 2, Axis.cell 4 2, "z"⟩ ∧
    isChildSpan crossingP ⟨Axis.cell 3 2, Axis.cell 4 2, "z"⟩ = false ∧
    isChildSpan crossingP (cellSpan 5 2 "w") = false ∧
    isChildSpan crossingP ⟨Axis.cell 1 3, Axis.cell 2 3, "p"⟩ = false ∧
    (∃ o Q R, buildChildNodes 4 (sheetRoot "Sheet1" 5) crossingSpans =
      BuildResult.ok [o, .mk "P" 2 3 1 1 ["P"] crossingChildren, Q, R]) :=
  ⟨by decide, rfl, rfl, rfl, rfl, rfl, ⟨_, _, _, rfl⟩⟩

/-- The children that `buildChildNodes` gives a parent are the nodes of the
spans at the indices `start..end` of `getChildrenColBoundary`, one for each index and in
that order, whether the spans in between qualify or not; the span at `end` is a
qualifying span that ends at the parent's `colEnd`, and the span at `start` is a
qualifying span that starts at the parent's `colStart` unless no such span was scanned
and `start` is 0. A parent whose scan finds no end gets no children. -/
theorem buildChildNodes_children_range (fuel : Nat) (root : Importer)
    (cells : List MergeCell) (children : List Importer)
    (h : buildChildNodes fuel root cells = BuildResult.ok children) :
    ((getChildrenColBoundary root cells).2.1 < 0 → children = []) ∧
    (0 ≤ (getChildrenColBoundary root cells).2.1 →
      ∃ s e : Nat, (getChildrenColBoundary root cells).1 = (s : Int) ∧
        (getChildrenColBoundary root cells).2.1 = (e : Int) ∧ s ≤ e ∧
        children.length = e + 1 - s ∧
        (∀ k child, children.get? k = some child →
          ∃ cell, cells.get? (s + k) = some cell ∧ builtFrom root cell child) ∧
        (∀ k cell, k < e + 1 - s → cells.get? (s + k) = some cell →
          ∃ child, children.get? k = some child ∧ builtFrom root cell child) ∧
        (∃ cellEnd, cells.get? e = some cellEnd ∧ isEndSpan root cellEnd = true) ∧
        ((∃ cellStart, cells.get? s = some cellStart ∧ isStartSpan root cellStart = true) ∨
          (s = 0 ∧ ∀ j c, j ≤ e → cells.get? j = some c → isStartSpan root c = false))) := by
  obtain ⟨herr, fuel', hf⟩ := buildChildNodes_boundary_ok fuel root cells children h
  subst hf
  constructor
  · intro hend
    rw [buildChildNodes_leaf fuel' root cells herr hend] at h
    injection h with h
    exact h.symm
  · intro hend
    obtain ⟨s, e, hs, he, hse, hcE, _, hstart⟩ := boundary_found root cells herr hend
    obtain ⟨hlen, hch⟩ := buildChildNodes_ok_range fuel' root cells children h herr hend s e hs he
    refine ⟨s, e, hs, he, hse, hlen, ?_, ?_, hcE, ?_⟩
    · intro k child hk
      obtain ⟨cell, hc, hb, _⟩ := hch k child hk
      exact ⟨cell, hc, hb⟩
    · intro k cell hk hc
      have hlt : k < children.length := by omega
      refine ⟨children.get ⟨k, hlt⟩, List.get?_eq_get hlt, ?_⟩
      obtain ⟨cell', hc', hb, _⟩ := hch k _ (List.get?_eq_get hlt)
      rw [hc] at hc'
      injection hc' with hc'
      rw [hc']
      exact hb
    · rcases hstart with ⟨h0, hno⟩ | ⟨cellStart, hc, hcs, _⟩
      · exact Or.inr ⟨h0, hno⟩
      · exact Or.inl ⟨cellStart, hc, hcs⟩

/-- On the spans of `crossingRows` and the parent `P`. -/
theorem buildChildNodes_children_range_witness :
    buildChildNodes 3 crossingP crossingSpans = BuildResult.ok crossingChildren ∧
    (0 ≤ (getChildrenColBoundary crossingP crossingSpans).2.1 →
      ∃ s e : Nat, (getChildrenColBoundary crossingP crossingSpans).1 = (s : Int) ∧
        (getChildrenColBoundary crossingP crossingSpans).2.1 = (e : Int) ∧ s ≤ e ∧
        crossingChildren.length = e + 1 - s ∧
        (∀ k child, crossingChildren.get? k = some child →
          ∃ cell, crossingSpans.get? (s + k) = some cell ∧ builtFrom crossingP cell child) ∧
        (∀ k cell, k < e + 1 - s → crossingSpans.get? (s + k) = some cell →
          ∃ child, crossingChildren.get? k = some child ∧ builtFrom crossingP cell child) ∧
        (∃ cellEnd, crossingSpans.get? e = some cellEnd ∧
          isEndSpan crossingP cellEnd = true) ∧
        ((∃ cellStart, crossingSpans.get? s = some cellStart ∧
            isStartSpan crossingP cellStart = true) ∨
          (s = 0 ∧ ∀ j c, j ≤ e → crossingSpans.get? j = some c →
            isStartSpan crossingP c = false))) :=
  ⟨rfl, (buildChildNodes_children_range 3 crossingP crossingSpans crossingChildren rfl).2⟩

theorem buildLoop_no_error (recurse : Importer → BuildResult) (root : Importer)
    (cells : List MergeCell)
    (hrec : ∀ node, (∃ children, recurse node = BuildResult.ok children) ∨
      recurse node = BuildResult.outOfFuel) :
    ∀ (idxs : List Nat) (acc : List Importer),
      (∀ i ∈ idxs, ∃ cell, cells.get? i = some cell ∧ cell.coords.isSome = true) →
      (∃ children, buildLoop recurse root cells idxs acc = BuildResult.ok children) ∨
        buildLoop recurse root cells idxs acc = BuildResult.outOfFuel := by
  intro idxs
  induction idxs with
  | nil =>
    intro acc _
    exact Or.inl ⟨acc, rfl⟩
  | cons i rest ih =>
    intro acc h
    obtain ⟨cell, hi, hc⟩ := h i (List.mem_cons_self _ _)
    cases hx : cell.coords with
    | none => rw [hx] at hc; cases hc
    | some x =>
      obtain ⟨colStart, row, colEnd, rowEnd⟩ := x
      rw [buildLoop_cons recurse root cells i rest acc cell _ _ _ _ hi hx]
      rcases hrec (Importer.mk cell.value colStart colEnd row rowEnd
        (root.path ++ [cell.value]) []) with ⟨grand, hg⟩ | hg
      · rw [hg]
        exact ih _ (fun j hj => h j (List.mem_cons_of_mem _ hj))
      · rw [hg]
        exact Or.inr rfl

/-- On spans that all convert, `buildChildNodes` returns no error and reads no index
outside the span list, whatever the geometry of the spans. -/
theorem buildChildNodes_no_error :
    ∀ (fuel : Nat) (root : Importer) (cells : List MergeCell),
      (∀ c ∈ cells, c.coords.isSome = true) →
      (∃ children, buildChildNodes fuel root cells = BuildResult.ok children) ∨
        buildChildNodes fuel root cells = BuildResult.outOfFuel := by
  intro fuel
  induction fuel with
  | zero =>
    intro root cells _
    exact Or.inr rfl
  | succ fuel ih =>
    intro root cells h
    have herr := boundaryLoop_no_error root cells 0 0 h
    by_cases hend : (getChildrenColBoundary root cells).2.1 < 0
    · rw [buildChildNodes_leaf fuel root cells herr hend]
      exact Or.inl ⟨[], rfl⟩
    · have hend' : 0 ≤ (getChildrenColBoundary root cells).2.1 := by omega
      obtain ⟨s, e, hs, he, hse, ⟨cellEnd, hce, _⟩, _⟩ := boundary_found root cells herr hend'
      rw [buildChildNodes_loop fuel root cells herr hend', hs, he]
      simp only [Int.toNat_ofNat]
      apply buildLoop_no_error _ root cells (fun node => ih node cells h)
      intro i hi
      rw [List.mem_range'_1] at hi
      have hlen : e < cells.length := by
        by_contra hcon
        rw [List.get?_eq_none.mpr (by omega)] at hce
        cases hce
      have hil : i < cells.length := by omega
      exact ⟨cells.get ⟨i, hil⟩, List.get?_eq_get hil, h _ (List.get_mem _ _ _)⟩

/-- C16 (original claim refuted): the span `bad` of `reversedSpans` has its end column 2
before its start column 3; `buildChildNodes` examines it, returns no error and makes it a
child of the node `x`. -/
theorem buildChildNodes_reversed_span_counterexample :
    reversedSpans.get? 2 = some ⟨Axis.cell 3 2, Axis.cell 2 2, "bad"⟩ ∧
    buildChildNodes 3 (sheetRoot "Sheet1" 3) reversedSpans =
      BuildResult.ok [.mk "x" 1 3 1 1 ["x"]
        [.mk "a" 1 1 2 2 ["x", "a"] [], .mk "bad" 3 2 2 2 ["x", "bad"] [],
         .mk "c" 3 3 2 2 ["x", "c"] []]] :=
  ⟨rfl, rfl⟩

/-- C16 (amended): the only error of `buildChildNodes` is the conversion error of a cell
name. When the boundary scan of the parent meets a cell name that does not convert,
construction fails with that error; in particular it fails when the first span has a
malformed name. On spans whose names all convert, `buildChildNodes` returns no error,
also when a span has its end column before its start column. -/
theorem buildChildNodes_error_is_conversion :
    (∀ (fuel : Nat) (root : Importer) (cells : List MergeCell) (e : ConvError),
      (getChildrenColBoundary root cells).2.2 = some e →
      buildChildNodes (fuel + 1) root cells = BuildResult.error e) ∧
    (∀ (fuel : Nat) (root : Importer) (rest : List MergeCell) (name : String) (endAxis : Axis)
      (value : String),
      buildChildNodes (fuel + 1) root (⟨Axis.malformed name, endAxis, value⟩ :: rest) =
        BuildResult.error (ConvError.invalidCellName name)) ∧
    (∀ (fuel : Nat) (root : Importer) (cells : List MergeCell) (e : ConvError),
      buildChildNodes fuel root cells = BuildResult.error e →
      ∃ c ∈ cells, c.coords = none) ∧
    (∀ (fuel : Nat) (root : Importer) (cells : List MergeCell),
      (∀ c ∈ cells, c.coords.isSome = true) →
      (∃ children, buildChildNodes fuel root cells = BuildResult.ok children) ∨
        buildChildNodes fuel root cells = BuildResult.outOfFuel) := by
  refine ⟨buildChildNodes_boundary_error, ?_, ?_, buildChildNodes_no_error⟩
  · intro fuel root rest name endAxis value
    exact buildChildNodes_boundary_error fuel root _ _ rfl
  · intro fuel root cells e h
    by_contra hcon
    push_neg at hcon
    have hall : ∀ c ∈ cells, c.coords.isSome = true := by
      intro c hc
      cases hx : c.coords with
      | none => exact absurd hx (hcon c hc)
      | some x => rfl
    rcases buildChildNodes_no_error fuel root cells hall with ⟨children, hk⟩ | hk
    · rw [hk] at h
      cases h
    · rw [hk] at h
      cases h

/-- C16 (amended), on `reversedSpans` and on a span list that begins with a malformed
name. -/
theorem buildChildNodes_error_is_conversion_witness :
    (∀ c ∈ reversedSpans, c.coords.isSome = true) ∧
    ((∃ children, buildChildNodes 3 (sheetRoot "Sheet1" 3) reversedSpans =
        BuildResult.ok children) ∨
      buildChildNodes 3 (sheetRoot "Sheet1" 3) reversedSpans = BuildResult.outOfFuel) ∧
    buildChildNodes 1 (sheetRoot "Sheet1" 3) (⟨Axis.malformed "1A", Axis.cell 1 1, "x"⟩ :: []) =
      BuildResult.error (ConvError.invalidCellName "1A") :=
  ⟨by decide,
    buildChildNodes_error_is_conversion.2.2.2 3 (sheetRoot "Sheet1" 3) reversedSpans (by decide),
    buildChildNodes_error_is_conversion.2.1 0 (sheetRoot "Sheet1" 3) [] "1A" (Axis.cell 1 1) "x"⟩

/-! ## The header tree of a record and its writer -/

theorem header_depth_mk (d : Bool) (p t : String) (cs : List header) :
    (header.mk d p t cs).depth = 1 + depthList cs := by
  simp only [header.depth]

theorem depthList_nil : depthList [] = 0 := by
  simp only [depthList]

theorem depthList_cons (c : header) (cs : List header) :
    depthList (c :: cs) = max c.depth (depthList cs) := by
  simp only [depthList]

theorem depthList_le (n : Nat) (cs : List header) :
    depthList cs ≤ n ↔ ∀ c ∈ cs, c.depth ≤ n := by
  induction cs with
  | nil => simp [depthList_nil]
  | cons c cs ih => simp [depthList_cons, ih]

theorem header_depth_eq (h : header) : h.depth = 1 + depthList h.children := by
  cases h with
  | mk d p t cs => exact header_depth_mk d p t cs

theorem collectHeaders_nil (colIdx : Nat) (hs : List header) :
    collectHeaders colIdx [] hs = some hs := rfl

theorem collectHeaders_cons (colIdx : Nat) (path : List String) (rest : List (List String))
    (hs : List header) (title parent : String) (ht : path.get? colIdx = some title)
    (hp : parentAt colIdx path = some parent) :
    collectHeaders colIdx (path :: rest) hs =
      match hMapLookup hs title with
      | some _ => collectHeaders colIdx rest hs
      | none => collectHeaders colIdx rest (hs ++ [header.mk false parent title []]) := by
  unfold parentAt at hp
  simp only [collectHeaders, ht, hp]

theorem hMapLookup_some (hs : List header) (title : String) (h : header)
    (hl : hMapLookup hs title = some h) : h ∈ hs ∧ h.title = title := by
  unfold hMapLookup at hl
  have h1 := List.find?_some hl
  exact ⟨List.mem_of_find?_eq_some hl, by simpa using h1⟩

theorem parentAt_some (colIdx : Nat) (path : List String) (h : colIdx < path.length) :
    ∃ parent, parentAt colIdx path = some parent := by
  unfold parentAt
  by_cases hc : colIdx > 0
  · rw [if_pos hc]
    exact ⟨path.get ⟨colIdx - 1, by omega⟩, List.get?_eq_get _⟩
  · rw [if_neg hc]
    exact ⟨"", rfl⟩

/-- The headers that the first loop of `getHeadersFromPaths` makes for a column. -/
theorem collectHeaders_spec (colIdx : Nat) :
    ∀ (paths : List (List String)) (hs : List header),
      (∀ p ∈ paths, colIdx < p.length) →
      ∃ new, collectHeaders colIdx paths hs = some (hs ++ new) ∧
        (∀ h ∈ new, h.isDummy = false ∧ h.children = [] ∧
          ∃ p ∈ paths, p.get? colIdx = some h.title ∧ parentAt colIdx p = some h.parent) ∧
        (∀ p ∈ paths, ∀ t, p.get? colIdx = some t → ∃ h ∈ hs ++ new, h.title = t) := by
  intro paths
  induction paths with
  | nil =>
    intro hs _
    exact ⟨[], by rw [List.append_nil]; rfl, by simp, by simp⟩
  | cons path rest ih =>
    intro hs hlen
    have hl := hlen path (List.mem_cons_self _ _)
    have ht : path.get? colIdx = some (path.get ⟨colIdx, hl⟩) := List.get?_eq_get _
    obtain ⟨parent, hp⟩ := parentAt_some colIdx path hl
    rw [collectHeaders_cons colIdx path rest hs _ parent ht hp]
    have hrest : ∀ p ∈ rest, colIdx < p.length := fun p hp => hlen p (List.mem_cons_of_mem _ hp)
    cases hlook : hMapLookup hs (path.get ⟨colIdx, hl⟩) with
    | some h0 =>
      obtain ⟨new, hnew, hprop, hcov⟩ := ih hs hrest
      refine ⟨new, hnew, ?_, ?_⟩
      · intro h hh
        obtain ⟨h1, h2, p, hp1, hp2⟩ := hprop h hh
        exact ⟨h1, h2, p, List.mem_cons_of_mem _ hp1, hp2⟩
      · intro p hp1 t hpt
        rcases List.mem_cons.mp hp1 with rfl | hp1
        · rw [ht] at hpt
          injection hpt with hpt
          obtain ⟨hm, htitle⟩ := hMapLookup_some hs _ h0 hlook
          exact ⟨h0, List.mem_append_left _ hm, by rw [htitle, hpt]⟩
        · exact hcov p hp1 t hpt
    | none =>
      obtain ⟨new, hnew, hprop, hcov⟩ := ih (hs ++ [header.mk false parent (path.get ⟨colIdx, hl⟩) []]) hrest
      refine ⟨header.mk false parent (path.get ⟨colIdx, hl⟩) [] :: new, ?_, ?_, ?_⟩
      · simp only [hnew, List.append_assoc, List.singleton_append]
      · intro h hh
        rcases List.mem_cons.mp hh with rfl | hh
        · exact ⟨rfl, rfl, path, List.mem_cons_self _ _, ht, hp⟩
        · obtain ⟨h1, h2, p, hp1, hp2⟩ := hprop h hh
          exact ⟨h1, h2, p, List.mem_cons_of_mem _ hp1, hp2⟩
      · intro p hp1 t hpt
        rcases List.mem_cons.mp hp1 with rfl | hp1
        · rw [ht] at hpt
          injection hpt with hpt
          refine ⟨header.mk false parent (p.get ⟨colIdx, hl⟩) [], ?_, hpt⟩
          simp
        · obtain ⟨h, hh, hht⟩ := hcov p hp1 t hpt
          refine ⟨h, ?_, hht⟩
          simpa [List.append_assoc] using hh

theorem forall2_trans {α : Type} {R S T : α → α → Prop}
    (hRS : ∀ a b c, R a b → S b c → T a c) :
    ∀ (l1 l2 l3 : List α), List.Forall₂ R l1 l2 → List.Forall₂ S l2 l3 →
      List.Forall₂ T l1 l3 := by
  intro l1
  induction l1 with
  | nil =>
    intro l2 l3 h1 h2
    cases h1
    cases h2
    exact List.Forall₂.nil
  | cons a l1 ih =>
    intro l2 l3 h1 h2
    cases h1 with
    | cons hab h1 =>
      cases h2 with
      | cons hbc h2 => exact List.Forall₂.cons (hRS _ _ _ hab hbc) (ih _ _ h1 h2)

theorem grownFrom_refl (added : List header) (h : header) : grownFrom added h h :=
  ⟨rfl, rfl, rfl, [], by rw [List.append_nil], by simp⟩

theorem forall2_grownFrom_refl (added : List header) (hs : List header) :
    List.Forall₂ (grownFrom added) hs hs := by
  induction hs with
  | nil => exact List.Forall₂.nil
  | cons h hs ih => exact List.Forall₂.cons (grownFrom_refl added h) ih

theorem attachChild_cons_pos (c h : header) (rest : List header) (ht : h.title = c.parent) :
    attachChild c (h :: rest) =
      some (header.mk h.isDummy h.parent h.title (h.children ++ [c]) :: rest) := by
  simp only [attachChild, ht, if_true]

theorem attachChild_cons_neg (c h : header) (rest : List header) (ht : ¬ h.title = c.parent) :
    attachChild c (h :: rest) =
      match attachChild c rest with
      | none => none
      | some rest' => some (h :: rest') := by
  simp only [attachChild, ht, if_false]

theorem attachChild_spec (c : header) :
    ∀ (hs : List header), (∃ h ∈ hs, h.title = c.parent) →
      ∃ hs', attachChild c hs = some hs' ∧ List.Forall₂ (grownFrom [c]) hs hs' := by
  intro hs
  induction hs with
  | nil =>
    intro h
    obtain ⟨h, hh, _⟩ := h
    cases hh
  | cons h rest ih =>
    intro hex
    by_cases ht : h.title = c.parent
    · rw [attachChild_cons_pos c h rest ht]
      refine ⟨_, rfl, List.Forall₂.cons ?_ (forall2_grownFrom_refl _ _)⟩
      exact ⟨rfl, rfl, rfl, [c], rfl, by simp⟩
    · rw [attachChild_cons_neg c h rest ht]
      obtain ⟨h1, hm, hh⟩ := hex
      rcases List.mem_cons.mp hm with rfl | hm
      · exact absurd hh ht
      · obtain ⟨rest', hr, hall⟩ := ih ⟨h1, hm, hh⟩
        rw [hr]
        exact ⟨_, rfl, List.Forall₂.cons (grownFrom_refl _ _) hall⟩

theorem forall2_grownFrom_title (added : List header) :
    ∀ (hs hs' : List header), List.Forall₂ (grownFrom added) hs hs' →
      ∀ h ∈ hs, ∃ h' ∈ hs', h'.title = h.title := by
  intro hs hs' hall
  induction hall with
  | nil =>
    intro h hh
    cases hh
  | cons hab _ ih =>
    intro h hh
    rcases List.mem_cons.mp hh with rfl | hh
    · exact ⟨_, List.mem_cons_self _ _, hab.2.2.1⟩
    · obtain ⟨h', hm, ht⟩ := ih h hh
      exact ⟨h', List.mem_cons_of_mem _ hm, ht⟩

theorem forall2_grownFrom_mem (added : List header) :
    ∀ (hs hs' : List header), List.Forall₂ (grownFrom added) hs hs' →
      ∀ h' ∈ hs', ∃ h ∈ hs, grownFrom added h h' := by
  intro hs hs' hall
  induction hall with
  | nil =>
    intro h hh
    cases hh
  | cons hab _ ih =>
    intro h hh
    rcases List.mem_cons.mp hh with rfl | hh
    · exact ⟨_, List.mem_cons_self _ _, hab⟩
    · obtain ⟨h', hm, ht⟩ := ih h hh
      exact ⟨h', List.mem_cons_of_mem _ hm, ht⟩

theorem attachChildren_nil (hs : List header) : attachChildren [] hs = some hs := rfl

theorem attachChildren_cons (c : header) (cs hs hs1 : List header)
    (h : attachChild c hs = some hs1) :
    attachChildren (c :: cs) hs = attachChildren cs hs1 := by
  simp only [attachChildren, h]

/-- The second loop of `getHeadersFromPaths` returns when each child finds its parent,
and it appends children to the headers without changing anything else. -/
theorem attachChildren_spec :
    ∀ (cs hs : List header), (∀ c ∈ cs, ∃ h ∈ hs, h.title = c.parent) →
      ∃ hs', attachChildren cs hs = some hs' ∧ List.Forall₂ (grownFrom cs) hs hs' := by
  intro cs
  induction cs with
  | nil =>
    intro hs _
    exact ⟨hs, rfl, forall2_grownFrom_refl _ _⟩
  | cons c cs ih =>
    intro hs hex
    obtain ⟨hs1, h1, hall1⟩ := attachChild_spec c hs (hex c (List.mem_cons_self _ _))
    rw [attachChildren_cons c cs hs hs1 h1]
    have hex1 : ∀ c' ∈ cs, ∃ h ∈ hs1, h.title = c'.parent := by
      intro c' hc'
      obtain ⟨h, hm, ht⟩ := hex c' (List.mem_cons_of_mem _ hc')
      obtain ⟨h', hm', ht'⟩ := forall2_grownFrom_title _ hs hs1 hall1 h hm
      exact ⟨h', hm', by rw [ht', ht]⟩
    obtain ⟨hs', h2, hall2⟩ := ih hs1 hex1
    refine ⟨hs', h2, forall2_trans ?_ hs hs1 hs' hall1 hall2⟩
    intro a b d hab hbd
    obtain ⟨a1, a2, a3, m1, a4, a5⟩ := hab
    obtain ⟨b1, b2, b3, m2, b4, b5⟩ := hbd
    refine ⟨by rw [b1, a1], by rw [b2, a2], by rw [b3, a3], m1 ++ m2, ?_, ?_⟩
    · rw [b4, a4, List.append_assoc]
    · intro x hx
      rcases List.mem_append.mp hx with hx | hx
      · have := a5 x hx
        simp only [List.mem_singleton] at this
        rw [this]
        exact List.mem_cons_self _ _
      · exact List.mem_cons_of_mem _ (b5 x hx)

theorem getHeight_of_children_nil (h : header) (hc : h.children = []) : h.getHeight = 1 := by
  cases h with
  | mk d p t cs =>
    simp only [header.children] at hc
    subst hc
    simp only [header.getHeight]

theorem getHeight_of_children_cons (h c : header) (cs : List header)
    (hc : h.children = c :: cs) : h.getHeight = c.getHeight + 1 := by
  cases h with
  | mk d p t cs' =>
    simp only [header.children] at hc
    subst hc
    simp only [header.getHeight]

theorem headersFromColumn_zero (paths : List (List String)) (colIdx : Nat) :
    headersFromColumn paths 0 colIdx = some [] := rfl

theorem headersFromColumn_succ (paths : List (List String)) (n colIdx : Nat)
    (hs childHs : List header) (h1 : collectHeaders colIdx paths [] = some hs)
    (h2 : headersFromColumn paths n (colIdx + 1) = some childHs) :
    headersFromColumn paths (n + 1) colIdx = attachChildren childHs hs := by
  simp only [headersFromColumn, h1, h2]

theorem parentAt_succ (colIdx : Nat) (p : List String) :
    parentAt (colIdx + 1) p = p.get? colIdx := by
  simp [parentAt]

/-- The recursion of `getHeadersFromPaths` on paths of one length returns headers of at
most `n` levels, and the first of them has the height `n`. -/
theorem headersFromColumn_spec (paths : List (List String)) :
    ∀ (n colIdx : Nat), (∀ p ∈ paths, p.length = colIdx + n) →
      ∃ hs, headersFromColumn paths n colIdx = some hs ∧
        (∀ h ∈ hs, h.isDummy = false ∧ h.depth ≤ n ∧
          ∃ p ∈ paths, p.get? colIdx = some h.title ∧ parentAt colIdx p = some h.parent) ∧
        (∀ p0 rest, paths = p0 :: rest → 0 < n →
          ∃ h0 hrest, hs = h0 :: hrest ∧ p0.get? colIdx = some h0.title ∧
            parentAt colIdx p0 = some h0.parent ∧ h0.getHeight = (n : Int)) := by
  intro n
  induction n with
  | zero =>
    intro colIdx _
    refine ⟨[], rfl, by simp, ?_⟩
    intro p0 rest _ h
    omega
  | succ n ih =>
    intro colIdx hlen
    have hlt : ∀ p ∈ paths, colIdx < p.length := fun p hp => by
      have := hlen p hp
      omega
    obtain ⟨new, hcol, hprop, hcov⟩ := collectHeaders_spec colIdx paths [] hlt
    rw [List.nil_append] at hcol
    obtain ⟨childHs, hch, hchprop, hchhead⟩ := ih (colIdx + 1) (fun p hp => by
      have := hlen p hp
      omega)
    rw [headersFromColumn_succ paths n colIdx new childHs hcol hch]
    have hex : ∀ c ∈ childHs, ∃ h ∈ new, h.title = c.parent := by
      intro c hc
      obtain ⟨_, _, p, hp, _, hpar⟩ := hchprop c hc
      rw [parentAt_succ] at hpar
      obtain ⟨h, hh, ht⟩ := hcov p hp _ hpar
      exact ⟨h, by simpa using hh, ht⟩
    obtain ⟨hs', hatt, hall⟩ := attachChildren_spec childHs new hex
    refine ⟨hs', hatt, ?_, ?_⟩
    · intro h' hh'
      obtain ⟨h, hm, g1, g2, g3, more, g4, g5⟩ := forall2_grownFrom_mem _ _ _ hall h' hh'
      obtain ⟨p1, p2, p, hp, p3, p4⟩ := hprop h hm
      refine ⟨by rw [g1, p1], ?_, p, hp, by rw [g3]; exact p3, by rw [g2]; exact p4⟩
      rw [header_depth_eq, g4, p2, List.nil_append]
      have : depthList more ≤ n := by
        rw [depthList_le]
        intro c hc
        exact (hchprop c (g5 c hc)).2.1
      omega
    · intro p0 rest hpaths _
      subst hpaths
      have hl0 := hlt p0 (List.mem_cons_self _ _)
      have ht0 : p0.get? colIdx = some (p0.get ⟨colIdx, hl0⟩) := List.get?_eq_get _
      obtain ⟨parent0, hp0⟩ := parentAt_some colIdx p0 hl0
      have hcol2 := collectHeaders_cons colIdx p0 rest [] _ parent0 ht0 hp0
      have hlook : hMapLookup [] (p0.get ⟨colIdx, hl0⟩) = none := rfl
      rw [hlook] at hcol2
      simp only [List.nil_append] at hcol2
      obtain ⟨new2, hcol3, _, _⟩ := collectHeaders_spec colIdx rest
        [header.mk false parent0 (p0.get ⟨colIdx, hl0⟩) []]
        (fun p hp => hlt p (List.mem_cons_of_mem _ hp))
      rw [hcol2, hcol3] at hcol
      injection hcol with hcol
      subst hcol
      by_cases hn : 0 < n
      · obtain ⟨c0, crest, hc0, hc0t, hc0p, hc0h⟩ := hchhead p0 rest rfl hn
        subst hc0
        rw [parentAt_succ, ht0] at hc0p
        injection hc0p with hc0p
        have hatt1 : attachChild c0 ([header.mk false parent0 (p0.get ⟨colIdx, hl0⟩) []] ++ new2) =
            some (header.mk false parent0 (p0.get ⟨colIdx, hl0⟩) [c0] :: new2) := by
          rw [List.singleton_append]
          exact attachChild_cons_pos c0 (header.mk false parent0 (p0.get ⟨colIdx, hl0⟩) []) new2
            hc0p
        rw [attachChildren_cons c0 crest _ _ hatt1] at hatt
        obtain ⟨hs2, hatt2, hall2⟩ := attachChildren_spec crest
          (header.mk false parent0 (p0.get ⟨colIdx, hl0⟩) [c0] :: new2) (by
            intro c hc
            obtain ⟨h, hm, ht⟩ := hex c (List.mem_cons_of_mem _ hc)
            rw [List.singleton_append] at hm
            rcases List.mem_cons.mp hm with rfl | hm
            · exact ⟨_, List.mem_cons_self _ _, ht⟩
            · exact ⟨h, List.mem_cons_of_mem _ hm, ht⟩)
        rw [hatt2] at hatt
        injection hatt with hatt
        subst hatt
        cases hall2 with
        | cons hab _ =>
          obtain ⟨_, g2, g3, more, g4, _⟩ := hab
          refine ⟨_, _, rfl, by rw [g3]; exact ht0, by rw [g2]; exact hp0, ?_⟩
          rw [getHeight_of_children_cons _ c0 more g4, hc0h]
          push_cast
          ring
      · have hn0 : n = 0 := by omega
        subst hn0
        rw [headersFromColumn_zero] at hch
        injection hch with hch
        subst hch
        rw [attachChildren_nil] at hatt
        injection hatt with hatt
        subst hatt
        exact ⟨_, _, rfl, ht0, hp0, rfl⟩

theorem parseHeader_cons (f0 : StructField) (rest : List StructField) :
    parseHeader (f0 :: rest) =
      if ((f0 :: rest).map StructField.path).any (fun path => path.length ≠ f0.path.length)
      then some (header.mk true "" "" [], some ParseHeaderError.pathDepthNotSame)
      else
        match getHeadersFromPaths ((f0 :: rest).map StructField.path) 0 f0.path.length with
        | none => none
        | some children => some (header.mk true "" "" children, none) := rfl

theorem any_depth_iff (f0 : StructField) (fields : List StructField) :
    (fields.map StructField.path).any (fun path => path.length ≠ f0.path.length) = true ↔
      ∃ f ∈ fields, f.path.length ≠ f0.path.length := by
  simp [List.any_eq_true]

/-- On a record whose paths all have the depth of the first, `parseHeader` returns the
dummy root over the headers of `getHeadersFromPaths`, and no error. -/
theorem parseHeader_same_depth (f0 : StructField) (rest : List StructField)
    (h : ∀ f ∈ f0 :: rest, f.path.length = f0.path.length) :
    ∃ children, headersFromColumn ((f0 :: rest).map StructField.path) f0.path.length 0 =
        some children ∧
      parseHeader (f0 :: rest) = some (header.mk true "" "" children, none) := by
  have hany : ¬ ((f0 :: rest).map StructField.path).any
      (fun path => path.length ≠ f0.path.length) = true := by
    rw [any_depth_iff]
    push_neg
    exact h
  obtain ⟨hs, hhs, _⟩ := headersFromColumn_spec ((f0 :: rest).map StructField.path)
    f0.path.length 0 (by
      intro p hp
      obtain ⟨f, hf, rfl⟩ := List.mem_map.mp hp
      rw [h f hf, Nat.zero_add])
  refine ⟨hs, hhs, ?_⟩
  rw [parseHeader_cons, if_neg hany]
  simp only [getHeadersFromPaths, Nat.zero_le, if_true, Nat.sub_zero, hhs]

/-- C18: on a record with at least one field, `parseHeader` returns the error
`path depth is not same` if and only if the path of some field has a number of segments
different from the first field's; otherwise it returns a header and no error; with the
error, the header that is returned has no children. -/
theorem parseHeader_depth_error (f0 : StructField) (rest : List StructField) :
    ((∃ h e, parseHeader (f0 :: rest) = some (h, some e)) ↔
      ∃ f ∈ f0 :: rest, f.path.length ≠ f0.path.length) ∧
    ((∀ f ∈ f0 :: rest, f.path.length = f0.path.length) →
      ∃ h, parseHeader (f0 :: rest) = some (h, none)) ∧
    (∀ h e, parseHeader (f0 :: rest) = some (h, some e) →
      e = ParseHeaderError.pathDepthNotSame ∧ h.children = []) := by
  have hpos : (∃ f ∈ f0 :: rest, f.path.length ≠ f0.path.length) →
      parseHeader (f0 :: rest) =
        some (header.mk true "" "" [], some ParseHeaderError.pathDepthNotSame) := by
    intro h
    rw [parseHeader_cons, if_pos ((any_depth_iff f0 _).mpr h)]
  have hneg : (¬ ∃ f ∈ f0 :: rest, f.path.length ≠ f0.path.length) →
      ∃ h, parseHeader (f0 :: rest) = some (h, none) := by
    intro h
    push_neg at h
    obtain ⟨children, _, hp⟩ := parseHeader_same_depth f0 rest h
    exact ⟨_, hp⟩
  refine ⟨⟨?_, ?_⟩, ?_, ?_⟩
  · rintro ⟨h, e, he⟩
    by_contra hcon
    obtain ⟨h', hh'⟩ := hneg hcon
    rw [hh'] at he
    cases he
  · intro h
    exact ⟨_, _, hpos h⟩
  · intro h
    exact hneg (by push_neg; exact h)
  · intro h e he
    by_cases hex : ∃ f ∈ f0 :: rest, f.path.length ≠ f0.path.length
    · rw [hpos hex] at he
      cases he
      exact ⟨rfl, rfl⟩
    · obtain ⟨h', hh'⟩ := hneg hex
      rw [hh'] at he
      cases he

/-- C18 on the record `groupFields`, whose three paths have two segments. -/
theorem parseHeader_depth_error_witness :
    (∀ f ∈ groupFields, f.path.length = 2) ∧
    (∃ h, parseHeader groupFields = some (h, none)) ∧
    (∃ h e, parseHeader (⟨"g|a", none⟩ :: [⟨"b", none⟩]) = some (h, some e)) :=
  ⟨by decide,
    (parseHeader_depth_error ⟨"g|a", some (Field.int ⟨0, 0⟩)⟩ _).2.1 (by decide),
    (parseHeader_depth_error ⟨"g|a", none⟩ [⟨"b", none⟩]).1.mpr ⟨⟨"b", none⟩, by decide⟩⟩

/-- C17 (the code departs from the claim): the four paths `Q1|R`, `Q1|C`, `Q2|R`, `Q2|C`
have the same depth and are pairwise distinct, but the tree of `parseHeader` has three
leaves, `Q1|R`, `Q1|C` and `Q2`: the titles `R` and `C` are made once for the whole second
level and attached to `Q1` only. -/
theorem parseHeader_shared_title :
    quarterFields.map StructField.path = [["Q1", "R"], ["Q1", "C"], ["Q2", "R"], ["Q2", "C"]] ∧
    parseHeader quarterFields =
      some (header.mk true "" ""
        [header.mk false "" "Q1" [header.mk false "Q1" "R" [], header.mk false "Q1" "C" []],
         header.mk false "" "Q2" []], none) ∧
    leafPathsList []
      [header.mk false "" "Q1" [header.mk false "Q1" "R" [], header.mk false "Q1" "C" []],
       header.mk false "" "Q2" []] = [["Q1", "R"], ["Q1", "C"], ["Q2"]] :=
  ⟨by decide, rfl, rfl⟩

theorem leafCount_nil (d : Bool) (p t : String) : (header.mk d p t []).leafCount = 1 := by
  simp only [header.leafCount]

theorem leafCount_cons (d : Bool) (p t : String) (c : header) (cs : List header) :
    (header.mk d p t (c :: cs)).leafCount = header.leafCount.leafCountList (c :: cs) := by
  simp only [header.leafCount, header.leafCount.leafCountList]

theorem leafCountList_nil : header.leafCount.leafCountList [] = 0 := by
  simp only [header.leafCount.leafCountList]

theorem leafCountList_cons (c : header) (cs : List header) :
    header.leafCount.leafCountList (c :: cs) =
      c.leafCount + header.leafCount.leafCountList cs := by
  simp only [header.leafCount.leafCountList]

mutual
/-- A header has at least one leaf. -/
theorem leafCount_pos : ∀ (h : header), 1 ≤ h.leafCount
  | .mk d p t [] => by rw [leafCount_nil]
  | .mk d p t (c :: cs) => by
    rw [leafCount_cons, leafCountList_cons]
    have h1 := leafCount_pos c
    have h2 := leafCountList_nonneg cs
    omega
/-- The leaf count of a list of headers is not negative. -/
theorem leafCountList_nonneg : ∀ (cs : List header), 0 ≤ header.leafCount.leafCountList cs
  | [] => by rw [leafCountList_nil]
  | c :: cs => by
    rw [leafCountList_cons]
    have h1 := leafCount_pos c
    have h2 := leafCountList_nonneg cs
    omega
end

theorem coordinatesToCellName_ok (col row : Int) (axis : Axis)
    (h : CoordinatesToCellName col row = .ok axis) : axis = Axis.cell col row := by
  unfold CoordinatesToCellName at h
  split_ifs at h
  injection h with h
  exact h.symm

theorem coordinatesToCellName_valid (col row : Int) (h1 : 1 ≤ col) (h2 : 1 ≤ row)
    (h3 : col ≤ TotalColumns) : CoordinatesToCellName col row = .ok (Axis.cell col row) := by
  unfold CoordinatesToCellName
  rw [if_neg (by omega), if_neg (by omega)]


theorem expectedHeaderOps_mk (e : Excel) (isDummy : Bool) (parent title : String)
    (children : List header) (col row : Int) :
    expectedHeaderOps e (header.mk isDummy parent title children) col row =
      expectedChildrenOps e children col (row + 1) ++
        (if isDummy then []
         else
          (if children.length = 0 then []
           else mergeOps e (Axis.cell col row)
            (Axis.cell (col + (header.mk isDummy parent title children).leafCount - 1) row)) ++
          titleOps e (Axis.cell col row) title) := by
  simp only [expectedHeaderOps]

theorem expectedChildrenOps_nil (e : Excel) (col row : Int) :
    expectedChildrenOps e [] col row = [] := by
  simp only [expectedChildrenOps]

theorem expectedChildrenOps_cons (e : Excel) (c : header) (cs : List header) (col row : Int) :
    expectedChildrenOps e (c :: cs) col row =
      expectedHeaderOps e c col row ++ expectedChildrenOps e cs (col + c.leafCount) row := by
  simp only [expectedChildrenOps]


theorem onRows_mono (lo hi lo' hi' : Int) (op : SheetOp) (h : op.onRows lo hi)
    (h1 : lo' ≤ lo) (h2 : hi ≤ hi') : op.onRows lo' hi' := by
  have haxis : ∀ a : Axis, a.onRows lo hi → a.onRows lo' hi' := by
    intro a ha
    cases a with
    | cell c r =>
      simp only [Axis.onRows] at ha ⊢
      omega
    | malformed name => simp only [Axis.onRows] at ha
  cases op with
  | MergeCell s a b =>
    simp only [SheetOp.onRows] at h ⊢
    exact ⟨haxis a h.1, haxis b h.2⟩
  | SetCellStyle s a b i =>
    simp only [SheetOp.onRows] at h ⊢
    exact ⟨haxis a h.1, haxis b h.2⟩
  | SetCellValue s a v =>
    simp only [SheetOp.onRows] at h ⊢
    exact haxis a h

theorem mergeOps_onRows (e : Excel) (c c' r : Int) :
    ∀ op ∈ mergeOps e (Axis.cell c r) (Axis.cell c' r), op.onRows r r := by
  intro op hop
  unfold mergeOps at hop
  rw [List.mem_flatMap] at hop
  obtain ⟨sheet, _, hm⟩ := hop
  simp only [List.mem_cons, List.mem_singleton, List.not_mem_nil, or_false] at hm
  rcases hm with rfl | rfl <;> simp [SheetOp.onRows, Axis.onRows]

theorem titleOps_onRows (e : Excel) (c r : Int) (title : String) :
    ∀ op ∈ titleOps e (Axis.cell c r) title, op.onRows r r := by
  intro op hop
  unfold titleOps at hop
  rw [List.mem_map] at hop
  obtain ⟨sheet, _, rfl⟩ := hop
  simp [SheetOp.onRows, Axis.onRows]

/-! ## `exporter.go`: the calls of `writeHeader` on the engine -/

theorem callAll_nil (ex : Engine) (log : List SheetOp) : callAll ex log [] = ([], none) := by
  cases log <;> rfl

theorem callAll_cons (ex : Engine) (log : List SheetOp) (op : SheetOp) (rest : List SheetOp) :
    callAll ex log (op :: rest) =
      match ex log op with
      | some err => ([op], some (WriteError.engine op err))
      | none =>
        (op :: (callAll ex (log ++ [op]) rest).1, (callAll ex (log ++ [op]) rest).2) := by
  rw [callAll]

theorem accepts_nil (ex : Engine) (log : List SheetOp) : Accepts ex log [] := by
  cases log <;> exact trivial

theorem accepts_cons (ex : Engine) (log : List SheetOp) (op : SheetOp) (rest : List SheetOp) :
    Accepts ex log (op :: rest) ↔ ex log op = none ∧ Accepts ex (log ++ [op]) rest := by
  rw [Accepts]

theorem accepts_append (ex : Engine) : ∀ (xs ys log : List SheetOp),
    Accepts ex log (xs ++ ys) ↔ Accepts ex log xs ∧ Accepts ex (log ++ xs) ys := by
  intro xs
  induction xs with
  | nil =>
    intro ys log
    simp [accepts_nil]
  | cons op rest ih =>
    intro ys log
    rw [List.cons_append, accepts_cons, accepts_cons, ih ys (log ++ [op]), and_assoc]
    simp

/-- The calls that are made are the first of the calls of the loop; without an error they
are all of them. -/
theorem callAll_made (ex : Engine) : ∀ (ops log : List SheetOp),
    (∃ more, (callAll ex log ops).1 ++ more = ops) ∧
      ((callAll ex log ops).2 = none → (callAll ex log ops).1 = ops) := by
  intro ops
  induction ops with
  | nil =>
    intro log
    rw [callAll_nil]
    exact ⟨⟨[], rfl⟩, fun _ => rfl⟩
  | cons op rest ih =>
    intro log
    rw [callAll_cons]
    cases hx : ex log op with
    | some err => exact ⟨⟨rest, rfl⟩, fun h => by cases h⟩
    | none =>
      obtain ⟨⟨more, hm⟩, hall⟩ := ih (log ++ [op])
      refine ⟨⟨more, ?_⟩, ?_⟩
      · show op :: ((callAll ex (log ++ [op]) rest).1 ++ more) = op :: rest
        rw [hm]
      · intro h
        show op :: (callAll ex (log ++ [op]) rest).1 = op :: rest
        rw [hall h]

/-- On calls that the engine accepts the loop makes all the calls and returns no error. -/
theorem callAll_accepts (ex : Engine) : ∀ (ops log : List SheetOp), Accepts ex log ops →
    callAll ex log ops = (ops, none) := by
  intro ops
  induction ops with
  | nil =>
    intro log _
    exact callAll_nil ex log
  | cons op rest ih =>
    intro log h
    rw [accepts_cons] at h
    rw [callAll_cons, h.1]
    simp only [ih (log ++ [op]) h.2]

/-- An error of the loop is the error that the engine returned for the last call made. -/
theorem callAll_error (ex : Engine) : ∀ (ops log : List SheetOp) (err : WriteError),
    (callAll ex log ops).2 = some err →
    ∃ before op engineErr, (callAll ex log ops).1 = before ++ [op] ∧
      ex (log ++ before) op = some engineErr ∧ err = WriteError.engine op engineErr := by
  intro ops
  induction ops with
  | nil =>
    intro log err h
    rw [callAll_nil] at h
    cases h
  | cons op rest ih =>
    intro log err h
    rw [callAll_cons] at h ⊢
    cases hx : ex log op with
    | some engineErr =>
      rw [hx] at h
      simp only at h ⊢
      injection h with h
      exact ⟨[], op, engineErr, rfl, by simpa using hx, h.symm⟩
    | none =>
      rw [hx] at h
      simp only at h ⊢
      obtain ⟨before, op', engineErr, hb, he, herr⟩ := ih (log ++ [op]) err h
      refine ⟨op :: before, op', engineErr, ?_, ?_, herr⟩
      · rw [hb]
        rfl
      · rw [← he]
        simp

theorem writeHeaderChildren_nil (e : Excel) (ex : Engine) (col row k : Int)
    (log : List SheetOp) :
    writeHeaderChildren e ex [] col row k log = (k, [], none) := by
  simp only [writeHeaderChildren]

theorem writeHeaderChildren_cons (e : Excel) (ex : Engine) (child : header)
    (rest : List header) (col row k : Int) (log : List SheetOp) :
    writeHeaderChildren e ex (child :: rest) col row k log =
      match writeHeader e ex child (col + k) (row + 1) log with
      | (_, ops, some err) => (k, ops, some err)
      | (childSpan, ops, none) =>
        match writeHeaderChildren e ex rest col row (k + childSpan) (log ++ ops) with
        | (span, ops', err) => (span, ops ++ ops', err) := by
  simp only [writeHeaderChildren]

theorem writeHeader_mk (e : Excel) (ex : Engine) (isDummy : Bool) (parent title : String)
    (children : List header) (col row : Int) (log : List SheetOp) :
    writeHeader e ex (header.mk isDummy parent title children) col row log =
      match writeHeaderChildren e ex children col row 0 log with
      | (_, ops, some err) => (0, ops, some err)
      | (childrenSpan, ops, none) =>
        if children.length = 0 then
          if isDummy then (1, ops, none)
          else
            match CoordinatesToCellName col row with
            | .error err => (1, ops, some (WriteError.coordinates err))
            | .ok axis =>
              match callAll ex (log ++ ops) (titleOps e axis title) with
              | (titled, err) => (1, ops ++ titled, err)
        else if isDummy then (childrenSpan, ops, none)
        else
          match CoordinatesToCellName col row with
          | .error err => (childrenSpan, ops, some (WriteError.coordinates err))
          | .ok hCell =>
            match CoordinatesToCellName (col + childrenSpan - 1) row with
            | .error err => (childrenSpan, ops, some (WriteError.coordinates err))
            | .ok vCell =>
              match callAll ex (log ++ ops) (mergeOps e hCell vCell) with
              | (merged, some err) => (childrenSpan, ops ++ merged, some err)
              | (merged, none) =>
                match CoordinatesToCellName col row with
                | .error err =>
                  (childrenSpan, ops ++ merged, some (WriteError.coordinates err))
                | .ok axis =>
                  match callAll ex (log ++ ops ++ merged) (titleOps e axis title) with
                  | (titled, err) => (childrenSpan, ops ++ merged ++ titled, err) := by
  simp only [writeHeader]

mutual
/-- A run of `writeHeader` without error returns the leaf count and makes the expected
calls. -/
theorem writeHeader_ok (e : Excel) (ex : Engine) :
    ∀ (h : header) (col row : Int) (log : List SheetOp),
    (writeHeader e ex h col row log).2.2 = none →
    (writeHeader e ex h col row log).1 = h.leafCount ∧
      (writeHeader e ex h col row log).2.1 = expectedHeaderOps e h col row
  | .mk d p t cs, col, row, log => by
    intro h
    rw [writeHeader_mk] at h ⊢
    rw [expectedHeaderOps_mk]
    have ih := writeHeaderChildren_ok e ex cs col row 0 log
    rcases hc : writeHeaderChildren e ex cs col row 0 log with ⟨cspan, ops, err⟩
    rw [hc] at h ih
    cases err with
    | some err => simp at h
    | none =>
      obtain ⟨ih1, ih2⟩ := ih rfl
      simp only at ih1 ih2 h ⊢
      rw [Int.zero_add] at ih1
      rw [Int.add_zero] at ih2
      cases cs with
      | nil =>
        simp only [List.length_nil, if_true] at h ⊢
        rw [leafCount_nil]
        cases d with
        | true =>
          simp only [if_true]
          rw [ih2]
          simp
        | false =>
          simp only [Bool.false_eq_true, if_false] at h ⊢
          cases hx : CoordinatesToCellName col row with
          | error err => rw [hx] at h; simp at h
          | ok axis =>
            rw [hx] at h
            simp only at h ⊢
            have hm := (callAll_made ex (titleOps e axis t) (log ++ ops)).2 h
            rw [hm, coordinatesToCellName_ok col row axis hx, ih2]
            simp
      | cons c cs' =>
        have hlen : ¬ (c :: cs').length = 0 := by simp
        simp only [hlen, if_false] at h ⊢
        cases d with
        | true =>
          simp only [if_true]
          rw [ih2, ih1, leafCount_cons]
          simp
        | false =>
          simp only [Bool.false_eq_true, if_false] at h ⊢
          cases hx : CoordinatesToCellName col row with
          | error err => rw [hx] at h; simp at h
          | ok hCell =>
            rw [hx] at h
            simp only at h ⊢
            cases hy : CoordinatesToCellName (col + cspan - 1) row with
            | error err => rw [hy] at h; simp at h
            | ok vCell =>
              rw [hy] at h
              simp only at h ⊢
              rcases hmerge : callAll ex (log ++ ops) (mergeOps e hCell vCell) with
                ⟨merged, merr⟩
              rw [hmerge] at h
              cases merr with
              | some err => simp at h
              | none =>
                simp only at h ⊢
                have hm1 := (callAll_made ex (mergeOps e hCell vCell) (log ++ ops)).2
                  (by rw [hmerge])
                rw [hmerge] at hm1
                simp only at hm1
                have hm2 := (callAll_made ex (titleOps e hCell t) (log ++ ops ++ merged)).2 h
                rw [hm2, hm1, coordinatesToCellName_ok _ _ _ hx,
                  coordinatesToCellName_ok _ _ _ hy, ih2, ih1, leafCount_cons]
                simp
/-- A run of the loop over the children without error returns the sum of the leaf counts
and makes the expected calls. -/
theorem writeHeaderChildren_ok (e : Excel) (ex : Engine) :
    ∀ (cs : List header) (col row k : Int) (log : List SheetOp),
    (writeHeaderChildren e ex cs col row k log).2.2 = none →
    (writeHeaderChildren e ex cs col row k log).1 = k + header.leafCount.leafCountList cs ∧
      (writeHeaderChildren e ex cs col row k log).2.1 =
        expectedChildrenOps e cs (col + k) (row + 1)
  | [], col, row, k, log => by
    intro _
    rw [writeHeaderChildren_nil, leafCountList_nil, expectedChildrenOps_nil]
    simp
  | c :: cs, col, row, k, log => by
    intro h
    rw [writeHeaderChildren_cons] at h ⊢
    rw [leafCountList_cons, expectedChildrenOps_cons]
    have ih := writeHeader_ok e ex c (col + k) (row + 1) log
    rcases hc : writeHeader e ex c (col + k) (row + 1) log with ⟨span, ops, err⟩
    rw [hc] at h ih
    cases err with
    | some err => simp at h
    | none =>
      obtain ⟨ih1, ih2⟩ := ih rfl
      simp only at ih1 ih2 h ⊢
      have ih' := writeHeaderChildren_ok e ex cs col row (k + span) (log ++ ops)
      rcases hc2 : writeHeaderChildren e ex cs col row (k + span) (log ++ ops) with
        ⟨span2, ops2, err2⟩
      rw [hc2] at h ih'
      simp only at h
      subst h
      obtain ⟨ih3, ih4⟩ := ih' rfl
      simp only at ih3 ih4 ⊢
      rw [ih3, ih4, ih2, ih1]
      refine ⟨by ring, ?_⟩
      rw [show col + (k + c.leafCount) = col + k + c.leafCount by ring]
end

theorem made_append {α : Type} (a x b : List α) (h : ∃ more, x ++ more = b) :
    ∃ more, a ++ x ++ more = a ++ b := by
  obtain ⟨more, hm⟩ := h
  exact ⟨more, by rw [List.append_assoc, hm]⟩

theorem made_more {α : Type} (x b c : List α) (h : ∃ more, x ++ more = b) :
    ∃ more, x ++ more = b ++ c := by
  obtain ⟨more, hm⟩ := h
  exact ⟨more ++ c, by rw [← List.append_assoc, hm]⟩

mutual
/-- The calls that `writeHeader` makes are the first of the expected calls, whether it
returns an error or not. -/
theorem writeHeader_made (e : Excel) (ex : Engine) :
    ∀ (h : header) (col row : Int) (log : List SheetOp),
    ∃ more, (writeHeader e ex h col row log).2.1 ++ more = expectedHeaderOps e h col row
  | .mk d p t cs, col, row, log => by
    rw [writeHeader_mk, expectedHeaderOps_mk]
    have ihm := writeHeaderChildren_made e ex cs col row 0 log
    have iho := writeHeaderChildren_ok e ex cs col row 0 log
    rcases hc : writeHeaderChildren e ex cs col row 0 log with ⟨cspan, ops, err⟩
    rw [hc] at ihm iho
    simp only at ihm iho
    rw [Int.add_zero] at ihm iho
    cases err with
    | some err => exact made_more _ _ _ ihm
    | none =>
      obtain ⟨ih1, ih2⟩ := iho rfl
      rw [Int.zero_add] at ih1
      subst ih2
      simp only
      cases cs with
      | nil =>
        simp only [List.length_nil, if_true]
        cases d with
        | true => exact ⟨[], by simp⟩
        | false =>
          simp only [Bool.false_eq_true, if_false, List.nil_append]
          cases hx : CoordinatesToCellName col row with
          | error err => exact ⟨_, rfl⟩
          | ok axis =>
            simp only
            rw [coordinatesToCellName_ok col row axis hx]
            exact made_append _ _ _ (callAll_made ex _ _).1
      | cons c cs' =>
        have hlen : ¬ (c :: cs').length = 0 := by simp
        simp only [hlen, if_false]
        cases d with
        | true => exact ⟨[], by simp⟩
        | false =>
          simp only [Bool.false_eq_true, if_false]
          cases hx : CoordinatesToCellName col row with
          | error err => exact ⟨_, rfl⟩
          | ok hCell =>
            simp only
            cases hy : CoordinatesToCellName (col + cspan - 1) row with
            | error err => exact ⟨_, rfl⟩
            | ok vCell =>
              simp only
              have hh := coordinatesToCellName_ok _ _ _ hx
              have hv := coordinatesToCellName_ok _ _ _ hy
              rw [ih1, ← leafCount_cons false p t c cs'] at hv
              subst hh
              subst hv
              have hm := callAll_made ex (mergeOps e (Axis.cell col row)
                (Axis.cell (col + (header.mk false p t (c :: cs')).leafCount - 1) row))
                (log ++ expectedChildrenOps e (c :: cs') col (row + 1))
              rcases hmerge : callAll ex (log ++ expectedChildrenOps e (c :: cs') col (row + 1))
                  (mergeOps e (Axis.cell col row)
                    (Axis.cell (col + (header.mk false p t (c :: cs')).leafCount - 1) row)) with
                ⟨merged, merr⟩
              rw [hmerge] at hm
              simp only at hm
              cases merr with
              | some err =>
                simp only
                exact made_append _ _ _ (made_more _ _ _ hm.1)
              | none =>
                simp only
                rw [← hm.2 rfl, List.append_assoc]
                exact made_append _ _ _ (made_append _ _ _ (callAll_made ex _ _).1)
/-- The calls that the loop over the children makes are the first of the expected
calls. -/
theorem writeHeaderChildren_made (e : Excel) (ex : Engine) :
    ∀ (cs : List header) (col row k : Int) (log : List SheetOp),
    ∃ more, (writeHeaderChildren e ex cs col row k log).2.1 ++ more =
      expectedChildrenOps e cs (col + k) (row + 1)
  | [], col, row, k, log => by
    rw [writeHeaderChildren_nil, expectedChildrenOps_nil]
    exact ⟨[], rfl⟩
  | c :: cs, col, row, k, log => by
    rw [writeHeaderChildren_cons, expectedChildrenOps_cons]
    have ihm := writeHeader_made e ex c (col + k) (row + 1) log
    have iho := writeHeader_ok e ex c (col + k) (row + 1) log
    rcases hc : writeHeader e ex c (col + k) (row + 1) log with ⟨span, ops, err⟩
    rw [hc] at ihm iho
    simp only at ihm iho
    cases err with
    | some err => exact made_more _ _ _ ihm
    | none =>
      obtain ⟨ih1, ih2⟩ := iho rfl
      subst ih1
      subst ih2
      simp only
      have ih' := writeHeaderChildren_made e ex cs col row (k + c.leafCount)
        (log ++ expectedHeaderOps e c (col + k) (row + 1))
      rw [show col + (k + c.leafCount) = col + k + c.leafCount by ring] at ih'
      exact made_append _ _ _ ih'
end

mutual
/-- At a position inside the sheet, when the engine accepts the expected calls,
`writeHeader` returns no error. -/
theorem writeHeader_valid (e : Excel) (ex : Engine) :
    ∀ (h : header) (col row : Int) (log : List SheetOp),
    1 ≤ col → 0 ≤ row → (h.isDummy = true ∨ 1 ≤ row) → col + h.leafCount - 1 ≤ TotalColumns →
    Accepts ex log (expectedHeaderOps e h col row) →
    (writeHeader e ex h col row log).2.2 = none
  | .mk d p t cs, col, row, log => by
    intro h1 h2 h3 h4 hacc
    rw [expectedHeaderOps_mk, accepts_append] at hacc
    obtain ⟨hacc1, hacc2⟩ := hacc
    have ihv := writeHeaderChildren_valid e ex cs col row 0 log
    have iho := writeHeaderChildren_ok e ex cs col row 0 log
    rw [writeHeader_mk]
    rcases hc : writeHeaderChildren e ex cs col row 0 log with ⟨cspan, ops, err⟩
    rw [hc] at ihv iho
    rw [Int.add_zero] at ihv iho
    cases cs with
    | nil =>
      rw [leafCount_nil] at h4
      rw [leafCountList_nil] at ihv
      have herr := ihv (by omega) h2 (by omega) hacc1
      simp only at herr
      subst herr
      have hops := (iho rfl).2
      simp only at hops
      subst hops
      simp only [List.length_nil, if_true]
      cases d with
      | true => rfl
      | false =>
        have hrow : 1 ≤ row := by
          rcases h3 with h3 | h3
          · simp [header.isDummy] at h3
          · exact h3
        simp only [Bool.false_eq_true, if_false, List.length_nil, if_true,
          List.nil_append] at hacc2 ⊢
        rw [coordinatesToCellName_valid col row h1 hrow (by omega)]
        simp only
        rw [callAll_accepts ex _ _ hacc2]
    | cons c cs' =>
      rw [leafCount_cons] at h4
      have herr := ihv (by omega) h2 (by omega) hacc1
      simp only at herr
      subst herr
      obtain ⟨hspan, hops⟩ := iho rfl
      simp only at hspan hops
      rw [Int.zero_add] at hspan
      subst hops
      have hpos : 1 ≤ header.leafCount.leafCountList (c :: cs') := by
        rw [leafCountList_cons]
        have a1 := leafCount_pos c
        have a2 := leafCountList_nonneg cs'
        omega
      have hlen : ¬ (c :: cs').length = 0 := by simp
      simp only [hlen, if_false]
      cases d with
      | true => rfl
      | false =>
        have hrow : 1 ≤ row := by
          rcases h3 with h3 | h3
          · simp [header.isDummy] at h3
          · exact h3
        simp only [Bool.false_eq_true, if_false, hlen] at hacc2 ⊢
        rw [accepts_append, leafCount_cons, ← hspan] at hacc2
        rw [coordinatesToCellName_valid col row h1 hrow (by omega),
          coordinatesToCellName_valid (col + cspan - 1) row (by omega) hrow (by omega)]
        simp only
        rw [callAll_accepts ex _ _ hacc2.1]
        simp only
        rw [callAll_accepts ex _ _ hacc2.2]
/-- At a position inside the sheet, when the engine accepts the expected calls, the loop
over the children returns no error. -/
theorem writeHeaderChildren_valid (e : Excel) (ex : Engine) :
    ∀ (cs : List header) (col row k : Int) (log : List SheetOp),
    1 ≤ col + k → 0 ≤ row → col + k + header.leafCount.leafCountList cs - 1 ≤ TotalColumns →
    Accepts ex log (expectedChildrenOps e cs (col + k) (row + 1)) →
    (writeHeaderChildren e ex cs col row k log).2.2 = none
  | [], col, row, k, log => by
    intro _ _ _ _
    rw [writeHeaderChildren_nil]
  | c :: cs, col, row, k, log => by
    intro h1 h2 h3 hacc
    rw [leafCountList_cons] at h3
    rw [expectedChildrenOps_cons, accepts_append] at hacc
    have a1 := leafCount_pos c
    have a2 := leafCountList_nonneg cs
    have ihv := writeHeader_valid e ex c (col + k) (row + 1) log h1 (by omega)
      (Or.inr (by omega)) (by omega) hacc.1
    have iho := writeHeader_ok e ex c (col + k) (row + 1) log ihv
    rw [writeHeaderChildren_cons]
    rcases hc : writeHeader e ex c (col + k) (row + 1) log with ⟨span, ops, err⟩
    rw [hc] at ihv iho
    simp only at ihv
    subst ihv
    obtain ⟨hs, hops⟩ := iho
    simp only at hs hops
    subst hs
    subst hops
    simp only
    have ihr := writeHeaderChildren_valid e ex cs col row (k + c.leafCount)
      (log ++ expectedHeaderOps e c (col + k) (row + 1)) (by omega) h2 (by omega)
      (by rw [show col + (k + c.leafCount) = col + k + c.leafCount by ring]; exact hacc.2)
    rcases hc2 : writeHeaderChildren e ex cs col row (k + c.leafCount)
        (log ++ expectedHeaderOps e c (col + k) (row + 1)) with ⟨span2, ops2, err2⟩
    rw [hc2] at ihr
    exact ihr
end

mutual
/-- The expected calls for a header touch the rows of the header only: the row of the
header and the rows of the levels below it. -/
theorem expectedHeaderOps_rows (e : Excel) : ∀ (h : header) (col row : Int),
    ∀ op ∈ expectedHeaderOps e h col row, op.onRows row (row + (h.depth : Int) - 1)
  | .mk d p t cs, col, row => by
    intro op hop
    rw [header_depth_mk]
    rw [expectedHeaderOps_mk, List.mem_append] at hop
    rcases hop with hop | hop
    · have := expectedChildrenOps_rows e cs col (row + 1) op hop
      exact onRows_mono _ _ _ _ op this (by omega) (by push_cast; omega)
    · have hrow : op.onRows row row := by
        split_ifs at hop
        · cases hop
        · rw [List.nil_append] at hop
          exact titleOps_onRows e col row t op hop
        · rcases List.mem_append.mp hop with hop | hop
          · exact mergeOps_onRows e _ _ row op hop
          · exact titleOps_onRows e col row t op hop
      exact onRows_mono _ _ _ _ op hrow (le_refl _) (by push_cast; omega)
/-- The expected calls for a list of headers on the row `row` touch that row and the rows
of the levels below it. -/
theorem expectedChildrenOps_rows (e : Excel) : ∀ (cs : List header) (col row : Int),
    ∀ op ∈ expectedChildrenOps e cs col row, op.onRows row (row + (depthList cs : Int) - 1)
  | [], col, row => by
    intro op hop
    rw [expectedChildrenOps_nil] at hop
    cases hop
  | c :: cs, col, row => by
    intro op hop
    rw [expectedChildrenOps_cons, List.mem_append] at hop
    rw [depthList_cons]
    rcases hop with hop | hop
    · exact onRows_mono _ _ _ _ op (expectedHeaderOps_rows e c col row op hop) (le_refl _)
        (by push_cast; omega)
    · exact onRows_mono _ _ _ _ op (expectedChildrenOps_rows e cs _ row op hop) (le_refl _)
        (by push_cast; omega)
end

/-- The calls that `writeHeader` makes for a header touch the rows of the header only,
whatever the engine returns. -/
theorem writeHeader_rows (e : Excel) (ex : Engine) (h : header) (col row : Int)
    (log : List SheetOp) :
    ∀ op ∈ (writeHeader e ex h col row log).2.1, op.onRows row (row + (h.depth : Int) - 1) := by
  intro op hop
  obtain ⟨more, hm⟩ := writeHeader_made e ex h col row log
  exact expectedHeaderOps_rows e h col row op (by rw [← hm]; exact List.mem_append_left _ hop)

/-- What an error of a run of the writer is, given the calls `ops` that the run made after
the calls `log`: the error of a coordinate conversion, or the error that the engine
returned for the last call made. -/
theorem callAll_error_after (ex : Engine) (log done ops : List SheetOp) (err : WriteError)
    (h : (callAll ex (log ++ done) ops).2 = some err) :
    ∃ before op engineErr, done ++ (callAll ex (log ++ done) ops).1 = before ++ [op] ∧
      ex (log ++ before) op = some engineErr ∧ err = WriteError.engine op engineErr := by
  obtain ⟨before, op, engineErr, hb, he, herr⟩ := callAll_error ex ops (log ++ done) err h
  refine ⟨done ++ before, op, engineErr, ?_, ?_, herr⟩
  · rw [hb, List.append_assoc]
  · rw [← List.append_assoc]
    exact he

mutual
/-- An error of `writeHeader` is the error of a coordinate conversion or the error that the
engine returned for the last call that `writeHeader` made. -/
theorem writeHeader_error (e : Excel) (ex : Engine) :
    ∀ (h : header) (col row : Int) (log : List SheetOp) (err : WriteError),
    (writeHeader e ex h col row log).2.2 = some err →
    (∃ convErr, err = WriteError.coordinates convErr) ∨
      ∃ before op engineErr, (writeHeader e ex h col row log).2.1 = before ++ [op] ∧
        ex (log ++ before) op = some engineErr ∧ err = WriteError.engine op engineErr
  | .mk d p t cs, col, row, log, err => by
    intro h
    rw [writeHeader_mk] at h ⊢
    have ih := writeHeaderChildren_error e ex cs col row 0 log
    rcases hc : writeHeaderChildren e ex cs col row 0 log with ⟨cspan, ops, cerr⟩
    rw [hc] at h ih
    cases cerr with
    | some cerr =>
      simp only at h ⊢
      exact ih err h
    | none =>
      simp only at h ⊢
      cases cs with
      | nil =>
        simp only [List.length_nil, if_true] at h ⊢
        cases d with
        | true => simp at h
        | false =>
          simp only [Bool.false_eq_true, if_false] at h ⊢
          cases hx : CoordinatesToCellName col row with
          | error convErr =>
            rw [hx] at h
            simp only at h
            injection h with h
            exact Or.inl ⟨convErr, h.symm⟩
          | ok axis =>
            rw [hx] at h
            simp only at h ⊢
            exact Or.inr (callAll_error_after ex log ops _ err h)
      | cons c cs' =>
        have hlen : ¬ (c :: cs').length = 0 := by simp
        simp only [hlen, if_false] at h ⊢
        cases d with
        | true => simp at h
        | false =>
          simp only [Bool.false_eq_true, if_false] at h ⊢
          cases hx : CoordinatesToCellName col row with
          | error convErr =>
            rw [hx] at h
            simp only at h
            injection h with h
            exact Or.inl ⟨convErr, h.symm⟩
          | ok hCell =>
            rw [hx] at h
            simp only at h ⊢
            cases hy : CoordinatesToCellName (col + cspan - 1) row with
            | error convErr =>
              rw [hy] at h
              simp only at h
              injection h with h
              exact Or.inl ⟨convErr, h.symm⟩
            | ok vCell =>
              rw [hy] at h
              simp only at h ⊢
              have hme := callAll_error_after ex log ops (mergeOps e hCell vCell)
              rcases hmerge : callAll ex (log ++ ops) (mergeOps e hCell vCell) with
                ⟨merged, merr⟩
              rw [hmerge] at h hme
              cases merr with
              | some merr =>
                simp only at h hme ⊢
                injection h with h
                exact Or.inr (hme err (by rw [h]))
              | none =>
                simp only at h ⊢
                have := callAll_error_after ex log (ops ++ merged) (titleOps e hCell t) err
                  (by rw [← List.append_assoc]; exact h)
                rw [← List.append_assoc log] at this
                exact Or.inr this
/-- An error of the loop over the children is the error of a coordinate conversion or the
error that the engine returned for the last call made. -/
theorem writeHeaderChildren_error (e : Excel) (ex : Engine) :
    ∀ (cs : List header) (col row k : Int) (log : List SheetOp) (err : WriteError),
    (writeHeaderChildren e ex cs col row k log).2.2 = some err →
    (∃ convErr, err = WriteError.coordinates convErr) ∨
      ∃ before op engineErr, (writeHeaderChildren e ex cs col row k log).2.1 = before ++ [op] ∧
        ex (log ++ before) op = some engineErr ∧ err = WriteError.engine op engineErr
  | [], col, row, k, log, err => by
    intro h
    rw [writeHeaderChildren_nil] at h
    cases h
  | c :: cs, col, row, k, log, err => by
    intro h
    rw [writeHeaderChildren_cons] at h ⊢
    have ih := writeHeader_error e ex c (col + k) (row + 1) log
    rcases hc : writeHeader e ex c (col + k) (row + 1) log with ⟨span, ops, cerr⟩
    rw [hc] at h ih
    cases cerr with
    | some cerr =>
      simp only at h ⊢
      exact ih err h
    | none =>
      simp only at h ⊢
      have ih2 := writeHeaderChildren_error e ex cs col row (k + span) (log ++ ops) err
      rcases hc2 : writeHeaderChildren e ex cs col row (k + span) (log ++ ops) with
        ⟨span2, ops2, err2⟩
      rw [hc2] at h ih2
      simp only at h ih2 ⊢
      rcases ih2 h with hconv | ⟨before, op, engineErr, hb, he, herr⟩
      · exact Or.inl hconv
      · refine Or.inr ⟨ops ++ before, op, engineErr, ?_, ?_, herr⟩
        · rw [hb, List.append_assoc]
        · rw [← List.append_assoc]
          exact he
end

theorem accepts_rowLimit : ∀ (ops log : List SheetOp), (∀ op ∈ ops, op.lastRow ≤ 1048576) →
    Accepts rowLimitEngine log ops := by
  intro ops
  induction ops with
  | nil =>
    intro log _
    exact accepts_nil _ log
  | cons op rest ih =>
    intro log h
    rw [accepts_cons]
    refine ⟨?_, ih _ (fun o ho => h o (List.mem_cons_of_mem _ ho))⟩
    have := h op (List.mem_cons_self _ _)
    unfold rowLimitEngine
    rw [if_neg (by omega)]

/-- C20: `writeHeader` at a position inside the sheet, on an engine that accepts the
expected calls, returns no error; a run without error returns the number of leaves under
the header (1 for a leaf) and makes exactly the expected calls: the children on the next
row, each at `col` plus the leaf counts of the children before it, then for a header with
children that is not the dummy the merge and the style of
`(col, row)..(col + span - 1, row)` on every active sheet, then the title at `(col, row)`.
A leaf is written without a merge, and the dummy root adds no call to those of its
children. In every run the calls made are the first of the expected calls, and an error is
the error of a coordinate conversion or the error that the engine returned for the last
call made. -/
theorem writeHeader_spans_merges (e : Excel) (ex : Engine) (h : header) (col row : Int)
    (log : List SheetOp) :
    (1 ≤ col → 0 ≤ row → (h.isDummy = true ∨ 1 ≤ row) →
      col + h.leafCount - 1 ≤ TotalColumns →
      Accepts ex log (expectedHeaderOps e h col row) →
      (writeHeader e ex h col row log).2.2 = none) ∧
    ((writeHeader e ex h col row log).2.2 = none →
      (writeHeader e ex h col row log).1 = h.leafCount ∧
      (writeHeader e ex h col row log).2.1 = expectedHeaderOps e h col row) ∧
    (∃ more, (writeHeader e ex h col row log).2.1 ++ more = expectedHeaderOps e h col row) ∧
    (∀ err, (writeHeader e ex h col row log).2.2 = some err →
      (∃ convErr, err = WriteError.coordinates convErr) ∨
        ∃ before op engineErr, (writeHeader e ex h col row log).2.1 = before ++ [op] ∧
          ex (log ++ before) op = some engineErr ∧ err = WriteError.engine op engineErr) ∧
    (h.children = [] → h.leafCount = 1) ∧
    (∀ p t, expectedHeaderOps e (header.mk false p t []) col row =
      titleOps e (Axis.cell col row) t) ∧
    (∀ p t cs, expectedHeaderOps e (header.mk true p t cs) col row =
      expectedChildrenOps e cs col (row + 1)) := by
  refine ⟨writeHeader_valid e ex h col row log, writeHeader_ok e ex h col row log,
    writeHeader_made e ex h col row log, writeHeader_error e ex h col row log, ?_, ?_, ?_⟩
  · intro hc
    cases h with
    | mk d p t cs =>
      simp only [header.children] at hc
      subst hc
      exact leafCount_nil d p t
  · intro p t
    rw [expectedHeaderOps_mk, expectedChildrenOps_nil]
    simp
  · intro p t cs
    rw [expectedHeaderOps_mk]
    simp

/-- C20 on the header of the record `groupFields`, written at column 1 of row 0 on the
engine `rowLimitEngine`: the span is 3, the group `g` is merged over the columns 1 to 2
of row 1, and the leaves are on row 2. Written at the row 1048575, the leaves fall on a
row that the engine refuses: the first call is refused and its error returned. -/
theorem writeHeader_spans_merges_witness :
    (writeHeader sampleExcel rowLimitEngine groupHeader 1 0 []).2.2 = none ∧
    (writeHeader sampleExcel rowLimitEngine groupHeader 1 0 []).1 = 3 ∧
    (writeHeader sampleExcel rowLimitEngine groupHeader 1 0 []).2.1 =
      [SheetOp.SetCellValue "Sheet1" (Axis.cell 1 2) (CellValue.str "a"),
       SheetOp.SetCellValue "Sheet1" (Axis.cell 2 2) (CellValue.str "b"),
       SheetOp.MergeCell "Sheet1" (Axis.cell 1 1) (Axis.cell 2 1),
       SheetOp.SetCellStyle "Sheet1" (Axis.cell 1 1) (Axis.cell 2 1) 7,
       SheetOp.SetCellValue "Sheet1" (Axis.cell 1 1) (CellValue.str "g"),
       SheetOp.SetCellValue "Sheet1" (Axis.cell 3 2) (CellValue.str "c"),
       SheetOp.MergeCell "Sheet1" (Axis.cell 3 1) (Axis.cell 3 1),
       SheetOp.SetCellStyle "Sheet1" (Axis.cell 3 1) (Axis.cell 3 1) 7,
       SheetOp.SetCellValue "Sheet1" (Axis.cell 3 1) (CellValue.str "h")] ∧
    (writeHeader sampleExcel rowLimitEngine groupHeader 1 1048575 []).2 =
      ([SheetOp.SetCellValue "Sheet1" (Axis.cell 1 1048577) (CellValue.str "a")],
        some (WriteError.engine
          (SheetOp.SetCellValue "Sheet1" (Axis.cell 1 1048577) (CellValue.str "a"))
          ⟨"row number exceeds maximum limit"⟩)) :=
  have hok := (writeHeader_spans_merges sampleExcel rowLimitEngine groupHeader 1 0 []).1
    (by decide) (by decide) (Or.inl rfl) (by decide) (accepts_rowLimit _ _ (by decide))
  ⟨hok,
    ((writeHeader_spans_merges sampleExcel rowLimitEngine groupHeader 1 0 []).2.1 hok).1.trans
      (by decide),
    ((writeHeader_spans_merges sampleExcel rowLimitEngine groupHeader 1 0 []).2.1 hok).2.trans
      (by decide),
    by decide⟩

/-- C19: for a record with at least one field whose paths all have `d ≥ 1` segments,
`parseHeader` returns a header and no error, the height of that header is `d + 1`, and
every call that `writeHeader` makes for it at column 1 of row 0 touches cells of the rows
1 to `d` only, on every engine and whether the run ends with an error or not; the row
`getHeight()` at which `initFromData` starts the data is the first row after them. -/
theorem parseHeader_height (e : Excel) (ex : Engine) (log : List SheetOp) (f0 : StructField)
    (rest : List StructField) (d : Nat)
    (hd : 1 ≤ d) (h : ∀ f ∈ f0 :: rest, f.path.length = d) :
    ∃ root, parseHeader (f0 :: rest) = some (root, none) ∧
      root.getHeight = (d : Int) + 1 ∧
      ∀ op ∈ (writeHeader e ex root 1 0 log).2.1, op.onRows 1 (d : Int) := by
  have hd0 : f0.path.length = d := h f0 (List.mem_cons_self _ _)
  obtain ⟨children, hch, hparse⟩ := parseHeader_same_depth f0 rest (by
    intro f hf
    rw [h f hf, hd0])
  obtain ⟨hs, hhs, hdepth, hhead⟩ := headersFromColumn_spec
    ((f0 :: rest).map StructField.path) f0.path.length 0 (by
      intro p hp
      obtain ⟨f, hf, rfl⟩ := List.mem_map.mp hp
      rw [h f hf, hd0, Nat.zero_add])
  rw [hch] at hhs
  injection hhs with hhs
  subst hhs
  refine ⟨_, hparse, ?_, ?_⟩
  · obtain ⟨h0, hrest, hc, _, _, hh⟩ := hhead f0.path (rest.map StructField.path) rfl
      (by omega)
    rw [getHeight_of_children_cons _ h0 hrest (by rw [hc]; rfl), hh, hd0]
  · intro op hop
    obtain ⟨more, hm⟩ := writeHeader_made e ex (header.mk true "" "" children) 1 0 log
    have hexp : op ∈ expectedHeaderOps e (header.mk true "" "" children) 1 0 := by
      rw [← hm]
      exact List.mem_append_left _ hop
    rw [expectedHeaderOps_mk] at hexp
    simp only [if_true, List.append_nil] at hexp
    have hrows := expectedChildrenOps_rows e children 1 (0 + 1) op hexp
    have hle : depthList children ≤ d := by
      rw [depthList_le]
      intro c hc
      have := (hdepth c hc).2.1
      omega
    exact onRows_mono _ _ _ _ op hrows (by omega) (by omega)

/-- C19 on the record `groupFields`, whose paths have two segments: the height is 3. -/
theorem parseHeader_height_witness :
    (1 ≤ 2) ∧ (∀ f ∈ groupFields, f.path.length = 2) ∧
    ∃ root, parseHeader groupFields = some (root, none) ∧ root.getHeight = 3 ∧
      ∀ op ∈ (writeHeader sampleExcel rowLimitEngine root 1 0 []).2.1, op.onRows 1 2 :=
  ⟨by decide, by decide,
    parseHeader_height sampleExcel rowLimitEngine [] ⟨"g|a", some (Field.int ⟨0, 0⟩)⟩
      [⟨"g|b", some (Field.str ⟨"", 0⟩)⟩, ⟨"h|c", some (Field.int ⟨0, 0⟩)⟩] 2 (by decide)
      (by decide)⟩


/-! ## Spans from raw header rows -/

theorem setLastEnd_append_singleton (acc : List headerIndex) (x : headerIndex) (e : Int) :
    setLastEnd (acc ++ [x]) e = acc ++ [{ x with end' := e }] := by
  induction acc with
  | nil => rfl
  | cons a acc ih =>
    cases hacc : acc ++ [x] with
    | nil => simp at hacc
    | cons b l =>
      rw [List.cons_append, hacc]
      simp only [setLastEnd]
      rw [← hacc, ih]
      rfl

theorem headerIndicesLoop_nil (j : Int) (his : List headerIndex) :
    headerIndicesLoop [] j his = his := rfl

theorem headerIndicesLoop_cons_empty (rest : List String) (j : Int) (his : List headerIndex) :
    headerIndicesLoop ("" :: rest) j his = headerIndicesLoop rest (j + 1) his := by
  simp only [headerIndicesLoop, if_true]

theorem headerIndicesLoop_cons_open (col : String) (rest : List String) (j : Int)
    (acc : List headerIndex) (x : headerIndex) (hcol : col ≠ "") :
    headerIndicesLoop (col :: rest) j (acc ++ [x]) =
      headerIndicesLoop rest (j + 1)
        ((acc ++ [{ x with end' := j - 1 }]) ++ [{ header := col, start := j, end' := 0 }]) := by
  have hlen : (acc ++ [x]).length > 0 := by simp
  simp only [headerIndicesLoop, hcol, if_false, hlen, if_true, setLastEnd_append_singleton]

theorem headerIndicesLoop_cons_first (col : String) (rest : List String) (j : Int)
    (hcol : col ≠ "") :
    headerIndicesLoop (col :: rest) j [] =
      headerIndicesLoop rest (j + 1) ([] ++ [{ header := col, start := j, end' := 0 }]) := by
  simp [headerIndicesLoop, hcol]

theorem cellsFrom_nil (j : Int) : cellsFrom j [] = [] := rfl

theorem cellsFrom_cons_empty (j : Int) (rest : List String) :
    cellsFrom j ("" :: rest) = cellsFrom (j + 1) rest := by
  simp only [cellsFrom, if_true]

theorem cellsFrom_cons (j : Int) (col : String) (rest : List String) (hcol : col ≠ "") :
    cellsFrom j (col :: rest) = (j, col) :: cellsFrom (j + 1) rest := by
  simp only [cellsFrom, hcol, if_false]

theorem expectedRowRanges_single (L c : Int) (text : String) :
    expectedRowRanges L [(c, text)] = [(c, L, text)] := rfl

theorem expectedRowRanges_cons (L c c2 : Int) (text text2 : String)
    (rest : List (Int × String)) :
    expectedRowRanges L ((c, text) :: (c2, text2) :: rest) =
      (c, c2 - 1, text) :: expectedRowRanges L ((c2, text2) :: rest) := rfl

/-- The column loop of `getHeadersFromRow` with an open span, followed by the closing of
the last span, makes the expected spans of the open span and the cells that follow. -/
theorem headerIndicesLoop_ranges (e : Int) :
    ∀ (cells : List String) (j : Int) (acc : List headerIndex) (h : String) (s x : Int),
      (setLastEnd (headerIndicesLoop cells j (acc ++ [⟨h, s, x⟩])) e).map headerIndex.toRange =
        acc.map headerIndex.toRange ++
          expectedRowRanges (e + 1) ((s + 1, h) :: cellsFrom (j + 1) cells) := by
  intro cells
  induction cells with
  | nil =>
    intro j acc h s x
    rw [headerIndicesLoop_nil, setLastEnd_append_singleton, cellsFrom_nil,
      expectedRowRanges_single, List.map_append]
    rfl
  | cons col rest ih =>
    intro j acc h s x
    by_cases hcol : col = ""
    · subst hcol
      rw [headerIndicesLoop_cons_empty, cellsFrom_cons_empty]
      exact ih (j + 1) acc h s x
    · rw [headerIndicesLoop_cons_open col rest j acc _ hcol, cellsFrom_cons _ col rest hcol,
        expectedRowRanges_cons]
      have := ih (j + 1) (acc ++ [⟨h, s, j - 1⟩]) col j 0
      simp only at this ⊢
      rw [this, List.map_append, List.append_assoc]
      simp only [List.map_cons, List.map_nil, List.singleton_append, headerIndex.toRange]
      rw [show j - 1 + 1 = j + 1 - 1 by ring]

/-- The spans of a row whose first cell is not empty, before their conversion into cell
names. -/
theorem rowIndices_ranges (col : String) (rest : List String) (hcol : col ≠ "") :
    (setLastEnd (headerIndicesLoop (col :: rest) 0 [])
        (((col :: rest).length : Int) - 1)).map headerIndex.toRange =
      expectedRowRanges ((col :: rest).length : Int) (nonEmptyCells (col :: rest)) := by
  rw [headerIndicesLoop_cons_first col rest 0 hcol, headerIndicesLoop_ranges]
  unfold nonEmptyCells
  rw [cellsFrom_cons _ col rest hcol]
  simp

theorem cellsFrom_bounds : ∀ (cells : List String) (j : Int),
    ∀ c ∈ cellsFrom j cells, j ≤ c.1 ∧ c.1 < j + cells.length := by
  intro cells
  induction cells with
  | nil =>
    intro j c hc
    cases hc
  | cons col rest ih =>
    intro j c hc
    by_cases hcol : col = ""
    · subst hcol
      rw [cellsFrom_cons_empty] at hc
      have := ih (j + 1) c hc
      simp only [List.length_cons]
      push_cast
      omega
    · rw [cellsFrom_cons _ col rest hcol] at hc
      simp only [List.length_cons]
      push_cast
      rcases List.mem_cons.mp hc with rfl | hc
      · simp only
        omega
      · have := ih (j + 1) c hc
        omega

theorem cellsFrom_sorted : ∀ (cells : List String) (j : Int),
    (cellsFrom j cells).Pairwise (fun a b => a.1 < b.1) := by
  intro cells
  induction cells with
  | nil =>
    intro j
    exact List.Pairwise.nil
  | cons col rest ih =>
    intro j
    by_cases hcol : col = ""
    · subst hcol
      rw [cellsFrom_cons_empty]
      exact ih (j + 1)
    · rw [cellsFrom_cons _ col rest hcol]
      refine List.Pairwise.cons ?_ (ih (j + 1))
      intro c hc
      have := (cellsFrom_bounds rest (j + 1) c hc).1
      simp only
      omega

/-- The expected spans of cells in increasing columns up to `L`: one span for each cell,
with its column and text; the spans lie one after the other without a gap and the last
one ends at `L`. -/
theorem expectedRowRanges_props (L : Int) :
    ∀ (cells : List (Int × String)), cells.Pairwise (fun a b => a.1 < b.1) →
      (∀ c ∈ cells, c.1 ≤ L) →
      (expectedRowRanges L cells).map (fun r => (r.1, r.2.2)) = cells ∧
      (∀ r ∈ expectedRowRanges L cells, r.1 ≤ r.2.1 ∧ r.2.1 ≤ L ∧
        ∀ c0 ∈ cells.head?, c0.1 ≤ r.1) ∧
      (expectedRowRanges L cells).Pairwise (fun a b => a.2.1 < b.1) ∧
      (∀ c0 ∈ cells.head?, ∀ c, c0.1 ≤ c → c ≤ L →
        ∃ r ∈ expectedRowRanges L cells, r.1 ≤ c ∧ c ≤ r.2.1) := by
  intro cells
  induction cells with
  | nil =>
    intro _ _
    refine ⟨rfl, ?_, List.Pairwise.nil, ?_⟩
    · intro r hr
      cases hr
    · intro c0 hc0
      simp at hc0
  | cons a tl ih =>
    intro hsorted hle
    obtain ⟨c1, t1⟩ := a
    cases tl with
    | nil =>
      rw [expectedRowRanges_single]
      have h1 := hle (c1, t1) (List.mem_cons_self _ _)
      simp only at h1
      refine ⟨rfl, ?_, List.pairwise_singleton _ _, ?_⟩
      · intro r hr
        simp only [List.mem_singleton] at hr
        subst hr
        refine ⟨h1, le_refl _, ?_⟩
        intro c0 hc0
        simp only [List.head?_cons, Option.mem_def, Option.some.injEq] at hc0
        subst hc0
        exact le_refl _
      · intro c0 hc0 c hc hcl
        simp only [List.head?_cons, Option.mem_def, Option.some.injEq] at hc0
        subst hc0
        exact ⟨(c1, L, t1), List.mem_singleton.mpr rfl, hc, hcl⟩
    | cons b rest =>
      obtain ⟨c2, t2⟩ := b
      rw [expectedRowRanges_cons]
      have hs := List.pairwise_cons.mp hsorted
      have h12 : c1 < c2 := hs.1 (c2, t2) (List.mem_cons_self _ _)
      obtain ⟨i1, i2, i3, i4⟩ := ih hs.2 (fun c hc => hle c (List.mem_cons_of_mem _ hc))
      refine ⟨?_, ?_, ?_, ?_⟩
      · rw [List.map_cons, i1]
      · intro r hr
        rcases List.mem_cons.mp hr with rfl | hr
        · refine ⟨by simp only; omega, ?_, ?_⟩
          · have := hle (c2, t2) (List.mem_cons_of_mem _ (List.mem_cons_self _ _))
            simp only at this ⊢
            omega
          · intro c0 hc0
            simp only [List.head?_cons, Option.mem_def, Option.some.injEq] at hc0
            subst hc0
            exact le_refl _
        · obtain ⟨r1, r2, r3⟩ := i2 r hr
          refine ⟨r1, r2, ?_⟩
          intro c0 hc0
          simp only [List.head?_cons, Option.mem_def, Option.some.injEq] at hc0
          subst hc0
          have := r3 (c2, t2) (by simp)
          simp only at this ⊢
          omega
      · refine List.Pairwise.cons ?_ i3
        intro r hr
        have := (i2 r hr).2.2 (c2, t2) (by simp)
        simp only at this ⊢
        omega
      · intro c0 hc0 c hc hcl
        simp only [List.head?_cons, Option.mem_def, Option.some.injEq] at hc0
        subst hc0
        simp only at hc
        by_cases hlt : c < c2
        · exact ⟨(c1, c2 - 1, t1), List.mem_cons_self _ _, hc, by simp only; omega⟩
        · obtain ⟨r, hr, hr1, hr2⟩ := i4 (c2, t2) (by simp) c (by simp only; omega) hcl
          exact ⟨r, List.mem_cons_of_mem _ hr, hr1, hr2⟩

theorem getMergeCell_valid (startCol endCol row : Int) (value : String)
    (h1 : 1 ≤ startCol) (h2 : startCol ≤ TotalColumns) (h3 : 1 ≤ endCol)
    (h4 : endCol ≤ TotalColumns) (h5 : 1 ≤ row) :
    getMergeCell startCol endCol row value =
      .ok ⟨Axis.cell startCol row, Axis.cell endCol row, value⟩ := by
  unfold getMergeCell
  rw [coordinatesToCellName_valid startCol row h1 h5 h2,
    coordinatesToCellName_valid endCol row h3 h5 h4]

theorem mergeCellsOfIndices_nil (i : Int) : mergeCellsOfIndices i [] = .ok [] := rfl

theorem mergeCellsOfIndices_cons (i : Int) (x : headerIndex) (rest : List headerIndex) :
    mergeCellsOfIndices i (x :: rest) =
      match getMergeCell (x.start + 1) (x.end' + 1) (i + 1) x.header with
      | .error err => .error err
      | .ok header =>
        match mergeCellsOfIndices i rest with
        | .error err => .error err
        | .ok headers => .ok (header :: headers) := rfl

/-- The conversion loop of `getHeadersFromRow` on spans inside the sheet. -/
theorem mergeCellsOfIndices_valid (i : Int) (hi : 0 ≤ i) :
    ∀ (his : List headerIndex),
      (∀ x ∈ his, 1 ≤ x.toRange.1 ∧ x.toRange.1 ≤ TotalColumns ∧ 1 ≤ x.toRange.2.1 ∧
        x.toRange.2.1 ≤ TotalColumns) →
      mergeCellsOfIndices i his = .ok ((his.map headerIndex.toRange).map (rangeSpan i)) := by
  intro his
  induction his with
  | nil =>
    intro _
    rfl
  | cons x rest ih =>
    intro h
    obtain ⟨h1, h2, h3, h4⟩ := h x (List.mem_cons_self _ _)
    simp only [headerIndex.toRange] at h1 h2 h3 h4
    rw [mergeCellsOfIndices_cons, getMergeCell_valid _ _ _ _ h1 h2 h3 h4 (by omega),
      ih (fun y hy => h y (List.mem_cons_of_mem _ hy))]
    rfl

theorem nonEmptyCells_cons (col : String) (rest : List String) (hcol : col ≠ "") :
    nonEmptyCells (col :: rest) = (1, col) :: cellsFrom 2 rest := by
  unfold nonEmptyCells
  rw [cellsFrom_cons _ col rest hcol]
  rfl

theorem nonEmptyCells_le (row : List String) :
    ∀ c ∈ nonEmptyCells row, c.1 ≤ (row.length : Int) := by
  intro c hc
  have := cellsFrom_bounds row 1 c hc
  omega

/-- The spans that `getHeadersFromRow` makes of a row at position `i` whose first cell is
not empty and that is not longer than a sheet is wide. -/
theorem rowMergeCells_eq (i : Int) (hi : 0 ≤ i) (col : String) (rest : List String)
    (hcol : col ≠ "") (hlen : ((col :: rest).length : Int) ≤ TotalColumns) :
    rowMergeCells i (col :: rest) =
      .ok ((expectedRowRanges ((col :: rest).length : Int)
        (nonEmptyCells (col :: rest))).map (rangeSpan i)) := by
  unfold rowMergeCells
  have hr := rowIndices_ranges col rest hcol
  obtain ⟨_, p2, _, _⟩ := expectedRowRanges_props ((col :: rest).length : Int)
    (nonEmptyCells (col :: rest)) (cellsFrom_sorted _ 1) (nonEmptyCells_le _)
  simp only
  rw [mergeCellsOfIndices_valid i hi, hr]
  intro x hx
  have hmem : x.toRange ∈ expectedRowRanges ((col :: rest).length : Int)
      (nonEmptyCells (col :: rest)) := by
    rw [← hr]
    exact List.mem_map_of_mem _ hx
  obtain ⟨q1, q2, q3⟩ := p2 _ hmem
  have q4 := q3 (1, col) (by rw [nonEmptyCells_cons col rest hcol]; simp)
  simp only at q4
  exact ⟨q4, by omega, by omega, by omega⟩

theorem headerRowsLoop_nil (i : Int) : headerRowsLoop [] i = .ok [] := rfl

theorem headerRowsLoop_cons_skip (row : List String) (rest : List (List String)) (i : Int)
    (h : row.length = 0 ∨ row.head? = some "") :
    headerRowsLoop (row :: rest) i = headerRowsLoop rest (i + 1) := by
  rw [headerRowsLoop, if_pos h]

theorem headerRowsLoop_cons_row (row : List String) (rest : List (List String)) (i : Int)
    (h : ¬ (row.length = 0 ∨ row.head? = some "")) :
    headerRowsLoop (row :: rest) i =
      match rowMergeCells i row with
      | .error err => .error err
      | .ok headers =>
        match headerRowsLoop rest (i + 1) with
        | .error err => .error err
        | .ok more => .ok (headers ++ more) := by
  rw [headerRowsLoop, if_neg h]

theorem not_skipped_iff (row : List String) :
    ¬ (row.length = 0 ∨ row.head? = some "") ↔
      ∃ col rest, row = col :: rest ∧ col ≠ "" := by
  cases row with
  | nil => simp
  | cons col rest => simp

/-- On rows that are not longer than a sheet is wide `getHeadersFromRow` returns spans. -/
theorem headerRowsLoop_total :
    ∀ (rows : List (List String)) (i : Int), 0 ≤ i →
      (∀ row ∈ rows, (row.length : Int) ≤ TotalColumns) →
      ∃ headers, headerRowsLoop rows i = .ok headers := by
  intro rows
  induction rows with
  | nil =>
    intro i _ _
    exact ⟨[], rfl⟩
  | cons row rest ih =>
    intro i hi hall
    obtain ⟨more, hmore⟩ := ih (i + 1) (by omega) (fun r hr => hall r (List.mem_cons_of_mem _ hr))
    by_cases hskip : row.length = 0 ∨ row.head? = some ""
    · rw [headerRowsLoop_cons_skip row rest i hskip]
      exact ⟨more, hmore⟩
    · rw [headerRowsLoop_cons_row row rest i hskip, hmore]
      obtain ⟨col, tl, rfl, hcol⟩ := (not_skipped_iff row).mp hskip
      rw [rowMergeCells_eq i hi col tl hcol (hall _ (List.mem_cons_self _ _))]
      exact ⟨_, rfl⟩

/-- The spans of a list of rows are the spans of its first rows followed by the spans of
the rows after them. -/
theorem headerRowsLoop_append :
    ∀ (pre post : List (List String)) (i : Int) (A B : List MergeCell),
      headerRowsLoop pre i = .ok A → headerRowsLoop post (i + pre.length) = .ok B →
      headerRowsLoop (pre ++ post) i = .ok (A ++ B) := by
  intro pre
  induction pre with
  | nil =>
    intro post i A B hA hB
    rw [headerRowsLoop_nil] at hA
    injection hA with hA
    subst hA
    simpa using hB
  | cons row rest ih =>
    intro post i A B hA hB
    have hB' : headerRowsLoop post (i + 1 + rest.length) = .ok B := by
      rw [← hB]
      congr 1
      simp only [List.length_cons]
      push_cast
      ring
    rw [List.cons_append]
    by_cases hskip : row.length = 0 ∨ row.head? = some ""
    · rw [headerRowsLoop_cons_skip row _ i hskip] at hA ⊢
      exact ih post (i + 1) A B hA hB'
    · rw [headerRowsLoop_cons_row row _ i hskip] at hA ⊢
      cases hr : rowMergeCells i row with
      | error err => rw [hr] at hA; cases hA
      | ok headers =>
        rw [hr] at hA
        simp only at hA ⊢
        cases hrest : headerRowsLoop rest (i + 1) with
        | error err => rw [hrest] at hA; cases hA
        | ok more =>
          rw [hrest] at hA
          simp only at hA
          injection hA with hA
          subst hA
          rw [ih post (i + 1) more B hrest hB', List.append_assoc]

theorem expectedSpans_nil (i : Int) : expectedSpans i [] = [] := rfl

theorem expectedSpans_cons (i : Int) (row : List String) (rest : List (List String)) :
    expectedSpans i (row :: rest) =
      (if row.length = 0 ∨ row.head? = some "" then []
       else (expectedRowRanges (row.length : Int) (nonEmptyCells row)).map (rangeSpan i)) ++
        expectedSpans (i + 1) rest := rfl

theorem expectedSpans_append :
    ∀ (pre post : List (List String)) (i : Int),
      expectedSpans i (pre ++ post) =
        expectedSpans i pre ++ expectedSpans (i + pre.length) post := by
  intro pre
  induction pre with
  | nil =>
    intro post i
    simp [expectedSpans_nil]
  | cons row rest ih =>
    intro post i
    rw [List.cons_append, expectedSpans_cons, expectedSpans_cons, ih post (i + 1),
      List.append_assoc]
    congr 3
    simp only [List.length_cons]
    push_cast
    ring

/-- On rows that are not longer than a sheet is wide the loop of `getHeadersFromRow`
returns the expected spans of the rows, row after row. -/
theorem headerRowsLoop_expected :
    ∀ (rows : List (List String)) (i : Int), 0 ≤ i →
      (∀ row ∈ rows, (row.length : Int) ≤ TotalColumns) →
      headerRowsLoop rows i = .ok (expectedSpans i rows) := by
  intro rows
  induction rows with
  | nil =>
    intro i _ _
    rfl
  | cons row rest ih =>
    intro i hi hall
    have hrest := ih (i + 1) (by omega) (fun r hr => hall r (List.mem_cons_of_mem _ hr))
    rw [expectedSpans_cons]
    by_cases hskip : row.length = 0 ∨ row.head? = some ""
    · rw [headerRowsLoop_cons_skip row rest i hskip, if_pos hskip, hrest]
      rfl
    · rw [headerRowsLoop_cons_row row rest i hskip, hrest, if_neg hskip]
      obtain ⟨col, tl, rfl, hcol⟩ := (not_skipped_iff row).mp hskip
      rw [rowMergeCells_eq i hi col tl hcol (hall _ (List.mem_cons_self _ _))]

/-- C14: for a header row at the 0-based position `i` whose first cell is not empty, in
rows that are not longer than a sheet is wide, `getHeadersFromRow` returns the expected
spans of the rows before it, then exactly the expected spans of the row, all on the sheet
row `i + 1`, then the expected spans of the rows after it, and nothing else: the whole
result is the list of the expected spans of the rows, row after row, where a row that is
empty or begins with an empty cell has none. The expected spans of the row are one for
each non-empty cell, left to right, with the column and the text of the cell; each ends
at the column before the next non-empty cell and the last one at the last column of the
row, so that the spans are pairwise disjoint and each column from 1 to the length of the
row lies in one of them. -/
theorem getHeadersFromRow_row_spans (pre post : List (List String)) (col : String)
    (rest : List String) (hcol : col ≠ "")
    (hall : ∀ row ∈ pre ++ (col :: rest) :: post, (row.length : Int) ≤ TotalColumns) :
    getHeadersFromRow (pre ++ (col :: rest) :: post) =
      .ok (expectedSpans 0 pre ++
        (expectedRowRanges ((col :: rest).length : Int)
          (nonEmptyCells (col :: rest))).map (rangeSpan (pre.length : Int)) ++
        expectedSpans ((pre.length : Int) + 1) post) ∧
    getHeadersFromRow pre = .ok (expectedSpans 0 pre) ∧
    getHeadersFromRow (pre ++ (col :: rest) :: post) =
      .ok (expectedSpans 0 (pre ++ (col :: rest) :: post)) ∧
    (expectedRowRanges ((col :: rest).length : Int) (nonEmptyCells (col :: rest))).map
      (fun r => (r.1, r.2.2)) = nonEmptyCells (col :: rest) ∧
    (∀ r ∈ expectedRowRanges ((col :: rest).length : Int) (nonEmptyCells (col :: rest)),
      r.1 ≤ r.2.1) ∧
    (expectedRowRanges ((col :: rest).length : Int) (nonEmptyCells (col :: rest))).Pairwise
      (fun a b => a.2.1 < b.1) ∧
    (∀ c : Int, 1 ≤ c → c ≤ ((col :: rest).length : Int) →
      ∃ r ∈ expectedRowRanges ((col :: rest).length : Int) (nonEmptyCells (col :: rest)),
        r.1 ≤ c ∧ c ≤ r.2.1) := by
  obtain ⟨p1, p2, p3, p4⟩ := expectedRowRanges_props ((col :: rest).length : Int)
    (nonEmptyCells (col :: rest)) (cellsFrom_sorted _ 1) (nonEmptyCells_le _)
  have hwhole : getHeadersFromRow (pre ++ (col :: rest) :: post) =
      .ok (expectedSpans 0 (pre ++ (col :: rest) :: post)) :=
    headerRowsLoop_expected _ 0 (le_refl _) hall
  have hskip : ¬ ((col :: rest).length = 0 ∨ (col :: rest).head? = some "") :=
    (not_skipped_iff _).mpr ⟨col, rest, rfl, hcol⟩
  refine ⟨?_, ?_, hwhole, p1, fun r hr => (p2 r hr).1, p3, ?_⟩
  · rw [hwhole, expectedSpans_append, expectedSpans_cons, if_neg hskip, Int.zero_add,
      List.append_assoc]
  · exact headerRowsLoop_expected pre 0 (le_refl _)
      (fun r hr => hall r (List.mem_append_left _ hr))
  · intro c hc hcl
    exact p4 (1, col) (by rw [nonEmptyCells_cons col rest hcol]; simp) c hc hcl

/-- C14 on the second of the three rows of `crossingRows`: its spans are `x` on column 1,
`y` on column 2, `z` on the columns 3 to 4 and `w` on column 5, all on the sheet row 2,
after the four spans of the first row and before the four spans of the third. -/
theorem getHeadersFromRow_row_spans_witness :
    ("x" ≠ "") ∧
    (∀ row ∈ [["o", "P", "", "Q", "R"]] ++ ("x" :: ["y", "z", "", "w"]) ::
      [["p", "", "q", "r", "s"]], (row.length : Int) ≤ TotalColumns) ∧
    (expectedRowRanges 5 (nonEmptyCells ["x", "y", "z", "", "w"])).map (rangeSpan 1) =
      [cellSpan 1 2 "x", cellSpan 2 2 "y", ⟨Axis.cell 3 2, Axis.cell 4 2, "z"⟩,
       cellSpan 5 2 "w"] ∧
    expectedSpans 0 [["o", "P", "", "Q", "R"]] =
      [cellSpan 1 1 "o", ⟨Axis.cell 2 1, Axis.cell 3 1, "P"⟩, cellSpan 4 1 "Q",
       cellSpan 5 1 "R"] ∧
    expectedSpans 2 [["p", "", "q", "r", "s"]] =
      [⟨Axis.cell 1 3, Axis.cell 2 3, "p"⟩, cellSpan 3 3 "q", cellSpan 4 3 "r",
       cellSpan 5 3 "s"] ∧
    getHeadersFromRow ([["o", "P", "", "Q", "R"]] ++ ("x" :: ["y", "z", "", "w"]) ::
        [["p", "", "q", "r", "s"]]) =
      .ok (expectedSpans 0 [["o", "P", "", "Q", "R"]] ++
        (expectedRowRanges (("x" :: ["y", "z", "", "w"]).length : Int)
          (nonEmptyCells ("x" :: ["y", "z", "", "w"]))).map
            (rangeSpan ([["o", "P", "", "Q", "R"]].length : Int)) ++
        expectedSpans (([["o", "P", "", "Q", "R"]].length : Int) + 1)
          [["p", "", "q", "r", "s"]]) :=
  ⟨by decide, by decide, by decide, by decide, by decide,
    (getHeadersFromRow_row_spans [["o", "P", "", "Q", "R"]] [["p", "", "q", "r", "s"]] "x"
      ["y", "z", "", "w"] (by decide) (by decide)).1⟩

/-! ## The tree of two raw header rows -/

theorem consecutive_nil (a b : Int) : Consecutive a [] b ↔ a = b + 1 := by
  simp only [Consecutive]

theorem consecutive_cons (a b : Int) (r : Int × Int × String) (rs : List (Int × Int × String)) :
    Consecutive a (r :: rs) b ↔ r.1 = a ∧ r.1 ≤ r.2.1 ∧ Consecutive (r.2.1 + 1) rs b := by
  simp only [Consecutive]

/-- Consecutive ranges from `a` to `b` lie between `a` and `b`. -/
theorem consecutive_bounds : ∀ (rs : List (Int × Int × String)) (a b : Int),
    Consecutive a rs b → a ≤ b + 1 ∧ ∀ r ∈ rs, a ≤ r.1 ∧ r.1 ≤ r.2.1 ∧ r.2.1 ≤ b := by
  intro rs
  induction rs with
  | nil =>
    intro a b h
    rw [consecutive_nil] at h
    exact ⟨by omega, by simp⟩
  | cons r rs ih =>
    intro a b h
    rw [consecutive_cons] at h
    obtain ⟨h1, h2, h3⟩ := h
    obtain ⟨i1, i2⟩ := ih _ _ h3
    refine ⟨by omega, ?_⟩
    intro x hx
    rcases List.mem_cons.mp hx with rfl | hx
    · exact ⟨by omega, h2, by omega⟩
    · obtain ⟨j1, j2, j3⟩ := i2 x hx
      exact ⟨by omega, j2, j3⟩

/-- The expected spans of cells in increasing columns are consecutive from the first
column to `L`. -/
theorem expectedRowRanges_consecutive (L : Int) :
    ∀ (cells : List (Int × String)) (c : Int) (t : String),
      ((c, t) :: cells).Pairwise (fun a b => a.1 < b.1) →
      (∀ x ∈ (c, t) :: cells, x.1 ≤ L) →
      Consecutive c (expectedRowRanges L ((c, t) :: cells)) L := by
  intro cells
  induction cells with
  | nil =>
    intro c t _ hle
    rw [expectedRowRanges_single, consecutive_cons, consecutive_nil]
    have := hle (c, t) (List.mem_cons_self _ _)
    exact ⟨rfl, this, rfl⟩
  | cons x rest ih =>
    intro c t hs hle
    obtain ⟨c2, t2⟩ := x
    rw [expectedRowRanges_cons, consecutive_cons]
    have hp := List.pairwise_cons.mp hs
    have h12 : c < c2 := hp.1 (c2, t2) (List.mem_cons_self _ _)
    refine ⟨rfl, by simp only; omega, ?_⟩
    have := ih c2 t2 hp.2 (fun y hy => hle y (List.mem_cons_of_mem _ hy))
    simp only
    rw [show c2 - 1 + 1 = c2 by ring]
    exact this

/-- Consecutive ranges from `a` to `L` that have a range starting after `b`, or end at
`b`, split into the ranges up to `b` and the ranges after `b`. -/
theorem consecutive_split (L b : Int) :
    ∀ (rs : List (Int × Int × String)) (a : Int), Consecutive a rs L → a ≤ b → b ≤ L →
      (b = L ∨ b + 1 ∈ rs.map (fun r => r.1)) →
      ∃ inside after, rs = inside ++ after ∧ inside ≠ [] ∧ Consecutive a inside b ∧
        Consecutive (b + 1) after L := by
  intro rs
  induction rs with
  | nil =>
    intro a h hab hbL _
    rw [consecutive_nil] at h
    omega
  | cons r rs ih =>
    intro a h hab hbL halign
    rw [consecutive_cons] at h
    obtain ⟨h1, h2, h3⟩ := h
    obtain ⟨hb1, hb2⟩ := consecutive_bounds rs _ _ h3
    rcases lt_trichotomy r.2.1 b with hlt | heq | hgt
    · have halign' : b = L ∨ b + 1 ∈ rs.map (fun r => r.1) := by
        rcases halign with h | h
        · exact Or.inl h
        · rw [List.map_cons, List.mem_cons] at h
          rcases h with h | h
          · omega
          · exact Or.inr h
      obtain ⟨inside, after, e1, e2, e3, e4⟩ := ih (r.2.1 + 1) h3 (by omega) hbL halign'
      refine ⟨r :: inside, after, by rw [e1]; rfl, by simp, ?_, e4⟩
      rw [consecutive_cons]
      exact ⟨h1, h2, e3⟩
    · refine ⟨[r], rs, rfl, by simp, ?_, by rw [← heq]; exact h3⟩
      rw [consecutive_cons, consecutive_nil]
      exact ⟨h1, h2, by omega⟩
    · exfalso
      rcases halign with h | h
      · omega
      · rw [List.map_cons, List.mem_cons] at h
        rcases h with h | h
        · omega
        · obtain ⟨x, hx, hxe⟩ := List.mem_map.mp h
          have := (hb2 x hx).1
          omega

theorem alignedBlocks_nil (a b : Int) : AlignedBlocks a [] b ↔ a = b + 1 := by
  simp only [AlignedBlocks]

theorem alignedBlocks_cons (a b : Int) (g : Int × Int × String)
    (inside : List (Int × Int × String))
    (bs : List ((Int × Int × String) × List (Int × Int × String))) :
    AlignedBlocks a ((g, inside) :: bs) b ↔
      g.1 = a ∧ inside ≠ [] ∧ Consecutive a inside g.2.1 ∧ AlignedBlocks (g.2.1 + 1) bs b := by
  simp only [AlignedBlocks]

/-- Two rows of consecutive ranges over the same columns, such that each start of the
first is a start of the second, are the blocks of a two-row header. -/
theorem blocks_exist (L : Int) :
    ∀ (gs rs : List (Int × Int × String)) (a : Int), Consecutive a gs L → Consecutive a rs L →
      (∀ c ∈ gs.map (fun r => r.1), c ∈ rs.map (fun r => r.1)) →
      ∃ blocks, blocks.map (fun b => b.1) = gs ∧ blocks.flatMap (fun b => b.2) = rs ∧
        AlignedBlocks a blocks L := by
  intro gs
  induction gs with
  | nil =>
    intro rs a hg hr _
    rw [consecutive_nil] at hg
    cases rs with
    | nil => exact ⟨[], rfl, rfl, by rw [alignedBlocks_nil]; exact hg⟩
    | cons r rs =>
      have := (consecutive_bounds _ _ _ hr).2 r (List.mem_cons_self _ _)
      omega
  | cons g gs ih =>
    intro rs a hg hr halign
    rw [consecutive_cons] at hg
    obtain ⟨g1, g2, g3⟩ := hg
    obtain ⟨gb1, gb2⟩ := consecutive_bounds gs _ _ g3
    have hcond : g.2.1 = L ∨ g.2.1 + 1 ∈ rs.map (fun r => r.1) := by
      cases gs with
      | nil =>
        rw [consecutive_nil] at g3
        exact Or.inl (by omega)
      | cons g' gs' =>
        rw [consecutive_cons] at g3
        refine Or.inr (halign _ ?_)
        rw [← g3.1]
        simp
    obtain ⟨inside, after, e1, e2, e3, e4⟩ :=
      consecutive_split L g.2.1 rs a hr (by omega) (by omega) hcond
    have hin := (consecutive_bounds _ _ _ e3).2
    have halign' : ∀ c ∈ gs.map (fun r => r.1), c ∈ after.map (fun r => r.1) := by
      intro c hc
      have h1 := halign c (by rw [List.map_cons]; exact List.mem_cons_of_mem _ hc)
      rw [e1, List.map_append, List.mem_append] at h1
      rcases h1 with h1 | h1
      · obtain ⟨x, hx, hxe⟩ := List.mem_map.mp h1
        obtain ⟨y, hy, hye⟩ := List.mem_map.mp hc
        have := hin x hx
        have := (gb2 y hy).1
        omega
      · exact h1
    obtain ⟨blocks, b1, b2, b3⟩ := ih after (g.2.1 + 1) g3 e4 halign'
    refine ⟨(g, inside) :: blocks, by rw [List.map_cons, b1], ?_, ?_⟩
    · rw [List.flatMap_cons, b2, e1]
    · rw [alignedBlocks_cons]
      exact ⟨g1, e2, e3, b3⟩

theorem rangeSpan_coords (i : Int) (r : Int × Int × String) :
    (rangeSpan i r).coords = some (r.1, i + 1, r.2.1, i + 1) := rfl

theorem rangeSpan_value (i : Int) (r : Int × Int × String) : (rangeSpan i r).value = r.2.2 :=
  rfl

theorem isChildSpan_rangeSpan (root : Importer) (i : Int) (r : Int × Int × String) :
    isChildSpan root (rangeSpan i r) = qualifies root r.1 (i + 1) r.2.1 := rfl

theorem isStartSpan_rangeSpan (root : Importer) (i : Int) (r : Int × Int × String) :
    isStartSpan root (rangeSpan i r) =
      (qualifies root r.1 (i + 1) r.2.1 && decide (r.1 = root.colIndexStart)) := rfl

theorem isEndSpan_rangeSpan (root : Importer) (i : Int) (r : Int × Int × String) :
    isEndSpan root (rangeSpan i r) =
      (qualifies root r.1 (i + 1) r.2.1 && decide (r.2.1 = root.colIndexEnd)) := rfl

theorem not_child_not_start_end (root : Importer) (cell : MergeCell)
    (h : isChildSpan root cell = false) :
    isStartSpan root cell = false ∧ isEndSpan root cell = false := by
  unfold isChildSpan at h
  unfold isStartSpan isEndSpan
  cases hc : cell.coords with
  | none => exact ⟨rfl, rfl⟩
  | some x =>
    obtain ⟨a, b, c, d⟩ := x
    rw [hc] at h
    simp only at h ⊢
    rw [h]
    exact ⟨rfl, rfl⟩

/-- The boundary scan passes over spans that do not qualify. -/
theorem boundaryLoop_skip (root : Importer) :
    ∀ (xs ys : List MergeCell) (i : Nat) (s : Int),
      (∀ c ∈ xs, c.coords.isSome = true ∧ isChildSpan root c = false) →
      boundaryLoop root (xs ++ ys) i s = boundaryLoop root ys (i + xs.length) s := by
  intro xs
  induction xs with
  | nil =>
    intro ys i s _
    rfl
  | cons x xs ih =>
    intro ys i s h
    obtain ⟨h1, h2⟩ := h x (List.mem_cons_self _ _)
    obtain ⟨h3, h4⟩ := not_child_not_start_end root x h2
    rw [List.cons_append, boundaryLoop_cons_some root x _ i s h1, h3, h4]
    simp only [Bool.false_eq_true, if_false]
    rw [ih ys (i + 1) s (fun c hc => h c (List.mem_cons_of_mem _ hc))]
    congr 1
    simp only [List.length_cons]
    omega

theorem qualifies_iff (root : Importer) (colStart row colEnd : Int) :
    qualifies root colStart row colEnd = true ↔
      root.rowIndexEnd < row ∧ root.colIndexStart ≤ colStart ∧ colEnd ≤ root.colIndexEnd := by
  unfold qualifies
  simp only [Bool.and_eq_true, decide_eq_true_eq, gt_iff_lt, ge_iff_le, and_assoc]

/-- The boundary scan over the spans that fill the columns of the parent from `a'` on:
the end is the last of them, and the start is the first of them when `a'` is the first
column of the parent. -/
theorem boundaryLoop_block (root : Importer) (i : Int) (hrow : root.rowIndexEnd < i + 1) :
    ∀ (inside : List (Int × Int × String)) (a' : Int) (ys : List MergeCell) (k : Nat) (s : Int),
      inside ≠ [] → Consecutive a' inside root.colIndexEnd → root.colIndexStart ≤ a' →
      boundaryLoop root (inside.map (rangeSpan i) ++ ys) k s =
        ((if a' = root.colIndexStart then (k : Int) else s),
          ((k + inside.length - 1 : Nat) : Int), none) := by
  intro inside
  induction inside with
  | nil =>
    intro a' ys k s h
    exact absurd rfl h
  | cons r rest ih =>
    intro a' ys k s _ hcons ha
    have hb := (consecutive_bounds _ _ _ hcons).2 r (List.mem_cons_self _ _)
    rw [consecutive_cons] at hcons
    obtain ⟨h1, h2, h3⟩ := hcons
    have hq : qualifies root r.1 (i + 1) r.2.1 = true := by
      rw [qualifies_iff]
      exact ⟨hrow, by omega, hb.2.2⟩
    rw [List.map_cons, List.cons_append,
      boundaryLoop_cons_some root _ _ k s (by rw [rangeSpan_coords]; rfl),
      isStartSpan_rangeSpan, isEndSpan_rangeSpan, hq]
    simp only [Bool.true_and, decide_eq_true_eq, h1]
    cases rest with
    | nil =>
      rw [consecutive_nil] at h3
      have he : r.2.1 = root.colIndexEnd := by omega
      rw [if_pos he]
      simp
    | cons r' rest' =>
      have hb' := (consecutive_bounds _ _ _ h3).2 r' (List.mem_cons_self _ _)
      have he : ¬ r.2.1 = root.colIndexEnd := by omega
      rw [if_neg he, ih (r.2.1 + 1) ys (k + 1) _ (by simp) h3 (by omega)]
      have hne : ¬ r.2.1 + 1 = root.colIndexStart := by omega
      rw [if_neg hne]
      simp only [List.length_cons]
      congr 2
      congr 1
      omega

theorem forall2_builtChild_get (recurse : Importer → BuildResult) (root : Importer) :
    ∀ (mid : List MergeCell) (children : List Importer),
      List.Forall₂ (builtChild recurse root) mid children →
      ∀ (pre post : List MergeCell) (acc : List Importer),
        buildLoop recurse root (pre ++ mid ++ post) (List.range' pre.length mid.length) acc =
          BuildResult.ok (acc ++ children) := by
  intro mid
  induction mid with
  | nil =>
    intro children h pre post acc
    cases h
    rw [List.length_nil, List.range'_zero, buildLoop_nil, List.append_nil]
  | cons cell mid' ih =>
    intro children h pre post acc
    cases h with
    | cons hab hrest =>
      rename_i child children'
      obtain ⟨cs, r, ce, re, kids, hc, hrec, hchild⟩ := hab
      have hget : (pre ++ cell :: mid' ++ post).get? pre.length = some cell := by
        rw [List.append_assoc, List.get?_eq_getElem?, List.getElem?_append_right (le_refl _)]
        simp
      rw [List.length_cons, List.range'_succ,
        buildLoop_cons recurse root _ _ _ acc cell cs r ce re hget hc, hrec]
      simp only
      have := ih children' hrest (pre ++ [cell]) post (acc ++ [child])
      rw [List.length_append, List.length_singleton, List.append_assoc pre [cell] mid',
        List.singleton_append] at this
      rw [hchild] at this
      rw [this, hchild, List.append_assoc, List.singleton_append]

/-- A node below which no span qualifies is a leaf. -/
theorem buildChildNodes_no_child (fuel : Nat) (root : Importer) (cells : List MergeCell)
    (h : ∀ c ∈ cells, c.coords.isSome = true ∧ isChildSpan root c = false) :
    buildChildNodes (fuel + 1) root cells = BuildResult.ok [] := by
  have hb := boundaryLoop_no_end root cells 0 0
    (fun c hc => ⟨(h c hc).1, (not_child_not_start_end root c (h c hc).2).2⟩)
  have h1 : (getChildrenColBoundary root cells).2.2 = none := by
    unfold getChildrenColBoundary
    rw [hb]
  have h2 : (getChildrenColBoundary root cells).2.1 < 0 := by
    unfold getChildrenColBoundary
    rw [hb]
    decide
  exact buildChildNodes_leaf fuel root cells h1 h2

theorem isChildSpan_row_le (root : Importer) (i : Int) (r : Int × Int × String)
    (h : i + 1 ≤ root.rowIndexEnd) : isChildSpan root (rangeSpan i r) = false := by
  rw [isChildSpan_rangeSpan, Bool.eq_false_iff]
  intro hq
  rw [qualifies_iff] at hq
  omega

theorem isChildSpan_col_lt (root : Importer) (i : Int) (r : Int × Int × String)
    (h : r.1 < root.colIndexStart) : isChildSpan root (rangeSpan i r) = false := by
  rw [isChildSpan_rangeSpan, Bool.eq_false_iff]
  intro hq
  rw [qualifies_iff] at hq
  omega

/-- The node of a span of the second header row is a leaf. -/
theorem buildChildNodes_second_row (fuel : Nat) (gs rs : List (Int × Int × String))
    (v : String) (a b : Int) (path : List String) :
    buildChildNodes (fuel + 1) (Importer.mk v a b 2 2 path [])
      (gs.map (rangeSpan 0) ++ rs.map (rangeSpan 1)) = BuildResult.ok [] := by
  apply buildChildNodes_no_child
  intro c hc
  rcases List.mem_append.mp hc with hc | hc
  · obtain ⟨r, _, rfl⟩ := List.mem_map.mp hc
    exact ⟨rfl, isChildSpan_row_le _ 0 r (show (0 : Int) + 1 ≤ 2 by norm_num)⟩
  · obtain ⟨r, _, rfl⟩ := List.mem_map.mp hc
    exact ⟨rfl, isChildSpan_row_le _ 1 r (show (1 : Int) + 1 ≤ 2 by norm_num)⟩

/-- The node of a span `g` of the first header row gets as children the leaves of the
spans of the second row that fill its columns. -/
theorem buildChildNodes_group (fuel : Nat) (gs before inside after : List (Int × Int × String))
    (g : Int × Int × String) (hbefore : ∀ r ∈ before, r.1 < g.1) (hne : inside ≠ [])
    (hcons : Consecutive g.1 inside g.2.1) :
    buildChildNodes (fuel + 2) (Importer.mk g.2.2 g.1 g.2.1 1 1 [g.2.2] [])
      (gs.map (rangeSpan 0) ++ (before ++ inside ++ after).map (rangeSpan 1)) =
      BuildResult.ok (inside.map (leafOf g)) := by
  have hcells : gs.map (rangeSpan 0) ++ (before ++ inside ++ after).map (rangeSpan 1) =
      (gs.map (rangeSpan 0) ++ before.map (rangeSpan 1)) ++ inside.map (rangeSpan 1) ++
        after.map (rangeSpan 1) := by
    simp only [List.map_append, List.append_assoc]
  have hpos : 0 < inside.length := List.length_pos.mpr hne
  have hb : getChildrenColBoundary (Importer.mk g.2.2 g.1 g.2.1 1 1 [g.2.2] [])
      (gs.map (rangeSpan 0) ++ (before ++ inside ++ after).map (rangeSpan 1)) =
      (((gs.length + before.length : Nat) : Int),
        ((gs.length + before.length + inside.length - 1 : Nat) : Int), none) := by
    unfold getChildrenColBoundary
    rw [hcells, List.append_assoc, List.append_assoc,
      boundaryLoop_skip _ (gs.map (rangeSpan 0)) _ 0 0 (by
        intro c hc
        obtain ⟨r, _, rfl⟩ := List.mem_map.mp hc
        exact ⟨rfl, isChildSpan_row_le _ 0 r (show (0 : Int) + 1 ≤ 1 by norm_num)⟩),
      boundaryLoop_skip _ (before.map (rangeSpan 1)) _ _ 0 (by
        intro c hc
        obtain ⟨r, hr, rfl⟩ := List.mem_map.mp hc
        exact ⟨rfl, isChildSpan_col_lt _ 1 r (hbefore r hr)⟩),
      boundaryLoop_block (Importer.mk g.2.2 g.1 g.2.1 1 1 [g.2.2] []) 1
        (show (1 : Int) < 1 + 1 by norm_num) inside g.1 _ _ 0 hne hcons (le_refl _)]
    simp only [List.length_map, Nat.zero_add]
    rw [if_pos (show g.1 = (Importer.mk g.2.2 g.1 g.2.1 1 1 [g.2.2] []).colIndexStart from rfl)]
  have herr : (getChildrenColBoundary (Importer.mk g.2.2 g.1 g.2.1 1 1 [g.2.2] [])
      (gs.map (rangeSpan 0) ++ (before ++ inside ++ after).map (rangeSpan 1))).2.2 = none := by
    rw [hb]
  have hend : 0 ≤ (getChildrenColBoundary (Importer.mk g.2.2 g.1 g.2.1 1 1 [g.2.2] [])
      (gs.map (rangeSpan 0) ++ (before ++ inside ++ after).map (rangeSpan 1))).2.1 := by
    rw [hb]
    exact Int.ofNat_nonneg _
  rw [buildChildNodes_loop _ _ _ herr hend, hb]
  simp only [Int.toNat_ofNat]
  have hcount : gs.length + before.length + inside.length - 1 + 1 -
      (gs.length + before.length) = (inside.map (rangeSpan 1)).length := by
    rw [List.length_map]
    omega
  have hpre : gs.length + before.length =
      (gs.map (rangeSpan 0) ++ before.map (rangeSpan 1)).length := by
    simp only [List.length_append, List.length_map]
  rw [hcount, hpre]
  have hkey := forall2_builtChild_get
    (fun node => buildChildNodes (fuel + 1) node
      (gs.map (rangeSpan 0) ++ (before ++ inside ++ after).map (rangeSpan 1)))
    (Importer.mk g.2.2 g.1 g.2.1 1 1 [g.2.2] []) (inside.map (rangeSpan 1))
    (inside.map (leafOf g)) (by
      rw [List.forall₂_map_left_iff, List.forall₂_map_right_iff, List.forall₂_same]
      intro r _
      exact ⟨r.1, 2, r.2.1, 2, [], rfl,
        buildChildNodes_second_row fuel gs (before ++ inside ++ after) _ _ _ _, rfl⟩)
    (gs.map (rangeSpan 0) ++ before.map (rangeSpan 1)) (after.map (rangeSpan 1)) []
  rw [← hcells, List.nil_append] at hkey
  exact hkey

theorem alignedBlocks_head (a L : Int) (g : Int × Int × String)
    (inside : List (Int × Int × String))
    (bs : List ((Int × Int × String) × List (Int × Int × String)))
    (h : AlignedBlocks a ((g, inside) :: bs) L) :
    g.1 ≤ g.2.1 ∧ ∀ r ∈ inside, r.1 < g.2.1 + 1 := by
  rw [alignedBlocks_cons] at h
  obtain ⟨h1, h2, h3, _⟩ := h
  obtain ⟨r, hr⟩ := List.exists_mem_of_ne_nil _ h2
  have hb := (consecutive_bounds _ _ _ h3).2
  have := hb r hr
  refine ⟨by omega, ?_⟩
  intro x hx
  have := hb x hx
  omega

theorem alignedBlocks_consecutive (L : Int) :
    ∀ (blocks : List ((Int × Int × String) × List (Int × Int × String))) (a : Int),
      AlignedBlocks a blocks L → Consecutive a (blocks.map (fun b => b.1)) L := by
  intro blocks
  induction blocks with
  | nil =>
    intro a h
    rw [alignedBlocks_nil] at h
    rw [List.map_nil, consecutive_nil]
    exact h
  | cons b bs ih =>
    intro a h
    obtain ⟨g, inside⟩ := b
    have hh := alignedBlocks_head a L g inside bs h
    rw [alignedBlocks_cons] at h
    rw [List.map_cons, consecutive_cons]
    exact ⟨h.1, hh.1, ih _ h.2.2.2⟩

/-- The nodes of the spans of the first header row, as the loop of `buildChildNodes` makes
them below the sheet root. -/
theorem groups_builtChild (fuel : Nat) (name : String) (L : Int) (cells : List MergeCell) :
    ∀ (rest before : List ((Int × Int × String) × List (Int × Int × String))) (a : Int),
      cells = ((before ++ rest).map (fun b => b.1)).map (rangeSpan 0) ++
        ((before ++ rest).flatMap (fun b => b.2)).map (rangeSpan 1) →
      AlignedBlocks a rest L → (∀ r ∈ before.flatMap (fun b => b.2), r.1 < a) →
      List.Forall₂ (builtChild (fun node => buildChildNodes (fuel + 2) node cells)
        (sheetRoot name L)) ((rest.map (fun b => b.1)).map (rangeSpan 0)) (rest.map groupOf) := by
  intro rest
  induction rest with
  | nil =>
    intro before a _ _ _
    exact List.Forall₂.nil
  | cons b rest ih =>
    intro before a hcells hal hbefore
    obtain ⟨g, inside⟩ := b
    have hh := alignedBlocks_head a L g inside rest hal
    rw [alignedBlocks_cons] at hal
    obtain ⟨h1, h2, h3, h4⟩ := hal
    refine List.Forall₂.cons ?_ ?_
    · refine ⟨g.1, 1, g.2.1, 1, inside.map (leafOf g), rfl, ?_, rfl⟩
      have := buildChildNodes_group fuel ((before ++ (g, inside) :: rest).map (fun b => b.1))
        (before.flatMap (fun b => b.2)) inside (rest.flatMap (fun b => b.2)) g
        (fun r hr => by rw [h1]; exact hbefore r hr) h2 (by rw [h1]; exact h3)
      rw [hcells]
      simp only [List.flatMap_append, List.flatMap_cons, ← List.append_assoc]
      exact this
    · apply ih (before ++ [(g, inside)]) (g.2.1 + 1)
      · rw [hcells, List.append_assoc, List.singleton_append]
      · exact h4
      · intro r hr
        rw [List.flatMap_append, List.mem_append] at hr
        rcases hr with hr | hr
        · have := hbefore r hr
          omega
        · simp only [List.flatMap_cons, List.flatMap_nil, List.append_nil] at hr
          exact hh.2 r hr

/-- The tree of a two-row header: the sheet root gets the nodes of the spans of the first
row, each with the leaves of the spans of the second row below it. -/
theorem buildChildNodes_blocks (fuel : Nat) (name : String) (L : Int)
    (blocks : List ((Int × Int × String) × List (Int × Int × String))) (hne : blocks ≠ [])
    (hal : AlignedBlocks 1 blocks L) :
    buildChildNodes (fuel + 3) (sheetRoot name L)
      ((blocks.map (fun b => b.1)).map (rangeSpan 0) ++
        (blocks.flatMap (fun b => b.2)).map (rangeSpan 1)) =
      BuildResult.ok (blocks.map groupOf) := by
  have hcons := alignedBlocks_consecutive L blocks 1 hal
  have hne' : blocks.map (fun b => b.1) ≠ [] := by
    intro h
    exact hne (List.map_eq_nil_iff.mp h)
  have hpos : 0 < blocks.length := List.length_pos.mpr hne
  have hb : getChildrenColBoundary (sheetRoot name L)
      ((blocks.map (fun b => b.1)).map (rangeSpan 0) ++
        (blocks.flatMap (fun b => b.2)).map (rangeSpan 1)) =
      (((0 : Nat) : Int), ((blocks.length - 1 : Nat) : Int), none) := by
    unfold getChildrenColBoundary
    rw [boundaryLoop_block (sheetRoot name L) 0 (show (0 : Int) < 0 + 1 by norm_num) _ 1 _ 0 0
      hne' hcons (le_refl _)]
    simp only [List.length_map, Nat.zero_add]
    rw [if_pos (show (1 : Int) = (sheetRoot name L).colIndexStart from rfl)]
  have herr : (getChildrenColBoundary (sheetRoot name L)
      ((blocks.map (fun b => b.1)).map (rangeSpan 0) ++
        (blocks.flatMap (fun b => b.2)).map (rangeSpan 1))).2.2 = none := by
    rw [hb]
  have hend : 0 ≤ (getChildrenColBoundary (sheetRoot name L)
      ((blocks.map (fun b => b.1)).map (rangeSpan 0) ++
        (blocks.flatMap (fun b => b.2)).map (rangeSpan 1))).2.1 := by
    rw [hb]
    exact Int.ofNat_nonneg _
  rw [buildChildNodes_loop _ _ _ herr hend, hb]
  simp only [Int.toNat_ofNat]
  have hcount : blocks.length - 1 + 1 - 0 =
      ((blocks.map (fun b => b.1)).map (rangeSpan 0)).length := by
    simp only [List.length_map]
    omega
  rw [hcount]
  have hkey := forall2_builtChild_get
    (fun node => buildChildNodes (fuel + 2) node
      ((blocks.map (fun b => b.1)).map (rangeSpan 0) ++
        (blocks.flatMap (fun b => b.2)).map (rangeSpan 1)))
    (sheetRoot name L) ((blocks.map (fun b => b.1)).map (rangeSpan 0)) (blocks.map groupOf)
    (groups_builtChild fuel name L _ blocks [] 1 (by rw [List.nil_append]) hal (by simp))
    [] ((blocks.flatMap (fun b => b.2)).map (rangeSpan 1)) []
  simp only [List.nil_append, List.length_nil] at hkey
  exact hkey

theorem leafNodesOfChildren_nil : leafNodesOfChildren [] = [] := by
  simp only [leafNodesOfChildren]

theorem leafNodesOfChildren_cons (im : Importer) (rest : List Importer) :
    leafNodesOfChildren (im :: rest) = leafNodesOf im ++ leafNodesOfChildren rest := by
  simp only [leafNodesOfChildren]

theorem leafNodesOf_leaf (v : String) (a b c d : Int) (p : List String) :
    leafNodesOf (.mk v a b c d p []) = [.mk v a b c d p []] := by
  simp only [leafNodesOf]

theorem leafNodesOf_node (v : String) (a b c d : Int) (p : List String) (im : Importer)
    (rest : List Importer) :
    leafNodesOf (.mk v a b c d p (im :: rest)) = leafNodesOfChildren (im :: rest) := by
  simp only [leafNodesOf]

theorem leafNodesOfChildren_leaves (g : Int × Int × String) :
    ∀ (inside : List (Int × Int × String)),
      leafNodesOfChildren (inside.map (leafOf g)) = inside.map (leafOf g) := by
  intro inside
  induction inside with
  | nil => exact leafNodesOfChildren_nil
  | cons r rest ih =>
    rw [List.map_cons, leafNodesOfChildren_cons, ih]
    rfl

theorem leafNodesOf_groupOf (g : Int × Int × String) (inside : List (Int × Int × String))
    (hne : inside ≠ []) : leafNodesOf (groupOf (g, inside)) = inside.map (leafOf g) := by
  cases inside with
  | nil => exact absurd rfl hne
  | cons r rest =>
    unfold groupOf
    rw [List.map_cons, leafNodesOf_node, ← List.map_cons, leafNodesOfChildren_leaves]

theorem alignedBlocks_mem (L : Int) :
    ∀ (blocks : List ((Int × Int × String) × List (Int × Int × String))) (a : Int),
      AlignedBlocks a blocks L →
      ∀ b ∈ blocks, b.2 ≠ [] ∧ ∀ r ∈ b.2, b.1.1 ≤ r.1 ∧ r.2.1 ≤ b.1.2.1 := by
  intro blocks
  induction blocks with
  | nil =>
    intro a _ b hb
    cases hb
  | cons x bs ih =>
    intro a h b hb
    obtain ⟨g, inside⟩ := x
    rw [alignedBlocks_cons] at h
    obtain ⟨h1, h2, h3, h4⟩ := h
    rcases List.mem_cons.mp hb with rfl | hb
    · refine ⟨h2, ?_⟩
      intro r hr
      have := (consecutive_bounds _ _ _ h3).2 r hr
      simp only
      omega
    · exact ih _ h4 b hb

/-- The leaves of the tree of a two-row header are the leaves of its blocks, block after
block. -/
theorem leafNodesOfChildren_blocks :
    ∀ (blocks : List ((Int × Int × String) × List (Int × Int × String))),
      (∀ b ∈ blocks, b.2 ≠ []) →
      leafNodesOfChildren (blocks.map groupOf) =
        blocks.flatMap (fun b => b.2.map (leafOf b.1)) := by
  intro blocks
  induction blocks with
  | nil =>
    intro _
    exact leafNodesOfChildren_nil
  | cons x bs ih =>
    intro h
    obtain ⟨g, inside⟩ := x
    rw [List.map_cons, leafNodesOfChildren_cons, List.flatMap_cons,
      leafNodesOf_groupOf g inside (h _ (List.mem_cons_self _ _)),
      ih (fun b hb => h b (List.mem_cons_of_mem _ hb))]

/-- Where the second of two rows of one length has a text in each column in which the
first has one, the columns of the non-empty cells of the first are among those of the
second. -/
theorem cellsFrom_aligned :
    ∀ (row1 row2 : List String) (j : Int), row2.length = row1.length →
      (∀ p ∈ row1.zip row2, p.1 ≠ "" → p.2 ≠ "") →
      ∀ c ∈ (cellsFrom j row1).map (fun x => x.1), c ∈ (cellsFrom j row2).map (fun x => x.1) := by
  intro row1
  induction row1 with
  | nil =>
    intro row2 j _ _ c hc
    cases hc
  | cons a rest1 ih =>
    intro row2 j hlen hal c hc
    cases row2 with
    | nil => simp at hlen
    | cons b rest2 =>
      have hlen' : rest2.length = rest1.length := by simpa using hlen
      have hal' : ∀ p ∈ rest1.zip rest2, p.1 ≠ "" → p.2 ≠ "" := by
        intro p hp
        exact hal p (by rw [List.zip_cons_cons]; exact List.mem_cons_of_mem _ hp)
      have hab : a ≠ "" → b ≠ "" := hal (a, b) (by rw [List.zip_cons_cons]; exact List.mem_cons_self _ _)
      by_cases ha : a = ""
      · subst ha
        rw [cellsFrom_cons_empty] at hc
        have := ih rest2 (j + 1) hlen' hal' c hc
        by_cases hb : b = ""
        · subst hb
          rw [cellsFrom_cons_empty]
          exact this
        · rw [cellsFrom_cons _ b rest2 hb, List.map_cons]
          exact List.mem_cons_of_mem _ this
      · rw [cellsFrom_cons _ a rest1 ha, List.map_cons] at hc
        rw [cellsFrom_cons _ b rest2 (hab ha), List.map_cons]
        rcases List.mem_cons.mp hc with rfl | hc
        · exact List.mem_cons_self _ _
        · exact List.mem_cons_of_mem _ (ih rest2 (j + 1) hlen' hal' c hc)

theorem expectedRowRanges_starts (L : Int) :
    ∀ (cells : List (Int × String)),
      (expectedRowRanges L cells).map (fun r => r.1) = cells.map (fun x => x.1) := by
  intro cells
  induction cells with
  | nil => rfl
  | cons a tl ih =>
    obtain ⟨c, t⟩ := a
    cases tl with
    | nil => rfl
    | cons b rest =>
      obtain ⟨c2, t2⟩ := b
      rw [expectedRowRanges_cons, List.map_cons, ih]
      rfl

/-- The spans that `getHeadersFromRow` returns for two header rows with a non-empty first
cell. -/
theorem getHeadersFromRow_two_rows (c1 : String) (rest1 : List String) (c2 : String)
    (rest2 : List String) (hc1 : c1 ≠ "") (hc2 : c2 ≠ "")
    (hmax1 : ((c1 :: rest1).length : Int) ≤ TotalColumns)
    (hmax2 : ((c2 :: rest2).length : Int) ≤ TotalColumns) :
    getHeadersFromRow [c1 :: rest1, c2 :: rest2] =
      .ok ((expectedRowRanges ((c1 :: rest1).length : Int)
          (nonEmptyCells (c1 :: rest1))).map (rangeSpan 0) ++
        (expectedRowRanges ((c2 :: rest2).length : Int)
          (nonEmptyCells (c2 :: rest2))).map (rangeSpan 1)) := by
  unfold getHeadersFromRow
  rw [headerRowsLoop_cons_row _ _ _ ((not_skipped_iff _).mpr ⟨c1, rest1, rfl, hc1⟩),
    rowMergeCells_eq 0 (le_refl _) c1 rest1 hc1 hmax1,
    headerRowsLoop_cons_row _ _ _ ((not_skipped_iff _).mpr ⟨c2, rest2, rfl, hc2⟩),
    rowMergeCells_eq (0 + 1) (by norm_num) c2 rest2 hc2 hmax2, headerRowsLoop_nil]
  simp only [List.append_nil, Int.zero_add]

/-- C15: for two header rows of one length `L`, each with a non-empty first cell, such
that the second row has a text in every column in which the first has one, and the root
of a sheet of `L` columns, `getHeadersFromRow` returns the spans of the two rows and
`buildChildNodes` (with any fuel from 3 on) returns a tree whose leaves are exactly the
spans of the second row, left to right; each leaf lies on the sheet row 2, inside the
columns of a span of the first row, and its path is the text of that span followed by its
own text. -/
theorem buildChildNodes_two_rows (name : String) (c1 : String) (rest1 : List String)
    (c2 : String) (rest2 : List String) (hc1 : c1 ≠ "") (hc2 : c2 ≠ "")
    (hlen : (c2 :: rest2).length = (c1 :: rest1).length)
    (hmax : ((c1 :: rest1).length : Int) ≤ TotalColumns)
    (halign : ∀ p ∈ (c1 :: rest1).zip (c2 :: rest2), p.1 ≠ "" → p.2 ≠ "") :
    ∃ spans children,
      getHeadersFromRow [c1 :: rest1, c2 :: rest2] = .ok spans ∧
      (∀ more, buildChildNodes (more + 3) (sheetRoot name ((c1 :: rest1).length : Int)) spans =
        BuildResult.ok children) ∧
      (getLeafNodes (some (Importer.mk name 1 ((c1 :: rest1).length : Int) 0 0 []
          children))).map (fun n => (n.colIndexStart, n.colIndexEnd, n.value)) =
        expectedRowRanges ((c2 :: rest2).length : Int) (nonEmptyCells (c2 :: rest2)) ∧
      ∀ n ∈ getLeafNodes (some (Importer.mk name 1 ((c1 :: rest1).length : Int) 0 0 []
          children)),
        n.rowIndexStart = 2 ∧ n.rowIndexEnd = 2 ∧ n.childImporters = [] ∧
        ∃ g ∈ expectedRowRanges ((c1 :: rest1).length : Int) (nonEmptyCells (c1 :: rest1)),
          g.1 ≤ n.colIndexStart ∧ n.colIndexEnd ≤ g.2.1 ∧ n.path = [g.2.2, n.value] := by
  have hL : ((c2 :: rest2).length : Int) = ((c1 :: rest1).length : Int) := by rw [hlen]
  have hcons1 : Consecutive 1 (expectedRowRanges ((c1 :: rest1).length : Int)
      (nonEmptyCells (c1 :: rest1))) ((c1 :: rest1).length : Int) := by
    have h1 := cellsFrom_sorted (c1 :: rest1) 1
    have h2 := nonEmptyCells_le (c1 :: rest1)
    unfold nonEmptyCells at h2
    rw [nonEmptyCells_cons c1 rest1 hc1]
    rw [cellsFrom_cons _ c1 rest1 hc1] at h1 h2
    exact expectedRowRanges_consecutive _ _ 1 c1 h1 h2
  have hcons2 : Consecutive 1 (expectedRowRanges ((c2 :: rest2).length : Int)
      (nonEmptyCells (c2 :: rest2))) ((c1 :: rest1).length : Int) := by
    have h1 := cellsFrom_sorted (c2 :: rest2) 1
    have h2 := nonEmptyCells_le (c2 :: rest2)
    unfold nonEmptyCells at h2
    rw [nonEmptyCells_cons c2 rest2 hc2]
    rw [cellsFrom_cons _ c2 rest2 hc2] at h1 h2
    rw [← hL]
    exact expectedRowRanges_consecutive _ _ 1 c2 h1 h2
  have hstarts : ∀ c ∈ (expectedRowRanges ((c1 :: rest1).length : Int)
      (nonEmptyCells (c1 :: rest1))).map (fun r => r.1),
      c ∈ (expectedRowRanges ((c2 :: rest2).length : Int)
        (nonEmptyCells (c2 :: rest2))).map (fun r => r.1) := by
    rw [expectedRowRanges_starts, expectedRowRanges_starts]
    exact cellsFrom_aligned (c1 :: rest1) (c2 :: rest2) 1 hlen halign
  obtain ⟨blocks, b1, b2, b3⟩ := blocks_exist _ _ _ 1 hcons1 hcons2 hstarts
  have hne : blocks ≠ [] := by
    intro h
    subst h
    rw [alignedBlocks_nil] at b3
    simp only [List.length_cons] at b3
    push_cast at b3
    omega
  have hmem := alignedBlocks_mem _ blocks 1 b3
  have hleaves : getLeafNodes (some (Importer.mk name 1 ((c1 :: rest1).length : Int) 0 0 []
      (blocks.map groupOf))) = blocks.flatMap (fun b => b.2.map (leafOf b.1)) := by
    unfold getLeafNodes
    simp only
    cases hb : blocks.map groupOf with
    | nil => exact absurd (List.map_eq_nil_iff.mp hb) hne
    | cons x xs =>
      rw [leafNodesOf_node, ← hb]
      exact leafNodesOfChildren_blocks blocks (fun b hb => (hmem b hb).1)
  refine ⟨_, blocks.map groupOf,
    getHeadersFromRow_two_rows c1 rest1 c2 rest2 hc1 hc2 hmax (by rw [hL]; exact hmax), ?_, ?_, ?_⟩
  · intro more
    rw [← b1, ← b2]
    exact buildChildNodes_blocks more name _ blocks hne b3
  · rw [hleaves, ← b2, List.map_flatMap]
    congr 1
    funext b
    rw [List.map_map]
    conv_rhs => rw [← List.map_id b.2]
    rfl
  · intro n hn
    rw [hleaves, List.mem_flatMap] at hn
    obtain ⟨b, hb, hn⟩ := hn
    obtain ⟨r, hr, rfl⟩ := List.mem_map.mp hn
    have := (hmem b hb).2 r hr
    refine ⟨rfl, rfl, rfl, b.1, ?_, this.1, this.2, rfl⟩
    rw [← b1]
    exact List.mem_map_of_mem _ hb

/-- C15 on the two header rows of the sheet of `excel_test.go`: five leaves with the
paths `字段|字段1` to `字段|字段5`. -/
theorem buildChildNodes_two_rows_witness :
    ("字段" ≠ "") ∧ ("字段1" ≠ "") ∧
    (∀ p ∈ ("字段" :: ["", "", "", ""]).zip ("字段1" :: ["字段2", "字段3", "字段4", "字段5"]),
      p.1 ≠ "" → p.2 ≠ "") ∧
    getHeadersFromRow fieldRows = .ok fieldSpans ∧
    buildChildNodes 3 (sheetRoot "Sheet1" 5) fieldSpans = BuildResult.ok fieldTree ∧
    (getLeafNodes (some (Importer.mk "Sheet1" 1 5 0 0 [] fieldTree))).map (fun n => n.path) =
      [["字段", "字段1"], ["字段", "字段2"], ["字段", "字段3"], ["字段", "字段4"],
       ["字段", "字段5"]] ∧
    ∃ spans children,
      getHeadersFromRow ["字段" :: ["", "", "", ""],
        "字段1" :: ["字段2", "字段3", "字段4", "字段5"]] = .ok spans ∧
      (∀ more, buildChildNodes (more + 3)
        (sheetRoot "Sheet1" (("字段" :: ["", "", "", ""]).length : Int)) spans =
        BuildResult.ok children) ∧
      (getLeafNodes (some (Importer.mk "Sheet1" 1 (("字段" :: ["", "", "", ""]).length : Int)
          0 0 [] children))).map (fun n => (n.colIndexStart, n.colIndexEnd, n.value)) =
        expectedRowRanges (("字段1" :: ["字段2", "字段3", "字段4", "字段5"]).length : Int)
          (nonEmptyCells ("字段1" :: ["字段2", "字段3", "字段4", "字段5"])) ∧
      ∀ n ∈ getLeafNodes (some (Importer.mk "Sheet1" 1
          (("字段" :: ["", "", "", ""]).length : Int) 0 0 [] children)),
        n.rowIndexStart = 2 ∧ n.rowIndexEnd = 2 ∧ n.childImporters = [] ∧
        ∃ g ∈ expectedRowRanges (("字段" :: ["", "", "", ""]).length : Int)
            (nonEmptyCells ("字段" :: ["", "", "", ""])),
          g.1 ≤ n.colIndexStart ∧ n.colIndexEnd ≤ g.2.1 ∧ n.path = [g.2.2, n.value] :=
  ⟨by decide, by decide, by decide, by decide, rfl, rfl,
    buildChildNodes_two_rows "Sheet1" "字段" ["", "", "", ""] "字段1"
      ["字段2", "字段3", "字段4", "字段5"] (by decide) (by decide) rfl (by decide) (by decide)⟩

/-- The node of the span `h` of `misalignedRows` never gets its children, whatever its
path: its boundary scan returns the indices 0 to 3, the span at index 1 is its own, and
the node made of that span is scanned in the same way. -/
theorem buildChildNodes_misaligned_h :
    ∀ (fuel : Nat) (path : List String),
      buildChildNodes fuel (Importer.mk "h" 3 4 1 1 path []) misalignedSpans =
        BuildResult.outOfFuel := by
  intro fuel
  induction fuel with
  | zero =>
    intro path
    rfl
  | succ fuel ih =>
    intro path
    have hb : getChildrenColBoundary (Importer.mk "h" 3 4 1 1 path []) misalignedSpans =
        (0, 3, none) := rfl
    have herr : (getChildrenColBoundary (Importer.mk "h" 3 4 1 1 path [])
        misalignedSpans).2.2 = none := by rw [hb]
    have hend : 0 ≤ (getChildrenColBoundary (Importer.mk "h" 3 4 1 1 path [])
        misalignedSpans).2.1 := by rw [hb]; decide
    rw [buildChildNodes_loop fuel _ _ herr hend, hb]
    have hidx : List.range' (0 : Int).toNat ((3 : Int).toNat + 1 - (0 : Int).toNat) =
        [0, 1, 2, 3] := rfl
    rw [hidx, buildLoop_cons _ _ misalignedSpans 0 [1, 2, 3] [] ⟨Axis.cell 1 1, Axis.cell 2 1, "g"⟩
      1 1 2 1 rfl rfl]
    cases fuel with
    | zero => rfl
    | succ fuel' =>
      have hg : buildChildNodes (fuel' + 1) (Importer.mk "g" 1 2 1 1 (path ++ ["g"]) [])
          misalignedSpans = BuildResult.ok [] := by
        have hbg : getChildrenColBoundary (Importer.mk "g" 1 2 1 1 (path ++ ["g"]) [])
            misalignedSpans = (0, -1, none) := rfl
        apply buildChildNodes_leaf
        · rw [hbg]
        · rw [hbg]
          decide
      have hpath : (Importer.mk "h" 3 4 1 1 path []).path = path := rfl
      rw [hpath, hg]
      simp only
      rw [buildLoop_cons _ _ misalignedSpans 1 [2, 3] _ ⟨Axis.cell 3 1, Axis.cell 4 1, "h"⟩
        3 1 4 1 rfl rfl, hpath, ih (path ++ ["h"])]

/-- C23 (the code departs from the claim): the coordinates of the four spans of the header
rows `["g", "", "h", ""]` and `["a", "", "", "d"]` all convert, and `buildChildNodes` does
not terminate on them below the root of the sheet: with every bound on the depth of the
recursion the bound is reached. The boundary scan of the node `h` (columns 3 to 4 of row
1) returns the indices 0 to 3, so the span at index 1, which is the span of `h` itself and
does not lie below `h`, becomes a child of `h`, and the recursive call on it repeats the
scan. -/
theorem buildChildNodes_misaligned_never_returns :
    getHeadersFromRow misalignedRows = .ok misalignedSpans ∧
    (∀ c ∈ misalignedSpans, c.coords.isSome = true) ∧
    getChildrenColBoundary (Importer.mk "h" 3 4 1 1 ["h"] []) misalignedSpans = (0, 3, none) ∧
    misalignedSpans.get? 1 = some ⟨Axis.cell 3 1, Axis.cell 4 1, "h"⟩ ∧
    isChildSpan (Importer.mk "h" 3 4 1 1 ["h"] []) ⟨Axis.cell 3 1, Axis.cell 4 1, "h"⟩ = false ∧
    (∀ fuel, buildChildNodes fuel (sheetRoot "Sheet1" 4) misalignedSpans =
      BuildResult.outOfFuel) := by
  refine ⟨by decide, by decide, rfl, rfl, rfl, ?_⟩
  intro fuel
  cases fuel with
  | zero => rfl
  | succ fuel =>
    have hb : getChildrenColBoundary (sheetRoot "Sheet1" 4) misalignedSpans = (0, 1, none) :=
      rfl
    have herr : (getChildrenColBoundary (sheetRoot "Sheet1" 4) misalignedSpans).2.2 = none := by
      rw [hb]
    have hend : 0 ≤ (getChildrenColBoundary (sheetRoot "Sheet1" 4) misalignedSpans).2.1 := by
      rw [hb]
      decide
    rw [buildChildNodes_loop fuel _ _ herr hend, hb]
    have hidx : List.range' (0 : Int).toNat ((1 : Int).toNat + 1 - (0 : Int).toNat) =
        [0, 1] := rfl
    rw [hidx, buildLoop_cons _ _ misalignedSpans 0 [1] [] ⟨Axis.cell 1 1, Axis.cell 2 1, "g"⟩
      1 1 2 1 rfl rfl]
    cases fuel with
    | zero => rfl
    | succ fuel' =>
      have hg : buildChildNodes (fuel' + 1)
          (Importer.mk "g" 1 2 1 1 ((sheetRoot "Sheet1" 4).path ++ ["g"]) [])
          misalignedSpans = BuildResult.ok [] := by
        have hbg : getChildrenColBoundary
            (Importer.mk "g" 1 2 1 1 ((sheetRoot "Sheet1" 4).path ++ ["g"]) [])
            misalignedSpans = (0, -1, none) := rfl
        apply buildChildNodes_leaf
        · rw [hbg]
        · rw [hbg]
          decide
      rw [hg]
      simp only
      rw [buildLoop_cons _ _ misalignedSpans 1 [] _ ⟨Axis.cell 3 1, Axis.cell 4 1, "h"⟩
        3 1 4 1 rfl rfl, buildChildNodes_misaligned_h (fuel' + 1)]

theorem subImporter_nil (n : Importer) : subImporter n [] = none := by
  cases n with
  | mk v a b c d p cs => simp only [subImporter]

theorem subImporter_single (v : String) (a b c d : Int) (p : List String) (cs : List Importer)
    (segment : String) :
    subImporter (.mk v a b c d p cs) [segment] =
      if segment = v then some (.mk v a b c d p cs) else none := by
  simp only [subImporter]

theorem subImporter_more (v : String) (a b c d : Int) (p : List String) (cs : List Importer)
    (segment next : String) (more : List String) :
    subImporter (.mk v a b c d p cs) (segment :: next :: more) =
      if p = [] ∨ v = segment then
        subImporterChildren cs (if p ≠ [] then next :: more else segment :: next :: more)
      else none := by
  simp only [subImporter]

theorem subImporterChildren_nil (path : List String) : subImporterChildren [] path = none := by
  simp only [subImporterChildren]

theorem subImporterChildren_cons (node : Importer) (rest : List Importer) (path : List String) :
    subImporterChildren (node :: rest) path =
      match subImporter node path with
      | some importer => some importer
      | none => subImporterChildren rest path := by
  simp only [subImporterChildren]

mutual
/-- A node that `subImporter` returns has the last segment of the path as its value. -/
theorem subImporter_last : ∀ (n : Importer) (path : List String) (m : Importer),
    subImporter n path = some m → path.getLast? = some m.value
  | .mk v a b c d p cs, [], m, h => by
    rw [subImporter_nil] at h
    cases h
  | .mk v a b c d p cs, [segment], m, h => by
    rw [subImporter_single] at h
    by_cases hs : segment = v
    · rw [if_pos hs] at h
      injection h with h
      subst h
      simp [Importer.value, hs]
    · rw [if_neg hs] at h
      cases h
  | .mk v a b c d p cs, segment :: next :: more, m, h => by
    rw [subImporter_more] at h
    by_cases hc : p = [] ∨ v = segment
    · rw [if_pos hc] at h
      have := subImporterChildren_last cs _ m h
      by_cases hp : p ≠ []
      · rw [if_pos hp] at this
        rw [List.getLast?_cons_cons]
        exact this
      · rw [if_neg hp] at this
        exact this
    · rw [if_neg hc] at h
      cases h
/-- A node that the loop of `subImporter` returns has the last segment of the path as its
value. -/
theorem subImporterChildren_last : ∀ (cs : List Importer) (path : List String) (m : Importer),
    subImporterChildren cs path = some m → path.getLast? = some m.value
  | [], path, m, h => by
    rw [subImporterChildren_nil] at h
    cases h
  | node :: rest, path, m, h => by
    rw [subImporterChildren_cons] at h
    cases hn : subImporter node path with
    | some im =>
      rw [hn] at h
      injection h with h
      subst h
      exact subImporter_last node path im hn
    | none =>
      rw [hn] at h
      exact subImporterChildren_last rest path m h
end

mutual
/-- The chains below a prefix are the chains below the empty prefix, each after the
prefix. -/
theorem chainsOf_shift : ∀ (pre : List String) (n : Importer),
    chainsOf pre n = (chainsOf [] n).map (fun x => (pre ++ x.1, x.2))
  | pre, .mk v a b c d p cs => by
    rw [chainsOf_mk, chainsOf_mk, List.map_cons, chainsOfList_shift (pre ++ [v]) cs,
      chainsOfList_shift ([] ++ [v]) cs, List.map_map]
    simp only [List.nil_append, List.append_assoc, List.singleton_append, Function.comp_def]
/-- The chains of a list of trees below a prefix. -/
theorem chainsOfList_shift : ∀ (pre : List String) (cs : List Importer),
    chainsOfList pre cs = (chainsOfList [] cs).map (fun x => (pre ++ x.1, x.2))
  | pre, [] => by
    rw [chainsOfList_nil, chainsOfList_nil]
    rfl
  | pre, c :: cs => by
    rw [chainsOfList_cons, chainsOfList_cons, List.map_append, ← chainsOf_shift pre c,
      ← chainsOfList_shift pre cs]
end

theorem pathsFollow_path_ne (pp : List String) (n : Importer) (h : pathsFollow pp n) :
    n.path ≠ [] := by
  rw [pathsFollow_iff] at h
  rw [h.1]
  simp

mutual
/-- Under the path invariant, a node that `subImporter` returns below a node of the tree
is a node of the tree whose chain of values from that node is the path. -/
theorem subImporter_sound : ∀ (pp : List String) (n : Importer), pathsFollow pp n →
    ∀ (path : List String) (m : Importer), subImporter n path = some m →
      (path, m) ∈ chainsOf [] n
  | pp, .mk v a b c d p cs, hinv, [], m, h => by
    rw [subImporter_nil] at h
    cases h
  | pp, .mk v a b c d p cs, hinv, [segment], m, h => by
    rw [subImporter_single] at h
    by_cases hs : segment = v
    · rw [if_pos hs] at h
      injection h with h
      subst h
      subst hs
      rw [chainsOf_mk]
      exact List.mem_cons_self _ _
    · rw [if_neg hs] at h
      cases h
  | pp, .mk v a b c d p cs, hinv, segment :: next :: more, m, h => by
    have hp : p ≠ [] := pathsFollow_path_ne pp _ hinv
    rw [pathsFollow_mk] at hinv
    rw [subImporter_more] at h
    by_cases hc : p = [] ∨ v = segment
    · rw [if_pos hc, if_pos hp] at h
      have hv : v = segment := by
        rcases hc with hc | hc
        · exact absurd hc hp
        · exact hc
      subst hv
      have := subImporterChildren_sound p cs hinv.2 (next :: more) m h
      rw [chainsOf_mk, chainsOfList_shift ([] ++ [v]) cs]
      refine List.mem_cons_of_mem _ (List.mem_map.mpr ⟨(next :: more, m), this, rfl⟩)
    · rw [if_neg hc] at h
      cases h
/-- Under the path invariant, a node that the loop of `subImporter` returns is a node of
the trees whose chain of values is the path. -/
theorem subImporterChildren_sound : ∀ (pp : List String) (cs : List Importer),
    pathsFollowList pp cs → ∀ (path : List String) (m : Importer),
      subImporterChildren cs path = some m → (path, m) ∈ chainsOfList [] cs
  | pp, [], _, path, m, h => by
    rw [subImporterChildren_nil] at h
    cases h
  | pp, node :: rest, hinv, path, m, h => by
    rw [pathsFollowList_cons] at hinv
    rw [subImporterChildren_cons] at h
    rw [chainsOfList_cons, List.mem_append]
    cases hn : subImporter node path with
    | some im =>
      rw [hn] at h
      injection h with h
      subst h
      exact Or.inl (subImporter_sound pp node hinv.1 path im hn)
    | none =>
      rw [hn] at h
      exact Or.inr (subImporterChildren_sound pp rest hinv.2 path m h)
end

mutual
/-- Under the path invariant, `subImporter` finds a node for every chain of values of the
tree. -/
theorem subImporter_complete : ∀ (pp : List String) (n : Importer), pathsFollow pp n →
    ∀ (path : List String) (x : Importer), (path, x) ∈ chainsOf [] n →
      ∃ m, subImporter n path = some m
  | pp, .mk v a b c d p cs, hinv, path, x, hx => by
    have hp : p ≠ [] := pathsFollow_path_ne pp _ hinv
    rw [pathsFollow_mk] at hinv
    rw [chainsOf_mk, List.mem_cons] at hx
    rcases hx with hx | hx
    · injection hx with h1 h2
      subst h1
      rw [List.nil_append, subImporter_single, if_pos rfl]
      exact ⟨_, rfl⟩
    · rw [chainsOfList_shift ([] ++ [v]) cs] at hx
      obtain ⟨y, hy, hyx⟩ := List.mem_map.mp hx
      obtain ⟨q, z⟩ := y
      injection hyx with h1 h2
      subst h1
      subst h2
      obtain ⟨m, hm⟩ := subImporterChildren_complete p cs hinv.2 q z hy
      cases q with
      | nil =>
        have := subImporterChildren_last cs [] m hm
        simp at this
      | cons next more =>
        refine ⟨m, ?_⟩
        show subImporter (Importer.mk v a b c d p cs) (v :: next :: more) = some m
        rw [subImporter_more, if_pos (Or.inr rfl), if_pos hp]
        exact hm
/-- Under the path invariant, the loop of `subImporter` finds a node for every chain of
values of the trees. -/
theorem subImporterChildren_complete : ∀ (pp : List String) (cs : List Importer),
    pathsFollowList pp cs → ∀ (path : List String) (x : Importer),
      (path, x) ∈ chainsOfList [] cs → ∃ m, subImporterChildren cs path = some m
  | pp, [], _, path, x, hx => by
    rw [chainsOfList_nil] at hx
    cases hx
  | pp, node :: rest, hinv, path, x, hx => by
    rw [pathsFollowList_cons] at hinv
    rw [chainsOfList_cons, List.mem_append] at hx
    rw [subImporterChildren_cons]
    cases hn : subImporter node path with
    | some im => exact ⟨im, rfl⟩
    | none =>
      rcases hx with hx | hx
      · obtain ⟨m, hm⟩ := subImporter_complete pp node hinv.1 path x hx
        rw [hn] at hm
        cases hm
      · exact subImporterChildren_complete pp rest hinv.2 path x hx
end

theorem splitAux_nil (sep : Char) (cur : List Char) :
    splitAux sep [] cur = [String.mk cur.reverse] := rfl

theorem splitAux_sep (sep : Char) (tail cur : List Char) :
    splitAux sep (sep :: tail) cur = String.mk cur.reverse :: splitAux sep tail [] := by
  simp only [splitAux, if_true]

theorem splitAux_other (sep c : Char) (tail cur : List Char) (h : c ≠ sep) :
    splitAux sep (c :: tail) cur = splitAux sep tail (c :: cur) := by
  simp only [splitAux, h, if_false]

theorem splitAux_segment (sep : Char) :
    ∀ (cs tail cur : List Char), sep ∉ cs →
      splitAux sep (cs ++ tail) cur = splitAux sep tail (cs.reverse ++ cur) := by
  intro cs
  induction cs with
  | nil =>
    intro tail cur _
    rfl
  | cons c cs ih =>
    intro tail cur h
    have hc : c ≠ sep := fun e => h (by rw [e]; exact List.mem_cons_self _ _)
    rw [List.cons_append, splitAux_other sep c _ cur hc,
      ih tail (c :: cur) (fun hm => h (List.mem_cons_of_mem _ hm)), List.reverse_cons,
      List.append_assoc]
    rfl

theorem joinPath_single (s : String) : joinPath [s] = s := rfl

theorem joinPath_cons (s t : String) (rest : List String) :
    joinPath (s :: t :: rest) = s ++ String.singleton _tagPathSplitter ++ joinPath (t :: rest) :=
  rfl

theorem joinPath_data (s t : String) (rest : List String) :
    (joinPath (s :: t :: rest)).data =
      s.data ++ _tagPathSplitter :: (joinPath (t :: rest)).data := by
  rw [joinPath_cons, String.data_append, String.data_append]
  simp [String.singleton]

/-- Splitting the joined segments of a path gives the segments back when no segment
holds the splitter. -/
theorem stringsSplit_joinPath :
    ∀ (segs : List String), segs ≠ [] → (∀ s ∈ segs, _tagPathSplitter ∉ s.data) →
      stringsSplit (joinPath segs) _tagPathSplitter = segs := by
  intro segs
  induction segs with
  | nil =>
    intro h _
    exact absurd rfl h
  | cons s rest ih =>
    intro _ hs
    have h1 := hs s (List.mem_cons_self _ _)
    cases rest with
    | nil =>
      unfold stringsSplit
      rw [joinPath_single]
      have := splitAux_segment _tagPathSplitter s.data [] [] h1
      rw [List.append_nil] at this
      rw [this, splitAux_nil, List.append_nil, List.reverse_reverse]
    | cons t rest' =>
      have ih' := ih (by simp) (fun x hx => hs x (List.mem_cons_of_mem _ hx))
      unfold stringsSplit at ih' ⊢
      rw [joinPath_data, splitAux_segment _ _ _ _ h1, splitAux_sep, ih', List.append_nil,
        List.reverse_reverse]

theorem joinPath_ne_empty (s t : String) (rest : List String) :
    joinPath (s :: t :: rest) ≠ "" := by
  intro h
  have := congrArg String.data h
  rw [joinPath_data] at this
  simp at this

theorem subImporter_root (v : String) (a b c d : Int) (cs : List Importer) (path : List String)
    (h : 2 ≤ path.length) :
    subImporter (.mk v a b c d [] cs) path = subImporterChildren cs path := by
  match path, h with
  | segment :: next :: more, _ =>
    rw [subImporter_more, if_pos (Or.inl rfl), if_neg (by simp)]

theorem SubImporter_root (v : String) (a b c d : Int) (cs : List Importer) (path : String)
    (h : path ≠ "") :
    SubImporter (.mk v a b c d [] cs) path =
      subImporter (.mk v a b c d [] cs) (stringsSplit path _tagPathSplitter) := by
  unfold SubImporter
  rw [if_neg h]
  simp [Importer.path]

/-- C21 (original claim refuted): the node `a|b` below `g` has the path `g`, `a|b`, which
joins to `g|a|b` and is looked up as the three segments `g`, `a`, `b`: `SubImporter` returns
nil. The node `字段` directly below the root of the sheet of `excel_test.go` has the path
`字段` of one segment, and `SubImporter` returns nil for it as well: a path of one segment
is compared with the value of the root, which is the name of the sheet. -/
theorem subImporter_joined_path_counterexample :
    buildChildNodes 3 (sheetRoot "Sheet1" 2) splitterSpans = BuildResult.ok splitterTree ∧
    (leafNodesOfChildren splitterTree).map (fun n => n.path) = [["g", "a|b"], ["g", "c"]] ∧
    joinPath ["g", "a|b"] = "g|a|b" ∧
    SubImporter (.mk "Sheet1" 1 2 0 0 [] splitterTree) "g|a|b" = none ∧
    buildChildNodes 3 (sheetRoot "Sheet1" 5) fieldSpans = BuildResult.ok fieldTree ∧
    fieldTree.map (fun n => n.path) = [["字段"]] ∧
    joinPath ["字段"] = "字段" ∧
    SubImporter (.mk "Sheet1" 1 5 0 0 [] fieldTree) "字段" = none :=
  ⟨rfl, rfl, by decide, rfl, rfl, rfl, rfl, rfl⟩

/-- C21 (amended): in a tree that `buildChildNodes` has built below a root with an empty
path, for every node `n` whose path has at least two segments, none of which holds the
path splitter, `SubImporter` of the joined path of `n` returns a node of the tree whose
path equals the path of `n`. `SubImporter("")` returns nil, and the value of every node
that `SubImporter` returns is the last segment of the requested path. -/
theorem subImporter_finds_path (fuel : Nat) (value : String)
    (colIndexStart colIndexEnd rowIndexStart rowIndexEnd : Int) (spans : List MergeCell)
    (children : List Importer)
    (hbuilt : buildChildNodes fuel
      (.mk value colIndexStart colIndexEnd rowIndexStart rowIndexEnd [] []) spans =
        BuildResult.ok children) :
    (∀ chain n, (chain, n) ∈ chainsOfList [] children → 2 ≤ n.path.length →
      (∀ s ∈ n.path, _tagPathSplitter ∉ s.data) →
      ∃ m, SubImporter (.mk value colIndexStart colIndexEnd rowIndexStart rowIndexEnd []
          children) (joinPath n.path) = some m ∧
        (n.path, m) ∈ chainsOfList [] children ∧ m.path = n.path) ∧
    SubImporter (.mk value colIndexStart colIndexEnd rowIndexStart rowIndexEnd [] children)
      "" = none ∧
    (∀ path m,
      SubImporter (.mk value colIndexStart colIndexEnd rowIndexStart rowIndexEnd [] children)
        path = some m →
      (stringsSplit path _tagPathSplitter).getLast? = some m.value) := by
  have hinv : pathsFollowList [] children :=
    buildChildNodes_pathsFollow fuel _ spans children hbuilt
  refine ⟨?_, rfl, ?_⟩
  · intro chain n hn hlen hsplit
    have hpath : n.path = chain := chainsOfList_path [] children hinv (chain, n) hn
    rw [hpath] at hlen hsplit ⊢
    have hne : chain ≠ [] := by
      intro h
      rw [h] at hlen
      simp at hlen
    have hjoin : joinPath chain ≠ "" := by
      match chain, hlen with
      | s :: t :: rest, _ => exact joinPath_ne_empty s t rest
    rw [SubImporter_root _ _ _ _ _ _ _ hjoin, stringsSplit_joinPath chain hne hsplit,
      subImporter_root _ _ _ _ _ _ _ hlen]
    obtain ⟨m, hm⟩ := subImporterChildren_complete [] children hinv chain n hn
    have hmem := subImporterChildren_sound [] children hinv chain m hm
    exact ⟨m, hm, hmem, chainsOfList_path [] children hinv (chain, m) hmem⟩
  · intro path m h
    by_cases hp : path = ""
    · subst hp
      cases h
    · rw [SubImporter_root _ _ _ _ _ _ _ hp] at h
      exact subImporter_last _ _ m h

/-- C21 (amended) on the tree of the header of `excel_test.go`: the path `字段|字段3` is
found. -/
theorem subImporter_finds_path_witness :
    buildChildNodes 3 (.mk "Sheet1" 1 5 0 0 [] []) fieldSpans = BuildResult.ok fieldTree ∧
    SubImporter (.mk "Sheet1" 1 5 0 0 [] fieldTree) "字段|字段3" =
      some (.mk "字段3" 3 3 2 2 ["字段", "字段3"] []) ∧
    ∃ m, SubImporter (.mk "Sheet1" 1 5 0 0 [] fieldTree)
        (joinPath (Importer.mk "字段3" 3 3 2 2 ["字段", "字段3"] []).path) = some m ∧
      ((Importer.mk "字段3" 3 3 2 2 ["字段", "字段3"] []).path, m) ∈ chainsOfList [] fieldTree ∧
      m.path = (Importer.mk "字段3" 3 3 2 2 ["字段", "字段3"] []).path :=
  ⟨rfl, rfl,
    (subImporter_finds_path 3 "Sheet1" 1 5 0 0 fieldSpans fieldTree rfl).1 ["字段", "字段3"]
      (.mk "字段3" 3 3 2 2 ["字段", "字段3"] [])
      (by
        rw [show chainsOfList [] fieldTree =
          [(["字段"], Importer.mk "字段" 1 5 1 1 ["字段"]
              [.mk "字段1" 1 1 2 2 ["字段", "字段1"] [], .mk "字段2" 2 2 2 2 ["字段", "字段2"] [],
               .mk "字段3" 3 3 2 2 ["字段", "字段3"] [], .mk "字段4" 4 4 2 2 ["字段", "字段4"] [],
               .mk "字段5" 5 5 2 2 ["字段", "字段5"] []]),
           (["字段", "字段1"], .mk "字段1" 1 1 2 2 ["字段", "字段1"] []),
           (["字段", "字段2"], .mk "字段2" 2 2 2 2 ["字段", "字段2"] []),
           (["字段", "字段3"], .mk "字段3" 3 3 2 2 ["字段", "字段3"] []),
           (["字段", "字段4"], .mk "字段4" 4 4 2 2 ["字段", "字段4"] []),
           (["字段", "字段5"], .mk "字段5" 5 5 2 2 ["字段", "字段5"] [])] from rfl]
        simp)
      (by decide) (by decide)⟩

theorem newResponses_ptr :
    ∀ (responses : List Response), (∀ r ∈ responses, r ≠ Response.notPtr) →
      newResponses responses = some (responses.map zeroResponse) := by
  intro responses
  induction responses with
  | nil =>
    intro _
    rfl
  | cons r rest ih =>
    intro h
    cases r with
    | notPtr => exact absurd rfl (h _ (List.mem_cons_self _ _))
    | structPtr fields =>
      simp only [newResponses, ih (fun x hx => h x (List.mem_cons_of_mem _ hx))]
      rfl

theorem runTask_ok (env : GoEnv) (root : Option Importer) (rows : List (List String))
    (responses : List Response) (index : Nat) (s : AsyncState) (respParams : List Response)
    (row : List String) (h1 : newResponses responses = some respParams)
    (h2 : rows.get? index = some row) :
    runTask env root rows responses index s =
      { s with wg := s.wg - 1, ch := s.ch ++ [scanResult env root respParams row] } := by
  unfold runTask
  rw [h1, h2]

theorem range_map_getD {α : Type} (f : List String → α) :
    ∀ (rows : List (List String)),
      (List.range rows.length).map (fun i => f (rows.getD i [])) = rows.map f := by
  intro rows
  apply List.ext_getElem
  · simp
  · intro i h1 h2
    simp only [List.getElem_map, List.getElem_range]
    rw [List.getD_eq_getElem]

/-- The invariant of the runs of `AsyncScanRows` holds at the start. -/
theorem asyncInv_init (n : Nat) (res : Nat → AsyncScanExRes) : AsyncInv n res asyncInit := by
  refine ⟨rfl, List.nodup_nil, ?_, Nat.zero_le _, ?_, ?_, ?_⟩
  · intro i hi
    cases hi
  · intro h
    cases h
  · intro h
    cases h
  · exact List.Perm.refl _

/-- Each step of a run keeps the invariant and takes one from what is left to do. -/
theorem asyncInv_step (env : GoEnv) (root : Option Importer) (rows : List (List String))
    (responses : List Response) (hptr : ∀ r ∈ responses, r ≠ Response.notPtr)
    (s s' : AsyncState) (event : AsyncEvent)
    (hinv : AsyncInv rows.length
      (fun i => scanResult env root (responses.map zeroResponse) (rows.getD i [])) s)
    (hstep : asyncStep env root rows responses s event = some s') :
    AsyncInv rows.length
        (fun i => scanResult env root (responses.map zeroResponse) (rows.getD i [])) s' ∧
      asyncMeasure rows.length s' + 1 = asyncMeasure rows.length s := by
  obtain ⟨i1, i2, i3, i4, i5, i6, i7⟩ := hinv
  cases event with
  | submit =>
    simp only [asyncStep] at hstep
    split_ifs at hstep with hc
    injection hstep with hstep
    subst hstep
    refine ⟨⟨?_, ?_, ?_, ?_, ?_, ?_, ?_⟩, ?_⟩
    · simp only [List.length_append, List.length_singleton, i1]
    · rw [List.nodup_append]
      refine ⟨i2, List.nodup_singleton _, ?_⟩
      intro a ha hb
      rw [List.mem_singleton] at hb
      have := i3 a ha
      omega
    · intro i hi
      rw [List.mem_append, List.mem_singleton] at hi
      show i < s.submitted + 1
      rcases hi with hi | hi
      · have := i3 i hi
        omega
      · omega
    · exact hc.1
    · intro h
      rw [hc.2] at h
      cases h
    · intro h
      have := (i6 h).1
      rw [hc.2] at this
      cases this
    · simp only [List.map_append, List.map_singleton, List.range_succ]
      rw [← List.append_assoc]
      exact List.Perm.append_right _ i7
    · simp only [asyncMeasure, List.length_append, List.length_singleton]
      have := hc.1
      omega
  | run index =>
    simp only [asyncStep] at hstep
    split_ifs at hstep with hc
    injection hstep with hstep
    have hlt : index < rows.length := Nat.lt_of_lt_of_le (i3 index hc) i4
    rw [runTask_ok env root rows responses index _ _ _ (newResponses_ptr responses hptr)
      (List.get?_eq_get hlt)] at hstep
    subst hstep
    have hlen : (s.pending.erase index).length = s.pending.length - 1 :=
      List.length_erase_of_mem hc
    have hpos : 0 < s.pending.length := List.length_pos_of_mem hc
    refine ⟨⟨?_, ?_, ?_, i4, i5, ?_, ?_⟩, ?_⟩
    · simp only [hlen, i1]
    · exact i2.erase _
    · intro i hi
      exact i3 i (List.mem_of_mem_erase hi)
    · intro h
      have := (i6 h).2
      rw [this] at hc
      cases hc
    · simp only
      have hget : rows.get ⟨index, hlt⟩ = rows.getD index [] := by
        rw [List.getD_eq_getElem _ _ hlt]
        rfl
      rw [hget, List.append_assoc]
      refine List.Perm.trans ?_ i7
      apply List.Perm.append_left
      rw [List.singleton_append]
      exact ((List.perm_cons_erase hc).map
        (fun i => scanResult env root (responses.map zeroResponse) (rows.getD i []))).symm
    · simp only [asyncMeasure, hlen]
      omega
  | spawnCloser =>
    simp only [asyncStep] at hstep
    split_ifs at hstep with hc
    injection hstep with hstep
    subst hstep
    refine ⟨⟨i1, i2, i3, i4, fun _ => hc.1, ?_, i7⟩, ?_⟩
    · intro h
      exact ⟨rfl, (i6 h).2⟩
    · cases hcl : s.closed <;> simp [asyncMeasure, hc.2, hcl]
  | close =>
    simp only [asyncStep] at hstep
    split_ifs at hstep with hc
    injection hstep with hstep
    subst hstep
    refine ⟨⟨i1, i2, i3, i4, i5, ?_, i7⟩, ?_⟩
    · intro _
      refine ⟨hc.1, ?_⟩
      have : s.pending.length = 0 := by rw [← i1]; exact hc.2.1
      exact List.length_eq_zero.mp this
    · cases hsp : s.closerSpawned <;> simp [asyncMeasure, hc.2.2, hsp]

/-- The invariant holds after every run, and the steps of the run are what was to do at
the start less what is left to do. -/
theorem asyncInv_run (env : GoEnv) (root : Option Importer) (rows : List (List String))
    (responses : List Response) (hptr : ∀ r ∈ responses, r ≠ Response.notPtr) :
    ∀ (events : List AsyncEvent) (s final : AsyncState),
      AsyncInv rows.length
        (fun i => scanResult env root (responses.map zeroResponse) (rows.getD i [])) s →
      asyncRun env root rows responses events s = some final →
      AsyncInv rows.length
          (fun i => scanResult env root (responses.map zeroResponse) (rows.getD i [])) final ∧
        asyncMeasure rows.length final + events.length = asyncMeasure rows.length s := by
  intro events
  induction events with
  | nil =>
    intro s final hinv hrun
    simp only [asyncRun] at hrun
    injection hrun with hrun
    subst hrun
    exact ⟨hinv, rfl⟩
  | cons event rest ih =>
    intro s final hinv hrun
    simp only [asyncRun] at hrun
    cases hs : asyncStep env root rows responses s event with
    | none =>
      rw [hs] at hrun
      cases hrun
    | some s' =>
      rw [hs] at hrun
      obtain ⟨h1, h2⟩ := asyncInv_step env root rows responses hptr s s' event hinv hs
      obtain ⟨h3, h4⟩ := ih s' final h1 hrun
      refine ⟨h3, ?_⟩
      simp only [List.length_cons]
      omega

/-- A run of `AsyncScanRows` that has not closed the channel can take a step. -/
theorem async_progress (env : GoEnv) (root : Option Importer) (rows : List (List String))
    (responses : List Response) (res : Nat → AsyncScanExRes) (s : AsyncState)
    (hinv : AsyncInv rows.length res s) (hopen : s.closed = false) :
    ∃ event s', asyncStep env root rows responses s event = some s' := by
  obtain ⟨i1, i2, i3, i4, i5, i6, i7⟩ := hinv
  cases hsp : s.closerSpawned with
  | false =>
    by_cases hsub : s.submitted < rows.length
    · exact ⟨AsyncEvent.submit, _, by simp only [asyncStep]; rw [if_pos ⟨hsub, hsp⟩]⟩
    · have : s.submitted = rows.length := by omega
      exact ⟨AsyncEvent.spawnCloser, _, by simp only [asyncStep]; rw [if_pos ⟨this, hsp⟩]⟩
  | true =>
    cases hp : s.pending with
    | nil =>
      have hwg : s.wg = 0 := by rw [i1, hp]; rfl
      exact ⟨AsyncEvent.close, _, by simp only [asyncStep]; rw [if_pos ⟨hsp, hwg, hopen⟩]⟩
    | cons i rest =>
      have hi : i ∈ s.pending := by rw [hp]; exact List.mem_cons_self _ _
      exact ⟨AsyncEvent.run i, _, by simp only [asyncStep]; rw [if_pos hi]⟩

/-- C22: for every batch of rows and every run of `AsyncScanRows` with responses that are
pointers to records, the channel never holds more results than there are rows; a run
that has not closed the channel can go on, and no run has more than `2 N + 2` steps; when
the channel is closed the run is at its end and the channel holds exactly `N` results, one
for each row: the results are, up to their order, the outcomes of `ScanRow` on the rows,
each with new zero-valued copies of the responses, so the result of a row depends on that
row alone. -/
theorem asyncScanRows_delivers (env : GoEnv) (root : Option Importer)
    (rows : List (List String)) (responses : List Response) (events : List AsyncEvent)
    (final : AsyncState) (hptr : ∀ r ∈ responses, r ≠ Response.notPtr)
    (hrun : asyncRun env root rows responses events asyncInit = some final) :
    final.ch.length ≤ rows.length ∧
    events.length ≤ 2 * rows.length + 2 ∧
    (final.closed = false →
      ∃ event s', asyncStep env root rows responses final event = some s') ∧
    (final.closed = true →
      final.ch.length = rows.length ∧
      final.ch.Perm (rows.map (scanResult env root (responses.map zeroResponse))) ∧
      events.length = 2 * rows.length + 2 ∧
      ∀ event, asyncStep env root rows responses final event = none) := by
  obtain ⟨hinv, hmeasure⟩ := asyncInv_run env root rows responses hptr events asyncInit final
    (asyncInv_init _ _) hrun
  have hinit : asyncMeasure rows.length asyncInit = 2 * rows.length + 2 := by
    simp [asyncMeasure, asyncInit]
  rw [hinit] at hmeasure
  obtain ⟨i1, i2, i3, i4, i5, i6, i7⟩ := hinv
  have hlen := i7.length_eq
  simp only [List.length_append, List.length_map, List.length_range] at hlen
  refine ⟨by omega, by omega, ?_, ?_⟩
  · exact async_progress env root rows responses _ final ⟨i1, i2, i3, i4, i5, i6, i7⟩
  · intro hclosed
    obtain ⟨hsp, hp⟩ := i6 hclosed
    have hsub := i5 hsp
    rw [hp, hsub] at hlen
    rw [hp, hsub, List.map_nil, List.append_nil, range_map_getD] at i7
    refine ⟨by simpa using hlen, i7, ?_, ?_⟩
    · have : asyncMeasure rows.length final = 0 := by
        simp [asyncMeasure, hsub, hp, hsp, hclosed]
      omega
    · intro event
      cases event with
      | submit =>
        simp only [asyncStep]
        rw [if_neg]
        intro h
        rw [hsp] at h
        cases h.2
      | run index =>
        simp only [asyncStep]
        rw [if_neg]
        rw [hp]
        exact List.not_mem_nil _
      | spawnCloser =>
        simp only [asyncStep]
        rw [if_neg]
        intro h
        rw [hsp] at h
        cases h.2
      | close =>
        simp only [asyncStep]
        rw [if_neg]
        intro h
        rw [hclosed] at h
        cases h.2.2

/-- C22 on three rows of which the second has a malformed cell: in a run in which the
second row is scanned first and the first row last, the channel holds three results when
it is closed, the error is that of the second row alone, and the caller's values 7 and
`old` are in no result. -/
theorem asyncScanRows_delivers_witness :
    (∀ r ∈ [sampleResponse], r ≠ Response.notPtr) ∧
    (∃ final, asyncRun sampleEnv (some shallowTree) sampleRows [sampleResponse]
        [AsyncEvent.submit, AsyncEvent.submit, AsyncEvent.run 1, AsyncEvent.submit,
          AsyncEvent.spawnCloser, AsyncEvent.run 2, AsyncEvent.run 0, AsyncEvent.close]
        asyncInit = some final ∧
      final.closed = true ∧
      final.ch.map (fun r => r.Err.isSome) = [true, false, false] ∧
      final.ch.length = sampleRows.length ∧
      final.ch.Perm (sampleRows.map
        (scanResult sampleEnv (some shallowTree) ([sampleResponse].map zeroResponse)))) :=
  ⟨by decide,
    ⟨_, rfl, rfl, by decide,
      ((asyncScanRows_delivers sampleEnv (some shallowTree) sampleRows [sampleResponse]
        [AsyncEvent.submit, AsyncEvent.submit, AsyncEvent.run 1, AsyncEvent.submit,
          AsyncEvent.spawnCloser, AsyncEvent.run 2, AsyncEvent.run 0, AsyncEvent.close]
        _ (by decide) rfl).2.2.2 rfl).1,
      ((asyncScanRows_delivers sampleEnv (some shallowTree) sampleRows [sampleResponse]
        [AsyncEvent.submit, AsyncEvent.submit, AsyncEvent.run 1, AsyncEvent.submit,
          AsyncEvent.spawnCloser, AsyncEvent.run 2, AsyncEvent.run 0, AsyncEvent.close]
        _ (by decide) rfl).2.2.2 rfl).2.1⟩⟩

/-! ## `writeData` -/

theorem sliceRows_valid (rows : List Response) (lo hi : Nat) (h1 : lo ≤ hi)
    (h2 : hi ≤ rows.length) :
    sliceRows rows (lo : Int) (hi : Int) = some ((rows.drop lo).take (hi - lo)) := by
  unfold sliceRows
  rw [if_pos ⟨Int.natCast_nonneg _, by exact_mod_cast h1, by exact_mod_cast h2⟩]
  simp only [Int.toNat_ofNat]


theorem sheetRowsOf_slice (e : Excel) (rows : List Response) (n q idx : Nat)
    (hn : e.sheetCount = n) (hq : n * q ≤ rows.length) (hidx : idx < n) :
    (if (idx : Int) = e.sheetCount - 1 then
        sliceRows rows (idx * (q : Int)) rows.length
      else sliceRows rows (idx * (q : Int)) ((idx + 1) * (q : Int))) =
      some (sheetRowsOf rows n q idx) := by
  have hlo : idx * q ≤ n * q := Nat.mul_le_mul_right q (Nat.le_of_lt hidx)
  have hc1 : ((idx : Int) * (q : Int)) = ((idx * q : Nat) : Int) := by push_cast; rfl
  have hc2 : (((idx : Int) + 1) * (q : Int)) = (((idx + 1) * q : Nat) : Int) := by
    push_cast; rfl
  unfold sheetRowsOf
  by_cases hlast : idx + 1 = n
  · have : (idx : Int) = e.sheetCount - 1 := by rw [hn, ← hlast]; push_cast; ring
    rw [if_pos this, if_pos hlast, hc1, sliceRows_valid rows (idx * q) rows.length (by omega)
      le_rfl]
    rw [List.take_of_length_le (by simp)]
  · have : ¬ (idx : Int) = e.sheetCount - 1 := by
      rw [hn]; intro h; apply hlast; omega
    have hhi : (idx + 1) * q ≤ n * q := Nat.mul_le_mul_right q hidx
    rw [if_neg this, if_neg hlast, hc1, hc2,
      sliceRows_valid rows (idx * q) ((idx + 1) * q)
        (Nat.mul_le_mul_right q (Nat.le_succ idx)) (by omega)]
    have : (idx + 1) * q - idx * q = q := by
      rw [Nat.add_mul, Nat.one_mul]; omega
    rw [this]

theorem sheetRowsOf_mem (rows : List Response) (n q idx : Nat) :
    ∀ r ∈ sheetRowsOf rows n q idx, r ∈ rows := by
  intro r hr
  unfold sheetRowsOf at hr
  split_ifs at hr
  · exact List.mem_of_mem_drop hr
  · exact List.mem_of_mem_drop (List.mem_of_mem_take hr)


theorem sheetRowsOf_take (rows : List Response) (n q : Nat) :
    ∀ k : Nat, k < n →
      (List.range k).flatMap (sheetRowsOf rows n q) = rows.take (k * q) := by
  intro k
  induction k with
  | zero => intro _; simp
  | succ k ih =>
    intro hk
    rw [List.range_succ, List.flatMap_append, ih (by omega), List.flatMap_singleton]
    unfold sheetRowsOf
    rw [if_neg (by omega), Nat.add_mul, Nat.one_mul, List.take_add]

theorem sheetRowsOf_partition (rows : List Response) (n q : Nat) (hn : 1 ≤ n) :
    (List.range n).flatMap (sheetRowsOf rows n q) = rows := by
  obtain ⟨k, rfl⟩ : ∃ k, n = k + 1 := ⟨n - 1, by omega⟩
  rw [List.range_succ, List.flatMap_append, sheetRowsOf_take rows (k + 1) q k (by omega),
    List.flatMap_singleton]
  unfold sheetRowsOf
  rw [if_pos rfl, List.take_append_drop]

theorem writeRowFields_nil (sprint : StructField → String) (ex : Engine) (sheet : String)
    (row i : Int) (log : List SheetOp) :
    writeRowFields sprint ex sheet row [] i log = ([], none) := rfl

theorem writeRowFields_cons (sprint : StructField → String) (ex : Engine) (sheet : String)
    (row i : Int) (field : StructField) (rest : List StructField) (log : List SheetOp) :
    writeRowFields sprint ex sheet row (field :: rest) i log =
      (match CoordinatesToCellName (i + 1) row with
      | .error err => ([], some (WriteDataError.coordinates err))
      | .ok axis =>
        match ex log (SheetOp.SetCellValue sheet axis (fieldCellValue sprint field)) with
        | some err =>
          ([SheetOp.SetCellValue sheet axis (fieldCellValue sprint field)],
            some (WriteDataError.engine
              (SheetOp.SetCellValue sheet axis (fieldCellValue sprint field)) err))
        | none =>
          (SheetOp.SetCellValue sheet axis (fieldCellValue sprint field) ::
              (writeRowFields sprint ex sheet row rest (i + 1)
                (log ++ [SheetOp.SetCellValue sheet axis (fieldCellValue sprint field)])).1,
            (writeRowFields sprint ex sheet row rest (i + 1)
              (log ++ [SheetOp.SetCellValue sheet axis (fieldCellValue sprint field)])).2)) := by
  simp only [writeRowFields]

theorem expectedFieldOps_nil (sprint : StructField → String) (sheet : String) (row col : Int) :
    expectedFieldOps sprint sheet row [] col = [] := rfl

theorem expectedFieldOps_cons (sprint : StructField → String) (sheet : String) (row col : Int)
    (field : StructField) (rest : List StructField) :
    expectedFieldOps sprint sheet row (field :: rest) col =
      SheetOp.SetCellValue sheet (Axis.cell col row) (fieldCellValue sprint field) ::
        expectedFieldOps sprint sheet row rest (col + 1) := rfl

/-- The calls of the field loop are the first of the expected calls of the row; without an
error they are all of them. -/
theorem writeRowFields_made (sprint : StructField → String) (ex : Engine) (sheet : String)
    (row : Int) : ∀ (fields : List StructField) (i : Int) (log : List SheetOp),
    (∃ more, (writeRowFields sprint ex sheet row fields i log).1 ++ more =
        expectedFieldOps sprint sheet row fields (i + 1)) ∧
      ((writeRowFields sprint ex sheet row fields i log).2 = none →
        (writeRowFields sprint ex sheet row fields i log).1 =
          expectedFieldOps sprint sheet row fields (i + 1)) := by
  intro fields
  induction fields with
  | nil =>
    intro i log
    exact ⟨⟨[], rfl⟩, fun _ => rfl⟩
  | cons field rest ih =>
    intro i log
    rw [writeRowFields_cons, expectedFieldOps_cons]
    cases hc : CoordinatesToCellName (i + 1) row with
    | error err => exact ⟨⟨_, rfl⟩, fun h => by cases h⟩
    | ok axis =>
      simp only
      rw [coordinatesToCellName_ok _ _ _ hc]
      cases hx : ex log (SheetOp.SetCellValue sheet (Axis.cell (i + 1) row)
          (fieldCellValue sprint field)) with
      | some err => exact ⟨⟨_, rfl⟩, fun h => by cases h⟩
      | none =>
        simp only
        obtain ⟨⟨more, hm⟩, hall⟩ := ih (i + 1)
          (log ++ [SheetOp.SetCellValue sheet (Axis.cell (i + 1) row)
            (fieldCellValue sprint field)])
        refine ⟨⟨more, ?_⟩, ?_⟩
        · rw [List.cons_append, hm]
        · intro h
          rw [hall h]

/-- On valid coordinates and an engine that accepts the expected calls the field loop
makes them all and returns no error. -/
theorem writeRowFields_valid (sprint : StructField → String) (ex : Engine) (sheet : String)
    (row : Int) (hrow : 1 ≤ row) :
    ∀ (fields : List StructField) (i : Int) (log : List SheetOp), 0 ≤ i →
      i + fields.length ≤ TotalColumns →
      Accepts ex log (expectedFieldOps sprint sheet row fields (i + 1)) →
      writeRowFields sprint ex sheet row fields i log =
        (expectedFieldOps sprint sheet row fields (i + 1), none) := by
  intro fields
  induction fields with
  | nil => intro i log _ _ _; rfl
  | cons field rest ih =>
    intro i log hi hlen hacc
    have hlen' : i + 1 + (rest.length : Int) ≤ TotalColumns := by
      simp only [List.length_cons, Nat.cast_add, Nat.cast_one] at hlen
      omega
    have hcol : i + 1 ≤ TotalColumns := by
      have : (0 : Int) ≤ (rest.length : Int) := Int.natCast_nonneg _
      omega
    rw [expectedFieldOps_cons, accepts_cons] at hacc
    rw [writeRowFields_cons, coordinatesToCellName_valid (i + 1) row (by omega) hrow hcol]
    simp only
    rw [hacc.1]
    simp only [ih (i + 1) _ (by omega) hlen' hacc.2]
    rfl

theorem writeSheetRows_nil (sprint : StructField → String) (ex : Engine) (sheet : String)
    (row : Int) (log : List SheetOp) :
    writeSheetRows sprint ex sheet [] row log = ([], WriteOutcome.done) := rfl

theorem writeSheetRows_notPtr (sprint : StructField → String) (ex : Engine) (sheet : String)
    (row : Int) (rest : List Response) (log : List SheetOp) :
    writeSheetRows sprint ex sheet (Response.notPtr :: rest) row log =
      ([], WriteOutcome.panic WritePanic.notAPointer) := rfl

theorem writeSheetRows_ptr (sprint : StructField → String) (ex : Engine) (sheet : String)
    (row : Int) (fields : List StructField) (rest : List Response) (log : List SheetOp) :
    writeSheetRows sprint ex sheet (Response.structPtr fields :: rest) row log =
      (match writeRowFields sprint ex sheet row fields 0 log with
      | (ops, some err) => (ops, WriteOutcome.error err)
      | (ops, none) =>
        (ops ++ (writeSheetRows sprint ex sheet rest (row + 1) (log ++ ops)).1,
          (writeSheetRows sprint ex sheet rest (row + 1) (log ++ ops)).2)) := by
  simp only [writeSheetRows]

theorem expectedRowsOps_nil (sprint : StructField → String) (sheet : String) (row : Int) :
    expectedRowsOps sprint sheet [] row = [] := rfl

theorem expectedRowsOps_cons (sprint : StructField → String) (sheet : String) (row : Int)
    (r : Response) (rest : List Response) :
    expectedRowsOps sprint sheet (r :: rest) row =
      expectedFieldOps sprint sheet row r.fields 1 ++
        expectedRowsOps sprint sheet rest (row + 1) := rfl

/-- The calls of the loop over the rows of a sheet are the first of the expected calls;
when the loop ends without error or panic they are all of them. -/
theorem writeSheetRows_made (sprint : StructField → String) (ex : Engine) (sheet : String) :
    ∀ (rows : List Response) (row : Int) (log : List SheetOp),
    (∃ more, (writeSheetRows sprint ex sheet rows row log).1 ++ more =
        expectedRowsOps sprint sheet rows row) ∧
      ((writeSheetRows sprint ex sheet rows row log).2 = WriteOutcome.done →
        (writeSheetRows sprint ex sheet rows row log).1 =
          expectedRowsOps sprint sheet rows row) := by
  intro rows
  induction rows with
  | nil =>
    intro row log
    exact ⟨⟨[], rfl⟩, fun _ => rfl⟩
  | cons r rest ih =>
    intro row log
    cases r with
    | notPtr =>
      rw [writeSheetRows_notPtr]
      exact ⟨⟨_, rfl⟩, fun h => by cases h⟩
    | structPtr fields =>
      have hfl : (Response.structPtr fields).fields = fields := rfl
      rw [writeSheetRows_ptr, expectedRowsOps_cons, hfl]
      have hf := writeRowFields_made sprint ex sheet row fields 0 log
      rw [Int.zero_add] at hf
      rcases hw : writeRowFields sprint ex sheet row fields 0 log with ⟨ops, err⟩
      rw [hw] at hf
      simp only at hf
      cases err with
      | some err =>
        simp only
        exact ⟨made_more _ _ _ hf.1, fun h => by cases h⟩
      | none =>
        simp only
        have hops := hf.2 rfl
        subst hops
        obtain ⟨hm, hall⟩ := ih (row + 1) (log ++ expectedFieldOps sprint sheet row fields 1)
        refine ⟨made_append _ _ _ hm, ?_⟩
        intro h
        rw [hall h]

/-- On rows that are pointers to records within the columns of a sheet, from a row inside
the sheet, and on an engine that accepts the expected calls, the loop over the rows of a
sheet makes them all. -/
theorem writeSheetRows_valid (sprint : StructField → String) (ex : Engine) (sheet : String) :
    ∀ (rows : List Response) (row : Int) (log : List SheetOp), 1 ≤ row →
      (∀ r ∈ rows, r ≠ Response.notPtr) →
      (∀ r ∈ rows, (r.fields.length : Int) ≤ TotalColumns) →
      Accepts ex log (expectedRowsOps sprint sheet rows row) →
      writeSheetRows sprint ex sheet rows row log =
        (expectedRowsOps sprint sheet rows row, WriteOutcome.done) := by
  intro rows
  induction rows with
  | nil => intro row log _ _ _ _; rfl
  | cons r rest ih =>
    intro row log hrow hptr hcols hacc
    cases r with
    | notPtr => exact absurd rfl (hptr _ (List.mem_cons_self _ _))
    | structPtr fields =>
      have hlen : (0 : Int) + (fields.length : Int) ≤ TotalColumns := by
        have := hcols _ (List.mem_cons_self _ _)
        simpa [Response.fields] using this
      have hfl : (Response.structPtr fields).fields = fields := rfl
      rw [expectedRowsOps_cons, accepts_append, hfl] at hacc
      rw [expectedRowsOps_cons, hfl, writeSheetRows_ptr,
        writeRowFields_valid sprint ex sheet row hrow fields 0 log le_rfl hlen hacc.1]
      simp only [Int.zero_add]
      rw [ih (row + 1) _ (by omega)
        (fun r hr => hptr r (List.mem_cons_of_mem _ hr))
        (fun r hr => hcols r (List.mem_cons_of_mem _ hr)) hacc.2]

theorem writeDataLoop_nil (sprint : StructField → String) (e : Excel) (ex : Engine)
    (rows : List Response) (rowStart sheetRowSize : Int) (log : List SheetOp) :
    writeDataLoop sprint e ex rows rowStart sheetRowSize [] log = ([], WriteOutcome.done) :=
  rfl

theorem writeDataLoop_cons (sprint : StructField → String) (e : Excel) (ex : Engine)
    (rows : List Response) (rowStart sheetRowSize : Int) (idx : Nat) (rest : List Nat)
    (log : List SheetOp) (sheetRows : List Response) (sheet : String)
    (hslice : (if (idx : Int) = e.sheetCount - 1 then
        sliceRows rows (idx * sheetRowSize) rows.length
      else sliceRows rows (idx * sheetRowSize) ((idx + 1) * sheetRowSize)) = some sheetRows)
    (hsheet : e.activeSheetNames.get? idx = some sheet) :
    writeDataLoop sprint e ex rows rowStart sheetRowSize (idx :: rest) log =
      match writeSheetRows sprint ex sheet sheetRows rowStart log with
      | (ops, WriteOutcome.done) =>
        (ops ++ (writeDataLoop sprint e ex rows rowStart sheetRowSize rest (log ++ ops)).1,
          (writeDataLoop sprint e ex rows rowStart sheetRowSize rest (log ++ ops)).2)
      | (ops, outcome) => (ops, outcome) := by
  rw [writeDataLoop]
  simp only [hslice, hsheet]

theorem writeDataLoop_no_sheet (sprint : StructField → String) (e : Excel) (ex : Engine)
    (rows : List Response) (rowStart sheetRowSize : Int) (idx : Nat) (rest : List Nat)
    (log : List SheetOp) (sheetRows : List Response)
    (hslice : (if (idx : Int) = e.sheetCount - 1 then
        sliceRows rows (idx * sheetRowSize) rows.length
      else sliceRows rows (idx * sheetRowSize) ((idx + 1) * sheetRowSize)) = some sheetRows)
    (hsheet : e.activeSheetNames.get? idx = none) :
    writeDataLoop sprint e ex rows rowStart sheetRowSize (idx :: rest) log =
      ([], WriteOutcome.panic WritePanic.indexOutOfRange) := by
  rw [writeDataLoop]
  simp only [hslice, hsheet]

theorem getD_of_get? (names : List String) (idx : Nat) (sheet : String)
    (h : names.get? idx = some sheet) : names.getD idx "" = sheet := by
  rw [List.getD_eq_getElem?_getD, ← List.get?_eq_getElem?, h]
  rfl

/-- The calls of the loop over the sheets are the first of the expected calls; when the
loop ends without error or panic they are all of them. -/
theorem writeDataLoop_made (sprint : StructField → String) (e : Excel) (ex : Engine)
    (rows : List Response) (rowStart : Int) (n q : Nat) (hn : e.sheetCount = n)
    (hq : n * q ≤ rows.length) :
    ∀ (idxs : List Nat) (log : List SheetOp), (∀ idx ∈ idxs, idx < n) →
      (∃ more, (writeDataLoop sprint e ex rows rowStart q idxs log).1 ++ more =
        idxs.flatMap (fun idx =>
          expectedRowsOps sprint (e.activeSheetNames.getD idx "")
            (sheetRowsOf rows n q idx) rowStart)) ∧
      ((writeDataLoop sprint e ex rows rowStart q idxs log).2 = WriteOutcome.done →
        (writeDataLoop sprint e ex rows rowStart q idxs log).1 =
          idxs.flatMap (fun idx =>
            expectedRowsOps sprint (e.activeSheetNames.getD idx "")
              (sheetRowsOf rows n q idx) rowStart)) := by
  intro idxs
  induction idxs with
  | nil =>
    intro log _
    exact ⟨⟨[], rfl⟩, fun _ => rfl⟩
  | cons idx rest ih =>
    intro log hall
    have hidx : idx < n := hall idx (List.mem_cons_self _ _)
    have hslice := sheetRowsOf_slice e rows n q idx hn hq hidx
    rw [List.flatMap_cons]
    cases hsheet : e.activeSheetNames.get? idx with
    | none =>
      rw [writeDataLoop_no_sheet sprint e ex rows rowStart q idx rest log _ hslice hsheet]
      exact ⟨⟨_, rfl⟩, fun h => by cases h⟩
    | some sheet =>
      rw [writeDataLoop_cons sprint e ex rows rowStart q idx rest log _ sheet hslice hsheet,
        getD_of_get? _ idx sheet hsheet]
      have hs := writeSheetRows_made sprint ex sheet (sheetRowsOf rows n q idx) rowStart log
      rcases hw : writeSheetRows sprint ex sheet (sheetRowsOf rows n q idx) rowStart log with
        ⟨ops, outcome⟩
      rw [hw] at hs
      simp only at hs
      cases outcome with
      | done =>
        simp only
        have hops := hs.2 rfl
        subst hops
        obtain ⟨hm, hdone⟩ := ih (log ++ expectedRowsOps sprint sheet
          (sheetRowsOf rows n q idx) rowStart) (fun i hi => hall i (List.mem_cons_of_mem _ hi))
        refine ⟨made_append _ _ _ hm, ?_⟩
        intro h
        rw [hdone h]
      | error err =>
        simp only
        exact ⟨made_more _ _ _ hs.1, fun h => by cases h⟩
      | panic p =>
        simp only
        exact ⟨made_more _ _ _ hs.1, fun h => by cases h⟩

/-- With a name for every sheet, rows that are pointers to records within the columns of
a sheet, a first row inside the sheet and an engine that accepts the expected calls, the
loop over the sheets makes all the expected calls. -/
theorem writeDataLoop_valid (sprint : StructField → String) (e : Excel) (ex : Engine)
    (rows : List Response) (rowStart : Int) (n q : Nat) (hn : e.sheetCount = n)
    (hq : n * q ≤ rows.length) (hsheets : n ≤ e.activeSheetNames.length)
    (hrow : 1 ≤ rowStart) (hptr : ∀ r ∈ rows, r ≠ Response.notPtr)
    (hcols : ∀ r ∈ rows, (r.fields.length : Int) ≤ TotalColumns) :
    ∀ (idxs : List Nat) (log : List SheetOp), (∀ idx ∈ idxs, idx < n) →
      Accepts ex log (idxs.flatMap (fun idx =>
        expectedRowsOps sprint (e.activeSheetNames.getD idx "")
          (sheetRowsOf rows n q idx) rowStart)) →
      writeDataLoop sprint e ex rows rowStart q idxs log =
        (idxs.flatMap (fun idx =>
            expectedRowsOps sprint (e.activeSheetNames.getD idx "")
              (sheetRowsOf rows n q idx) rowStart),
          WriteOutcome.done) := by
  intro idxs
  induction idxs with
  | nil => intro log _ _; rfl
  | cons idx rest ih =>
    intro log hall hacc
    have hidx : idx < n := hall idx (List.mem_cons_self _ _)
    have hlt : idx < e.activeSheetNames.length := by omega
    have hsheet : e.activeSheetNames.get? idx = some (e.activeSheetNames.getD idx "") := by
      rw [List.get?_eq_getElem?, List.getD_eq_getElem?_getD, List.getElem?_eq_getElem hlt]
      rfl
    rw [List.flatMap_cons, accepts_append] at hacc
    rw [writeDataLoop_cons sprint e ex rows rowStart q idx rest log (sheetRowsOf rows n q idx)
      (e.activeSheetNames.getD idx "") (sheetRowsOf_slice e rows n q idx hn hq hidx) hsheet,
      writeSheetRows_valid sprint ex _ _ rowStart log hrow
        (fun r hr => hptr r (sheetRowsOf_mem rows n q idx r hr))
        (fun r hr => hcols r (sheetRowsOf_mem rows n q idx r hr)) hacc.1]
    simp only
    rw [ih _ (fun i hi => hall i (List.mem_cons_of_mem _ hi)) hacc.2, List.flatMap_cons]

theorem mem_expectedFieldOps (sprint : StructField → String) (sheet : String) (row : Int) :
    ∀ (fields : List StructField) (col : Int),
      ∀ op ∈ expectedFieldOps sprint sheet row fields col,
        ∃ (j : Nat) (field : StructField), fields.get? j = some field ∧
          op = SheetOp.SetCellValue sheet (Axis.cell (col + j) row)
            (fieldCellValue sprint field) := by
  intro fields
  induction fields with
  | nil =>
    intro col op hop
    cases hop
  | cons field rest ih =>
    intro col op hop
    rw [expectedFieldOps_cons] at hop
    rcases List.mem_cons.mp hop with hop | hop
    · exact ⟨0, field, rfl, by rw [hop]; simp⟩
    · obtain ⟨j, f, hget, heq⟩ := ih (col + 1) op hop
      refine ⟨j + 1, f, hget, ?_⟩
      rw [heq]
      push_cast
      congr 2
      ring

theorem mem_expectedRowsOps (sprint : StructField → String) (sheet : String) :
    ∀ (rows : List Response) (row0 : Int),
      ∀ op ∈ expectedRowsOps sprint sheet rows row0,
        ∃ (row : Int) (r : Response) (j : Nat) (field : StructField), r ∈ rows ∧
          r.fields.get? j = some field ∧
          op = SheetOp.SetCellValue sheet (Axis.cell ((j : Int) + 1) row)
            (fieldCellValue sprint field) := by
  intro rows
  induction rows with
  | nil =>
    intro row0 op hop
    cases hop
  | cons r rest ih =>
    intro row0 op hop
    rw [expectedRowsOps_cons] at hop
    rcases List.mem_append.mp hop with hop | hop
    · obtain ⟨j, f, hget, heq⟩ := mem_expectedFieldOps sprint sheet row0 r.fields 1 op hop
      refine ⟨row0, r, j, f, List.mem_cons_self _ _, hget, ?_⟩
      rw [heq, Int.add_comm]
    · obtain ⟨row, r', j, f, hr, hget, heq⟩ := ih (row0 + 1) op hop
      exact ⟨row, r', j, f, List.mem_cons_of_mem _ hr, hget, heq⟩

/-- With at least one sheet and at least as many rows as sheets, `writeData` is the loop
over the sheets with the rows of a sheet `len(rows) / sheetCount`. -/
theorem writeData_loop (sprint : StructField → String) (e : Excel) (ex : Engine)
    (rows : List Response) (rowStart : Int) (log : List SheetOp) (n : Nat)
    (hn : e.sheetCount = n) (hn1 : 1 ≤ n) (hnl : n ≤ rows.length) :
    writeData sprint e ex rows rowStart log =
      writeDataLoop sprint e ex rows rowStart ((rows.length / n : Nat) : Int)
        (List.range n) log := by
  have hnat : e.sheetCount.toNat = n := by rw [hn]; exact Int.toNat_ofNat n
  unfold writeData
  have hl : ¬ ((rows.length : Int) = 0) := by omega
  have hlt : ¬ ((rows.length : Int) < e.sheetCount) := by omega
  have hz : ¬ (e.sheetCount = 0) := by omega
  simp only [hl, hlt, hz, if_false]
  rw [hnat, hn, Int.tdiv_eq_ediv (Int.natCast_nonneg _) (Int.natCast_nonneg _),
    ← Int.ofNat_ediv]

/-- Without a sheet, or with fewer rows than sheets, `writeData` makes no call. -/
theorem writeData_no_call (sprint : StructField → String) (e : Excel) (ex : Engine)
    (rows : List Response) (rowStart : Int) (log : List SheetOp)
    (h : ¬ (1 ≤ e.sheetCount ∧ e.sheetCount ≤ (rows.length : Int))) :
    (writeData sprint e ex rows rowStart log).1 = [] := by
  unfold writeData
  simp only
  split_ifs with h1 h2 h3
  · rfl
  · rfl
  · rfl
  · have hneg : e.sheetCount.toNat = 0 := by
      have : e.sheetCount ≤ 0 := by
        by_contra hc
        exact h ⟨by omega, by omega⟩
      exact Int.toNat_eq_zero.mpr this
    rw [hneg]
    rfl

/-- A call that `writeData` makes sets the value of a field of a row in the column of the
index of the field plus one, whatever the engine returns. -/
theorem writeData_ops (sprint : StructField → String) (e : Excel) (ex : Engine)
    (rows : List Response) (rowStart : Int) (log : List SheetOp) :
    ∀ op ∈ (writeData sprint e ex rows rowStart log).1,
      ∃ (sheet : String) (row : Int) (r : Response) (j : Nat) (field : StructField),
        r ∈ rows ∧ r.fields.get? j = some field ∧
        op = SheetOp.SetCellValue sheet (Axis.cell ((j : Int) + 1) row)
          (fieldCellValue sprint field) := by
  intro op hop
  by_cases h : 1 ≤ e.sheetCount ∧ e.sheetCount ≤ (rows.length : Int)
  · obtain ⟨n, hn⟩ : ∃ n : Nat, e.sheetCount = n := ⟨e.sheetCount.toNat, by omega⟩
    have hn1 : 1 ≤ n := by omega
    have hnl : n ≤ rows.length := by omega
    rw [writeData_loop sprint e ex rows rowStart log n hn hn1 hnl] at hop
    obtain ⟨more, hm⟩ := (writeDataLoop_made sprint e ex rows rowStart n (rows.length / n) hn
      (Nat.mul_div_le _ _) (List.range n) log (fun idx h => List.mem_range.mp h)).1
    have hexp := List.mem_append_left more hop
    rw [hm, List.mem_flatMap] at hexp
    obtain ⟨idx, _, hidx⟩ := hexp
    obtain ⟨row, r, j, f, hr, hget, heq⟩ := mem_expectedRowsOps sprint _ _ rowStart op hidx
    exact ⟨_, row, r, j, f, sheetRowsOf_mem rows n _ idx r hr, hget, heq⟩
  · rw [writeData_no_call sprint e ex rows rowStart log h] at hop
    cases hop

/-- C25: `writeData` partitions the rows over the sheets. With `l` rows, `sheetCount`
sheets, `l ≥ sheetCount ≥ 1` and `q = l / sheetCount`, the expected calls are, sheet after
sheet, those of the rows `idx * q` up to `(idx + 1) * q` (for the last sheet: all the rows
from `idx * q` on), each row on the next sheet row from `rowStart` on, a field in the
column of its index plus one; the rows of the sheets, put end to end, are the input rows,
so every row is written once, on one sheet, in the input order. The calls that `writeData`
makes are the first of the expected calls in every run, and all of them when it returns
no error; it does so, with a name for every sheet, on rows that are pointers to records of
at most `TotalColumns` fields, with `rowStart ≥ 1` and on an engine that accepts the
expected calls. With `0 < l < sheetCount` the run returns the error and makes no call on
the engine. -/
theorem writeData_partitions (sprint : StructField → String) (e : Excel) (ex : Engine)
    (rows : List Response) (rowStart : Int) (log : List SheetOp) :
    (1 ≤ e.sheetCount → e.sheetCount ≤ (rows.length : Int) →
      (∃ more, (writeData sprint e ex rows rowStart log).1 ++ more =
        (List.range e.sheetCount.toNat).flatMap (fun idx =>
          expectedRowsOps sprint (e.activeSheetNames.getD idx "")
            (sheetRowsOf rows e.sheetCount.toNat (rows.length / e.sheetCount.toNat) idx)
            rowStart)) ∧
      ((writeData sprint e ex rows rowStart log).2 = WriteOutcome.done →
        (writeData sprint e ex rows rowStart log).1 =
          (List.range e.sheetCount.toNat).flatMap (fun idx =>
            expectedRowsOps sprint (e.activeSheetNames.getD idx "")
              (sheetRowsOf rows e.sheetCount.toNat (rows.length / e.sheetCount.toNat) idx)
              rowStart)) ∧
      (e.sheetCount ≤ (e.activeSheetNames.length : Int) → 1 ≤ rowStart →
        (∀ r ∈ rows, r ≠ Response.notPtr) →
        (∀ r ∈ rows, (r.fields.length : Int) ≤ TotalColumns) →
        Accepts ex log ((List.range e.sheetCount.toNat).flatMap (fun idx =>
          expectedRowsOps sprint (e.activeSheetNames.getD idx "")
            (sheetRowsOf rows e.sheetCount.toNat (rows.length / e.sheetCount.toNat) idx)
            rowStart)) →
        writeData sprint e ex rows rowStart log =
          ((List.range e.sheetCount.toNat).flatMap (fun idx =>
              expectedRowsOps sprint (e.activeSheetNames.getD idx "")
                (sheetRowsOf rows e.sheetCount.toNat (rows.length / e.sheetCount.toNat) idx)
                rowStart),
            WriteOutcome.done)) ∧
      (List.range e.sheetCount.toNat).flatMap
          (sheetRowsOf rows e.sheetCount.toNat (rows.length / e.sheetCount.toNat)) = rows ∧
      (∀ idx : Nat, (idx : Int) < e.sheetCount - 1 →
        sheetRowsOf rows e.sheetCount.toNat (rows.length / e.sheetCount.toNat) idx =
          (rows.drop (idx * (rows.length / e.sheetCount.toNat))).take
            (rows.length / e.sheetCount.toNat)) ∧
      sheetRowsOf rows e.sheetCount.toNat (rows.length / e.sheetCount.toNat)
          (e.sheetCount.toNat - 1) =
        rows.drop ((e.sheetCount.toNat - 1) * (rows.length / e.sheetCount.toNat))) ∧
    (0 < rows.length → (rows.length : Int) < e.sheetCount →
      writeData sprint e ex rows rowStart log =
        ([], WriteOutcome.error WriteDataError.rowsSmallerThanSheetCount)) := by
  constructor
  · intro hcount hrows
    obtain ⟨n, hn⟩ : ∃ n : Nat, e.sheetCount = n := ⟨e.sheetCount.toNat, by omega⟩
    have hnat : e.sheetCount.toNat = n := by rw [hn]; exact Int.toNat_ofNat n
    rw [hnat]
    have hn1 : 1 ≤ n := by omega
    have hnl : n ≤ rows.length := by omega
    have hq : n * (rows.length / n) ≤ rows.length := Nat.mul_div_le _ _
    have hunfold : writeData sprint e ex rows rowStart log =
        writeDataLoop sprint e ex rows rowStart ((rows.length / n : Nat) : Int)
          (List.range n) log := by
      unfold writeData
      have hl : ¬ ((rows.length : Int) = 0) := by omega
      have hlt : ¬ ((rows.length : Int) < e.sheetCount) := by omega
      have hz : ¬ (e.sheetCount = 0) := by omega
      simp only [hl, hlt, hz, if_false]
      rw [hnat, hn, Int.tdiv_eq_ediv (Int.natCast_nonneg _) (Int.natCast_nonneg _),
        ← Int.ofNat_ediv]
    rw [hunfold]
    have hmade := writeDataLoop_made sprint e ex rows rowStart n (rows.length / n) hn hq
      (List.range n) log (fun idx h => List.mem_range.mp h)
    refine ⟨hmade.1, hmade.2, ?_, sheetRowsOf_partition rows n _ hn1, ?_, ?_⟩
    · intro hsheets hrow hptr hcols hacc
      exact writeDataLoop_valid sprint e ex rows rowStart n (rows.length / n) hn hq
        (by omega) hrow hptr hcols (List.range n) log (fun idx h => List.mem_range.mp h) hacc
    · intro idx hidx
      unfold sheetRowsOf
      rw [if_neg (by omega)]
    · unfold sheetRowsOf
      rw [if_pos (by omega)]
  · intro hpos hlt
    unfold writeData
    have hl : ¬ ((rows.length : Int) = 0) := by omega
    simp only [hl, hlt, if_false, if_true]

/-- Five rows on two sheets, on the engine `rowLimitEngine`: the first sheet receives the
rows 1 and 2, the second the rows 3, 4 and 5, from the sheet row 2 on; one row for two
sheets is refused. From the sheet row 1048576 on, the second row of the first sheet falls
on a row that the engine refuses: `writeData` returns the error of the engine after the two
calls. -/
theorem writeData_partitions_witness :
    (writeData (fun _ => "") twoSheets rowLimitEngine fiveRows 2 [] =
        ([SheetOp.SetCellValue "Sheet1" (Axis.cell 1 2) (CellValue.int 1),
          SheetOp.SetCellValue "Sheet1" (Axis.cell 1 3) (CellValue.int 2),
          SheetOp.SetCellValue "Sheet2" (Axis.cell 1 2) (CellValue.int 3),
          SheetOp.SetCellValue "Sheet2" (Axis.cell 1 3) (CellValue.int 4),
          SheetOp.SetCellValue "Sheet2" (Axis.cell 1 4) (CellValue.int 5)],
          WriteOutcome.done) ∧
      sheetRowsOf fiveRows 2 2 0 = fiveRows.take 2 ∧
      sheetRowsOf fiveRows 2 2 1 = fiveRows.drop 2) ∧
    writeData (fun _ => "") twoSheets rowLimitEngine (fiveRows.take 1) 2 [] =
      ([], WriteOutcome.error WriteDataError.rowsSmallerThanSheetCount) ∧
    writeData (fun _ => "") twoSheets rowLimitEngine fiveRows 1048576 [] =
      ([SheetOp.SetCellValue "Sheet1" (Axis.cell 1 1048576) (CellValue.int 1),
        SheetOp.SetCellValue "Sheet1" (Axis.cell 1 1048577) (CellValue.int 2)],
        WriteOutcome.error (WriteDataError.engine
          (SheetOp.SetCellValue "Sheet1" (Axis.cell 1 1048577) (CellValue.int 2))
          ⟨"row number exceeds maximum limit"⟩)) :=
  ⟨⟨(((writeData_partitions (fun _ => "") twoSheets rowLimitEngine fiveRows 2 []).1
        (by decide) (by decide)).2.2.1 (by decide) (by decide) (by decide) (by decide)
        (accepts_rowLimit _ _ (by decide))).trans (by decide),
      by decide, by decide⟩,
    (writeData_partitions (fun _ => "") twoSheets rowLimitEngine (fiveRows.take 1) 2 []).2
      (by decide) (by decide),
    by decide⟩

/-! ## The header tree of a record whose titles are distinct on each level -/

theorem leafPaths_nil (pre : List String) (d : Bool) (p t : String) :
    (header.mk d p t []).leafPaths pre = [pre ++ [t]] := by
  simp only [header.leafPaths]

theorem leafPaths_cons (pre : List String) (d : Bool) (p t : String) (c : header)
    (cs : List header) :
    (header.mk d p t (c :: cs)).leafPaths pre = leafPathsList (pre ++ [t]) (c :: cs) := by
  simp only [header.leafPaths]

theorem leafPathsList_nil (pre : List String) : leafPathsList pre [] = [] := by
  simp only [leafPathsList]

theorem leafPathsList_cons (pre : List String) (c : header) (cs : List header) :
    leafPathsList pre (c :: cs) = c.leafPaths pre ++ leafPathsList pre cs := by
  simp only [leafPathsList]

theorem leafPaths_of_leaf (pre : List String) (h : header) (hc : h.children = []) :
    h.leafPaths pre = [pre ++ [h.title]] := by
  cases h with
  | mk d p t cs =>
    simp only [header.children] at hc
    subst hc
    exact leafPaths_nil pre d p t

theorem leafPaths_of_children (pre : List String) (h : header) (hc : h.children ≠ []) :
    h.leafPaths pre = leafPathsList (pre ++ [h.title]) h.children := by
  cases h with
  | mk d p t cs =>
    cases cs with
    | nil => exact absurd rfl hc
    | cons c cs => exact leafPaths_cons pre d p t c cs

theorem mem_leafPathsList (pre : List String) (p : List String) :
    ∀ (hs : List header), p ∈ leafPathsList pre hs → ∃ h ∈ hs, p ∈ h.leafPaths pre := by
  intro hs
  induction hs with
  | nil => intro h; rw [leafPathsList_nil] at h; cases h
  | cons c cs ih =>
    intro h
    rw [leafPathsList_cons, List.mem_append] at h
    rcases h with h | h
    · exact ⟨c, List.mem_cons_self _ _, h⟩
    · obtain ⟨x, hx, hp⟩ := ih h
      exact ⟨x, List.mem_cons_of_mem _ hx, hp⟩

mutual
/-- A header has a leaf below it. -/
theorem leafPaths_ne_nil : ∀ (h : header) (pre : List String), h.leafPaths pre ≠ []
  | .mk d p t [], pre => by rw [leafPaths_nil]; exact List.cons_ne_nil _ _
  | .mk d p t (c :: cs), pre => by
    rw [leafPaths_cons]
    exact leafPathsList_ne_nil c cs (pre ++ [t])
/-- A list of headers that is not empty has a leaf below it. -/
theorem leafPathsList_ne_nil : ∀ (c : header) (cs : List header) (pre : List String),
    leafPathsList pre (c :: cs) ≠ []
  | c, cs, pre => by
    rw [leafPathsList_cons]
    intro h
    exact leafPaths_ne_nil c pre (List.append_eq_nil.mp h).1
end

mutual
/-- The leaf count of a header is the number of its leaf paths. -/
theorem leafCount_eq_length : ∀ (h : header) (pre : List String),
    h.leafCount = ((h.leafPaths pre).length : Int)
  | .mk d p t [], pre => by rw [leafCount_nil, leafPaths_nil]; rfl
  | .mk d p t (c :: cs), pre => by
    rw [leafCount_cons, leafPaths_cons]
    exact leafCountList_eq_length (c :: cs) (pre ++ [t])
/-- The leaf count of a list of headers is the number of its leaf paths. -/
theorem leafCountList_eq_length : ∀ (cs : List header) (pre : List String),
    header.leafCount.leafCountList cs = ((leafPathsList pre cs).length : Int)
  | [], pre => by rw [leafCountList_nil, leafPathsList_nil]; rfl
  | c :: cs, pre => by
    rw [leafCountList_cons, leafPathsList_cons, List.length_append,
      leafCount_eq_length c pre, leafCountList_eq_length cs pre]
    push_cast
    rfl
end

theorem levelHeaders_zero (hs : List header) : levelHeaders 0 hs = hs := rfl

theorem levelHeaders_step (k : Nat) (hs : List header) :
    levelHeaders (k + 1) hs = levelHeaders k (hs.flatMap header.children) := rfl

theorem levelHeaders_nil : ∀ (k : Nat), levelHeaders k [] = []
  | 0 => rfl
  | k + 1 => by rw [levelHeaders_step, List.flatMap_nil]; exact levelHeaders_nil k

theorem levelHeaders_append : ∀ (k : Nat) (xs ys : List header),
    levelHeaders k (xs ++ ys) = levelHeaders k xs ++ levelHeaders k ys
  | 0, xs, ys => rfl
  | k + 1, xs, ys => by
    rw [levelHeaders_step, levelHeaders_step, levelHeaders_step, List.flatMap_append]
    exact levelHeaders_append k _ _

theorem levelHeaders_cons (k : Nat) (h : header) (rest : List header) :
    levelHeaders (k + 1) (h :: rest) =
      levelHeaders k h.children ++ levelHeaders (k + 1) rest := by
  rw [levelHeaders_step, levelHeaders_step, List.flatMap_cons, levelHeaders_append]

theorem levelHeaders_succ : ∀ (k : Nat) (hs : List header),
    levelHeaders (k + 1) hs = (levelHeaders k hs).flatMap header.children
  | 0, hs => rfl
  | k + 1, hs => by
    rw [levelHeaders_step, levelHeaders_succ k, ← levelHeaders_step]

theorem levels_zero (hs : List header) : Levels 0 hs ↔ hs = [] := by
  simp only [Levels]

theorem levels_succ (n : Nat) (hs : List header) :
    Levels (n + 1) hs ↔ ∀ h ∈ hs, h.isDummy = false ∧ (∀ c ∈ h.children, c.parent = h.title) ∧
      (0 < n → h.children ≠ []) ∧ Levels n h.children := by
  simp only [Levels]

theorem levels_nil : ∀ (n : Nat), Levels n []
  | 0 => (levels_zero _).mpr rfl
  | _ + 1 => (levels_succ _ _).mpr (fun _ hh => absurd hh (List.not_mem_nil _))

theorem levels_append (n : Nat) (xs ys : List header) :
    Levels n (xs ++ ys) ↔ Levels n xs ∧ Levels n ys := by
  cases n with
  | zero => simp only [levels_zero, List.append_eq_nil]
  | succ n =>
    simp only [levels_succ, List.mem_append]
    constructor
    · intro h
      exact ⟨fun x hx => h x (Or.inl hx), fun x hx => h x (Or.inr hx)⟩
    · rintro ⟨h1, h2⟩ x (hx | hx)
      · exact h1 x hx
      · exact h2 x hx

theorem levels_cons (n : Nat) (x : header) (rest : List header) :
    Levels n (x :: rest) ↔ Levels n [x] ∧ Levels n rest :=
  levels_append n [x] rest

theorem levels_children (n : Nat) (hs : List header) (h : Levels (n + 1) hs) :
    Levels n (hs.flatMap header.children) := by
  induction hs with
  | nil => rw [List.flatMap_nil]; exact levels_nil n
  | cons x rest ih =>
    rw [List.flatMap_cons, levels_append]
    rw [levels_cons] at h
    refine ⟨?_, ih h.2⟩
    exact ((levels_succ n [x]).mp h.1 x (List.mem_singleton.mpr rfl)).2.2.2

theorem levels_level : ∀ (k n : Nat) (hs : List header), Levels (n + k) hs →
    Levels n (levelHeaders k hs)
  | 0, n, hs, h => h
  | k + 1, n, hs, h => by
    rw [levelHeaders_step]
    exact levels_level k n _ (levels_children (n + k) hs h)

theorem levels_leaf (hs : List header) (h : Levels 1 hs) : ∀ x ∈ hs, x.children = [] :=
  fun x hx => (levels_zero _).mp ((levels_succ 0 hs).mp h x hx).2.2.2

/-- The leaf paths of headers over `n` levels have `n` more titles than the prefix. -/
theorem leafPathsList_length : ∀ (n : Nat) (pre : List String) (hs : List header),
    Levels n hs → ∀ p ∈ leafPathsList pre hs, p.length = pre.length + n
  | 0, pre, hs, h => by
    rw [(levels_zero hs).mp h, leafPathsList_nil]
    intro p hp
    cases hp
  | n + 1, pre, hs, h => by
    intro p hp
    obtain ⟨x, hx, hpx⟩ := mem_leafPathsList pre p hs hp
    obtain ⟨_, _, hne, hch⟩ := (levels_succ n hs).mp h x hx
    cases n with
    | zero =>
      rw [leafPaths_of_leaf pre x ((levels_zero _).mp hch)] at hpx
      rw [List.mem_singleton.mp hpx]
      simp
    | succ n =>
      rw [leafPaths_of_children pre x (hne (Nat.succ_pos n))] at hpx
      rw [leafPathsList_length (n + 1) (pre ++ [x.title]) x.children hch p hpx]
      simp only [List.length_append, List.length_singleton]
      omega

theorem collectHeaders_append (k : Nat) : ∀ (P1 P2 : List (List String)) (hs : List header),
    collectHeaders k (P1 ++ P2) hs = (collectHeaders k P1 hs).bind (collectHeaders k P2)
  | [], P2, hs => rfl
  | p :: P1, P2, hs => by
    rw [List.cons_append]
    simp only [collectHeaders]
    cases p.get? k with
    | none => rfl
    | some title =>
      simp only
      cases (if k > 0 then p.get? (k - 1) else some "") with
      | none => rfl
      | some parent =>
        simp only
        cases hMapLookup hs title with
        | some _ => exact collectHeaders_append k P1 P2 hs
        | none => exact collectHeaders_append k P1 P2 _

theorem hMapLookup_found (hs : List header) (t : String) (h : ∃ x ∈ hs, x.title = t) :
    ∃ x, hMapLookup hs t = some x := by
  unfold hMapLookup
  have : (hs.find? (fun h => h.title = t)).isSome = true := by
    rw [List.find?_isSome]
    obtain ⟨x, hx, ht⟩ := h
    exact ⟨x, hx, by simpa using ht⟩
  exact Option.isSome_iff_exists.mp this

theorem hMapLookup_none (hs : List header) (t : String) (h : ∀ x ∈ hs, x.title ≠ t) :
    hMapLookup hs t = none := by
  unfold hMapLookup
  rw [List.find?_eq_none]
  intro x hx
  simpa using h x hx

/-- Paths that all carry a title that has a header already add no header. -/
theorem collectHeaders_found (k : Nat) (t q : String) :
    ∀ (P : List (List String)) (hs : List header),
      (∀ p ∈ P, p.get? k = some t ∧ parentAt k p = some q) → (∃ x ∈ hs, x.title = t) →
      collectHeaders k P hs = some hs := by
  intro P
  induction P with
  | nil => intro hs _ _; rfl
  | cons p P ih =>
    intro hs hall hfound
    obtain ⟨ht, hp⟩ := hall p (List.mem_cons_self _ _)
    obtain ⟨x, hx⟩ := hMapLookup_found hs t hfound
    rw [collectHeaders_cons k p P hs t q ht hp, hx]
    exact ih hs (fun p' hp' => hall p' (List.mem_cons_of_mem _ hp')) hfound

/-- Paths that all carry one new title add one header. -/
theorem collectHeaders_block (k : Nat) (t q : String) (p0 : List String)
    (P : List (List String)) (hs : List header)
    (hall : ∀ p ∈ p0 :: P, p.get? k = some t ∧ parentAt k p = some q)
    (hnew : ∀ x ∈ hs, x.title ≠ t) :
    collectHeaders k (p0 :: P) hs = some (hs ++ [header.mk false q t []]) := by
  obtain ⟨ht, hp⟩ := hall p0 (List.mem_cons_self _ _)
  rw [collectHeaders_cons k p0 P hs t q ht hp, hMapLookup_none hs t hnew]
  exact collectHeaders_found k t q P _ (fun p' hp' => hall p' (List.mem_cons_of_mem _ hp'))
    ⟨header.mk false q t [], List.mem_append_right _ (List.mem_singleton.mpr rfl), rfl⟩

mutual
/-- A leaf path of a header starts with the prefix and the title of the header. -/
theorem leafPaths_starts : ∀ (h : header) (pre p : List String), p ∈ h.leafPaths pre →
    ∃ s, p = pre ++ h.title :: s
  | .mk d q t [], pre, p => by
    intro hp
    rw [leafPaths_nil, List.mem_singleton] at hp
    exact ⟨[], hp⟩
  | .mk d q t (c :: cs), pre, p => by
    intro hp
    rw [leafPaths_cons] at hp
    obtain ⟨s, hs⟩ := leafPathsList_starts (c :: cs) (pre ++ [t]) p hp
    exact ⟨s, by rw [hs]; simp [header.title]⟩
/-- A leaf path of a list of headers starts with the prefix. -/
theorem leafPathsList_starts : ∀ (cs : List header) (pre p : List String),
    p ∈ leafPathsList pre cs → ∃ s, p = pre ++ s
  | [], pre, p => by
    intro hp
    rw [leafPathsList_nil] at hp
    cases hp
  | c :: cs, pre, p => by
    intro hp
    rw [leafPathsList_cons, List.mem_append] at hp
    rcases hp with hp | hp
    · obtain ⟨s, hs⟩ := leafPaths_starts c pre p hp
      exact ⟨_, hs⟩
    · exact leafPathsList_starts cs pre p hp
end

theorem parentAt_after (pre : List String) (t : String) (s : List String) :
    parentAt pre.length (pre ++ t :: s) = some (pre.getLast?.getD "") := by
  unfold parentAt
  rcases List.eq_nil_or_concat pre with rfl | ⟨pre', a, rfl⟩
  · rfl
  · rw [List.concat_eq_append]
    have h1 : (pre' ++ [a]).length - 1 = pre'.length := by simp
    have h2 : pre' ++ [a] ++ t :: s = pre' ++ a :: t :: s := by simp
    rw [if_pos (by simp), h1, h2, List.get?_eq_getElem?,
      List.getElem?_append_right (le_refl _)]
    simp

theorem get?_after (pre : List String) (t : String) (s : List String) :
    (pre ++ t :: s).get? pre.length = some t := by
  rw [List.get?_eq_getElem?, List.getElem?_append_right (le_refl _)]
  simp

/-- The first loop of `getHeadersFromPaths` on the leaf paths of one header adds the
header for its title. -/
theorem collectHeaders_header (pre : List String) (x : header) (hs : List header)
    (hq : x.parent = pre.getLast?.getD "") (hnew : ∀ y ∈ hs, y.title ≠ x.title) :
    collectHeaders pre.length (x.leafPaths pre) hs = some (hs ++ [x.bare]) := by
  have hall : ∀ p ∈ x.leafPaths pre,
      p.get? pre.length = some x.title ∧ parentAt pre.length p = some x.parent := by
    intro p hp
    obtain ⟨s, rfl⟩ := leafPaths_starts x pre p hp
    exact ⟨get?_after pre _ s, by rw [parentAt_after, hq]⟩
  cases hl : x.leafPaths pre with
  | nil => exact absurd hl (leafPaths_ne_nil x pre)
  | cons p0 P =>
    rw [hl] at hall
    exact collectHeaders_block pre.length x.title x.parent p0 P hs hall hnew

theorem nodup_titles_new (hs : List header) (x : header) (rest : List String)
    (h : (hs.map header.title ++ x.title :: rest).Nodup) : ∀ y ∈ hs, y.title ≠ x.title := by
  intro y hy heq
  rw [List.nodup_append] at h
  exact h.2.2 (List.mem_map_of_mem _ hy) (by rw [heq]; exact List.mem_cons_self _ _)

/-- The first loop of `getHeadersFromPaths` at the column `j` below the prefix, on the leaf
paths of headers over more than `j` levels whose titles on the level `j` are new and
distinct: it adds the headers of that level, from left to right. -/
theorem collectHeaders_level : ∀ (j n : Nat) (pre : List String) (F hs : List header),
    j < n → Levels n F → (∀ x ∈ F, x.parent = pre.getLast?.getD "") →
    (hs.map header.title ++ (levelHeaders j F).map header.title).Nodup →
    collectHeaders (pre.length + j) (leafPathsList pre F) hs =
      some (hs ++ (levelHeaders j F).map header.bare) := by
  intro j
  induction j with
  | zero =>
    intro n pre F
    induction F with
    | nil =>
      intro hs _ _ _ _
      rw [leafPathsList_nil, levelHeaders_zero]
      simp [collectHeaders_nil]
    | cons x rest ih =>
      intro hs hn hlev hpar hnd
      rw [levelHeaders_zero] at hnd ⊢
      rw [leafPathsList_cons, Nat.add_zero, collectHeaders_append,
        collectHeaders_header pre x hs (hpar x (List.mem_cons_self _ _))
          (nodup_titles_new hs x _ (by simpa using hnd))]
      rw [Option.some_bind]
      have := ih (hs ++ [x.bare]) hn ((levels_cons n x rest).mp hlev).2
        (fun y hy => hpar y (List.mem_cons_of_mem _ hy))
        (by
          rw [levelHeaders_zero]
          simpa [header.bare, header.title] using hnd)
      rw [Nat.add_zero, levelHeaders_zero] at this
      rw [this]
      simp
  | succ j ihj =>
    intro n pre F
    induction F with
    | nil =>
      intro hs _ _ _ _
      rw [leafPathsList_nil, levelHeaders_nil]
      simp [collectHeaders_nil]
    | cons x rest ih =>
      intro hs hn hlev hpar hnd
      obtain ⟨m, rfl⟩ : ∃ m, n = m + 1 := ⟨n - 1, by omega⟩
      have hx := (levels_succ m (x :: rest)).mp hlev x (List.mem_cons_self _ _)
      rw [levelHeaders_cons] at hnd ⊢
      rw [leafPathsList_cons, collectHeaders_append,
        leafPaths_of_children pre x (hx.2.2.1 (by omega))]
      have hlen : pre.length + (j + 1) = (pre ++ [x.title]).length + j := by
        simp only [List.length_append, List.length_singleton]
        omega
      have h1 := ihj m (pre ++ [x.title]) x.children hs (by omega) hx.2.2.2
        (by
          intro c hc
          rw [hx.2.1 c hc]
          simp)
        (by
          rw [List.map_append, ← List.append_assoc] at hnd
          exact (List.nodup_append.mp hnd).1)
      rw [← hlen] at h1
      rw [h1, Option.some_bind]
      have h2 := ih (hs ++ (levelHeaders j x.children).map header.bare) hn
        ((levels_cons (m + 1) x rest).mp hlev).2
        (fun y hy => hpar y (List.mem_cons_of_mem _ hy))
        (by
          have : ((levelHeaders j x.children).map header.bare).map header.title =
              (levelHeaders j x.children).map header.title := by
            rw [List.map_map]
            rfl
          rw [List.map_append, this, List.append_assoc]
          rw [List.map_append] at hnd
          exact hnd)
      rw [h2]
      simp

theorem attachChildren_append : ∀ (cs1 cs2 hs : List header),
    attachChildren (cs1 ++ cs2) hs = (attachChildren cs1 hs).bind (attachChildren cs2)
  | [], cs2, hs => rfl
  | c :: cs1, cs2, hs => by
    rw [List.cons_append]
    simp only [attachChildren]
    cases attachChild c hs with
    | none => rfl
    | some hs1 => exact attachChildren_append cs1 cs2 hs1

/-- A child is appended to the first header that has the title of its parent. -/
theorem attachChild_skip (c : header) (d : Bool) (p t : String) (acc tail : List header)
    (hc : c.parent = t) : ∀ (done : List header), (∀ x ∈ done, x.title ≠ t) →
      attachChild c (done ++ header.mk d p t acc :: tail) =
        some (done ++ header.mk d p t (acc ++ [c]) :: tail) := by
  intro done
  induction done with
  | nil =>
    intro _
    exact attachChild_cons_pos c (header.mk d p t acc) tail hc.symm
  | cons y done ih =>
    intro hdone
    have hy : ¬ y.title = c.parent := by
      rw [hc]
      exact hdone y (List.mem_cons_self _ _)
    rw [List.cons_append, attachChild_cons_neg c y _ hy,
      ih (fun x hx => hdone x (List.mem_cons_of_mem _ hx))]
    rfl

/-- The children of one header are appended to it in their order. -/
theorem attachChildren_one (d : Bool) (p t : String) (tail done : List header)
    (hdone : ∀ x ∈ done, x.title ≠ t) : ∀ (cs acc : List header),
      (∀ c ∈ cs, c.parent = t) →
      attachChildren cs (done ++ header.mk d p t acc :: tail) =
        some (done ++ header.mk d p t (acc ++ cs) :: tail) := by
  intro cs
  induction cs with
  | nil =>
    intro acc _
    rw [attachChildren_nil, List.append_nil]
  | cons c cs ih =>
    intro acc hpar
    rw [attachChildren_cons c cs _ _
      (attachChild_skip c d p t acc tail (hpar c (List.mem_cons_self _ _)) done hdone),
      ih (acc ++ [c]) (fun c' hc' => hpar c' (List.mem_cons_of_mem _ hc'))]
    simp

theorem header_eta (x : header) (hd : x.isDummy = false) :
    header.mk false x.parent x.title x.children = x := by
  cases x with
  | mk d p t cs =>
    simp only [header.isDummy] at hd
    subst hd
    rfl

/-- The second loop of `getHeadersFromPaths` gives the children back to the headers with
distinct titles from which they come. -/
theorem attachChildren_all : ∀ (G done : List header),
    (∀ x ∈ G, x.isDummy = false ∧ ∀ c ∈ x.children, c.parent = x.title) →
    (done.map header.title ++ G.map header.title).Nodup →
    attachChildren (G.flatMap header.children) (done ++ G.map header.bare) =
      some (done ++ G) := by
  intro G
  induction G with
  | nil =>
    intro done _ _
    rfl
  | cons x rest ih =>
    intro done hG hnd
    obtain ⟨hd, hch⟩ := hG x (List.mem_cons_self _ _)
    have hdone : ∀ y ∈ done, y.title ≠ x.title :=
      nodup_titles_new done x _ (by simpa using hnd)
    have h1 := attachChildren_one false x.parent x.title (rest.map header.bare) done hdone
      x.children [] hch
    rw [List.nil_append, header_eta x hd] at h1
    rw [List.flatMap_cons, attachChildren_append, List.map_cons]
    have hb : x.bare = header.mk false x.parent x.title [] := rfl
    rw [hb, h1, Option.some_bind]
    have h2 := ih (done ++ [x]) (fun y hy => hG y (List.mem_cons_of_mem _ hy))
      (by simpa using hnd)
    rw [List.append_assoc, List.append_assoc] at h2
    exact h2

/-- On the leaf paths of a tree whose titles are distinct on each level,
`getHeadersFromPaths` returns the headers of the level of its column. -/
theorem headersFromColumn_level (n : Nat) (F : List header) (hF : DistinctLevels n F) :
    ∀ (m k : Nat), k + m = n →
      headersFromColumn (leafPathsList [] F) m k = some (levelHeaders k F) := by
  intro m
  induction m with
  | zero =>
    intro k hk
    have hl := levels_level k 0 F (by rw [Nat.zero_add]; rw [← hk] at hF; exact hF.1)
    rw [(levels_zero _).mp hl]
    rfl
  | succ m ih =>
    intro k hk
    have hlt : k < n := by omega
    have h1 := collectHeaders_level k n [] F [] hlt hF.1
      (fun x hx => by rw [hF.2.1 x hx]; rfl) (by simpa using hF.2.2 k hlt)
    rw [List.length_nil, Nat.zero_add, List.nil_append] at h1
    have h2 := ih (k + 1) (by omega)
    rw [headersFromColumn_succ _ m k _ _ h1 h2, levelHeaders_succ]
    have hl : Levels (m + 1) (levelHeaders k F) :=
      levels_level k (m + 1) F (by
        have : m + 1 + k = n := by omega
        rw [this]
        exact hF.1)
    have h3 := attachChildren_all (levelHeaders k F) []
      (fun x hx => by
        obtain ⟨a, b, _, _⟩ := (levels_succ m _).mp hl x hx
        exact ⟨a, b⟩)
      (by simpa using hF.2.2 k hlt)
    rw [List.nil_append, List.nil_append] at h3
    exact h3

/-- On a record whose declared paths are the leaf paths of a tree whose titles are distinct
on each level, `parseHeader` returns that tree below the dummy root. -/
theorem parseHeader_distinct (n : Nat) (fields : List StructField) (F : List header)
    (hF : DistinctLevels n F) (hpaths : fields.map StructField.path = leafPathsList [] F) :
    parseHeader fields = some (header.mk true "" "" F, none) := by
  cases fields with
  | nil =>
    cases F with
    | nil => rfl
    | cons x rest =>
      exact absurd hpaths.symm (leafPathsList_ne_nil x rest [])
  | cons f0 rest =>
    have hlen : ∀ f ∈ f0 :: rest, f.path.length = n := by
      intro f hf
      have hm : f.path ∈ leafPathsList [] F := by
        rw [← hpaths]
        exact List.mem_map_of_mem _ hf
      have := leafPathsList_length n [] F hF.1 f.path hm
      simpa using this
    have h0 := hlen f0 (List.mem_cons_self _ _)
    have hany : ¬ ((f0 :: rest).map StructField.path).any
        (fun path => path.length ≠ f0.path.length) = true := by
      rw [any_depth_iff]
      rintro ⟨f, hf, hne⟩
      exact hne (by rw [hlen f hf, h0])
    rw [parseHeader_cons, if_neg hany]
    unfold getHeadersFromPaths
    rw [if_pos (Nat.zero_le _), hpaths, h0, Nat.sub_zero,
      headersFromColumn_level n F hF n 0 (Nat.zero_add n)]
    rfl

theorem expectedHeaderOps_children (e : Excel) (x : header) (col row : Int) :
    ∀ op ∈ expectedChildrenOps e x.children col (row + 1), op ∈ expectedHeaderOps e x col row := by
  intro op hop
  cases x with
  | mk d q t cs =>
    rw [expectedHeaderOps_mk]
    exact List.mem_append_left _ hop

theorem expectedHeaderOps_leaf (e : Excel) (x : header) (col row : Int)
    (hd : x.isDummy = false) (hc : x.children = []) :
    expectedHeaderOps e x col row = titleOps e (Axis.cell col row) x.title := by
  cases x with
  | mk d q t cs =>
    simp only [header.isDummy, header.children] at hd hc
    subst hd
    subst hc
    rw [expectedHeaderOps_mk, expectedChildrenOps_nil]
    simp [header.title]

/-- The title of the leaf `j` of headers over `n` levels is among the calls described for
them, in the column `col + j` of the row `row + n - 1`. -/
theorem expectedChildrenOps_leaf (e : Excel) : ∀ (n : Nat) (pre : List String)
    (F : List header) (col row : Int) (j : Nat) (p : List String),
    Levels n F → (leafPathsList pre F).get? j = some p →
    ∃ title, p.getLast? = some title ∧
      ∀ op ∈ titleOps e (Axis.cell (col + j) (row + n - 1)) title,
        op ∈ expectedChildrenOps e F col row := by
  intro n
  induction n with
  | zero =>
    intro pre F col row j p hlev hget
    rw [(levels_zero F).mp hlev, leafPathsList_nil] at hget
    cases hget
  | succ m ihm =>
    intro pre F
    induction F with
    | nil =>
      intro col row j p _ hget
      rw [leafPathsList_nil] at hget
      cases hget
    | cons x rest ih =>
      intro col row j p hlev hget
      have hx := (levels_succ m (x :: rest)).mp hlev x (List.mem_cons_self _ _)
      rw [leafPathsList_cons, List.get?_eq_getElem?] at hget
      rw [expectedChildrenOps_cons]
      by_cases hj : j < (x.leafPaths pre).length
      · rw [List.getElem?_append_left hj] at hget
        cases m with
        | zero =>
          have hleaf := (levels_zero _).mp hx.2.2.2
          rw [leafPaths_of_leaf pre x hleaf] at hget hj
          have hj0 : j = 0 := by simpa using hj
          subst hj0
          have hp : p = pre ++ [x.title] := by simpa using hget.symm
          refine ⟨x.title, by rw [hp]; simp, ?_⟩
          intro op hop
          have hc : col + ((0 : Nat) : Int) = col := by simp
          have hr : row + ((0 + 1 : Nat) : Int) - 1 = row := by simp
          rw [hc, hr] at hop
          rw [expectedHeaderOps_leaf e x col row hx.1 hleaf]
          exact List.mem_append_left _ hop
        | succ m =>
          rw [leafPaths_of_children pre x (hx.2.2.1 (Nat.succ_pos m))] at hget
          obtain ⟨title, hlast, hops⟩ := ihm (pre ++ [x.title]) x.children col (row + 1) j p
            hx.2.2.2 (by rw [List.get?_eq_getElem?]; exact hget)
          refine ⟨title, hlast, ?_⟩
          intro op hop
          have hr : row + 1 + ((m + 1 : Nat) : Int) - 1 = row + ((m + 1 + 1 : Nat) : Int) - 1 := by
            push_cast
            ring
          rw [← hr] at hop
          exact List.mem_append_left _ (expectedHeaderOps_children e x col row op (hops op hop))
      · have hle : (x.leafPaths pre).length ≤ j := Nat.le_of_not_lt hj
        rw [List.getElem?_append_right hle] at hget
        obtain ⟨title, hlast, hops⟩ := ih (col + x.leafCount) row
          (j - (x.leafPaths pre).length) p ((levels_cons (m + 1) x rest).mp hlev).2
          (by rw [List.get?_eq_getElem?]; exact hget)
        refine ⟨title, hlast, ?_⟩
        intro op hop
        have hc : col + x.leafCount + ((j - (x.leafPaths pre).length : Nat) : Int) =
            col + (j : Int) := by
          rw [leafCount_eq_length x pre, Nat.cast_sub hle]
          ring
        rw [← hc] at hop
        exact List.mem_append_right _ (hops op hop)

theorem mem_titleOps (e : Excel) (axis : Axis) (title : String) (op : SheetOp)
    (h : op ∈ titleOps e axis title) :
    ∃ sheet ∈ e.activeSheetNames, op = SheetOp.SetCellValue sheet axis (CellValue.str title) := by
  unfold titleOps at h
  rw [List.mem_map] at h
  obtain ⟨sheet, hs, rfl⟩ := h
  exact ⟨sheet, hs, rfl⟩

theorem not_mem_mergeOps (e : Excel) (hCell vCell : Axis) (sheet : String) (axis : Axis)
    (v : CellValue) : SheetOp.SetCellValue sheet axis v ∉ mergeOps e hCell vCell := by
  intro h
  unfold mergeOps at h
  rw [List.mem_flatMap] at h
  obtain ⟨s, _, hm⟩ := h
  simp at hm

/-- A value that the calls described for headers over `n` levels set on the row
`row + n - 1` is the title of a leaf, in the column of the leaf. -/
theorem expectedChildrenOps_last_row (e : Excel) : ∀ (n : Nat) (pre : List String)
    (F : List header) (col row : Int) (sheet : String) (c : Int) (v : CellValue),
    Levels n F →
    SheetOp.SetCellValue sheet (Axis.cell c (row + n - 1)) v ∈ expectedChildrenOps e F col row →
    ∃ (j : Nat) (p : List String) (title : String), (leafPathsList pre F).get? j = some p ∧
      p.getLast? = some title ∧ c = col + j ∧ v = CellValue.str title := by
  intro n
  induction n with
  | zero =>
    intro pre F col row sheet c v hlev hop
    rw [(levels_zero F).mp hlev, expectedChildrenOps_nil] at hop
    cases hop
  | succ m ihm =>
    intro pre F
    induction F with
    | nil =>
      intro col row sheet c v _ hop
      rw [expectedChildrenOps_nil] at hop
      cases hop
    | cons x rest ih =>
      intro col row sheet c v hlev hop
      have hx := (levels_succ m (x :: rest)).mp hlev x (List.mem_cons_self _ _)
      rw [expectedChildrenOps_cons, List.mem_append] at hop
      rw [leafPathsList_cons]
      rcases hop with hop | hop
      · cases m with
        | zero =>
          have hleaf := (levels_zero _).mp hx.2.2.2
          rw [expectedHeaderOps_leaf e x col row hx.1 hleaf] at hop
          obtain ⟨s, _, heq⟩ := mem_titleOps e _ _ _ hop
          injection heq with _ hax hv
          injection hax with hcol _
          refine ⟨0, pre ++ [x.title], x.title, ?_, by simp, by simp [hcol], hv⟩
          rw [leafPaths_of_leaf pre x hleaf]
          rfl
        | succ m =>
          have hne := hx.2.2.1 (Nat.succ_pos m)
          cases x with
          | mk d q t cs =>
            simp only [header.isDummy] at hx
            rw [expectedHeaderOps_mk, List.mem_append] at hop
            rcases hop with hop | hop
            · have hr : row + ((m + 1 + 1 : Nat) : Int) - 1 =
                  row + 1 + ((m + 1 : Nat) : Int) - 1 := by
                push_cast
                ring
              rw [hr] at hop
              obtain ⟨j, p, title, hget, hlast, hc, hv⟩ :=
                ihm (pre ++ [t]) cs col (row + 1) sheet c v hx.2.2.2 hop
              refine ⟨j, p, title, ?_, hlast, hc, hv⟩
              rw [leafPaths_of_children pre _ hne]
              rw [List.get?_eq_getElem?] at hget ⊢
              have hj : j < (leafPathsList (pre ++ [t]) cs).length := by
                by_contra hcon
                rw [List.getElem?_eq_none (Nat.le_of_not_lt hcon)] at hget
                cases hget
              show (leafPathsList (pre ++ [t]) cs ++ leafPathsList pre rest)[j]? = some p
              rw [List.getElem?_append_left hj]
              exact hget
            · rw [hx.1] at hop
              simp only [Bool.false_eq_true, if_false, List.mem_append] at hop
              rcases hop with hop | hop
              · split_ifs at hop
                · cases hop
                · exact absurd hop (not_mem_mergeOps e _ _ _ _ _)
              · obtain ⟨s, _, heq⟩ := mem_titleOps e _ _ _ hop
                injection heq with _ hax _
                injection hax with _ hrow
                push_cast at hrow
                omega
      · obtain ⟨j, p, title, hget, hlast, hc, hv⟩ :=
          ih (col + x.leafCount) row sheet c v ((levels_cons (m + 1) x rest).mp hlev).2 hop
        refine ⟨(x.leafPaths pre).length + j, p, title, ?_, hlast, ?_, hv⟩
        · rw [List.get?_eq_getElem?] at hget ⊢
          rw [List.getElem?_append_right (Nat.le_add_right _ _), Nat.add_sub_cancel_left]
          exact hget
        · rw [hc, leafCount_eq_length x pre]
          push_cast
          ring

/-! ## Header columns and data columns -/

theorem groupHeader_distinct : DistinctLevels 2 groupHeader.children := by
  refine ⟨?_, ?_, ?_⟩
  · simp [Levels, groupHeader, header.children, header.isDummy, header.parent, header.title]
  · simp [groupHeader, header.children, header.parent]
  · intro k hk
    interval_cases k
    · simp [levelHeaders, groupHeader, header.children, header.title]
    · simp [levelHeaders, groupHeader, header.children, header.title]

theorem get?_paths (fields : List StructField) (paths : List (List String))
    (hpaths : fields.map StructField.path = paths) (j : Nat) :
    paths.get? j = (fields.get? j).map StructField.path := by
  rw [← hpaths, List.get?_eq_getElem?, List.get?_eq_getElem?, List.getElem?_map]

/-- The calls of a run of `writeHeader(header, 1, 0)` without error on the dummy root: the
calls described for the headers below it from the column 1 and the row 1 on. -/
theorem writeHeader_root (e : Excel) (ex : Engine) (F : List header) (log : List SheetOp)
    (h : (writeHeader e ex (header.mk true "" "" F) 1 0 log).2.2 = none) :
    (writeHeader e ex (header.mk true "" "" F) 1 0 log).2.1 = expectedChildrenOps e F 1 1 := by
  rw [(writeHeader_ok e ex (header.mk true "" "" F) 1 0 log h).2, expectedHeaderOps_mk]
  simp

/-- Where the header and the data columns agree: a record whose declared paths are, in the
order of declaration, the leaf paths of a tree of headers of `n` levels whose titles are
pairwise distinct on each level. `parseHeader` returns that tree below the dummy root, so
its leaves from left to right are the fields in the order of declaration; a run of
`writeHeader(header, 1, 0)` without error writes, on every sheet, the last path segment of
the field `j` (counted from 0) in the column `j + 1` of the deepest header row `n`, and
nothing else on that row; and every call of `writeData` sets the value of the field `j` of
a row in the column `j + 1`. -/
theorem parseHeader_grouped_columns (sprint : StructField → String) (e : Excel) (ex : Engine)
    (n : Nat) (fields : List StructField) (F : List header) (rows : List Response)
    (rowStart : Int) (log log' : List SheetOp)
    (hF : DistinctLevels n F) (hpaths : fields.map StructField.path = leafPathsList [] F) :
    parseHeader fields = some (header.mk true "" "" F, none) ∧
    leafPathsList [] (header.mk true "" "" F).children = fields.map StructField.path ∧
    ((writeHeader e ex (header.mk true "" "" F) 1 0 log).2.2 = none →
      (∀ (j : Nat) (field : StructField), fields.get? j = some field →
        ∃ title, field.path.getLast? = some title ∧
          ∀ sheet ∈ e.activeSheetNames,
            SheetOp.SetCellValue sheet (Axis.cell ((j : Int) + 1) n) (CellValue.str title) ∈
              (writeHeader e ex (header.mk true "" "" F) 1 0 log).2.1) ∧
      (∀ (sheet : String) (c : Int) (v : CellValue),
        SheetOp.SetCellValue sheet (Axis.cell c n) v ∈
            (writeHeader e ex (header.mk true "" "" F) 1 0 log).2.1 →
          ∃ (j : Nat) (field : StructField) (title : String), fields.get? j = some field ∧
            field.path.getLast? = some title ∧ c = (j : Int) + 1 ∧
            v = CellValue.str title)) ∧
    (∀ op ∈ (writeData sprint e ex rows rowStart log').1,
      ∃ (sheet : String) (row : Int) (r : Response) (j : Nat) (field : StructField),
        r ∈ rows ∧ r.fields.get? j = some field ∧
        op = SheetOp.SetCellValue sheet (Axis.cell ((j : Int) + 1) row)
          (fieldCellValue sprint field)) := by
  have hrow : (1 : Int) + (n : Int) - 1 = (n : Int) := by ring
  refine ⟨parseHeader_distinct n fields F hF hpaths, hpaths.symm, ?_,
    writeData_ops sprint e ex rows rowStart log'⟩
  intro hv
  have hops := writeHeader_root e ex F log hv
  constructor
  · intro j field hget
    have hp : (leafPathsList [] F).get? j = some field.path := by
      rw [get?_paths fields _ hpaths j, hget]
      rfl
    obtain ⟨title, hlast, hmem⟩ := expectedChildrenOps_leaf e n [] F 1 1 j field.path hF.1 hp
    refine ⟨title, hlast, ?_⟩
    intro sheet hsheet
    rw [hops]
    apply hmem
    rw [hrow, Int.add_comm 1 (j : Int)]
    unfold titleOps
    exact List.mem_map.mpr ⟨sheet, hsheet, rfl⟩
  · intro sheet c v hop
    rw [hops, ← hrow] at hop
    obtain ⟨j, p, title, hget, hlast, hc, hv⟩ :=
      expectedChildrenOps_last_row e n [] F 1 1 sheet c v hF.1 hop
    rw [get?_paths fields _ hpaths j] at hget
    cases hf : fields.get? j with
    | none =>
      rw [hf] at hget
      cases hget
    | some field =>
      rw [hf] at hget
      injection hget with hget
      exact ⟨j, field, title, hf, by rw [hget]; exact hlast, by rw [hc]; ring, hv⟩

/-- The record `groupFields` has the paths `g|a`, `g|b` and `h|c`: its tree is
`groupHeader`, the title `b` of the second field is written in the column 2 of the header
row 2, and the value of the second field in the column 2 of the data row 3. -/
theorem parseHeader_grouped_columns_sample :
    DistinctLevels 2 groupHeader.children ∧
    groupFields.map StructField.path = leafPathsList [] groupHeader.children ∧
    parseHeader groupFields = some (groupHeader, none) ∧
    (writeHeader sampleExcel rowLimitEngine groupHeader 1 0 []).2.2 = none ∧
    SheetOp.SetCellValue "Sheet1" (Axis.cell 2 2) (CellValue.str "b") ∈
      (writeHeader sampleExcel rowLimitEngine groupHeader 1 0 []).2.1 ∧
    writeData (fun _ => "") sampleExcel rowLimitEngine [Response.structPtr groupFields] 3 [] =
      ([SheetOp.SetCellValue "Sheet1" (Axis.cell 1 3) (CellValue.int 0),
        SheetOp.SetCellValue "Sheet1" (Axis.cell 2 3) (CellValue.str ""),
        SheetOp.SetCellValue "Sheet1" (Axis.cell 3 3) (CellValue.int 0)],
        WriteOutcome.done) :=
  have h := parseHeader_grouped_columns (fun _ => "") sampleExcel rowLimitEngine 2 groupFields
    groupHeader.children [Response.structPtr groupFields] 3 [] [] groupHeader_distinct
    (by decide)
  ⟨groupHeader_distinct, by decide, h.1, by decide, by decide, by decide⟩

/-- C24 (the code departs from the claim): the record `scatteredFields` declares the paths
`g|a`, `h|b` and `g|c`, all of depth 2, in that order. `parseHeader` groups `c` with `a`
below `g`, so the leaves of its tree from left to right are `g|a`, `g|c`, `h|b`, which is
not the order of declaration. `writeHeader(header, 1, 0)` returns no error and writes the
title `c` in the column 2 and the title `b` in the column 3 of the header row 2, while
`writeData` writes the value 2 of the second field, declared `h|b`, in the column 2 and
the value 3 of the third field, declared `g|c`, in the column 3: the value of `h|b` stands
under the title `c` and the value of `g|c` under the title `b`. -/
theorem parseHeader_scattered_counterexample :
    (∀ f ∈ scatteredFields, f.path.length = 2) ∧
    scatteredFields.map StructField.path = [["g", "a"], ["h", "b"], ["g", "c"]] ∧
    parseHeader scatteredFields =
      some (header.mk true "" ""
        [header.mk false "" "g" [header.mk false "g" "a" [], header.mk false "g" "c" []],
         header.mk false "" "h" [header.mk false "h" "b" []]], none) ∧
    leafPathsList []
        [header.mk false "" "g" [header.mk false "g" "a" [], header.mk false "g" "c" []],
         header.mk false "" "h" [header.mk false "h" "b" []]] =
      [["g", "a"], ["g", "c"], ["h", "b"]] ∧
    writeHeader sampleExcel rowLimitEngine
        (header.mk true "" ""
          [header.mk false "" "g" [header.mk false "g" "a" [], header.mk false "g" "c" []],
           header.mk false "" "h" [header.mk false "h" "b" []]]) 1 0 [] =
      (3,
        [SheetOp.SetCellValue "Sheet1" (Axis.cell 1 2) (CellValue.str "a"),
         SheetOp.SetCellValue "Sheet1" (Axis.cell 2 2) (CellValue.str "c"),
         SheetOp.MergeCell "Sheet1" (Axis.cell 1 1) (Axis.cell 2 1),
         SheetOp.SetCellStyle "Sheet1" (Axis.cell 1 1) (Axis.cell 2 1) 7,
         SheetOp.SetCellValue "Sheet1" (Axis.cell 1 1) (CellValue.str "g"),
         SheetOp.SetCellValue "Sheet1" (Axis.cell 3 2) (CellValue.str "b"),
         SheetOp.MergeCell "Sheet1" (Axis.cell 3 1) (Axis.cell 3 1),
         SheetOp.SetCellStyle "Sheet1" (Axis.cell 3 1) (Axis.cell 3 1) 7,
         SheetOp.SetCellValue "Sheet1" (Axis.cell 3 1) (CellValue.str "h")],
        none) ∧
    writeData (fun _ => "") sampleExcel rowLimitEngine [Response.structPtr scatteredFields] 3
        [] =
      ([SheetOp.SetCellValue "Sheet1" (Axis.cell 1 3) (CellValue.int 1),
        SheetOp.SetCellValue "Sheet1" (Axis.cell 2 3) (CellValue.int 2),
        SheetOp.SetCellValue "Sheet1" (Axis.cell 3 3) (CellValue.int 3)],
        WriteOutcome.done) :=
  ⟨by decide, by decide, rfl, by decide, by decide, by decide⟩

theorem decodesTo_int (env : GoEnv) (t : String) (f : IntField) :
    DecodesTo env t (Field.int f) ↔ ((t = "" ∧ f.value = 0) ∨
      (t ≠ "" ∧ IsDecimal t f.value ∧ inRange env.intSize f.value)) := Iff.rfl

theorem decodesTo_int64 (env : GoEnv) (t : String) (f : Int64Field) :
    DecodesTo env t (Field.int64 f) ↔ ((t = "" ∧ f.value = 0) ∨
      (t ≠ "" ∧ IsDecimal t f.value ∧ inRange 64 f.value)) := Iff.rfl

theorem decodesTo_str (env : GoEnv) (t : String) (f : StringField) :
    DecodesTo env t (Field.str f) ↔ t = f.value := Iff.rfl

theorem decodesTo_time (env : GoEnv) (t : String) (f : TimeField) :
    DecodesTo env t (Field.time f) ↔ ((t = "" ∧ f.value = Time.zero) ∨
      (t ≠ "" ∧ env.ParseInLocation _dateLayout t = .ok f.value)) := Iff.rfl

theorem decodesTo_float (env : GoEnv) (t : String) (f : FloatField) :
    DecodesTo env t (Field.float f) ↔ ((t = "" ∧ f.value = Float64.zero) ∨
      (t ≠ "" ∧ env.ParseFloat t = .ok f.value)) := Iff.rfl

theorem decodesTo_bool (env : GoEnv) (t : String) (f : BoolField) :
    DecodesTo env t (Field.bool f) ↔ (f.value = true ↔ t = "是") := Iff.rfl

theorem intField_decodes (env : GoEnv) (hsize : env.intSize = 32 ∨ env.intSize = 64)
    (f : IntField) (t : String) (c : Int) :
    (∃ r, IntField.Translate env f t c = .ok r ∧ r.value = f.value) ↔
      DecodesTo env t (Field.int f) := by
  rw [decodesTo_int]
  by_cases ht : t = ""
  · subst ht
    have h0 : IntField.Translate env f "" c = .ok ⟨0, c⟩ := by
      unfold IntField.Translate
      rw [if_pos rfl]
    rw [h0]
    constructor
    · rintro ⟨r, hr, hv⟩
      injection hr with hr
      subst hr
      exact Or.inl ⟨rfl, hv.symm⟩
    · rintro (⟨_, hv⟩ | ⟨hne, _⟩)
      · exact ⟨_, rfl, hv.symm⟩
      · exact absurd rfl hne
  · constructor
    · rintro ⟨r, hr, hv⟩
      have hc : r.colIndex = c := by
        unfold IntField.Translate at hr
        rw [if_neg ht] at hr
        cases hp : (Atoi env.intSize t).2 with
        | some e => rw [hp] at hr; cases hr
        | none =>
          rw [hp] at hr
          injection hr with hr
          rw [← hr]
      have hr' : IntField.Translate env f t c = .ok ⟨f.value, c⟩ := by
        rw [hr, ← hv, ← hc]
      exact Or.inr ⟨ht, (intTranslate_iff env hsize f t c f.value ht).mp hr'⟩
    · rintro (⟨h, _⟩ | ⟨_, hd⟩)
      · exact absurd h ht
      · exact ⟨_, (intTranslate_iff env hsize f t c f.value ht).mpr hd, rfl⟩

theorem int64Field_decodes (env : GoEnv) (f : Int64Field) (t : String) (c : Int) :
    (∃ r, Int64Field.Translate env f t c = .ok r ∧ r.value = f.value) ↔
      DecodesTo env t (Field.int64 f) := by
  rw [decodesTo_int64]
  by_cases ht : t = ""
  · subst ht
    have h0 : Int64Field.Translate env f "" c = .ok ⟨0, c⟩ := by
      unfold Int64Field.Translate
      rw [if_pos rfl]
    rw [h0]
    constructor
    · rintro ⟨r, hr, hv⟩
      injection hr with hr
      subst hr
      exact Or.inl ⟨rfl, hv.symm⟩
    · rintro (⟨_, hv⟩ | ⟨hne, _⟩)
      · exact ⟨_, rfl, hv.symm⟩
      · exact absurd rfl hne
  · constructor
    · rintro ⟨r, hr, hv⟩
      have hc : r.colIndex = c := by
        unfold Int64Field.Translate at hr
        rw [if_neg ht] at hr
        cases hp : (ParseInt env.intSize t 64).2 with
        | some e => rw [hp] at hr; cases hr
        | none =>
          rw [hp] at hr
          injection hr with hr
          rw [← hr]
      have hr' : Int64Field.Translate env f t c = .ok ⟨f.value, c⟩ := by
        rw [hr, ← hv, ← hc]
      exact Or.inr ⟨ht, (int64Translate_iff env f t c f.value ht).mp hr'⟩
    · rintro (⟨h, _⟩ | ⟨_, hd⟩)
      · exact absurd h ht
      · exact ⟨_, (int64Translate_iff env f t c f.value ht).mpr hd, rfl⟩

theorem stringField_decodes (env : GoEnv) (f : StringField) (t : String) (c : Int) :
    (∃ r, StringField.Translate f t c = .ok r ∧ r.value = f.value) ↔
      DecodesTo env t (Field.str f) := by
  rw [decodesTo_str]
  unfold StringField.Translate
  constructor
  · rintro ⟨r, hr, hv⟩
    injection hr with hr
    rw [← hv, ← hr]
  · intro h
    exact ⟨_, rfl, h⟩

theorem timeField_decodes (env : GoEnv) (f : TimeField) (t : String) (c : Int) :
    (∃ r, TimeField.Translate env f t c = .ok r ∧ r.value = f.value) ↔
      DecodesTo env t (Field.time f) := by
  rw [decodesTo_time]
  by_cases ht : t = ""
  · subst ht
    have h0 : TimeField.Translate env f "" c = .ok ⟨Time.zero, c⟩ := by
      unfold TimeField.Translate
      simp
    rw [h0]
    constructor
    · rintro ⟨r, hr, hv⟩
      injection hr with hr
      subst hr
      exact Or.inl ⟨rfl, hv.symm⟩
    · rintro (⟨_, hv⟩ | ⟨hne, _⟩)
      · exact ⟨_, rfl, hv.symm⟩
      · exact absurd rfl hne
  · have h1 : TimeField.Translate env f t c =
        match env.ParseInLocation _dateLayout t with
        | .error err => .error (GoError.parseError err)
        | .ok res => .ok ⟨res, c⟩ := by
      unfold TimeField.Translate
      simp only [ht, if_false]
    rw [h1]
    cases hp : env.ParseInLocation _dateLayout t with
    | error err =>
      constructor
      · rintro ⟨r, hr, _⟩
        cases hr
      · rintro (⟨h, _⟩ | ⟨_, h⟩)
        · exact absurd h ht
        · cases h
    | ok v =>
      constructor
      · rintro ⟨r, hr, hv⟩
        injection hr with hr
        subst hr
        exact Or.inr ⟨ht, by rw [← hv]⟩
      · rintro (⟨h, _⟩ | ⟨_, h⟩)
        · exact absurd h ht
        · injection h with h
          exact ⟨_, rfl, h⟩

theorem floatField_decodes (env : GoEnv) (f : FloatField) (t : String) (c : Int) :
    (∃ r, FloatField.Translate env f t c = .ok r ∧ r.value = f.value) ↔
      DecodesTo env t (Field.float f) := by
  rw [decodesTo_float]
  by_cases ht : t = ""
  · subst ht
    have h0 : FloatField.Translate env f "" c = .ok ⟨Float64.zero, c⟩ := by
      unfold FloatField.Translate
      simp
    rw [h0]
    constructor
    · rintro ⟨r, hr, hv⟩
      injection hr with hr
      subst hr
      exact Or.inl ⟨rfl, hv.symm⟩
    · rintro (⟨_, hv⟩ | ⟨hne, _⟩)
      · exact ⟨_, rfl, hv.symm⟩
      · exact absurd rfl hne
  · have h1 : FloatField.Translate env f t c =
        match env.ParseFloat t with
        | .error err => .error (GoError.numError err)
        | .ok res => .ok ⟨res, c⟩ := by
      unfold FloatField.Translate
      simp only [ht, if_false]
    rw [h1]
    cases hp : env.ParseFloat t with
    | error err =>
      constructor
      · rintro ⟨r, hr, _⟩
        cases hr
      · rintro (⟨h, _⟩ | ⟨_, h⟩)
        · exact absurd h ht
        · cases h
    | ok v =>
      constructor
      · rintro ⟨r, hr, hv⟩
        injection hr with hr
        subst hr
        exact Or.inr ⟨ht, by rw [← hv]⟩
      · rintro (⟨h, _⟩ | ⟨_, h⟩)
        · exact absurd h ht
        · injection h with h
          exact ⟨_, rfl, h⟩

theorem boolField_decodes (env : GoEnv) (f : BoolField) (t : String) (c : Int) :
    (∃ r, BoolField.Translate f t c = .ok r ∧ r.value = f.value) ↔
      DecodesTo env t (Field.bool f) := by
  rw [decodesTo_bool]
  rw [boolTranslate_eq]
  constructor
  · rintro ⟨r, hr, hv⟩
    injection hr with hr
    subst hr
    simp only at hv
    rw [← hv]
    simp
  · intro h
    refine ⟨_, rfl, ?_⟩
    simp only
    cases hb : f.value with
    | true => simpa using h.mp hb
    | false =>
      rw [hb] at h
      simpa using h

/-- The method `Translate` returns a field with the value of the receiver exactly on the
texts that decode to it. -/
theorem translate_decodes (env : GoEnv) (hsize : env.intSize = 32 ∨ env.intSize = 64)
    (fld : Field) (t : String) (c : Int) :
    (∃ v, fld.Translate env t c = .ok v ∧ v.GetValue = fld.GetValue) ↔
      DecodesTo env t fld := by
  cases fld with
  | int f =>
    rw [← intField_decodes env hsize f t c]
    simp only [Field.Translate]
    cases IntField.Translate env f t c with
    | error e => simp [Except.map]
    | ok r => simp [Except.map, Field.GetValue]
  | int64 f =>
    rw [← int64Field_decodes env f t c]
    simp only [Field.Translate]
    cases Int64Field.Translate env f t c with
    | error e => simp [Except.map]
    | ok r => simp [Except.map, Field.GetValue]
  | str f =>
    rw [← stringField_decodes env f t c]
    simp only [Field.Translate]
    cases StringField.Translate f t c with
    | error e => simp [Except.map]
    | ok r => simp [Except.map, Field.GetValue]
  | time f =>
    rw [← timeField_decodes env f t c]
    simp only [Field.Translate]
    cases TimeField.Translate env f t c with
    | error e => simp [Except.map]
    | ok r => simp [Except.map, Field.GetValue]
  | float f =>
    rw [← floatField_decodes env f t c]
    simp only [Field.Translate]
    cases FloatField.Translate env f t c with
    | error e => simp [Except.map]
    | ok r => simp [Except.map, Field.GetValue]
  | bool f =>
    rw [← boolField_decodes env f t c]
    simp only [Field.Translate]
    cases BoolField.Translate f t c with
    | error e => simp [Except.map]
    | ok r => simp [Except.map, Field.GetValue]

theorem fieldCellValue_field (sprint : StructField → String) (field : StructField)
    (fld : Field) (h : field.value = some fld) : fieldCellValue sprint field = fld.GetValue := by
  unfold fieldCellValue
  rw [h]

/-- C7 fails as stated: for a `BoolField` true `writeData` stores the boolean `true` that
`GetValue()` returns, not the text 是, and `Translate` returns true for the text 是 only:
each of the texts `TRUE`, `true` and `1` is decoded to false, also by `ScanRow` on a row
that holds `TRUE` in the column of the field. -/
theorem roundTrip_bool_counterexample :
    Field.GetValue (Field.bool ⟨true, 0⟩) = CellValue.bool true ∧
    writeData (fun _ => "") sampleExcel rowLimitEngine
        [Response.structPtr [⟨"b", some (Field.bool ⟨true, 0⟩)⟩]] 2 [] =
      ([SheetOp.SetCellValue "Sheet1" (Axis.cell 1 2) (CellValue.bool true)],
        WriteOutcome.done) ∧
    Field.Translate sampleEnv (Field.bool ⟨true, 0⟩) "TRUE" 3 = .ok (Field.bool ⟨false, 3⟩) ∧
    Field.Translate sampleEnv (Field.bool ⟨true, 0⟩) "true" 3 = .ok (Field.bool ⟨false, 3⟩) ∧
    Field.Translate sampleEnv (Field.bool ⟨true, 0⟩) "1" 3 = .ok (Field.bool ⟨false, 3⟩) ∧
    (ScanRow sampleEnv (some (.mk "Sheet1" 1 1 0 0 [] [.mk "b" 1 1 1 1 ["b"] []])) ["TRUE"]
        [Response.structPtr [⟨"b", some (Field.bool ⟨false, 0⟩)⟩]]) =
      ([Response.structPtr [⟨"b", some (Field.bool ⟨false, 1⟩)⟩]], none) := by
  decide

/-- C7 as amended: the round trip through `writeData` and `ScanRow`. Every call of
`writeData` stores, in the column of the index of a field plus one, the value that
`GetValue()` returns for the field. For a field with a codec whose first matching leaf is
the leaf `j`, a `ScanRow` that returns no error leaves in the field the result of
`Translate` on the text of the cell `j` of the row, and that result has the value of the
original field exactly when the text decodes to it; in general `Translate` returns a field
with the value of its receiver exactly on the texts that decode to it, for each of the six
codecs. The decimal rendering decodes to every `IntField` and every `Int64Field` value, a
string to itself, the empty text to the zero value of each of the six types, and the only
text that decodes to `BoolField` true is 是. -/
theorem roundTrip_codecs (env : GoEnv) (hsize : env.intSize = 32 ∨ env.intSize = 64) :
    (∀ (sprint : StructField → String) (e : Excel) (ex : Engine) (rows : List Response)
        (rowStart : Int) (log : List SheetOp),
      ∀ op ∈ (writeData sprint e ex rows rowStart log).1,
        ∃ (sheet : String) (row : Int) (r : Response) (j : Nat) (field : StructField),
          r ∈ rows ∧ r.fields.get? j = some field ∧
          op = SheetOp.SetCellValue sheet (Axis.cell ((j : Int) + 1) row)
            (fieldCellValue sprint field) ∧
          ∀ fld, field.value = some fld → fieldCellValue sprint field = fld.GetValue) ∧
    (∀ (root : Option Importer) (row : List String) (responses : List Response) (k : Nat)
        (fields : List StructField) (i : Nat) (tag : String) (fld : Field) (j : Nat)
        (leaf : Importer),
      responses.get? k = some (Response.structPtr fields) →
      fields.get? i = some ⟨tag, some fld⟩ →
      (∀ l ∈ getLeafNodes root, (stringsSplit tag _tagPathSplitter).length ≤ l.path.length) →
      (getLeafNodes root).get? j = some leaf →
      leaf.path.drop (leaf.path.length - (stringsSplit tag _tagPathSplitter).length) =
        stringsSplit tag _tagPathSplitter →
      (∀ j' l', j' < j → (getLeafNodes root).get? j' = some l' →
        l'.path.drop (l'.path.length - (stringsSplit tag _tagPathSplitter).length) ≠
          stringsSplit tag _tagPathSplitter) →
      (ScanRow env root row responses).2 = none →
      ∃ cell v fields',
        (reconcileRow (getLeafNodes root).length row).get? j = some cell ∧
        fld.Translate env cell leaf.colIndexStart = .ok v ∧
        (ScanRow env root row responses).1.get? k = some (Response.structPtr fields') ∧
        fields'.get? i = some ⟨tag, some v⟩ ∧
        (v.GetValue = fld.GetValue ↔ DecodesTo env cell fld)) ∧
    (∀ (fld : Field) (t : String) (c : Int),
      (∃ v, fld.Translate env t c = .ok v ∧ v.GetValue = fld.GetValue) ↔
        DecodesTo env t fld) ∧
    (∀ n c : Int, inRange env.intSize n → DecodesTo env (FormatInt n) (Field.int ⟨n, c⟩)) ∧
    (∀ n c : Int, inRange 64 n → DecodesTo env (FormatInt n) (Field.int64 ⟨n, c⟩)) ∧
    (∀ (s : String) (c : Int), DecodesTo env s (Field.str ⟨s, c⟩)) ∧
    (∀ c : Int, DecodesTo env "" (Field.int ⟨0, c⟩) ∧ DecodesTo env "" (Field.int64 ⟨0, c⟩) ∧
      DecodesTo env "" (Field.str ⟨"", c⟩) ∧ DecodesTo env "" (Field.time ⟨Time.zero, c⟩) ∧
      DecodesTo env "" (Field.float ⟨Float64.zero, c⟩) ∧
      DecodesTo env "" (Field.bool ⟨false, c⟩)) ∧
    (∀ (t : String) (c : Int), DecodesTo env t (Field.bool ⟨true, c⟩) ↔ t = "是") := by
  refine ⟨?_, ?_, translate_decodes env hsize, ?_, ?_, ?_, ?_, ?_⟩
  · intro sprint e ex rows rowStart log op hop
    obtain ⟨sheet, row, r, j, field, hr, hget, heq⟩ :=
      writeData_ops sprint e ex rows rowStart log op hop
    exact ⟨sheet, row, r, j, field, hr, hget, heq,
      fun fld h => fieldCellValue_field sprint field fld h⟩
  · intro root row responses k fields i tag fld j leaf hk hi hlen hj hmatch hfirst hok
    have hjlt : j < (getLeafNodes root).length := by
      by_contra hc
      have : (getLeafNodes root).get? j = none := by
        simp only [List.get?_eq_getElem?]
        exact List.getElem?_eq_none (by omega)
      rw [this] at hj
      cases hj
    have hrl := reconcileRow_length (getLeafNodes root).length row
    have hjr : j < (reconcileRow (getLeafNodes root).length row).length := by
      rw [hrl]
      exact hjlt
    have hcell : (reconcileRow (getLeafNodes root).length row).get? j =
        some ((reconcileRow (getLeafNodes root).length row)[j]) := by
      simp [List.getElem?_eq_getElem hjr]
    have hloop := scanLeafNodes_first_match env (reconcileRow (getLeafNodes root).length row)
      (stringsSplit tag _tagPathSplitter) i fld (getLeafNodes root) 0 j leaf hlen hj hmatch
      hfirst
    simp only [Nat.zero_add] at hloop
    rw [hcell] at hloop
    simp only at hloop
    obtain ⟨hf, hr⟩ := scanResponses_ok env _ _ responses hok k fields hk
    obtain ⟨r, hr1, hr2⟩ := scanFields_ok env _ _ fields 0 hf i ⟨tag, some fld⟩ hi
    simp only [Nat.zero_add, StructField.path] at hr1
    rw [hloop] at hr1
    cases ht : fld.Translate env ((reconcileRow (getLeafNodes root).length row)[j])
        leaf.colIndexStart with
    | error err => rw [ht] at hr1; cases hr1
    | ok v =>
      rw [ht] at hr1
      simp only [Except.ok.injEq] at hr1
      subst hr1
      refine ⟨_, v, _, hcell, ht, hr, hr2, ?_⟩
      rw [← translate_decodes env hsize fld _ leaf.colIndexStart, ht]
      constructor
      · intro h
        exact ⟨v, rfl, h⟩
      · rintro ⟨v', hv', h⟩
        injection hv' with hv'
        rw [hv']
        exact h
  · intro n c hr
    exact (decodesTo_int env _ _).mpr (Or.inr ⟨FormatInt_ne_empty n, FormatInt_decimal n, hr⟩)
  · intro n c hr
    exact (decodesTo_int64 env _ _).mpr
      (Or.inr ⟨FormatInt_ne_empty n, FormatInt_decimal n, hr⟩)
  · intro s c
    exact (decodesTo_str env _ _).mpr rfl
  · intro c
    exact ⟨(decodesTo_int env _ _).mpr (Or.inl ⟨rfl, rfl⟩),
      (decodesTo_int64 env _ _).mpr (Or.inl ⟨rfl, rfl⟩),
      (decodesTo_str env _ _).mpr rfl,
      (decodesTo_time env _ _).mpr (Or.inl ⟨rfl, rfl⟩),
      (decodesTo_float env _ _).mpr (Or.inl ⟨rfl, rfl⟩),
      (decodesTo_bool env _ _).mpr (by simp)⟩
  · intro t c
    rw [decodesTo_bool]
    simp

/-- C7 as amended on a 64-bit platform and the record `codecFields`: `writeData` stores
the six values of `GetValue()` in the columns 1 to 6; a row with the decimal texts, the
string, two empty cells and the text 是 is scanned back to the six original values; and
the decimal text `42` decodes to the `IntField` 42. -/
theorem roundTrip_codecs_witness :
    (sampleEnv.intSize = 32 ∨ sampleEnv.intSize = 64) ∧
    writeData (fun _ => "") sampleExcel rowLimitEngine [Response.structPtr codecFields] 2 [] =
      ([SheetOp.SetCellValue "Sheet1" (Axis.cell 1 2) (CellValue.int 42),
        SheetOp.SetCellValue "Sheet1" (Axis.cell 2 2) (CellValue.int64 (-7)),
        SheetOp.SetCellValue "Sheet1" (Axis.cell 3 2) (CellValue.str "text"),
        SheetOp.SetCellValue "Sheet1" (Axis.cell 4 2) (CellValue.time Time.zero),
        SheetOp.SetCellValue "Sheet1" (Axis.cell 5 2) (CellValue.float Float64.zero),
        SheetOp.SetCellValue "Sheet1" (Axis.cell 6 2) (CellValue.bool true)],
        WriteOutcome.done) ∧
    ScanRow sampleEnv (some codecTree) ["42", "-7", "text", "", "", "是"]
        [Response.structPtr (codecFields.map StructField.zero)] =
      ([Response.structPtr
        [⟨"i", some (Field.int ⟨42, 1⟩)⟩, ⟨"l", some (Field.int64 ⟨-7, 2⟩)⟩,
         ⟨"s", some (Field.str ⟨"text", 3⟩)⟩, ⟨"t", some (Field.time ⟨Time.zero, 4⟩)⟩,
         ⟨"f", some (Field.float ⟨Float64.zero, 5⟩)⟩, ⟨"b", some (Field.bool ⟨true, 6⟩)⟩]],
        none) ∧
    DecodesTo sampleEnv (FormatInt 42) (Field.int ⟨42, 0⟩) ∧
    (DecodesTo sampleEnv "TRUE" (Field.bool ⟨true, 0⟩) ↔ "TRUE" = "是") :=
  ⟨Or.inr rfl, by decide, by decide,
    (roundTrip_codecs sampleEnv (Or.inr rfl)).2.2.2.1 42 0
      (by unfold inRange; norm_num [sampleEnv]),
    (roundTrip_codecs sampleEnv (Or.inr rfl)).2.2.2.2.2.2.2 "TRUE" 0⟩


end Excel
